import Mathlib

/-!
OSRM: Douglas-Peucker simplifier, static R-tree and duration strings.

A shallow embedding of `Algorithms/DouglasPeucker.h`,
`DataStructures/StaticRTree.h` and the duration functions of
`Extractor/ExtractionHelperFunctions.h`, with the properties of these
components stated and proved over it.

Conventions of the embedding

* `int` is a mathematical integer reduced to the signed 32-bit range by
  `wrap32` after every arithmetic operation (two's complement wrap-around).
* `std::size_t` indices are natural numbers; every subtraction of indices in
  the source happens where the minuend is the larger one.
* `BOOST_ASSERT_MSG` is modelled as a check: a failed assertion ends the run
  with `RunError.assertionFailed`.
* `while` loops whose trip count is not syntactically bounded carry a fuel
  argument; the entry points supply a fuel that is proved sufficient.
* `double` is `Dbl`: IEEE-754 special values with exact rational arithmetic on
  the finite values.
* `ApproximateDistance`, the Hilbert number of an element, `std::sort` and
  `stringToInt` are not part of the embedded sources; they are parameters
  (`approx`, `hilbert`, `sort`, `stringToInt`) of the definitions that call
  them.
* `unsigned` is a natural number reduced by `wrapU32` after every arithmetic
  operation; `boost::regex_match` is membership of the whole string in the
  language of the expression.
* The tree node file and the leaf node file are given by their decoded
  content: the header and the records that follow it.
* `referenceRun` and the definitions it is built from follow the recursive
  description of the simplifier in the specification, not the source; they
  are what the loops of `Run` are compared with.
-/

set_option autoImplicit false

namespace OSRM

/-! ## Machine integers -/

/-- The value `INT_MIN` of a 32-bit `int`. -/
def INT_MIN : Int := -2147483648

/-- The value `INT_MAX` of a 32-bit `int`. -/
def INT_MAX : Int := 2147483647

/-- Reduction of a mathematical integer to the signed 32-bit range. -/
def wrap32 (x : Int) : Int := (x + 2147483648) % 4294967296 - 2147483648

/-! ## Douglas-Peucker: data model -/

/-- The type `_Coordinate`: integer latitude and longitude (1e-5 degrees). -/
structure Coordinate where
  lat : Int
  lon : Int
deriving DecidableEq, Repr

/-- The template parameter `PointT` of `DouglasPeucker`: a location and the
`necessary` bit. -/
structure PointT where
  location : Coordinate
  necessary : Bool
deriving DecidableEq, Repr

/-- Outcome of a run that does not produce a geometry. -/
inductive RunError where
  | assertionFailed
  | outOfFuel
deriving DecidableEq, Repr

deriving instance DecidableEq for Except

/-- The table `DouglasPeuckerThresholds[19]`. The entries are `double`
constants with integral values; they are only ever compared with the
integral value `std::fabs(temp_dist)`, so integers represent them exactly. -/
def DouglasPeuckerThresholds : List Int :=
  [32000000, 16240000, 80240000, 40240000, 20000000, 10000000, 500000, 240000,
   120000, 60000, 30000, 19000, 5000, 2000, 200, 16, 6, 3, 3]

/-- The expression `input_geometry[i].location`. -/
def locationAt (input_geometry : List PointT) (i : Nat) : Coordinate :=
  match input_geometry[i]? with
  | some p => p.location
  | none => ⟨0, 0⟩

/-- The expression `input_geometry[i].necessary` (false outside the vector,
where the source would read out of bounds). -/
def necessaryAt (input_geometry : List PointT) (i : Nat) : Bool :=
  match input_geometry[i]? with
  | some p => p.necessary
  | none => false

/-- The expression `input_geometry.back().necessary`. -/
def backNecessary (input_geometry : List PointT) : Bool :=
  match input_geometry.getLast? with
  | some p => p.necessary
  | none => false

/-- The assignment `input_geometry[i].necessary = true`. -/
def markNecessary : List PointT → Nat → List PointT
  | [], _ => []
  | p :: ps, 0 => { p with necessary := true } :: ps
  | p :: ps, i + 1 => p :: markNecessary ps i

/-! ## Douglas-Peucker: the algorithm -/

/-- The method `fastDistance`, in 32-bit integer arithmetic. Both `p2x` and
`p2y` are `segB.lon - segA.lat`, as in the source. The divisor `something` is
`2 * p2x * p2x` reduced to 32 bits, hence even, so the division never is
`INT_MIN / -1`. -/
def fastDistance (point segA segB : Coordinate) : Int :=
  let p2x := wrap32 (segB.lon - segA.lat)
  let p2y := wrap32 (segB.lon - segA.lat)
  let something := wrap32 (wrap32 (p2x * p2x) + wrap32 (p2y * p2y))
  let u0 :=
    if 0 = something then 0
    else wrap32 (Int.tdiv
      (wrap32 (wrap32 (wrap32 (point.lon - segA.lon) * p2x)
        + wrap32 (wrap32 (point.lat - segA.lat) * p2y))) something)
  let u := if u0 > 1 then 1 else if u0 < 0 then 0 else u0
  let x := wrap32 (segA.lon + wrap32 (u * p2x))
  let y := wrap32 (segA.lat + wrap32 (u * p2y))
  let dx := wrap32 (x - point.lon)
  let dy := wrap32 (y - point.lat)
  wrap32 (wrap32 (dx * dx) + wrap32 (dy * dy))

/-- The value `std::fabs(temp_dist)` for interior index `i` of the range
`(first, second)`: a `double` holding an integer between `0` and `2^31`. -/
def distanceAt (input_geometry : List PointT) (first second i : Nat) : Int :=
  |fastDistance (locationAt input_geometry i) (locationAt input_geometry first)
    (locationAt input_geometry second)|

/-- One iteration of the `for` loop of `Run` over the pair
`(farthest_element_index, max_distance)`. The assignment
`max_distance = distance` converts the `double` back to `int`; the only value
outside the `int` range is `2^31`, which becomes `INT_MIN`. -/
def farthestStep (input_geometry : List PointT) (threshold : Int) (first second : Nat)
    (state : Nat × Int) (i : Nat) : Nat × Int :=
  let distance := distanceAt input_geometry first second i
  if distance > threshold ∧ distance > state.2 then (i, wrap32 distance) else state

/-- The `for` loop of `Run`: `i` runs over `first+1, ..., second-1`, starting
from `farthest_element_index = pair.second` and `max_distance = INT_MIN`. -/
def findFarthest (input_geometry : List PointT) (threshold : Int) (first second : Nat) :
    Nat × Int :=
  (List.range' (first + 1) (second - (first + 1))).foldl
    (farthestStep input_geometry threshold first second) (second, INT_MIN)

/-- The `while(!recursion_stack.empty())` loop of `Run`. The head of the list
is the top of the stack. -/
def processStack (threshold : Int) :
    Nat → List PointT → List (Nat × Nat) → Except RunError (List PointT)
  | _, input_geometry, [] => .ok input_geometry
  | 0, _, _ :: _ => .error .outOfFuel
  | fuel + 1, input_geometry, (first, second) :: recursion_stack =>
    if ¬ necessaryAt input_geometry first then .error .assertionFailed
    else if ¬ necessaryAt input_geometry second then .error .assertionFailed
    else if ¬ second < input_geometry.length then .error .assertionFailed
    else if ¬ first < second then .error .assertionFailed
    else
      let farthest_element_index := (findFarthest input_geometry threshold first second).1
      let max_distance := (findFarthest input_geometry threshold first second).2
      if max_distance > threshold then
        let stack1 :=
          if 1 < farthest_element_index - first then
            (first, farthest_element_index) :: recursion_stack
          else recursion_stack
        let stack2 :=
          if 1 < second - farthest_element_index then
            (farthest_element_index, second) :: stack1
          else stack1
        processStack threshold fuel (markNecessary input_geometry farthest_element_index) stack2
      else processStack threshold fuel input_geometry recursion_stack

/-- The `do ... while(right_border < input_geometry.size())` sweep of `Run`
that fills the stack with the ranges between consecutive necessary points. -/
def sweep (input_geometry : List PointT) :
    Nat → Nat → Nat → List (Nat × Nat) → Except RunError (List (Nat × Nat))
  | 0, _, _, _ => .error .outOfFuel
  | fuel + 1, left_border, right_border, recursion_stack =>
    if ¬ necessaryAt input_geometry left_border then .error .assertionFailed
    else if ¬ backNecessary input_geometry then .error .assertionFailed
    else
      let stack1 :=
        if necessaryAt input_geometry right_border then
          (left_border, right_border) :: recursion_stack
        else recursion_stack
      let left1 :=
        if necessaryAt input_geometry right_border then right_border else left_border
      if right_border + 1 < input_geometry.length then
        sweep input_geometry fuel left1 (right_border + 1) stack1
      else .ok stack1

/-- The body of `Run` after the zoom level has been checked, with
`DouglasPeuckerThresholds[zoom_level]` passed as `threshold`. The sweep runs
`size - 1` times and the stack loop at most `2 * size` times. -/
def RunWithThreshold (threshold : Int) (input_geometry : List PointT) :
    Except RunError (List PointT) :=
  if ¬ 1 < input_geometry.length then .error .assertionFailed
  else
    match sweep input_geometry input_geometry.length 0 1 [] with
    | .error e => .error e
    | .ok recursion_stack =>
      processStack threshold (2 * input_geometry.length) input_geometry recursion_stack

/-- The method `DouglasPeucker::Run`. -/
def Run (input_geometry : List PointT) (zoom_level : Nat) : Except RunError (List PointT) :=
  match DouglasPeuckerThresholds[zoom_level]? with
  | none => .error .assertionFailed
  | some threshold => RunWithThreshold threshold input_geometry

/-! ## Douglas-Peucker: notions used in the proofs -/

/-- The decision taken for a popped range: the index that is marked, if any.
This is `farthest_element_index` when `max_distance > threshold`. -/
def splitIndex (g : List PointT) (threshold : Int) (first second : Nat) : Option Nat :=
  if (findFarthest g threshold first second).2 > threshold then
    some (findFarthest g threshold first second).1
  else none

/-- The indices marked by the simplifier inside the range `(first, second)`:
the split index of the range and, recursively, what is marked in both parts. -/
inductive Marked (g : List PointT) (threshold : Int) : Nat → Nat → Nat → Prop where
  | here {l r i : Nat} : splitIndex g threshold l r = some i → Marked g threshold l r i
  | left {l r i j : Nat} : splitIndex g threshold l r = some i →
      Marked g threshold l i j → Marked g threshold l r j
  | right {l r i j : Nat} : splitIndex g threshold l r = some i →
      Marked g threshold i r j → Marked g threshold l r j

/-- The number of loop iterations that a stack can still cause. -/
def stackMeasure : List (Nat × Nat) → Nat
  | [] => 0
  | p :: st => (2 * (p.2 - p.1) - 1) + stackMeasure st

/-- What the loop asserts about every range it pops. -/
def StackOK (g : List PointT) (st : List (Nat × Nat)) : Prop :=
  ∀ p ∈ st, p.1 < p.2 ∧ p.2 < g.length ∧ necessaryAt g p.1 = true ∧ necessaryAt g p.2 = true

/-- The stack after a split of `(l, r)` at `far`. -/
def pushParts (l r far : Nat) (rest : List (Nat × Nat)) : List (Nat × Nat) :=
  if 1 < r - far then
    (far, r) :: (if 1 < far - l then (l, far) :: rest else rest)
  else (if 1 < far - l then (l, far) :: rest else rest)

/-- The indices `l < r` are consecutive necessary points of `g`. -/
def Consec (g : List PointT) (l r : Nat) : Prop :=
  l < r ∧ r < g.length ∧ necessaryAt g l = true ∧ necessaryAt g r = true ∧
    ∀ k, l < k → k < r → necessaryAt g k = false

/-- The flags of `g1` strictly inside `(l, r)` are those that the simplifier
with threshold `T1` marks in this range of `g`. -/
def RangeClosed (g g1 : List PointT) (T1 : Int) (l r : Nat) : Prop :=
  l < r ∧ r < g.length ∧ necessaryAt g1 l = true ∧ necessaryAt g1 r = true ∧
    ∀ k, l < k → k < r → (necessaryAt g1 k = true ↔ Marked g T1 l r k)

/-- A polyline whose middle point lies off the chord of its end points. -/
def bentPolyline : List PointT :=
  [⟨⟨0, 0⟩, true⟩, ⟨⟨100, 50⟩, false⟩, ⟨⟨0, 100⟩, true⟩]

/-- A polyline with three interior points, none pre-marked. -/
def zigzagPolyline : List PointT :=
  [⟨⟨0, 0⟩, true⟩, ⟨⟨40, 10⟩, false⟩, ⟨⟨3, 20⟩, false⟩, ⟨⟨90, 30⟩, false⟩, ⟨⟨0, 40⟩, true⟩]

/-- The polyline of the example: five points on the line of latitude 0, the
interior ones not marked. -/
def straightPolyline : List PointT :=
  [⟨⟨0, 0⟩, true⟩, ⟨⟨0, 1⟩, false⟩, ⟨⟨0, 2⟩, false⟩, ⟨⟨0, 3⟩, false⟩, ⟨⟨0, 100⟩, true⟩]

/-- A polyline whose second point repeats the first. -/
def repeatedPolyline : List PointT :=
  [⟨⟨0, 0⟩, true⟩, ⟨⟨0, 0⟩, false⟩, ⟨⟨5, 5⟩, true⟩]

/-! ## Douglas-Peucker: the recursive reference

The specification describes the simplifier by recursion on ranges. The
definitions of this section follow that description; they are compared with
the loops of `Run` in the theorems on the recursive reference. -/

/-- The maximum of the distances of the interior points of the range
`(first, second)` to its chord. The distances are not negative, and the value
is `0` for a range without interior point. -/
def interiorMaximum (g : List PointT) (first second : Nat) : Int :=
  (List.range' (first + 1) (second - (first + 1))).foldl
    (fun m i => max m (distanceAt g first second i)) 0

/-- The first of the `count` indices from `start` on at which `d` takes the
value `m`. -/
def firstAttaining (d : Nat → Int) (m : Int) : Nat → Nat → Option Nat
  | _, 0 => none
  | start, count + 1 =>
    if d start = m then some start else firstAttaining d m (start + 1) count

/-- The index that the recursive reference marks in the range
`(first, second)`: when the maximum interior distance exceeds the threshold,
the first interior index that attains it. -/
def referenceSplit (g : List PointT) (threshold : Int) (first second : Nat) : Option Nat :=
  if interiorMaximum g first second > threshold then
    firstAttaining (distanceAt g first second) (interiorMaximum g first second)
      (first + 1) (second - (first + 1))
  else none

/-- The recursive reference on one range: mark the index of `referenceSplit`
and recurse on both parts, or mark nothing. The first argument bounds the
depth of the recursion; `second - first` is enough for it. -/
def referenceRange (threshold : Int) : Nat → List PointT → Nat → Nat → List PointT
  | 0, g, _, _ => g
  | depth + 1, g, first, second =>
    match referenceSplit g threshold first second with
    | none => g
    | some i =>
      referenceRange threshold depth
        (referenceRange threshold depth (markNecessary g i) first i) i second

/-- The maximal ranges of `g` among the indices `left :: indices`: the pairs
of necessary indices without a necessary index in between, where `left` is the
last necessary index seen. -/
def maximalRanges (g : List PointT) : Nat → List Nat → List (Nat × Nat)
  | _, [] => []
  | left, i :: indices =>
    if necessaryAt g i then (left, i) :: maximalRanges g i indices
    else maximalRanges g left indices

/-- The recursive reference of the simplifier: the recursion is run on every
maximal range of the pre-marked polyline. -/
def referenceRun (threshold : Int) (g : List PointT) : List PointT :=
  (maximalRanges g 0 (List.range' 1 (g.length - 1))).foldl
    (fun acc p => referenceRange threshold (p.2 - p.1) acc p.1 p.2) g

/-- A polyline whose two interior points are equally far from the chord. -/
def twoPeaksPolyline : List PointT :=
  [⟨⟨0, 0⟩, true⟩, ⟨⟨100, 50⟩, false⟩, ⟨⟨100, 50⟩, false⟩, ⟨⟨0, 100⟩, true⟩]

/-- A polyline whose third point is `32768` units away from the chord of the
end points in both coordinates: the squared distance `2^30 + 2^30` is `2^31`,
one more than `INT_MAX`. -/
def overflowPolyline : List PointT :=
  [⟨⟨0, 0⟩, true⟩, ⟨⟨10, 0⟩, false⟩, ⟨⟨32768, 32768⟩, false⟩, ⟨⟨7, 0⟩, true⟩]

/-- No `fastDistance` of an interior point of a range of `g` evaluates to
`INT_MIN`, the one value whose absolute value is not an `int`. -/
def NoMinDistance (g : List PointT) : Prop :=
  ∀ l r i, l < i → i < r → r < g.length →
    fastDistance (locationAt g i) (locationAt g l) (locationAt g r) ≠ INT_MIN

/-- The ranges on the stack are distinct ranges between consecutive necessary
points of `g`: their end points are necessary and no interior point is. -/
def StackFresh (g : List PointT) (st : List (Nat × Nat)) : Prop :=
  st.Nodup ∧ ∀ p ∈ st, Consec g p.1 p.2

/-! ## Douglas-Peucker: `fastDistance` without overflow -/

/-- The value `v` is an `int`. -/
def InInt (v : Int) : Prop := INT_MIN ≤ v ∧ v ≤ INT_MAX

/-- The clamped projection parameter `u` of `fastDistance`, computed on
mathematical integers. -/
def fastDistanceParameter (point segA segB : Coordinate) : Int :=
  let d := segB.lon - segA.lat
  let something := d * d + d * d
  let u0 :=
    if 0 = something then 0
    else Int.tdiv ((point.lon - segA.lon) * d + (point.lat - segA.lat) * d) something
  if u0 > 1 then 1 else if u0 < 0 then 0 else u0

/-- No operation of `fastDistance` overflows: the exact value of every
intermediate result is an `int`. -/
def FastDistanceFits (point segA segB : Coordinate) : Prop :=
  let d := segB.lon - segA.lat
  let u := fastDistanceParameter point segA segB
  let dx := segA.lon + u * d - point.lon
  let dy := segA.lat + u * d - point.lat
  InInt d ∧ InInt (d * d + d * d) ∧
    InInt (point.lon - segA.lon) ∧ InInt ((point.lon - segA.lon) * d) ∧
    InInt (point.lat - segA.lat) ∧ InInt ((point.lat - segA.lat) * d) ∧
    InInt ((point.lon - segA.lon) * d + (point.lat - segA.lat) * d) ∧
    InInt (segA.lon + u * d) ∧ InInt (segA.lat + u * d) ∧ InInt dx ∧ InInt dy ∧
    InInt (dx * dx + dy * dy)

/-! ## Static R-tree: data model -/

/-- The tuning parameter `RTREE_BRANCHING_FACTOR`. -/
def RTREE_BRANCHING_FACTOR : Nat := 50

/-- The tuning parameter `RTREE_LEAF_NODE_SIZE`. -/
def RTREE_LEAF_NODE_SIZE : Nat := 1170

/-- The template parameter `DataT` of `StaticRTree`: a directed road segment
with its two end points, identifiers, weight and the two flags the tree reads
(`belongsToTinyComponent` and the result of `isIgnored()`). -/
structure DataT where
  lat1 : Int
  lon1 : Int
  lat2 : Int
  lon2 : Int
  id : Nat
  nameID : Nat
  weight : Nat
  belongsToTinyComponent : Bool
  isIgnored : Bool
deriving DecidableEq, Repr, Inhabited

/-- The struct `RectangleInt2D`. -/
structure RectangleInt2D where
  min_lon : Int
  max_lon : Int
  min_lat : Int
  max_lat : Int
deriving DecidableEq, Repr

/-- The constructor `RectangleInt2D()`: the inverted rectangle. -/
def RectangleInt2D.init : RectangleInt2D :=
  { min_lon := INT_MAX, max_lon := INT_MIN, min_lat := INT_MAX, max_lat := INT_MIN }

instance : Inhabited RectangleInt2D := ⟨RectangleInt2D.init⟩

/-- The struct `WrappedInputElement`. -/
structure WrappedInputElement where
  m_array_index : Nat
  m_hilbert_value : Nat
deriving DecidableEq, Repr

/-- The constructor `WrappedInputElement()`. -/
instance : Inhabited WrappedInputElement := ⟨⟨4294967295, 0⟩⟩

/-- The struct `LeafNode`. The array `objects` is represented by its written
slots; the other slots of the source array hold no defined value. -/
structure LeafNode where
  object_count : Nat
  objects : List DataT
deriving DecidableEq, Repr

/-- The constructor `LeafNode()`. -/
instance : Inhabited LeafNode := ⟨⟨0, []⟩⟩

/-- The struct `TreeNode`. The array `children` is represented by its written
slots; the other slots of the source array hold no defined value. -/
structure TreeNode where
  minimum_bounding_rectangle : RectangleInt2D
  child_count : Nat
  child_is_on_disk : Bool
  children : List Nat
deriving DecidableEq, Repr

/-- The constructor `TreeNode()`. -/
instance : Inhabited TreeNode := ⟨⟨RectangleInt2D.init, 0, false, []⟩⟩

/-- The assignment `array[j] = v` on an array given by its written slots:
slot `j` is overwritten when it has been written before and is appended
otherwise (the loops of the source write the slots in ascending order). -/
def storeAt {α : Type} (xs : List α) (j : Nat) (v : α) : List α :=
  if j < xs.length then xs.set j v else xs ++ [v]

/-- The index built by the constructor of `StaticRTree`: the search tree kept
in memory, the element count, and the pages written to the leaf file. -/
structure StaticRTree where
  m_search_tree : List TreeNode
  m_element_count : Nat
  leaf_file : List LeafNode
deriving DecidableEq, Repr

/-! ## Static R-tree: rectangles -/

/-- One iteration of the loop of `InitializeMBRectangle`. -/
def extendByObject (r : RectangleInt2D) (o : DataT) : RectangleInt2D :=
  { min_lon := min r.min_lon (min o.lon1 o.lon2),
    max_lon := max r.max_lon (max o.lon1 o.lon2),
    min_lat := min r.min_lat (min o.lat1 o.lat2),
    max_lat := max r.max_lat (max o.lat1 o.lat2) }

/-- The method `RectangleInt2D::InitializeMBRectangle`, over the first
`element_count` objects. -/
def InitializeMBRectangle (r : RectangleInt2D) (objects : List DataT) (element_count : Nat) :
    RectangleInt2D :=
  (objects.take element_count).foldl extendByObject r

/-- The method `RectangleInt2D::AugmentMBRectangle`. -/
def AugmentMBRectangle (r other : RectangleInt2D) : RectangleInt2D :=
  { min_lon := min r.min_lon other.min_lon,
    max_lon := max r.max_lon other.max_lon,
    min_lat := min r.min_lat other.min_lat,
    max_lat := max r.max_lat other.max_lat }

/-- The method `RectangleInt2D::Contains`. -/
def RectangleInt2D.Contains (r : RectangleInt2D) (location : Coordinate) : Bool :=
  let lats_contained := decide (location.lat > r.min_lat) && decide (location.lat < r.max_lat)
  let lons_contained := decide (location.lon > r.min_lon) && decide (location.lon < r.max_lon)
  lats_contained && lons_contained

/-! ## Static R-tree: construction -/

/-- The loop that fills `input_wrapper_vector`. The parameter `hilbert`
stands for the Hilbert number of the Mercator-projected centroid of an element
(`Centroid`, `lat2y` and `HilbertCode::GetHilbertNumberForCoordinate` are not
part of these sources). The index is stored in a `uint32_t`. -/
def wrapInput (hilbert : DataT → Nat) (input_data_vector : List DataT) :
    List WrappedInputElement :=
  (List.range input_data_vector.length).map fun element_counter =>
    { m_array_index := element_counter % 4294967296,
      m_hilbert_value := hilbert (input_data_vector.getD element_counter default) }

/-- One iteration of the `for` loop that fills `current_leaf`. -/
def fillLeafStep (input_data_vector : List DataT)
    (input_wrapper_vector : List WrappedInputElement)
    (m_element_count processed_objects_count : Nat)
    (current_leaf : LeafNode) (current_element_index : Nat) : LeafNode :=
  if m_element_count > processed_objects_count + current_element_index then
    let index_of_next_object :=
      (input_wrapper_vector.getD (processed_objects_count + current_element_index)
        default).m_array_index
    { object_count := current_leaf.object_count + 1,
      objects := storeAt current_leaf.objects current_element_index
        (input_data_vector.getD index_of_next_object default) }
  else current_leaf

/-- The `for` loop that fills `current_leaf` with up to
`RTREE_LEAF_NODE_SIZE` objects. -/
def fillLeaf (input_data_vector : List DataT)
    (input_wrapper_vector : List WrappedInputElement)
    (m_element_count processed_objects_count : Nat) : LeafNode :=
  (List.range RTREE_LEAF_NODE_SIZE).foldl
    (fillLeafStep input_data_vector input_wrapper_vector m_element_count
      processed_objects_count) default

/-- The node pushed to `tree_nodes_in_level` for a leaf page. -/
def leafParent (current_leaf : LeafNode) (tree_nodes_in_level : List TreeNode) : TreeNode :=
  { minimum_bounding_rectangle :=
      InitializeMBRectangle RectangleInt2D.init current_leaf.objects current_leaf.object_count,
    child_count := 0,
    child_is_on_disk := true,
    children := storeAt [] 0 tree_nodes_in_level.length }

/-- The loop `while(processed_objects_count < m_element_count)` that packs the
sorted elements into leaf pages and creates one tree node per page. -/
def packLeaves (input_data_vector : List DataT)
    (input_wrapper_vector : List WrappedInputElement) (m_element_count : Nat) :
    Nat → Nat → List TreeNode → List LeafNode →
      Except RunError (List TreeNode × List LeafNode)
  | 0, processed_objects_count, tree_nodes_in_level, leaf_node_file =>
    if processed_objects_count < m_element_count then .error .outOfFuel
    else .ok (tree_nodes_in_level, leaf_node_file)
  | fuel + 1, processed_objects_count, tree_nodes_in_level, leaf_node_file =>
    if processed_objects_count < m_element_count then
      let current_leaf := fillLeaf input_data_vector input_wrapper_vector m_element_count
        processed_objects_count
      let current_node := leafParent current_leaf tree_nodes_in_level
      packLeaves input_data_vector input_wrapper_vector m_element_count fuel
        (processed_objects_count + current_leaf.object_count)
        (tree_nodes_in_level ++ [current_node]) (leaf_node_file ++ [current_leaf])
    else .ok (tree_nodes_in_level, leaf_node_file)

/-- The variables changed by the `for` loop that packs children into
`parent_node`. -/
structure PackState where
  parent_node : TreeNode
  m_search_tree : List TreeNode
  processed_tree_nodes_in_level : Nat
deriving DecidableEq, Repr

/-- One iteration of the `for` loop that packs up to
`RTREE_BRANCHING_FACTOR` children into `parent_node`. -/
def packChild (tree_nodes_in_level : List TreeNode) (s : PackState)
    (current_child_node_index : Nat) : PackState :=
  if s.processed_tree_nodes_in_level < tree_nodes_in_level.length then
    let current_child_node :=
      tree_nodes_in_level.getD s.processed_tree_nodes_in_level default
    { parent_node :=
        { minimum_bounding_rectangle :=
            AugmentMBRectangle s.parent_node.minimum_bounding_rectangle
              current_child_node.minimum_bounding_rectangle,
          child_count := s.parent_node.child_count + 1,
          child_is_on_disk := s.parent_node.child_is_on_disk,
          children :=
            storeAt s.parent_node.children current_child_node_index s.m_search_tree.length },
      m_search_tree := s.m_search_tree ++ [current_child_node],
      processed_tree_nodes_in_level := s.processed_tree_nodes_in_level + 1 }
  else s

/-- The `for` loop that builds one parent node. -/
def packParent (tree_nodes_in_level m_search_tree : List TreeNode)
    (processed_tree_nodes_in_level : Nat) : PackState :=
  (List.range RTREE_BRANCHING_FACTOR).foldl (packChild tree_nodes_in_level)
    { parent_node := default, m_search_tree := m_search_tree,
      processed_tree_nodes_in_level := processed_tree_nodes_in_level }

/-- The loop `while(processed_tree_nodes_in_level < tree_nodes_in_level.size())`
that builds the next level. It returns `tree_nodes_in_next_level` and
`m_search_tree`. -/
def packLevel (tree_nodes_in_level : List TreeNode) :
    Nat → Nat → List TreeNode → List TreeNode →
      Except RunError (List TreeNode × List TreeNode)
  | 0, processed_tree_nodes_in_level, tree_nodes_in_next_level, m_search_tree =>
    if processed_tree_nodes_in_level < tree_nodes_in_level.length then .error .outOfFuel
    else .ok (tree_nodes_in_next_level, m_search_tree)
  | fuel + 1, processed_tree_nodes_in_level, tree_nodes_in_next_level, m_search_tree =>
    if processed_tree_nodes_in_level < tree_nodes_in_level.length then
      let s := packParent tree_nodes_in_level m_search_tree processed_tree_nodes_in_level
      packLevel tree_nodes_in_level fuel s.processed_tree_nodes_in_level
        (tree_nodes_in_next_level ++ [s.parent_node]) s.m_search_tree
    else .ok (tree_nodes_in_next_level, m_search_tree)

/-- The loop `while(1 < tree_nodes_in_level.size())` that builds the levels
above the leaf parents. It returns `tree_nodes_in_level` and `m_search_tree`. -/
def packLevels :
    Nat → List TreeNode → List TreeNode → Except RunError (List TreeNode × List TreeNode)
  | 0, tree_nodes_in_level, m_search_tree =>
    if 1 < tree_nodes_in_level.length then .error .outOfFuel
    else .ok (tree_nodes_in_level, m_search_tree)
  | fuel + 1, tree_nodes_in_level, m_search_tree =>
    if 1 < tree_nodes_in_level.length then
      match packLevel tree_nodes_in_level tree_nodes_in_level.length 0 [] m_search_tree with
      | .error e => .error e
      | .ok (tree_nodes_in_next_level, tree1) =>
        packLevels fuel tree_nodes_in_next_level tree1
    else .ok (tree_nodes_in_level, m_search_tree)

/-- One iteration of the inner loop of the renumbering:
`children[j] = m_search_tree.size() - children[j] - 1`. -/
def renumberChild (size : Nat) (children : List Nat) (j : Nat) : List Nat :=
  storeAt children j (size - children.getD j 0 - 1)

/-- The inner loop of the renumbering, over `j < child_count`. -/
def renumber (size : Nat) (current_tree_node : TreeNode) : TreeNode :=
  { current_tree_node with
    children := (List.range current_tree_node.child_count).foldl (renumberChild size)
      current_tree_node.children }

/-- The constructor `StaticRTree(input_data_vector, tree_node_filename,
leaf_node_filename)`. The parameter `sort` stands for `std::sort` on the
wrapper vector, which orders by Hilbert value and leaves the order of equal
keys unspecified. The leaf loop runs at most `m_element_count` times and the
level loop at most once per node of the first level. -/
def StaticRTree.build (hilbert : DataT → Nat)
    (sort : List WrappedInputElement → List WrappedInputElement)
    (input_data_vector : List DataT) : Except RunError StaticRTree :=
  let m_element_count := input_data_vector.length
  let input_wrapper_vector := sort (wrapInput hilbert input_data_vector)
  match packLeaves input_data_vector input_wrapper_vector m_element_count
      m_element_count 0 [] [] with
  | .error e => .error e
  | .ok (leaf_parents, leaf_node_file) =>
    match packLevels leaf_parents.length leaf_parents [] with
    | .error e => .error e
    | .ok (tree_nodes_in_level, tree1) =>
      if ¬ 1 = tree_nodes_in_level.length then .error .assertionFailed
      else
        let tree2 := tree1 ++ [tree_nodes_in_level.getD 0 default]
        let tree3 := tree2.reverse
        let tree4 := tree3.map (renumber tree3.length)
        if ¬ 0 < tree4.length then .error .assertionFailed
        else .ok { m_search_tree := tree4, m_element_count := m_element_count,
                   leaf_file := leaf_node_file }

/-! ## Static R-tree: loading -/

/-- The content of a tree node file: the `uint32_t` header and the node
records that follow it. -/
structure TreeNodeFile where
  tree_size : Nat
  nodes : List TreeNode
deriving DecidableEq, Repr

/-- The content of a leaf node file: the `uint64_t` header and the pages that
follow it. -/
structure LeafNodeFile where
  element_count : Nat
  pages : List LeafNode
deriving DecidableEq, Repr

/-- The read-only constructor `StaticRTree(node_filename, leaf_filename)`.
The call `resize(tree_size)` creates `tree_size` default nodes and `read`
overwrites them with the records of the file, as far as the file has them.
The constructor reads the header of the leaf file; the pages stay in the file
and are read by the queries. It checks nothing and has no failure path. -/
def StaticRTree.load (tree_node_file : TreeNodeFile) (leaf_node_file : LeafNodeFile) :
    StaticRTree :=
  let tree_size := tree_node_file.tree_size
  let m_search_tree :=
    (List.range tree_size).map fun i => tree_node_file.nodes.getD i default
  { m_search_tree := m_search_tree,
    m_element_count := leaf_node_file.element_count,
    leaf_file := leaf_node_file.pages }

/-! ## Static R-tree: notions used in the proofs about the construction -/

/-- The element that the sorted wrapper vector puts at position `j`. -/
def orderedElement (input_data_vector : List DataT)
    (input_wrapper_vector : List WrappedInputElement) (j : Nat) : DataT :=
  input_data_vector.getD (input_wrapper_vector.getD j default).m_array_index default

/-- Both end points of the edge lie in the closed rectangle. -/
def RectangleInt2D.Covers (r : RectangleInt2D) (e : DataT) : Prop :=
  r.min_lon ≤ e.lon1 ∧ e.lon1 ≤ r.max_lon ∧ r.min_lon ≤ e.lon2 ∧ e.lon2 ≤ r.max_lon ∧
  r.min_lat ≤ e.lat1 ∧ e.lat1 ≤ r.max_lat ∧ r.min_lat ≤ e.lat2 ∧ e.lat2 ≤ r.max_lat

/-- The rectangle `inner` lies in the rectangle `outer`. -/
def RectangleInt2D.Within (inner outer : RectangleInt2D) : Prop :=
  outer.min_lon ≤ inner.min_lon ∧ inner.max_lon ≤ outer.max_lon ∧
  outer.min_lat ≤ inner.min_lat ∧ inner.max_lat ≤ outer.max_lat

/-- The union of a list of rectangles: component-wise minimum of the lower
and maximum of the upper bounds, by repeated `AugmentMBRectangle` from the
inverted rectangle. -/
def unionOf (rs : List RectangleInt2D) : RectangleInt2D :=
  rs.foldl AugmentMBRectangle RectangleInt2D.init

/-- The bounding box of the end points of a list of edges. -/
def boundingBox (objects : List DataT) : RectangleInt2D :=
  objects.foldl extendByObject RectangleInt2D.init

/-- A leaf parent that is consistent with the leaf file: it names one page,
which is not empty, and its rectangle is the bounding box of the page. -/
def LeafWF (leaf_file : List LeafNode) (nd : TreeNode) : Prop :=
  nd.child_is_on_disk = true ∧ nd.child_count = 0 ∧
    ∃ p page, nd.children = [p] ∧ leaf_file[p]? = some page ∧ page.objects ≠ [] ∧
      page.object_count = page.objects.length ∧
      nd.minimum_bounding_rectangle = boundingBox page.objects

/-- An interior node that is consistent with the nodes stored before it: it
has between one and `RTREE_BRANCHING_FACTOR` children, all stored in `tree`,
and its rectangle is the union of theirs. -/
def InteriorWF (tree : List TreeNode) (nd : TreeNode) : Prop :=
  nd.child_is_on_disk = false ∧ nd.child_count = nd.children.length ∧
    1 ≤ nd.child_count ∧ nd.child_count ≤ RTREE_BRANCHING_FACTOR ∧
    (∀ c ∈ nd.children, c < tree.length) ∧
    nd.minimum_bounding_rectangle =
      unionOf (nd.children.map fun c => (tree.getD c default).minimum_bounding_rectangle)

/-- A node that is consistent with the leaf file and the nodes stored before
it. -/
def NodeWF (leaf_file : List LeafNode) (tree : List TreeNode) (nd : TreeNode) : Prop :=
  LeafWF leaf_file nd ∨ InteriorWF tree nd

/-- Every node of the array is consistent with the nodes before it. -/
def TreeWF (leaf_file : List LeafNode) (tree : List TreeNode) : Prop :=
  ∀ i, i < tree.length → NodeWF leaf_file (tree.take i) (tree.getD i default)

/-- The node `nd` is an interior node with child reference `i`. -/
def RefersTo (nd : TreeNode) (i : Nat) : Prop :=
  nd.child_is_on_disk = false ∧ i ∈ nd.children

/-- The state after `m` iterations of the loop that builds one parent. -/
def packedPrefix (L T : List TreeNode) (p k : Nat) : PackState :=
  { parent_node :=
      { minimum_bounding_rectangle :=
          unionOf (((L.drop p).take k).map fun c => c.minimum_bounding_rectangle),
        child_count := k,
        child_is_on_disk := false,
        children := (List.range k).map fun j => T.length + j },
    m_search_tree := T ++ (L.drop p).take k,
    processed_tree_nodes_in_level := p + k }

/-- The coordinates of the edge are 32-bit integers. -/
def DataT.InRange (e : DataT) : Prop :=
  INT_MIN ≤ e.lat1 ∧ e.lat1 ≤ INT_MAX ∧ INT_MIN ≤ e.lon1 ∧ e.lon1 ≤ INT_MAX ∧
  INT_MIN ≤ e.lat2 ∧ e.lat2 ≤ INT_MAX ∧ INT_MIN ≤ e.lon2 ∧ e.lon2 ≤ INT_MAX

/-- The rectangle `r` is the union of the rectangles `rs`: each bound of `r`
is the component-wise minimum, respectively maximum, of the bounds in `rs`. -/
def IsUnionOf (r : RectangleInt2D) (rs : List RectangleInt2D) : Prop :=
  (∀ c ∈ rs, r.min_lon ≤ c.min_lon ∧ c.max_lon ≤ r.max_lon ∧
    r.min_lat ≤ c.min_lat ∧ c.max_lat ≤ r.max_lat) ∧
  (∃ c ∈ rs, c.min_lon = r.min_lon) ∧ (∃ c ∈ rs, c.max_lon = r.max_lon) ∧
  (∃ c ∈ rs, c.min_lat = r.min_lat) ∧ (∃ c ∈ rs, c.max_lat = r.max_lat)

/-- The rectangle `r` is the bounding box of the end points of `objects`: it
contains both end points of every edge and each of its bounds is attained by
an end point. -/
def IsBoundingBoxOf (r : RectangleInt2D) (objects : List DataT) : Prop :=
  (∀ o ∈ objects, r.Covers o) ∧
  (∃ o ∈ objects, r.min_lon = o.lon1 ∨ r.min_lon = o.lon2) ∧
  (∃ o ∈ objects, r.max_lon = o.lon1 ∨ r.max_lon = o.lon2) ∧
  (∃ o ∈ objects, r.min_lat = o.lat1 ∨ r.min_lat = o.lat2) ∧
  (∃ o ∈ objects, r.max_lat = o.lat1 ∨ r.max_lat = o.lat2)

/-- A sort of the wrapper vector by Hilbert value (insertion sort), one of the
results that `std::sort` may produce. -/
def sortByHilbert (l : List WrappedInputElement) : List WrappedInputElement :=
  l.insertionSort fun a b => a.m_hilbert_value ≤ b.m_hilbert_value

/-- A stand-in for the Hilbert number of an element, used in examples. -/
def sampleHilbert (e : DataT) : Nat := (e.lat1 + e.lon1).toNat

/-- Three road segments used in examples. -/
def sampleEdges : List DataT :=
  [ { lat1 := 500000, lon1 := 500000, lat2 := 500000, lon2 := 501000, id := 10, nameID := 1,
      weight := 100, belongsToTinyComponent := false, isIgnored := false },
    { lat1 := 500000, lon1 := 501000, lat2 := 500000, lon2 := 500000, id := 11, nameID := 1,
      weight := 100, belongsToTinyComponent := false, isIgnored := false },
    { lat1 := 400000, lon1 := 300000, lat2 := 400500, lon2 := 300700, id := 12, nameID := 2,
      weight := 70, belongsToTinyComponent := true, isIgnored := false } ]

/-- The pages that the packing loop writes from position `p` on: page `k` is
filled from position `p + k * RTREE_LEAF_NODE_SIZE` of the sorted wrapper
vector. -/
def pagesFrom (input_data_vector : List DataT)
    (input_wrapper_vector : List WrappedInputElement) (m_element_count p K : Nat) :
    List LeafNode :=
  (List.range K).map fun k =>
    fillLeaf input_data_vector input_wrapper_vector m_element_count
      (p + RTREE_LEAF_NODE_SIZE * k)

/-- The number of pages needed for `n` elements: `n / RTREE_LEAF_NODE_SIZE`,
rounded up. -/
def pageCount (n : Nat) : Nat := (n + (RTREE_LEAF_NODE_SIZE - 1)) / RTREE_LEAF_NODE_SIZE

/-- The filled slots of all pages of the leaf file, in page order. -/
def storedSequence (leaf_file : List LeafNode) : List DataT :=
  leaf_file.flatMap fun page => page.objects.take page.object_count

/-- A sort of the wrapper vector by Hilbert value that puts elements with
equal values in the reverse of their input order; `std::sort`, which is not
stable, may produce this result. -/
def sortTiesReversed (l : List WrappedInputElement) : List WrappedInputElement :=
  l.reverse.insertionSort fun a b => a.m_hilbert_value ≤ b.m_hilbert_value

/-- Two edges with the same value of `sampleHilbert`. -/
def tiedEdges : List DataT :=
  [ { lat1 := 0, lon1 := 5, lat2 := 0, lon2 := 9, id := 1, nameID := 1, weight := 4,
      belongsToTinyComponent := false, isIgnored := false },
    { lat1 := 5, lon1 := 0, lat2 := 9, lon2 := 0, id := 2, nameID := 2, weight := 4,
      belongsToTinyComponent := false, isIgnored := false } ]

/-! ## Floating point

The type `double` is modelled by `Dbl`: IEEE-754 arithmetic with signed zero,
infinities and NaN, in which every finite operation is carried out exactly on
rationals (no rounding to 53 bits, no overflow to infinity). -/

/-- A `double`: a finite value (`fin 0` is `+0.0`), negative zero, an infinity
or NaN. -/
inductive Dbl where
  | fin (q : ℚ)
  | negZero
  | posInf
  | negInf
  | nan
deriving DecidableEq

namespace Dbl

/-- The sign bit. -/
def signBit : Dbl → Bool
  | fin q => decide (q < 0)
  | negZero => true
  | posInf => false
  | negInf => true
  | nan => false

/-- The value of a finite `double` (zero for the others). -/
def toRat : Dbl → ℚ
  | fin q => q
  | _ => 0

/-- Neither infinite nor NaN. -/
def isFinite : Dbl → Bool
  | fin _ => true
  | negZero => true
  | _ => false

/-- Plus or minus zero. -/
def isZero : Dbl → Bool
  | fin q => decide (q = 0)
  | negZero => true
  | _ => false

/-- The predicate `std::isnan`. -/
def isNaN : Dbl → Bool
  | nan => true
  | _ => false

/-- Zero with the given sign bit. -/
def signedZero (negative : Bool) : Dbl := if negative then negZero else fin 0

/-- Infinity with the given sign bit. -/
def signedInf (negative : Bool) : Dbl := if negative then negInf else posInf

/-- A finite result: an exact zero takes the given sign. -/
def finite (q : ℚ) (zeroSign : Bool) : Dbl := if q = 0 then signedZero zeroSign else fin q

/-- Conversion of an `int` to `double`. -/
def ofInt (i : Int) : Dbl := fin i

/-- Unary minus. -/
def neg : Dbl → Dbl
  | fin q => if q = 0 then negZero else fin (-q)
  | negZero => fin 0
  | posInf => negInf
  | negInf => posInf
  | nan => nan

/-- Addition: the sum of two zeros is negative only if both are, and an exact
cancellation gives `+0.0`. -/
def add (a b : Dbl) : Dbl :=
  match a, b with
  | nan, _ => nan
  | _, nan => nan
  | posInf, negInf => nan
  | negInf, posInf => nan
  | posInf, _ => posInf
  | _, posInf => posInf
  | negInf, _ => negInf
  | _, negInf => negInf
  | negZero, negZero => negZero
  | x, y => fin (x.toRat + y.toRat)

/-- Subtraction. -/
def sub (a b : Dbl) : Dbl := add a (neg b)

/-- Multiplication: the sign is the exclusive or of the signs, and zero times
infinity is NaN. -/
def mul (a b : Dbl) : Dbl :=
  if a.isNaN || b.isNaN then nan
  else if a.isFinite && b.isFinite then finite (a.toRat * b.toRat) (xor a.signBit b.signBit)
  else if a.isZero || b.isZero then nan
  else signedInf (xor a.signBit b.signBit)

/-- Division: a non-zero value over zero is an infinity, zero over zero and
infinity over infinity are NaN. -/
def div (a b : Dbl) : Dbl :=
  if a.isNaN || b.isNaN then nan
  else if a.isFinite then
    if b.isFinite then
      if b.isZero then
        if a.isZero then nan else signedInf (xor a.signBit b.signBit)
      else finite (a.toRat / b.toRat) (xor a.signBit b.signBit)
    else signedZero (xor a.signBit b.signBit)
  else if b.isFinite then signedInf (xor a.signBit b.signBit)
  else nan

/-- The comparison `a < b`; false when an operand is NaN. -/
def lt (a b : Dbl) : Bool :=
  match a, b with
  | nan, _ => false
  | _, nan => false
  | posInf, _ => false
  | _, negInf => false
  | negInf, _ => true
  | _, posInf => true
  | x, y => decide (x.toRat < y.toRat)

/-- The comparison `a <= b`; false when an operand is NaN. -/
def le (a b : Dbl) : Bool :=
  match a, b with
  | nan, _ => false
  | _, nan => false
  | negInf, _ => true
  | _, posInf => true
  | posInf, _ => false
  | _, negInf => false
  | x, y => decide (x.toRat ≤ y.toRat)

/-- The function `std::fabs`. -/
def fabs : Dbl → Dbl
  | fin q => fin |q|
  | negZero => fin 0
  | posInf => posInf
  | negInf => posInf
  | nan => nan

/-- The function `std::min(a, b)`, that is `(b < a) ? b : a`. -/
def min (a b : Dbl) : Dbl := if lt b a then b else a

/-- The function `std::max(a, b)`, that is `(a < b) ? b : a`. -/
def max (a b : Dbl) : Dbl := if lt a b then b else a

/-- Conversion of a `double` to `int`: truncation toward zero; a value outside
the `int` range, an infinity or NaN gives `INT_MIN`. -/
def toInt32 : Dbl → Int
  | fin q =>
    if -2147483649 < q ∧ q < 2147483648 then Int.tdiv q.num q.den else -2147483648
  | negZero => 0
  | _ => -2147483648

end Dbl

/-- The constant `FLT_EPSILON`, `2^-23`. -/
def FLT_EPSILON : Dbl := Dbl.fin (1 / 8388608)

/-- The constant `DBL_MAX`, `(2 - 2^-52) * 2^1023`. -/
def DBL_MAX : Dbl := Dbl.fin ((2 ^ 53 - 1) * 2 ^ 971)

/-- The `double` `u` is finite and has the value `q`. -/
def Dbl.IsVal (u : Dbl) (q : ℚ) : Prop := u.isFinite = true ∧ u.toRat = q

/-! ## Static R-tree: distances to a rectangle

`ApproximateDistance` is declared in `Coordinate.h`, which is not part of
these sources; it is the parameter `approx` of everything that calls it. -/

/-- The method `RectangleInt2D::GetMinDist`. -/
def RectangleInt2D.GetMinDist (approx : Coordinate → Coordinate → Dbl)
    (r : RectangleInt2D) (location : Coordinate) : Dbl :=
  let is_contained := r.Contains location
  if is_contained then Dbl.fin 0
  else
    let min_dist0 := DBL_MAX
    let min_dist1 := Dbl.min min_dist0 (approx location ⟨r.max_lat, r.min_lon⟩)
    let min_dist2 := Dbl.min min_dist1 (approx location ⟨r.max_lat, r.max_lon⟩)
    let min_dist3 := Dbl.min min_dist2 (approx location ⟨r.min_lat, r.max_lon⟩)
    let min_dist4 := Dbl.min min_dist3 (approx location ⟨r.min_lat, r.min_lon⟩)
    min_dist4

/-- The method `RectangleInt2D::GetMinMaxDist`. -/
def RectangleInt2D.GetMinMaxDist (approx : Coordinate → Coordinate → Dbl)
    (r : RectangleInt2D) (location : Coordinate) : Dbl :=
  let min_max_dist0 := DBL_MAX
  let upper_left : Coordinate := ⟨r.max_lat, r.min_lon⟩
  let upper_right : Coordinate := ⟨r.max_lat, r.max_lon⟩
  let lower_right : Coordinate := ⟨r.min_lat, r.max_lon⟩
  let lower_left : Coordinate := ⟨r.min_lat, r.min_lon⟩
  let min_max_dist1 := Dbl.min min_max_dist0
    (Dbl.max (approx location upper_left) (approx location upper_right))
  let min_max_dist2 := Dbl.min min_max_dist1
    (Dbl.max (approx location upper_right) (approx location lower_right))
  let min_max_dist3 := Dbl.min min_max_dist2
    (Dbl.max (approx location lower_right) (approx location lower_left))
  let min_max_dist4 := Dbl.min min_max_dist3
    (Dbl.max (approx location lower_left) (approx location upper_left))
  min_max_dist4

/-! ## Static R-tree: the nearest-edge query -/

/-- The result of `ComputePerpendicularDistance`: the returned squared
distance and the two output parameters `nearest` and `*r`. -/
structure PerpendicularResult where
  distance : Dbl
  nearest : Coordinate
  r : Dbl

/-- The method `ComputePerpendicularDistance`. -/
def ComputePerpendicularDistance (inputPoint source target : Coordinate) :
    PerpendicularResult :=
  let x := Dbl.ofInt inputPoint.lat
  let y := Dbl.ofInt inputPoint.lon
  let a := Dbl.ofInt source.lat
  let b := Dbl.ofInt source.lon
  let c := Dbl.ofInt target.lat
  let d := Dbl.ofInt target.lon
  let m := Dbl.div (Dbl.sub d b) (Dbl.sub c a)
  let steep := Dbl.lt FLT_EPSILON (Dbl.fabs (Dbl.sub a c))
  let p :=
    if steep then
      Dbl.div
        (Dbl.add (Dbl.add x (Dbl.mul m y))
          (Dbl.sub (Dbl.mul (Dbl.mul m m) a) (Dbl.mul m b)))
        (Dbl.add (Dbl.fin 1) (Dbl.mul m m))
    else c
  let q := if steep then Dbl.add b (Dbl.mul m (Dbl.sub p a)) else y
  let nY := Dbl.div (Dbl.sub (Dbl.mul d p) (Dbl.mul c q)) (Dbl.sub (Dbl.mul a d) (Dbl.mul b c))
  let mX := Dbl.div (Dbl.sub p (Dbl.mul nY a)) c
  let r :=
    if mX.isNaN then (if target = inputPoint then Dbl.fin 1 else Dbl.fin 0) else mX
  if Dbl.le r (Dbl.fin 0) then
    { distance := Dbl.add (Dbl.mul (Dbl.sub b y) (Dbl.sub b y))
        (Dbl.mul (Dbl.sub a x) (Dbl.sub a x)),
      nearest := ⟨source.lat, source.lon⟩, r := r }
  else if Dbl.le (Dbl.fin 1) r then
    { distance := Dbl.add (Dbl.mul (Dbl.sub d y) (Dbl.sub d y))
        (Dbl.mul (Dbl.sub c x) (Dbl.sub c x)),
      nearest := ⟨target.lat, target.lon⟩, r := r }
  else
    { distance := Dbl.add (Dbl.mul (Dbl.sub p x) (Dbl.sub p x))
        (Dbl.mul (Dbl.sub q y) (Dbl.sub q y)),
      nearest := ⟨Dbl.toInt32 p, Dbl.toInt32 q⟩, r := r }

/-- The method `CoordinatesAreEquivalent`. -/
def CoordinatesAreEquivalent (a b c d : Coordinate) : Bool :=
  (decide (a = b) && decide (c = d)) || (decide (a = c) && decide (b = d)) ||
    (decide (a = d) && decide (b = c))

/-- The method `DoubleEpsilonCompare`. -/
def DoubleEpsilonCompare (d1 d2 : Dbl) : Bool :=
  Dbl.lt (Dbl.fabs (Dbl.sub d1 d2)) FLT_EPSILON

/-- The struct `QueryCandidate`. -/
structure QueryCandidate where
  node_id : Nat
  min_dist : Dbl
deriving DecidableEq

/-- The fields of `PhantomNode` (declared in `PhantomNodes.h`, which is not
part of these sources) that the query writes. -/
structure PhantomNode where
  edgeBasedNode : Nat
  nodeBasedEdgeNameID : Nat
  weight1 : Int
  weight2 : Int
  ratio : Dbl
  location : Coordinate
deriving DecidableEq

/-- The local variables of `FindPhantomNodeForCoordinate` that the traversal
changes, with the output parameter `result_phantom_node`. -/
structure QueryState where
  min_dist : Dbl
  min_max_dist : Dbl
  found_a_nearest_edge : Bool
  nearest : Coordinate
  current_start_coordinate : Coordinate
  current_end_coordinate : Coordinate
  result_phantom_node : PhantomNode
  traversal_queue : List QueryCandidate
deriving DecidableEq

/-- The index of the element that `std::priority_queue::top` returns among
`c :: rest`: an element that is not less (by `min_dist`) than any other. The
order of the queue's vector and the choice among equal keys are left open by
the standard library; here the vector is kept in insertion order and the first
greatest element is taken. -/
def topIndex : Nat → Dbl → Nat → List QueryCandidate → Nat
  | best, _, _, [] => best
  | best, bestDist, i, c :: rest =>
    if Dbl.lt bestDist c.min_dist then topIndex i c.min_dist (i + 1) rest
    else topIndex best bestDist (i + 1) rest

/-- The calls `traversal_queue.top()` and `traversal_queue.pop()`. -/
def popTop (queue : List QueryCandidate) : Option (QueryCandidate × List QueryCandidate) :=
  match queue with
  | [] => none
  | c :: rest =>
    let i := topIndex 0 c.min_dist 1 rest
    some ((c :: rest).getD i c, (c :: rest).eraseIdx i)

/-- The test that skips an edge of a leaf page. -/
def skipsEdge (ignore_tiny_components : Bool) (current_edge : DataT) : Bool :=
  (ignore_tiny_components && current_edge.belongsToTinyComponent) || current_edge.isIgnored

/-- One iteration of the loop over the edges of a leaf page. The identifiers
are unsigned 32-bit values whose difference is passed to `abs` as an `int`.
The assertion `current_edge.id != result_phantom_node.edgeBasedNode` of the
second branch is implied by the branch condition (the difference has absolute
value 1) and is not repeated. -/
def scanEdge (input_coordinate : Coordinate) (ignore_tiny_components : Bool)
    (s : QueryState) (current_edge : DataT) : QueryState :=
  if ignore_tiny_components && current_edge.belongsToTinyComponent then s
  else if current_edge.isIgnored then s
  else
    let res := ComputePerpendicularDistance input_coordinate
      ⟨current_edge.lat1, current_edge.lon1⟩ ⟨current_edge.lat2, current_edge.lon2⟩
    let current_perpendicular_distance := res.distance
    let s1 := { s with nearest := res.nearest }
    if Dbl.lt current_perpendicular_distance s1.min_dist &&
        !DoubleEpsilonCompare current_perpendicular_distance s1.min_dist then
      { s1 with
        min_dist := current_perpendicular_distance,
        result_phantom_node :=
          { s1.result_phantom_node with
            edgeBasedNode := current_edge.id,
            nodeBasedEdgeNameID := current_edge.nameID,
            weight1 := current_edge.weight,
            weight2 := INT_MAX,
            location := res.nearest },
        current_start_coordinate := ⟨current_edge.lat1, current_edge.lon1⟩,
        current_end_coordinate := ⟨current_edge.lat2, current_edge.lon2⟩,
        found_a_nearest_edge := true }
    else if DoubleEpsilonCompare current_perpendicular_distance s1.min_dist &&
        decide (1 = |wrap32 ((current_edge.id : Int) - s1.result_phantom_node.edgeBasedNode)|) &&
        CoordinatesAreEquivalent s1.current_start_coordinate
          ⟨current_edge.lat1, current_edge.lon1⟩ ⟨current_edge.lat2, current_edge.lon2⟩
          s1.current_end_coordinate then
      if current_edge.id < s1.result_phantom_node.edgeBasedNode then
        { s1 with
          result_phantom_node :=
            { s1.result_phantom_node with
              edgeBasedNode := current_edge.id,
              weight1 := current_edge.weight,
              weight2 := s1.result_phantom_node.weight1 },
          current_start_coordinate := s1.current_end_coordinate,
          current_end_coordinate := s1.current_start_coordinate }
      else
        { s1 with
          result_phantom_node :=
            { s1.result_phantom_node with weight2 := current_edge.weight } }
    else s1

/-- The loop over the edges of a loaded leaf page. -/
def scanLeaf (input_coordinate : Coordinate) (ignore_tiny_components : Bool)
    (current_leaf_node : LeafNode) (s : QueryState) : QueryState :=
  (List.range current_leaf_node.object_count).foldl
    (fun s i => scanEdge input_coordinate ignore_tiny_components s
      (current_leaf_node.objects.getD i default)) s

/-- One iteration of the loop over the children of an interior node. -/
def visitChild (approx : Coordinate → Coordinate → Dbl) (m_search_tree : List TreeNode)
    (input_coordinate : Coordinate) (current_tree_node : TreeNode)
    (s : QueryState) (i : Nat) : QueryState :=
  let child_id := current_tree_node.children.getD i 0
  let child_tree_node := m_search_tree.getD child_id default
  let child_rectangle := child_tree_node.minimum_bounding_rectangle
  let current_min_dist := child_rectangle.GetMinDist approx input_coordinate
  let current_min_max_dist := child_rectangle.GetMinMaxDist approx input_coordinate
  let s1 :=
    if Dbl.lt current_min_max_dist s.min_max_dist then
      { s with min_max_dist := current_min_max_dist }
    else s
  if Dbl.lt s1.min_max_dist current_min_dist then s1
  else if Dbl.lt s1.min_dist current_min_dist then s1
  else { s1 with traversal_queue := s1.traversal_queue ++ [⟨child_id, current_min_dist⟩] }

/-- The loop over the children of an interior node. -/
def visitChildren (approx : Coordinate → Coordinate → Dbl) (m_search_tree : List TreeNode)
    (input_coordinate : Coordinate) (current_tree_node : TreeNode) (s : QueryState) :
    QueryState :=
  (List.range current_tree_node.child_count).foldl
    (visitChild approx m_search_tree input_coordinate current_tree_node) s

/-- The body of the loop `while(!traversal_queue.empty())` for the popped
candidate; `s` holds the queue after the pop. `LoadLeafFromDisk` reads page
`children[0]` of the leaf file. -/
def visitNode (approx : Coordinate → Coordinate → Dbl) (m_search_tree : List TreeNode)
    (leaf_file : List LeafNode) (input_coordinate : Coordinate)
    (ignore_tiny_components : Bool) (current_query_node : QueryCandidate)
    (s : QueryState) : QueryState :=
  let prune_downward := Dbl.le s.min_max_dist current_query_node.min_dist
  let prune_upward := Dbl.le s.min_dist current_query_node.min_dist
  if !prune_downward && !prune_upward then
    let current_tree_node := m_search_tree.getD current_query_node.node_id default
    if current_tree_node.child_is_on_disk then
      let current_leaf_node := leaf_file.getD (current_tree_node.children.getD 0 0) default
      scanLeaf input_coordinate ignore_tiny_components current_leaf_node s
    else
      visitChildren approx m_search_tree input_coordinate current_tree_node s
  else s

/-- The loop `while(!traversal_queue.empty())`. -/
def traverse (approx : Coordinate → Coordinate → Dbl) (m_search_tree : List TreeNode)
    (leaf_file : List LeafNode) (input_coordinate : Coordinate)
    (ignore_tiny_components : Bool) : Nat → QueryState → Except RunError QueryState
  | fuel, s =>
    match popTop s.traversal_queue with
    | none => .ok s
    | some (current_query_node, queue1) =>
      match fuel with
      | 0 => .error .outOfFuel
      | fuel + 1 =>
        traverse approx m_search_tree leaf_file input_coordinate ignore_tiny_components fuel
          (visitNode approx m_search_tree leaf_file input_coordinate ignore_tiny_components
            current_query_node { s with traversal_queue := queue1 })

/-- The statements of `FindPhantomNodeForCoordinate` after the traversal: the
ratio, the scaling of the weights and the correction of the location. The
weights are `int` values multiplied by a `double` and converted back. -/
def finishQuery (approx : Coordinate → Coordinate → Dbl) (input_coordinate : Coordinate)
    (s : QueryState) : Bool × PhantomNode :=
  let ratio :=
    if s.found_a_nearest_edge then
      Dbl.min (Dbl.fin 1)
        (Dbl.div (approx s.current_start_coordinate s.result_phantom_node.location)
          (approx s.current_start_coordinate s.current_end_coordinate))
    else Dbl.fin 0
  let weight1 := Dbl.toInt32 (Dbl.mul (Dbl.ofInt s.result_phantom_node.weight1) ratio)
  let weight2 :=
    if INT_MAX ≠ s.result_phantom_node.weight2 then
      Dbl.toInt32 (Dbl.mul (Dbl.ofInt s.result_phantom_node.weight2)
        (Dbl.sub (Dbl.fin 1) ratio))
    else s.result_phantom_node.weight2
  let lon :=
    if |wrap32 (input_coordinate.lon - s.result_phantom_node.location.lon)| = 1 then
      input_coordinate.lon
    else s.result_phantom_node.location.lon
  let lat :=
    if |wrap32 (input_coordinate.lat - s.result_phantom_node.location.lat)| = 1 then
      input_coordinate.lat
    else s.result_phantom_node.location.lat
  (s.found_a_nearest_edge,
    { s.result_phantom_node with
      weight1 := weight1, weight2 := weight2, ratio := ratio, location := ⟨lat, lon⟩ })

/-- The state of `FindPhantomNodeForCoordinate` when the traversal starts:
the queue holds the root. A default-constructed `_Coordinate` is taken to be
`(INT_MIN, INT_MIN)`. -/
def initialQueryState (approx : Coordinate → Coordinate → Dbl)
    (m_search_tree : List TreeNode) (input_coordinate : Coordinate)
    (result_phantom_node : PhantomNode) : QueryState :=
  { min_dist := DBL_MAX,
    min_max_dist := DBL_MAX,
    found_a_nearest_edge := false,
    nearest := ⟨INT_MIN, INT_MIN⟩,
    current_start_coordinate := ⟨INT_MIN, INT_MIN⟩,
    current_end_coordinate := ⟨INT_MIN, INT_MIN⟩,
    result_phantom_node := result_phantom_node,
    traversal_queue :=
      [⟨0, (m_search_tree.getD 0 default).minimum_bounding_rectangle.GetMinDist approx
        input_coordinate⟩] }

/-- The method `StaticRTree::FindPhantomNodeForCoordinate`: the returned
`bool` and the final value of the output parameter `result_phantom_node`. The
argument `fuel` bounds the number of iterations of the traversal loop. -/
def FindPhantomNodeForCoordinate (approx : Coordinate → Coordinate → Dbl)
    (tree : StaticRTree) (input_coordinate : Coordinate)
    (result_phantom_node : PhantomNode) (zoom_level : Nat) (fuel : Nat) :
    Except RunError (Bool × PhantomNode) :=
  let ignore_tiny_components := decide (zoom_level ≤ 14)
  let s0 := initialQueryState approx tree.m_search_tree input_coordinate result_phantom_node
  let root_min_dist :=
    (tree.m_search_tree.getD 0 default).minimum_bounding_rectangle.GetMinDist approx
      input_coordinate
  if ¬ Dbl.lt (Dbl.sub (Dbl.fin 0) root_min_dist) FLT_EPSILON then .error .assertionFailed
  else
    match traverse approx tree.m_search_tree tree.leaf_file input_coordinate
        ignore_tiny_components fuel s0 with
    | .error e => .error e
    | .ok s => .ok (finishQuery approx input_coordinate s)

/-! ## Static R-tree: notions used in the proofs about the query -/

/-- The edge `e` is read by the scan of some page of the leaf file. -/
def StoredEdge (leaf_file : List LeafNode) (e : DataT) : Prop :=
  ∃ page ∈ leaf_file, ∃ i, i < page.object_count ∧ page.objects.getD i default = e

/-- The squared distance that the query computes for an edge. -/
def edgeDistance (input_coordinate : Coordinate) (e : DataT) : Dbl :=
  (ComputePerpendicularDistance input_coordinate ⟨e.lat1, e.lon1⟩ ⟨e.lat2, e.lon2⟩).distance

/-- The weight of a queued candidate in the termination argument: `B` to the
power of the number of nodes from the candidate's node to the end of the
array. -/
def candidateWeight (B n : Nat) (c : QueryCandidate) : Nat := B ^ (n - c.node_id)

/-- The sum of the weights of the queued candidates. -/
def queueWeight (B n : Nat) (queue : List QueryCandidate) : Nat :=
  (queue.map (candidateWeight B n)).sum

/-- The layout that the traversal needs in order to terminate: every node
that is not a leaf parent has fewer than `B` children, all with a larger index
than the node itself. -/
def RootFirst (B : Nat) (m_search_tree : List TreeNode) : Prop :=
  ∀ i, i < m_search_tree.length → (m_search_tree.getD i default).child_is_on_disk = false →
    (m_search_tree.getD i default).child_count < B ∧
    ∀ j, j < (m_search_tree.getD i default).child_count →
      i < (m_search_tree.getD i default).children.getD j 0

/-- The property of the pending result that every scan step keeps: once an
edge has been found, the identifier of the pending result is that of a stored
edge that passes the filter. -/
def ResultIsStored (leaf_file : List LeafNode) (ig : Bool) (s : QueryState) : Prop :=
  s.found_a_nearest_edge = true →
    ∃ e, StoredEdge leaf_file e ∧ skipsEdge ig e = false ∧
      s.result_phantom_node.edgeBasedNode = e.id

/-- The value that callers pass as `result_phantom_node`: all identifiers
`UINT_MAX`, all weights `INT_MAX`. -/
def emptyPhantomNode : PhantomNode :=
  { edgeBasedNode := 4294967295, nodeBasedEdgeNameID := 4294967295, weight1 := INT_MAX,
    weight2 := INT_MAX, ratio := Dbl.fin 0, location := ⟨INT_MIN, INT_MIN⟩ }

/-- A stand-in for `ApproximateDistance` in examples: the squared Euclidean
distance in coordinate units. -/
def squaredDistance (a b : Coordinate) : Dbl :=
  Dbl.fin (((a.lat - b.lat) * (a.lat - b.lat) + (a.lon - b.lon) * (a.lon - b.lon) : Int) : ℚ)

/-- An index with a single leaf page that holds one edge of a tiny
component. -/
def tinyIndex : StaticRTree :=
  { m_search_tree :=
      [ { minimum_bounding_rectangle :=
            { min_lon := 300000, max_lon := 300700, min_lat := 400000, max_lat := 400500 },
          child_count := 0, child_is_on_disk := true, children := [0] } ],
    m_element_count := 1,
    leaf_file :=
      [ { object_count := 1,
          objects :=
            [ { lat1 := 400000, lon1 := 300000, lat2 := 400500, lon2 := 300700, id := 12,
                nameID := 2, weight := 70, belongsToTinyComponent := true,
                isIgnored := false } ] } ] }

/-- The phantom node returned for `tinyIndex` at zoom level 15. -/
def tinyQueryResult : PhantomNode :=
  { edgeBasedNode := 12, nodeBasedEdgeNameID := 2, weight1 := 1, weight2 := 2147483647,
    ratio := Dbl.fin (1933 / 74000), location := ⟨400081, 300113⟩ }
/-- The state of the scan after the first `k` edges of a page: the recorded
minimum is less than the distance of every scanned, admitted edge plus
`FLT_EPSILON`; and once an edge has been found, the minimum is the distance
of an admitted edge `r` of the page whose name the pending result carries,
and the identifier of the pending result is that of an admitted edge of the
page whose distance differs from the minimum by less than `FLT_EPSILON`. -/
def NearestSoFar (p : Coordinate) (ig : Bool) (leaf : LeafNode) (k : Nat)
    (s : QueryState) : Prop :=
  (∃ qm, s.min_dist = Dbl.fin qm ∧
    ∀ i, i < k → skipsEdge ig (leaf.objects.getD i default) = false →
      ∃ qe, edgeDistance p (leaf.objects.getD i default) = Dbl.fin qe ∧
        qm < qe + 1 / 8388608) ∧
  (s.found_a_nearest_edge = true →
    ∃ r r', StoredEdge [leaf] r ∧ skipsEdge ig r = false ∧
      StoredEdge [leaf] r' ∧ skipsEdge ig r' = false ∧
      s.result_phantom_node.nodeBasedEdgeNameID = r.nameID ∧
      s.result_phantom_node.edgeBasedNode = r'.id ∧
      edgeDistance p r = s.min_dist ∧
      DoubleEpsilonCompare (edgeDistance p r') s.min_dist = true)

/-- Edge number `i` of a straight street that runs along the line of
latitude 0: from longitude `i` to longitude `i + 1`. -/
def streetEdge (i : Nat) : DataT :=
  { lat1 := 0, lon1 := i, lat2 := 0, lon2 := i + 1, id := i, nameID := 7, weight := 10,
    belongsToTinyComponent := false, isIgnored := false }

/-- The first 1170 edges of the street, which fill one leaf page, followed by
one more edge. -/
def streetWith (last : DataT) : List DataT := (List.range 1170).map streetEdge ++ [last]

/-- The index that the constructor builds for `streetWith last` when `last`
follows the street in Hilbert order. -/
def streetWithIndex (last : DataT) : StaticRTree :=
  { m_search_tree :=
      [ { minimum_bounding_rectangle :=
            unionOf [{ min_lon := 0, max_lon := 1170, min_lat := 0, max_lat := 0 },
              boundingBox [last]],
          child_count := 2, child_is_on_disk := false, children := [2, 1] },
        { minimum_bounding_rectangle := boundingBox [last],
          child_count := 0, child_is_on_disk := true, children := [1] },
        { minimum_bounding_rectangle :=
            { min_lon := 0, max_lon := 1170, min_lat := 0, max_lat := 0 },
          child_count := 0, child_is_on_disk := true, children := [0] } ],
    m_element_count := 1171,
    leaf_file :=
      [ { object_count := 1170, objects := (List.range 1170).map streetEdge },
        { object_count := 1, objects := [last] } ] }

/-- A street of 1171 edges, one more than fits into a leaf page. -/
def streetEdges : List DataT := streetWith (streetEdge 1170)

/-- The index that the constructor builds for `streetEdges`. -/
def streetIndex : StaticRTree :=
  { m_search_tree :=
      [ { minimum_bounding_rectangle :=
            { min_lon := 0, max_lon := 1171, min_lat := 0, max_lat := 0 },
          child_count := 2, child_is_on_disk := false, children := [2, 1] },
        { minimum_bounding_rectangle :=
            { min_lon := 1170, max_lon := 1171, min_lat := 0, max_lat := 0 },
          child_count := 0, child_is_on_disk := true, children := [1] },
        { minimum_bounding_rectangle :=
            { min_lon := 0, max_lon := 1170, min_lat := 0, max_lat := 0 },
          child_count := 0, child_is_on_disk := true, children := [0] } ],
    m_element_count := 1171,
    leaf_file :=
      [ { object_count := 1170, objects := (List.range 1170).map streetEdge },
        { object_count := 1, objects := [streetEdge 1170] } ] }

/-- The phantom node that the query leaves behind when it finds no edge in
`streetIndex`: the caller's value with `weight1` scaled by the ratio 0. -/
def streetQueryResult : PhantomNode := { emptyPhantomNode with weight1 := 0 }

/-- A road that crosses the street diagonally, from `(-100, 1300)` to
`(100, 1100)`. -/
def crossingEdge : DataT :=
  { lat1 := -100, lon1 := 1300, lat2 := 100, lon2 := 1100, id := 5000, nameID := 8,
    weight := 40, belongsToTinyComponent := false, isIgnored := false }

/-- The first 1170 edges of the street and the crossing road. -/
def crossingEdges : List DataT := streetWith crossingEdge

/-- The index that the constructor builds for `crossingEdges`. -/
def crossingIndex : StaticRTree :=
  { m_search_tree :=
      [ { minimum_bounding_rectangle :=
            { min_lon := 0, max_lon := 1300, min_lat := -100, max_lat := 100 },
          child_count := 2, child_is_on_disk := false, children := [2, 1] },
        { minimum_bounding_rectangle :=
            { min_lon := 1100, max_lon := 1300, min_lat := -100, max_lat := 100 },
          child_count := 0, child_is_on_disk := true, children := [1] },
        { minimum_bounding_rectangle :=
            { min_lon := 0, max_lon := 1170, min_lat := 0, max_lat := 0 },
          child_count := 0, child_is_on_disk := true, children := [0] } ],
    m_element_count := 1171,
    leaf_file :=
      [ { object_count := 1170, objects := (List.range 1170).map streetEdge },
        { object_count := 1, objects := [crossingEdge] } ] }

/-- One direction of a two-way road, with identifier 11. -/
def twinBackward : DataT :=
  { lat1 := 50, lon1 := 40, lat2 := 10, lon2 := 20, id := 11, nameID := 3, weight := 25,
    belongsToTinyComponent := false, isIgnored := false }

/-- The other direction of the same road, with identifier 10. -/
def twinForward : DataT :=
  { lat1 := 10, lon1 := 20, lat2 := 50, lon2 := 40, id := 10, nameID := 3, weight := 35,
    belongsToTinyComponent := false, isIgnored := false }

/-- The state of the scan at `(25, 30)` after `twinBackward` has been found. -/
def twinPending : QueryState :=
  scanEdge ⟨25, 30⟩ false (initialQueryState squaredDistance [] ⟨25, 30⟩ emptyPhantomNode)
    twinBackward

/-- An index with a single leaf page that holds one degenerate edge, whose end
points coincide. -/
def pointIndex : StaticRTree :=
  { m_search_tree :=
      [ { minimum_bounding_rectangle :=
            { min_lon := 300000, max_lon := 300000, min_lat := 400000, max_lat := 400000 },
          child_count := 0, child_is_on_disk := true, children := [0] } ],
    m_element_count := 1,
    leaf_file :=
      [ { object_count := 1,
          objects :=
            [ { lat1 := 400000, lon1 := 300000, lat2 := 400000, lon2 := 300000, id := 4,
                nameID := 2, weight := 70, belongsToTinyComponent := false,
                isIgnored := false } ] } ] }

/-- The coordinate consists of 32-bit integers. -/
def Coordinate.InRange (c : Coordinate) : Prop :=
  INT_MIN ≤ c.lat ∧ c.lat ≤ INT_MAX ∧ INT_MIN ≤ c.lon ∧ c.lon ≤ INT_MAX

/-- The index that the constructor builds for the single edge `e`. -/
def singleEdgeIndex (e : DataT) : StaticRTree :=
  { m_search_tree :=
      [ { minimum_bounding_rectangle := boundingBox [e], child_count := 0,
          child_is_on_disk := true, children := [0] } ],
    m_element_count := 1,
    leaf_file := [ { object_count := 1, objects := [e] } ] }

/-- The edge of `tinyIndex`. -/
def tinyEdge : DataT :=
  { lat1 := 400000, lon1 := 300000, lat2 := 400500, lon2 := 300700, id := 12, nameID := 2,
    weight := 70, belongsToTinyComponent := true, isIgnored := false }

/-- The state of the query at `(1, 1150)` on `crossingIndex` after the root
has been popped and visited. -/
def crossingAfterRoot : QueryState :=
  visitNode squaredDistance crossingIndex.m_search_tree crossingIndex.leaf_file ⟨1, 1150⟩
    false ⟨0, Dbl.fin 0⟩
    { initialQueryState squaredDistance crossingIndex.m_search_tree ⟨1, 1150⟩
        emptyPhantomNode with traversal_queue := [] }

/-- The bounding box of the street along latitude 0: it has no extent in
latitude. -/
def streetRectangle : RectangleInt2D :=
  { min_lon := 0, max_lon := 1170, min_lat := 0, max_lat := 0 }

/-! ## Static R-tree: the bounds that the search prunes with -/

/-- The value `UINT_MAX` of a 32-bit `unsigned`. -/
def UINT_MAX : Nat := 4294967295

/-- Reduction of a natural number to the range of a 32-bit `unsigned`. -/
def wrapU32 (x : Nat) : Nat := x % 4294967296

/-- Conversion of an `int` to `unsigned`. -/
def toUnsigned (i : Int) : Nat := (i % 4294967296).toNat

/-- The regular expressions that occur in the sources: a decimal digit `\d`,
a literal character, a sequence and an alternative. -/
inductive Regex where
  | digit : Regex
  | char (c : Char) : Regex
  | seq (a b : Regex) : Regex
  | alt (a b : Regex) : Regex
deriving DecidableEq, Repr

/-- The remainders of `s` after each prefix of `s` that matches the
expression. -/
def Regex.remainders : Regex → List Char → List (List Char)
  | .digit, [] => []
  | .digit, c :: s => if c.isDigit then [s] else []
  | .char _, [] => []
  | .char a, c :: s => if c = a then [s] else []
  | .seq a b, s => (a.remainders s).flatMap fun t => b.remainders t
  | .alt a b, s => a.remainders s ++ b.remainders s

/-- The function `boost::regex_match(s, e)`: the whole of `s` matches `e`. -/
def regex_match (s : String) (e : Regex) : Bool := decide ([] ∈ e.remainders s.toList)

/-- The group `(\d|\d\d)`. -/
def digitGroup : Regex := .alt .digit (.seq .digit .digit)

/-- The expression
`((\d|\d\d):(\d|\d\d):(\d|\d\d))|((\d|\d\d):(\d|\d\d))|(\d|\d\d)`
of `durationIsValid` and `parseDuration`. -/
def durationRegex : Regex :=
  .alt
    (.alt
      (.seq digitGroup (.seq (.char ':') (.seq digitGroup (.seq (.char ':') digitGroup))))
      (.seq digitGroup (.seq (.char ':') digitGroup)))
    digitGroup

/-- The tokens of `s` between the occurrences of `sep`. -/
def splitAt (sep : Char) : List Char → List (List Char)
  | [] => [[]]
  | c :: s =>
    if c = sep then [] :: splitAt sep s
    else
      match splitAt sep s with
      | [] => [[c]]
      | token :: tokens => (c :: token) :: tokens

/-- The call `boost::algorithm::split_regex(result, s, boost::regex(":"))`. -/
def split_regex (s : String) : List String := (splitAt ':' s.toList).map String.mk

/-- The function `durationIsValid`. -/
def durationIsValid (s : String) : Bool :=
  let matched := regex_match s durationRegex
  matched

/-- The function `parseDuration`, in 32-bit `unsigned` arithmetic. -/
def parseDuration (stringToInt : String → Int) (s : String) : Nat :=
  let hours0 := 0
  let minutes0 := 0
  let seconds0 := 0
  let result := split_regex s
  let matched := regex_match s durationRegex
  if matched then
    let minutes1 :=
      if 1 = result.length then toUnsigned (stringToInt (result.getD 0 "")) else minutes0
    let minutes2 :=
      if 2 = result.length then toUnsigned (stringToInt (result.getD 1 "")) else minutes1
    let hours2 :=
      if 2 = result.length then toUnsigned (stringToInt (result.getD 0 "")) else hours0
    let seconds3 :=
      if 3 = result.length then toUnsigned (stringToInt (result.getD 2 "")) else seconds0
    let minutes3 :=
      if 3 = result.length then toUnsigned (stringToInt (result.getD 1 "")) else minutes2
    let hours3 :=
      if 3 = result.length then toUnsigned (stringToInt (result.getD 0 "")) else hours2
    wrapU32 (10 * wrapU32 (wrapU32 (wrapU32 (3600 * hours3) + wrapU32 (60 * minutes3)) + seconds3))
  else UINT_MAX

/-! ## Extractor: notions used in the proofs about durations -/

/-- The number that a list of decimal digits denotes. -/
def decimalValue (digits : List Char) : Nat :=
  digits.foldl (fun n c => 10 * n + (c.toNat - 48)) 0

/-- A group of one or two decimal digits. -/
def IsDigitGroup (g : List Char) : Prop :=
  (g.length = 1 ∨ g.length = 2) ∧ ∀ c ∈ g, c.isDigit = true

/-- The contract of `stringToInt` on the groups of a duration: a string of one
or two decimal digits is read as the number it denotes. -/
def ReadsDigitGroups (stringToInt : String → Int) : Prop :=
  ∀ g, IsDigitGroup g → stringToInt (String.mk g) = decimalValue g

/-- A reading of decimal strings, used in examples. -/
def sampleStringToInt (s : String) : Int := decimalValue s.toList

/-! ## Douglas-Peucker: elementary facts -/

theorem wrap32_le (x : Int) (h : -2147483648 ≤ x) : wrap32 x ≤ x := by
  unfold wrap32; omega

theorem locationAt_of_lt (g : List PointT) (j : Nat) (h : j < g.length) :
    locationAt g j = g[j].location := by
  simp [locationAt, List.getElem?_eq_getElem h]

theorem necessaryAt_of_lt (g : List PointT) (j : Nat) (h : j < g.length) :
    necessaryAt g j = g[j].necessary := by
  simp [necessaryAt, List.getElem?_eq_getElem h]

theorem necessaryAt_of_ge (g : List PointT) (j : Nat) (h : g.length ≤ j) :
    necessaryAt g j = false := by
  simp [necessaryAt, List.getElem?_eq_none h]

theorem necessaryAt_lt (g : List PointT) (j : Nat) (h : necessaryAt g j = true) :
    j < g.length := by
  by_contra hc
  rw [necessaryAt_of_ge g j (by omega)] at h
  exact Bool.noConfusion h

theorem markNecessary_length (g : List PointT) (i : Nat) :
    (markNecessary g i).length = g.length := by
  induction g generalizing i with
  | nil => rfl
  | cons p ps ih => cases i <;> simp [markNecessary, ih]

theorem locationAt_markNecessary (g : List PointT) (i j : Nat) :
    locationAt (markNecessary g i) j = locationAt g j := by
  induction g generalizing i j with
  | nil => rfl
  | cons p ps ih =>
    cases i with
    | zero => cases j <;> simp [markNecessary, locationAt]
    | succ i =>
      cases j with
      | zero => simp [markNecessary, locationAt]
      | succ j =>
        have := ih i j
        simpa [markNecessary, locationAt] using this

theorem necessaryAt_markNecessary (g : List PointT) (i j : Nat) (hi : i < g.length) :
    necessaryAt (markNecessary g i) j = true ↔ (necessaryAt g j = true ∨ j = i) := by
  induction g generalizing i j with
  | nil => simp at hi
  | cons p ps ih =>
    cases i with
    | zero => cases j <;> simp [markNecessary, necessaryAt]
    | succ i =>
      cases j with
      | zero => simp [markNecessary, necessaryAt]
      | succ j =>
        have := ih i j (by simpa using hi)
        simpa [markNecessary, necessaryAt] using this

theorem backNecessary_eq (g : List PointT) :
    backNecessary g = necessaryAt g (g.length - 1) := by
  unfold backNecessary necessaryAt
  rw [List.getLast?_eq_getElem?]

theorem geometry_ext (g g' : List PointT) (hlen : g'.length = g.length)
    (hloc : ∀ j, locationAt g' j = locationAt g j)
    (hnec : ∀ j, necessaryAt g' j = necessaryAt g j) : g' = g := by
  apply List.ext_getElem hlen
  intro n h1 h2
  have a := hloc n
  have b := hnec n
  rw [locationAt_of_lt g' n h1, locationAt_of_lt g n h2] at a
  rw [necessaryAt_of_lt g' n h1, necessaryAt_of_lt g n h2] at b
  cases hx : g'[n]
  cases hy : g[n]
  simp_all

/-! ## Douglas-Peucker: the split decision of one range -/

theorem distanceAt_nonneg (g : List PointT) (l r i : Nat) : 0 ≤ distanceAt g l r i := by
  unfold distanceAt; exact abs_nonneg _

theorem distanceAt_congr (g g' : List PointT)
    (hloc : ∀ j, locationAt g' j = locationAt g j) (l r i : Nat) :
    distanceAt g' l r i = distanceAt g l r i := by
  unfold distanceAt; rw [hloc, hloc, hloc]

theorem findFarthest_congr (g g' : List PointT)
    (hloc : ∀ j, locationAt g' j = locationAt g j) (T : Int) (l r : Nat) :
    findFarthest g' T l r = findFarthest g T l r := by
  have : farthestStep g' T l r = farthestStep g T l r := by
    funext s i
    unfold farthestStep
    rw [distanceAt_congr g g' hloc]
  unfold findFarthest
  rw [this]

theorem splitIndex_congr (g g' : List PointT)
    (hloc : ∀ j, locationAt g' j = locationAt g j) (T : Int) (l r : Nat) :
    splitIndex g' T l r = splitIndex g T l r := by
  unfold splitIndex
  rw [findFarthest_congr g g' hloc]

theorem Marked_congr (g g' : List PointT)
    (hloc : ∀ j, locationAt g' j = locationAt g j) (T : Int) (l r j : Nat)
    (h : Marked g T l r j) : Marked g' T l r j := by
  induction h with
  | here hs => exact Marked.here (by rw [splitIndex_congr g g' hloc]; exact hs)
  | left hs _ ih => exact Marked.left (by rw [splitIndex_congr g g' hloc]; exact hs) ih
  | right hs _ ih => exact Marked.right (by rw [splitIndex_congr g g' hloc]; exact hs) ih

theorem farthestStep_eq (g : List PointT) (T : Int) (l r : Nat) (s : Nat × Int) (i : Nat) :
    farthestStep g T l r s i =
      if distanceAt g l r i > T ∧ distanceAt g l r i > s.2 then
        (i, wrap32 (distanceAt g l r i)) else s := rfl

theorem foldl_invariant {α β : Type} (P : α → Prop) (f : α → β → α) (l : List β) (a : α)
    (h0 : P a) (hstep : ∀ s x, x ∈ l → P s → P (f s x)) : P (l.foldl f a) := by
  induction l generalizing a with
  | nil => exact h0
  | cons x xs ih =>
    simp only [List.foldl_cons]
    apply ih
    · exact hstep a x (List.mem_cons_self x xs) h0
    · intro s y hy hs
      exact hstep s y (List.mem_cons_of_mem x hy) hs

/-- After the `for` loop either nothing was selected, or the selected index
is an interior index of the range. -/
theorem findFarthest_index (g : List PointT) (T : Int) (l r : Nat) :
    (findFarthest g T l r = (r, INT_MIN)) ∨
      (l < (findFarthest g T l r).1 ∧ (findFarthest g T l r).1 < r) := by
  unfold findFarthest
  apply foldl_invariant
    (fun s : Nat × Int => s = (r, INT_MIN) ∨ (l < s.1 ∧ s.1 < r))
  · exact Or.inl rfl
  · intro s x hx hs
    rw [farthestStep_eq]
    split
    · right
      rw [List.mem_range'_1] at hx
      simp only
      omega
    · exact hs

theorem splitIndex_bounds (g : List PointT) (T : Int) (hT : INT_MIN ≤ T) (l r i : Nat)
    (h : splitIndex g T l r = some i) : l < i ∧ i < r := by
  unfold splitIndex at h
  split at h
  · rename_i hgt
    rcases findFarthest_index g T l r with h1 | h1
    · rw [h1] at hgt
      simp only at hgt
      omega
    · simp only [Option.some.injEq] at h
      rw [← h]; exact h1
  · exact Option.noConfusion h

theorem Marked_bounds (g : List PointT) (T : Int) (hT : INT_MIN ≤ T) (l r j : Nat)
    (h : Marked g T l r j) : l < j ∧ j < r := by
  induction h with
  | here hs => exact splitIndex_bounds g T hT _ _ _ hs
  | left hs _ ih =>
    have := splitIndex_bounds g T hT _ _ _ hs
    omega
  | right hs _ ih =>
    have := splitIndex_bounds g T hT _ _ _ hs
    omega

theorem Marked_of_none (g : List PointT) (T : Int) (l r j : Nat)
    (h : splitIndex g T l r = none) : ¬ Marked g T l r j := by
  intro hm
  cases hm with
  | here hs => rw [h] at hs; exact Option.noConfusion hs
  | left hs _ => rw [h] at hs; exact Option.noConfusion hs
  | right hs _ => rw [h] at hs; exact Option.noConfusion hs

theorem Marked_of_some (g : List PointT) (T : Int) (l r i j : Nat)
    (h : splitIndex g T l r = some i) :
    Marked g T l r j ↔ (j = i ∨ Marked g T l i j ∨ Marked g T i r j) := by
  constructor
  · intro hm
    cases hm with
    | here hs => rw [h] at hs; left; exact (Option.some.inj hs).symm
    | left hs hm =>
      rw [h] at hs; cases Option.some.inj hs; right; left; exact hm
    | right hs hm =>
      rw [h] at hs; cases Option.some.inj hs; right; right; exact hm
  · rintro (rfl | hm | hm)
    · exact Marked.here h
    · exact Marked.left h hm
    · exact Marked.right h hm

/-- Lowering the threshold keeps every split that the higher one makes. -/
theorem farthest_fold_mono (g : List PointT) (T1 T2 : Int) (hT : T2 ≤ T1) (l r : Nat)
    (L : List Nat) (s1 s2 : Nat × Int)
    (h : s1 = s2 ∨ (s1.2 ≤ T1 ∧ s2.2 ≤ T1)) :
    L.foldl (farthestStep g T1 l r) s1 = L.foldl (farthestStep g T2 l r) s2 ∨
      ((L.foldl (farthestStep g T1 l r) s1).2 ≤ T1 ∧
        (L.foldl (farthestStep g T2 l r) s2).2 ≤ T1) := by
  induction L generalizing s1 s2 with
  | nil => exact h
  | cons x xs ih =>
    simp only [List.foldl_cons]
    apply ih
    have hd := distanceAt_nonneg g l r x
    have hw := wrap32_le (distanceAt g l r x) (by omega)
    rw [farthestStep_eq, farthestStep_eq]
    rcases h with h | ⟨h1, h2⟩
    · subst h
      by_cases c1 : distanceAt g l r x > T1 ∧ distanceAt g l r x > s1.2
      · have c2 : distanceAt g l r x > T2 ∧ distanceAt g l r x > s1.2 := ⟨by omega, c1.2⟩
        rw [if_pos c1, if_pos c2]; exact Or.inl rfl
      · by_cases c2 : distanceAt g l r x > T2 ∧ distanceAt g l r x > s1.2
        · rw [if_neg c1, if_pos c2]
          right
          simp only
          constructor <;> omega
        · rw [if_neg c1, if_neg c2]; exact Or.inl rfl
    · by_cases c0 : distanceAt g l r x > T1
      · have c1 : distanceAt g l r x > T1 ∧ distanceAt g l r x > s1.2 := ⟨c0, by omega⟩
        have c2 : distanceAt g l r x > T2 ∧ distanceAt g l r x > s2.2 := ⟨by omega, by omega⟩
        rw [if_pos c1, if_pos c2]; exact Or.inl rfl
      · have c1 : ¬ (distanceAt g l r x > T1 ∧ distanceAt g l r x > s1.2) := fun c => c0 c.1
        rw [if_neg c1]
        right
        refine ⟨h1, ?_⟩
        split
        · simp only; omega
        · exact h2

theorem splitIndex_mono (g : List PointT) (T1 T2 : Int) (hT : T2 ≤ T1) (l r i : Nat)
    (h : splitIndex g T1 l r = some i) : splitIndex g T2 l r = some i := by
  have key := farthest_fold_mono g T1 T2 hT l r
    (List.range' (l + 1) (r - (l + 1))) (r, INT_MIN) (r, INT_MIN) (Or.inl rfl)
  unfold splitIndex at h ⊢
  unfold findFarthest at h ⊢
  split at h
  · rename_i hgt
    rcases key with key | ⟨k1, _⟩
    · rw [← key]
      rw [if_pos (by omega)]
      exact h
    · omega
  · exact Option.noConfusion h

theorem Marked_mono (g : List PointT) (T1 T2 : Int) (hT : T2 ≤ T1) (l r j : Nat)
    (h : Marked g T1 l r j) : Marked g T2 l r j := by
  induction h with
  | here hs => exact Marked.here (splitIndex_mono g T1 T2 hT _ _ _ hs)
  | left hs _ ih => exact Marked.left (splitIndex_mono g T1 T2 hT _ _ _ hs) ih
  | right hs _ ih => exact Marked.right (splitIndex_mono g T1 T2 hT _ _ _ hs) ih

/-! ## Douglas-Peucker: the stack loop -/

theorem mem_pushParts (l r far : Nat) (rest : List (Nat × Nat)) (q : Nat × Nat) :
    q ∈ pushParts l r far rest ↔
      ((q = (far, r) ∧ 1 < r - far) ∨ (q = (l, far) ∧ 1 < far - l) ∨ q ∈ rest) := by
  unfold pushParts
  by_cases h1 : 1 < r - far <;> by_cases h2 : 1 < far - l <;>
    simp [h1, h2]

theorem stackMeasure_pushParts (l r far : Nat) (rest : List (Nat × Nat))
    (h1 : l < far) (h2 : far < r) :
    stackMeasure (pushParts l r far rest) + 1 ≤ stackMeasure ((l, r) :: rest) := by
  unfold pushParts
  by_cases c1 : 1 < r - far <;> by_cases c2 : 1 < far - l <;>
    simp only [c1, c2, if_true, if_false, stackMeasure] <;> omega

theorem processStack_nil (T : Int) (fuel : Nat) (g : List PointT) :
    processStack T fuel g [] = .ok g := by
  cases fuel <;> rfl

theorem processStack_none (T : Int) (fuel : Nat) (g : List PointT) (l r : Nat)
    (rest : List (Nat × Nat)) (hlr : l < r) (hr : r < g.length)
    (hnl : necessaryAt g l = true) (hnr : necessaryAt g r = true)
    (hs : splitIndex g T l r = none) :
    processStack T (fuel + 1) g ((l, r) :: rest) = processStack T fuel g rest := by
  have : ¬ (findFarthest g T l r).2 > T := by
    unfold splitIndex at hs
    intro c; rw [if_pos c] at hs; exact Option.noConfusion hs
  simp [processStack, hnl, hnr, hr, hlr, this]

theorem processStack_some (T : Int) (fuel : Nat) (g : List PointT) (l r far : Nat)
    (rest : List (Nat × Nat)) (hlr : l < r) (hr : r < g.length)
    (hnl : necessaryAt g l = true) (hnr : necessaryAt g r = true)
    (hs : splitIndex g T l r = some far) :
    processStack T (fuel + 1) g ((l, r) :: rest) =
      processStack T fuel (markNecessary g far) (pushParts l r far rest) := by
  unfold splitIndex at hs
  by_cases c : (findFarthest g T l r).2 > T
  · rw [if_pos c] at hs
    have hfar : (findFarthest g T l r).1 = far := Option.some.inj hs
    unfold pushParts
    simp only [processStack, hnl, hnr, hr, hlr, c, hfar, not_true_eq_false, if_false, if_true]
  · rw [if_neg c] at hs; exact Option.noConfusion hs

/-- The stack loop terminates within the fuel given by `stackMeasure`, keeps
the locations, and marks exactly the indices in `Marked` of the ranges on the
stack. -/
theorem processStack_spec (T : Int) (hT : INT_MIN ≤ T) :
    ∀ (fuel : Nat) (g : List PointT) (st : List (Nat × Nat)),
      StackOK g st → stackMeasure st ≤ fuel →
      ∃ g', processStack T fuel g st = .ok g' ∧ g'.length = g.length ∧
        (∀ j, locationAt g' j = locationAt g j) ∧
        ∀ j, necessaryAt g' j = true ↔
          (necessaryAt g j = true ∨ ∃ p ∈ st, Marked g T p.1 p.2 j) := by
  intro fuel
  induction fuel with
  | zero =>
    intro g st hok hm
    cases st with
    | nil => exact ⟨g, processStack_nil T 0 g, rfl, fun _ => rfl, by simp⟩
    | cons p st =>
      have := hok p (List.mem_cons_self _ _)
      simp only [stackMeasure] at hm; omega
  | succ fuel ih =>
    intro g st hok hm
    cases st with
    | nil => exact ⟨g, processStack_nil T _ g, rfl, fun _ => rfl, by simp⟩
    | cons p rest =>
      obtain ⟨l, r⟩ := p
      obtain ⟨hlr, hrlen, hnl, hnr⟩ := hok (l, r) (List.mem_cons_self _ _)
      simp only at hlr hrlen hnl hnr
      have hrest : StackOK g rest := fun q hq => hok q (List.mem_cons_of_mem _ hq)
      cases hs : splitIndex g T l r with
      | none =>
        have hm' : stackMeasure rest ≤ fuel := by
          simp only [stackMeasure] at hm; omega
        obtain ⟨g', h1, h2, h3, h4⟩ := ih g rest hrest hm'
        refine ⟨g', ?_, h2, h3, ?_⟩
        · rw [processStack_none T fuel g l r rest hlr hrlen hnl hnr hs]; exact h1
        · intro j
          rw [h4 j]
          constructor
          · rintro (h | ⟨q, hq, hmq⟩)
            · exact Or.inl h
            · exact Or.inr ⟨q, List.mem_cons_of_mem _ hq, hmq⟩
          · rintro (h | ⟨q, hq, hmq⟩)
            · exact Or.inl h
            · rcases List.mem_cons.mp hq with rfl | hq
              · exact absurd hmq (Marked_of_none g T l r j hs)
              · exact Or.inr ⟨q, hq, hmq⟩
      | some far =>
        obtain ⟨hlf, hfr⟩ := splitIndex_bounds g T hT l r far hs
        have hfar : far < g.length := by omega
        have hlen1 := markNecessary_length g far
        have hloc1 := locationAt_markNecessary g far
        have hnec1 := fun j => necessaryAt_markNecessary g far j hfar
        have hok1 : StackOK (markNecessary g far) (pushParts l r far rest) := by
          intro q hq
          rw [mem_pushParts] at hq
          rw [hlen1, hnec1, hnec1]
          rcases hq with ⟨rfl, _⟩ | ⟨rfl, _⟩ | hq
          · exact ⟨hfr, hrlen, Or.inr rfl, Or.inl hnr⟩
          · exact ⟨hlf, hfar, Or.inl hnl, Or.inr rfl⟩
          · obtain ⟨a, b, c, d⟩ := hrest q hq
            exact ⟨a, b, Or.inl c, Or.inl d⟩
        have hm1 : stackMeasure (pushParts l r far rest) ≤ fuel := by
          have := stackMeasure_pushParts l r far rest hlf hfr
          omega
        obtain ⟨g', h1, h2, h3, h4⟩ := ih _ _ hok1 hm1
        refine ⟨g', ?_, by rw [h2, hlen1], fun j => by rw [h3, hloc1], ?_⟩
        · rw [processStack_some T fuel g l r far rest hlr hrlen hnl hnr hs]; exact h1
        · intro j
          rw [h4 j, hnec1]
          constructor
          · rintro ((h | rfl) | ⟨q, hq, hmq⟩)
            · exact Or.inl h
            · exact Or.inr ⟨(l, r), List.mem_cons_self _ _, Marked.here hs⟩
            · have hmq' : Marked g T q.1 q.2 j :=
                Marked_congr _ g (fun k => (hloc1 k).symm) T _ _ _ hmq
              rw [mem_pushParts] at hq
              rcases hq with ⟨rfl, _⟩ | ⟨rfl, _⟩ | hq
              · exact Or.inr ⟨(l, r), List.mem_cons_self _ _, Marked.right hs hmq'⟩
              · exact Or.inr ⟨(l, r), List.mem_cons_self _ _, Marked.left hs hmq'⟩
              · exact Or.inr ⟨q, List.mem_cons_of_mem _ hq, hmq'⟩
          · rintro (h | ⟨q, hq, hmq⟩)
            · exact Or.inl (Or.inl h)
            · rcases List.mem_cons.mp hq with rfl | hq
              · rcases (Marked_of_some g T l r far j hs).mp hmq with rfl | hm | hm
                · exact Or.inl (Or.inr rfl)
                · have hb := Marked_bounds g T hT _ _ _ hm
                  refine Or.inr ⟨(l, far), ?_, Marked_congr g _ hloc1 T _ _ _ hm⟩
                  rw [mem_pushParts]
                  exact Or.inr (Or.inl ⟨rfl, by omega⟩)
                · have hb := Marked_bounds g T hT _ _ _ hm
                  refine Or.inr ⟨(far, r), ?_, Marked_congr g _ hloc1 T _ _ _ hm⟩
                  rw [mem_pushParts]
                  exact Or.inl ⟨rfl, by omega⟩
              · exact Or.inr ⟨q, (mem_pushParts _ _ _ _ _).mpr (Or.inr (Or.inr hq)),
                  Marked_congr g _ hloc1 T _ _ _ hmq⟩

/-! ## Douglas-Peucker: the sweep and the whole run -/

theorem consec_push (g : List PointT) (left right : Nat) (st : List (Nat × Nat))
    (hlr : left < right) (hr : right < g.length)
    (hnl : necessaryAt g left = true) (hnr : necessaryAt g right = true)
    (hint : ∀ k, left < k → k < right → necessaryAt g k = false)
    (hst : ∀ l r, (l, r) ∈ st ↔ (Consec g l r ∧ r ≤ left)) :
    ∀ l r, (l, r) ∈ (left, right) :: st ↔ (Consec g l r ∧ r ≤ right) := by
  intro l r
  rw [List.mem_cons, hst]
  constructor
  · rintro (h | ⟨h1, h2⟩)
    · cases h
      exact ⟨⟨hlr, hr, hnl, hnr, hint⟩, le_refl _⟩
    · exact ⟨h1, by omega⟩
  · rintro ⟨hc, hle⟩
    by_cases c : r ≤ left
    · exact Or.inr ⟨hc, c⟩
    · left
      obtain ⟨c1, c2, c3, c4, c5⟩ := hc
      have hr' : r = right := by
        by_contra hne
        have := hint r (by omega) (by omega)
        rw [this] at c4; exact Bool.noConfusion c4
      subst hr'
      have hl1 : l ≤ left := by
        by_contra hne
        have := hint l (by omega) (by omega)
        rw [this] at c3; exact Bool.noConfusion c3
      have hl2 : ¬ l < left := by
        intro hlt
        have := c5 left hlt hlr
        rw [this] at hnl; exact Bool.noConfusion hnl
      have : l = left := by omega
      subst this
      rfl

theorem sweep_spec (g : List PointT) (hback : necessaryAt g (g.length - 1) = true) :
    ∀ (fuel left right : Nat) (st : List (Nat × Nat)),
      left < right → right < g.length → g.length ≤ fuel + right →
      necessaryAt g left = true →
      (∀ k, left < k → k < right → necessaryAt g k = false) →
      (∀ l r, (l, r) ∈ st ↔ (Consec g l r ∧ r ≤ left)) →
      stackMeasure st ≤ 2 * left →
      ∃ st', sweep g fuel left right st = .ok st' ∧
        (∀ l r, (l, r) ∈ st' ↔ Consec g l r) ∧ stackMeasure st' ≤ 2 * g.length := by
  intro fuel
  induction fuel with
  | zero => intro left right st _ h2 h3; omega
  | succ fuel ih =>
    intro left right st hlr hr hfuel hnl hint hst hmeas
    have hb : backNecessary g = true := by rw [backNecessary_eq]; exact hback
    by_cases hlast : right + 1 < g.length
    · by_cases hnr : necessaryAt g right = true
      · have hstep : sweep g (fuel + 1) left right st =
            sweep g fuel right (right + 1) ((left, right) :: st) := by
          simp [sweep, hnl, hb, hnr, hlast]
        rw [hstep]
        apply ih
        · omega
        · exact hlast
        · omega
        · exact hnr
        · intro k h1 h2; omega
        · exact consec_push g left right st hlr hr hnl hnr hint hst
        · simp only [stackMeasure]; omega
      · have hnr' : necessaryAt g right = false := by
          cases h : necessaryAt g right
          · rfl
          · exact absurd h hnr
        have hstep : sweep g (fuel + 1) left right st =
            sweep g fuel left (right + 1) st := by
          simp [sweep, hnl, hb, hnr', hlast]
        rw [hstep]
        apply ih
        · omega
        · exact hlast
        · omega
        · exact hnl
        · intro k h1 h2
          by_cases hk : k = right
          · rw [hk]; exact hnr'
          · exact hint k h1 (by omega)
        · exact hst
        · exact hmeas
    · have hrl : right = g.length - 1 := by omega
      have hnr : necessaryAt g right = true := by rw [hrl]; exact hback
      have hstep : sweep g (fuel + 1) left right st = .ok ((left, right) :: st) := by
        simp [sweep, hnl, hb, hnr, hlast]
      refine ⟨_, hstep, ?_, ?_⟩
      · intro l r
        rw [consec_push g left right st hlr hr hnl hnr hint hst]
        constructor
        · exact fun h => h.1
        · intro h
          exact ⟨h, by have := h.2.1; omega⟩
      · simp only [stackMeasure]; omega

/-- What `Run` does on a valid geometry for a threshold not below `INT_MIN`:
it returns a geometry of the same length with the same locations, in which
exactly the old necessary points and the points in `Marked` of the ranges
between consecutive old necessary points are necessary. -/
theorem RunWithThreshold_spec (T : Int) (hT : INT_MIN ≤ T) (g : List PointT)
    (hlen : 1 < g.length) (h0 : necessaryAt g 0 = true)
    (hlast : necessaryAt g (g.length - 1) = true) :
    ∃ g', RunWithThreshold T g = .ok g' ∧ g'.length = g.length ∧
      (∀ j, locationAt g' j = locationAt g j) ∧
      ∀ j, necessaryAt g' j = true ↔
        (necessaryAt g j = true ∨ ∃ l r, Consec g l r ∧ Marked g T l r j) := by
  obtain ⟨st, hsw, hmem, hmeas⟩ := sweep_spec g hlast g.length 0 1 []
    (by omega) hlen (by omega) h0 (by intro k h1 h2; omega)
    (by
      intro l r
      constructor
      · intro h; exact absurd h (List.not_mem_nil _)
      · rintro ⟨hc, hle⟩
        have := hc.1
        omega)
    (by simp [stackMeasure])
  have hok : StackOK g st := by
    intro p hp
    obtain ⟨l, r⟩ := p
    obtain ⟨a, b, c, d, _⟩ := (hmem l r).mp hp
    exact ⟨a, b, c, d⟩
  obtain ⟨g', h1, h2, h3, h4⟩ := processStack_spec T hT (2 * g.length) g st hok hmeas
  refine ⟨g', ?_, h2, h3, ?_⟩
  · unfold RunWithThreshold
    rw [if_neg (by omega), hsw]
    exact h1
  · intro j
    rw [h4 j]
    constructor
    · rintro (h | ⟨p, hp, hm⟩)
      · exact Or.inl h
      · obtain ⟨l, r⟩ := p
        exact Or.inr ⟨l, r, (hmem l r).mp hp, hm⟩
    · rintro (h | ⟨l, r, hc, hm⟩)
      · exact Or.inl h
      · exact Or.inr ⟨(l, r), (hmem l r).mpr hc, hm⟩

/-! ## Douglas-Peucker: a second run after a first one -/

theorem consec_unique (g : List PointT) (l r l' r' k : Nat)
    (h : Consec g l r) (h' : Consec g l' r')
    (hk : l < k ∧ k < r) (hk' : l' < k ∧ k < r') : l' = l ∧ r' = r := by
  obtain ⟨a1, a2, a3, a4, a5⟩ := h
  obtain ⟨b1, b2, b3, b4, b5⟩ := h'
  have e1 : ¬ l < l' := fun c => by
    have := a5 l' c (by omega); rw [this] at b3; exact Bool.noConfusion b3
  have e2 : ¬ l' < l := fun c => by
    have := b5 l c (by omega); rw [this] at a3; exact Bool.noConfusion a3
  have e3 : ¬ r < r' := fun c => by
    have := b5 r (by omega) c; rw [this] at a4; exact Bool.noConfusion a4
  have e4 : ¬ r' < r := fun c => by
    have := a5 r' (by omega) c; rw [this] at b4; exact Bool.noConfusion b4
  omega

theorem rangeClosed_of_consec (g g1 : List PointT) (T1 : Int) (hT : INT_MIN ≤ T1)
    (hflag : ∀ j, necessaryAt g1 j = true ↔
      (necessaryAt g j = true ∨ ∃ l r, Consec g l r ∧ Marked g T1 l r j))
    (l r : Nat) (h : Consec g l r) : RangeClosed g g1 T1 l r := by
  obtain ⟨a1, a2, a3, a4, a5⟩ := h
  refine ⟨a1, a2, (hflag l).mpr (Or.inl a3), (hflag r).mpr (Or.inl a4), ?_⟩
  intro k hk1 hk2
  rw [hflag k]
  constructor
  · rintro (c | ⟨l', r', hc, hm⟩)
    · rw [a5 k hk1 hk2] at c; exact Bool.noConfusion c
    · have hb := Marked_bounds g T1 hT _ _ _ hm
      obtain ⟨e1, e2⟩ := consec_unique g l r l' r' k ⟨a1, a2, a3, a4, a5⟩ hc ⟨hk1, hk2⟩ hb
      subst e1; subst e2
      exact hm
  · intro hm
    exact Or.inr ⟨l, r, ⟨a1, a2, a3, a4, a5⟩, hm⟩

theorem rangeClosed_split (g g1 : List PointT) (T1 : Int) (hT : INT_MIN ≤ T1)
    (l r i : Nat) (h : RangeClosed g g1 T1 l r) (hs : splitIndex g T1 l r = some i) :
    RangeClosed g g1 T1 l i ∧ RangeClosed g g1 T1 i r := by
  obtain ⟨a1, a2, a3, a4, a5⟩ := h
  obtain ⟨b1, b2⟩ := splitIndex_bounds g T1 hT l r i hs
  have hi : necessaryAt g1 i = true := (a5 i b1 b2).mpr (Marked.here hs)
  constructor
  · refine ⟨b1, by omega, a3, hi, ?_⟩
    intro k hk1 hk2
    rw [a5 k hk1 (by omega), Marked_of_some g T1 l r i k hs]
    constructor
    · rintro (c | c | c)
      · omega
      · exact c
      · have := Marked_bounds g T1 hT _ _ _ c; omega
    · intro c; exact Or.inr (Or.inl c)
  · refine ⟨b2, a2, hi, a4, ?_⟩
    intro k hk1 hk2
    rw [a5 k (by omega) hk2, Marked_of_some g T1 l r i k hs]
    constructor
    · rintro (c | c | c)
      · omega
      · have := Marked_bounds g T1 hT _ _ _ c; omega
      · exact c
    · intro c; exact Or.inr (Or.inr c)

theorem consec_of_rangeClosed (g g1 : List PointT) (T1 : Int)
    (hlen : g1.length = g.length)
    (l r : Nat) (h : RangeClosed g g1 T1 l r) (hs : splitIndex g T1 l r = none) :
    Consec g1 l r := by
  obtain ⟨a1, a2, a3, a4, a5⟩ := h
  refine ⟨a1, by omega, a3, a4, ?_⟩
  intro k hk1 hk2
  cases hc : necessaryAt g1 k
  · rfl
  · exact absurd ((a5 k hk1 hk2).mp hc) (Marked_of_none g T1 l r k hs)

/-- What the lower threshold marks in a range of `g` is, in `g1`, either
already necessary or marked in one of the ranges of `g1`. -/
theorem marked_covered (g g1 : List PointT) (T1 T2 : Int) (hT2 : INT_MIN ≤ T2) (hT : T2 ≤ T1)
    (hlen : g1.length = g.length) (l r j : Nat)
    (hm : Marked g T2 l r j) (h : RangeClosed g g1 T1 l r) :
    necessaryAt g1 j = true ∨ ∃ a b, Consec g1 a b ∧ Marked g T2 a b j := by
  have hT1 : INT_MIN ≤ T1 := le_trans hT2 hT
  induction hm with
  | @here l r i hs =>
    cases hs1 : splitIndex g T1 l r with
    | none => exact Or.inr ⟨l, r, consec_of_rangeClosed g g1 T1 hlen l r h hs1, Marked.here hs⟩
    | some i' =>
      have := splitIndex_mono g T1 T2 hT l r i' hs1
      rw [hs] at this
      cases Option.some.inj this
      obtain ⟨b1, b2⟩ := splitIndex_bounds g T1 hT1 l r i hs1
      exact Or.inl ((h.2.2.2.2 i b1 b2).mpr (Marked.here hs1))
  | @left l r i j hs hm ih =>
    cases hs1 : splitIndex g T1 l r with
    | none =>
      exact Or.inr ⟨l, r, consec_of_rangeClosed g g1 T1 hlen l r h hs1, Marked.left hs hm⟩
    | some i' =>
      have := splitIndex_mono g T1 T2 hT l r i' hs1
      rw [hs] at this
      cases Option.some.inj this
      exact ih (rangeClosed_split g g1 T1 hT1 l r i h hs1).1
  | @right l r i j hs hm ih =>
    cases hs1 : splitIndex g T1 l r with
    | none =>
      exact Or.inr ⟨l, r, consec_of_rangeClosed g g1 T1 hlen l r h hs1, Marked.right hs hm⟩
    | some i' =>
      have := splitIndex_mono g T1 T2 hT l r i' hs1
      rw [hs] at this
      cases Option.some.inj this
      exact ih (rangeClosed_split g g1 T1 hT1 l r i h hs1).2

/-- What the lower threshold marks in a range of `g1` it also marks in the
enclosing range of `g`. -/
theorem marked_lifted (g g1 : List PointT) (T1 T2 : Int) (hT2 : INT_MIN ≤ T2) (hT : T2 ≤ T1)
    (hlen : g1.length = g.length) (a b j : Nat) (hc : Consec g1 a b)
    (hm : Marked g T2 a b j) :
    ∀ (n l r : Nat), r - l ≤ n → RangeClosed g g1 T1 l r → l ≤ a → b ≤ r →
      Marked g T2 l r j := by
  have hT1 : INT_MIN ≤ T1 := le_trans hT2 hT
  obtain ⟨c1, c2, c3, c4, c5⟩ := hc
  intro n
  induction n with
  | zero =>
    intro l r hn h hla hbr
    have := h.1
    omega
  | succ n ih =>
    intro l r hn h hla hbr
    cases hs1 : splitIndex g T1 l r with
    | none =>
      obtain ⟨d1, d2, d3, d4, d5⟩ := consec_of_rangeClosed g g1 T1 hlen l r h hs1
      have e1 : a = l := by
        by_contra hne
        have := d5 a (by omega) (by omega)
        rw [this] at c3; exact Bool.noConfusion c3
      have e2 : b = r := by
        by_contra hne
        have := d5 b (by omega) (by omega)
        rw [this] at c4; exact Bool.noConfusion c4
      subst e1; subst e2
      exact hm
    | some i =>
      obtain ⟨b1, b2⟩ := splitIndex_bounds g T1 hT1 l r i hs1
      obtain ⟨hl, hr⟩ := rangeClosed_split g g1 T1 hT1 l r i h hs1
      have hs2 := splitIndex_mono g T1 T2 hT l r i hs1
      have hi : necessaryAt g1 i = true := hl.2.2.2.1
      have hcase : b ≤ i ∨ i ≤ a := by
        by_contra hne
        have := c5 i (by omega) (by omega)
        rw [this] at hi; exact Bool.noConfusion hi
      rcases hcase with hcase | hcase
      · exact Marked.left hs2 (ih l i (by omega) hl hla hcase)
      · exact Marked.right hs2 (ih i r (by omega) hr hcase hbr)

theorem exists_flag_below (g : List PointT) (h0 : necessaryAt g 0 = true) (a : Nat) :
    ∃ l, l ≤ a ∧ necessaryAt g l = true ∧ ∀ k, l < k → k ≤ a → necessaryAt g k = false := by
  induction a with
  | zero => exact ⟨0, le_refl _, h0, fun k h1 h2 => by omega⟩
  | succ a ih =>
    cases hc : necessaryAt g (a + 1)
    · obtain ⟨l, h1, h2, h3⟩ := ih
      refine ⟨l, by omega, h2, ?_⟩
      intro k hk1 hk2
      by_cases e : k = a + 1
      · rw [e]; exact hc
      · exact h3 k hk1 (by omega)
    · exact ⟨a + 1, le_refl _, hc, fun k h1 h2 => by omega⟩

theorem exists_flag_above (g : List PointT) (m : Nat) (hm : necessaryAt g m = true) :
    ∀ (d b : Nat), b + d = m →
      ∃ r, b ≤ r ∧ necessaryAt g r = true ∧ ∀ k, b ≤ k → k < r → necessaryAt g k = false := by
  intro d
  induction d with
  | zero =>
    intro b hb
    have : b = m := by omega
    subst this
    exact ⟨b, le_refl _, hm, fun k h1 h2 => by omega⟩
  | succ d ih =>
    intro b hb
    cases hc : necessaryAt g b
    · obtain ⟨r, h1, h2, h3⟩ := ih (b + 1) (by omega)
      refine ⟨r, by omega, h2, ?_⟩
      intro k hk1 hk2
      by_cases e : k = b
      · rw [e]; exact hc
      · exact h3 k (by omega) hk2
    · exact ⟨b, le_refl _, hc, fun k h1 h2 => by omega⟩

/-- Every range between consecutive necessary points of the refined geometry
lies in a range between consecutive necessary points of the original one. -/
theorem consec_enclosing (g g1 : List PointT) (hlen : g1.length = g.length)
    (h0 : necessaryAt g 0 = true) (hlast : necessaryAt g (g.length - 1) = true)
    (hsub : ∀ j, necessaryAt g j = true → necessaryAt g1 j = true)
    (a b : Nat) (hc : Consec g1 a b) :
    ∃ l r, Consec g l r ∧ l ≤ a ∧ b ≤ r := by
  obtain ⟨c1, c2, c3, c4, c5⟩ := hc
  obtain ⟨l, l1, l2, l3⟩ := exists_flag_below g h0 a
  obtain ⟨r, r1, r2, r3⟩ := exists_flag_above g (g.length - 1) hlast (g.length - 1 - b) b
    (by omega)
  refine ⟨l, r, ⟨by omega, necessaryAt_lt g r r2, l2, r2, ?_⟩, l1, r1⟩
  intro k hk1 hk2
  by_cases e1 : k ≤ a
  · exact l3 k hk1 e1
  · by_cases e2 : b ≤ k
    · exact r3 k e2 hk2
    · cases hx : necessaryAt g k
      · rfl
      · have := hsub k hx
        rw [c5 k (by omega) (by omega)] at this
        exact Bool.noConfusion this

/-- Running the simplifier with threshold `T1` and then with a threshold
`T2 ≤ T1` gives the geometry that a single run with `T2` gives. -/
theorem RunWithThreshold_refine (T1 T2 : Int) (hT2 : INT_MIN ≤ T2) (hT : T2 ≤ T1)
    (g : List PointT) (hlen : 1 < g.length) (h0 : necessaryAt g 0 = true)
    (hlast : necessaryAt g (g.length - 1) = true) :
    ∃ g1 g2, RunWithThreshold T1 g = .ok g1 ∧ RunWithThreshold T2 g1 = .ok g2 ∧
      RunWithThreshold T2 g = .ok g2 := by
  have hT1 : INT_MIN ≤ T1 := le_trans hT2 hT
  obtain ⟨g1, r1, len1, loc1, nec1⟩ := RunWithThreshold_spec T1 hT1 g hlen h0 hlast
  have h0' : necessaryAt g1 0 = true := (nec1 0).mpr (Or.inl h0)
  have hlast' : necessaryAt g1 (g1.length - 1) = true := by
    rw [len1]; exact (nec1 _).mpr (Or.inl hlast)
  obtain ⟨g2, r2, len2, loc2, nec2⟩ :=
    RunWithThreshold_spec T2 hT2 g1 (by omega) h0' hlast'
  obtain ⟨g3, r3, len3, loc3, nec3⟩ := RunWithThreshold_spec T2 hT2 g hlen h0 hlast
  refine ⟨g1, g2, r1, r2, ?_⟩
  rw [r3]
  congr 1
  apply geometry_ext
  · rw [len3, len2, len1]
  · intro j; rw [loc3, loc2, loc1]
  · intro j
    have key : necessaryAt g3 j = true ↔ necessaryAt g2 j = true := by
      rw [nec3, nec2]
      constructor
      · rintro (h | ⟨l, r, hc, hm⟩)
        · exact Or.inl ((nec1 j).mpr (Or.inl h))
        · have hrc := rangeClosed_of_consec g g1 T1 hT1 nec1 l r hc
          rcases marked_covered g g1 T1 T2 hT2 hT len1 l r j hm hrc with h | ⟨a, b, hab, hmab⟩
          · exact Or.inl h
          · exact Or.inr ⟨a, b, hab, Marked_congr g g1 loc1 T2 _ _ _ hmab⟩
      · rintro (h | ⟨a, b, hab, hmab⟩)
        · rcases (nec1 j).mp h with h | ⟨l, r, hc, hm⟩
          · exact Or.inl h
          · exact Or.inr ⟨l, r, hc, Marked_mono g T1 T2 hT l r j hm⟩
        · have hmab' : Marked g T2 a b j :=
            Marked_congr g1 g (fun k => (loc1 k).symm) T2 _ _ _ hmab
          obtain ⟨l, r, hc, hla, hbr⟩ := consec_enclosing g g1 len1 h0 hlast
            (fun k hk => (nec1 k).mpr (Or.inl hk)) a b hab
          have hrc := rangeClosed_of_consec g g1 T1 hT1 nec1 l r hc
          exact Or.inr ⟨l, r, hc,
            marked_lifted g g1 T1 T2 hT2 hT len1 a b j hab hmab' (r - l) l r (le_refl _)
              hrc hla hbr⟩
    cases h3 : necessaryAt g3 j <;> cases h2 : necessaryAt g2 j <;> simp_all

/-! ## Douglas-Peucker: properties of `Run` -/

theorem threshold_lookup (z : Nat) (hz : z ≤ 18) :
    ∃ T, DouglasPeuckerThresholds[z]? = some T ∧ INT_MIN ≤ T := by
  interval_cases z <;> exact ⟨_, rfl, by decide⟩

theorem processStack_frame (T : Int) :
    ∀ (fuel : Nat) (g : List PointT) (st : List (Nat × Nat)) (g' : List PointT),
      processStack T fuel g st = .ok g' →
      g'.length = g.length ∧ ∀ j, locationAt g' j = locationAt g j := by
  intro fuel
  induction fuel with
  | zero =>
    intro g st g' h
    cases st with
    | nil =>
      rw [processStack_nil] at h
      cases h
      exact ⟨rfl, fun _ => rfl⟩
    | cons p st => simp [processStack] at h
  | succ fuel ih =>
    intro g st g' h
    cases st with
    | nil =>
      rw [processStack_nil] at h
      cases h
      exact ⟨rfl, fun _ => rfl⟩
    | cons p st =>
      obtain ⟨l, r⟩ := p
      simp only [processStack] at h
      split at h
      · exact Except.noConfusion h
      · split at h
        · exact Except.noConfusion h
        · split at h
          · exact Except.noConfusion h
          · split at h
            · exact Except.noConfusion h
            · split at h
              · obtain ⟨h1, h2⟩ := ih _ _ _ h
                exact ⟨by rw [h1, markNecessary_length],
                  fun j => by rw [h2, locationAt_markNecessary]⟩
              · exact ih _ _ _ h

theorem map_location_eq (g g' : List PointT) (hlen : g'.length = g.length)
    (hloc : ∀ j, locationAt g' j = locationAt g j) :
    g'.map PointT.location = g.map PointT.location := by
  apply List.ext_getElem (by simp [hlen])
  intro n h1 h2
  simp only [List.length_map] at h1 h2
  have := hloc n
  rw [locationAt_of_lt g' n h1, locationAt_of_lt g n h2] at this
  simpa using this

/-- C10. `Run` changes only the necessary flags: whenever it returns a
geometry, that geometry has the length of the input and the same location at
every position; and on every valid input (at least two points, first and last
necessary, zoom level at most 18) it does return a geometry. -/
theorem Run_changes_only_necessary (S : List PointT) (z : Nat) :
    (∀ S', Run S z = .ok S' →
      S'.length = S.length ∧ S'.map PointT.location = S.map PointT.location) ∧
    (2 ≤ S.length → z ≤ 18 → necessaryAt S 0 = true →
      necessaryAt S (S.length - 1) = true → ∃ S', Run S z = .ok S') := by
  constructor
  · intro S' h
    unfold Run at h
    split at h
    · exact Except.noConfusion h
    · rename_i T hT
      unfold RunWithThreshold at h
      split at h
      · exact Except.noConfusion h
      · split at h
        · exact Except.noConfusion h
        · obtain ⟨h1, h2⟩ := processStack_frame _ _ _ _ _ h
          exact ⟨h1, map_location_eq S S' h1 h2⟩
  · intro hlen hz h0 hlast
    obtain ⟨T, hT, hT0⟩ := threshold_lookup z hz
    obtain ⟨g', h1, _⟩ := RunWithThreshold_spec T hT0 S (by omega) h0 hlast
    exact ⟨g', by unfold Run; rw [hT]; exact h1⟩

/-- C1. `Run` is idempotent: on a polyline with at least two points whose
first and last points are necessary, and a zoom level between 0 and 18, `Run`
returns a geometry, and running it again on that geometry with the same zoom
level returns the same geometry (no flag changes). -/
theorem Run_idempotent (S : List PointT) (z : Nat) (hlen : 2 ≤ S.length)
    (hfirst : necessaryAt S 0 = true) (hlast : necessaryAt S (S.length - 1) = true)
    (hz : z ≤ 18) :
    ∃ S1, Run S z = .ok S1 ∧ Run S1 z = .ok S1 := by
  obtain ⟨T, hT, hT0⟩ := threshold_lookup z hz
  obtain ⟨g1, g2, r1, r2, r3⟩ :=
    RunWithThreshold_refine T T hT0 (le_refl _) S (by omega) hfirst hlast
  have : g1 = g2 := by
    rw [r1] at r3
    exact Except.ok.inj r3
  subst this
  exact ⟨g1, by unfold Run; rw [hT]; exact r1, by unfold Run; rw [hT]; exact r2⟩

/-- C2. Monotone refinement: on a valid polyline and zoom levels
`z1 ≤ z2 ≤ 18` between which the threshold table is non-increasing, running
`Run` with `z1` and then with `z2` returns the geometry that `Run` with `z2`
alone returns. -/
theorem Run_monotone_refinement (S : List PointT) (z1 z2 : Nat) (hlen : 2 ≤ S.length)
    (hfirst : necessaryAt S 0 = true) (hlast : necessaryAt S (S.length - 1) = true)
    (hz : z1 ≤ z2) (hz2 : z2 ≤ 18)
    (hmono : ∀ a b, z1 ≤ a → a ≤ b → b ≤ z2 →
      DouglasPeuckerThresholds.getD b 0 ≤ DouglasPeuckerThresholds.getD a 0) :
    ∃ S1 S2, Run S z1 = .ok S1 ∧ Run S1 z2 = .ok S2 ∧ Run S z2 = .ok S2 := by
  obtain ⟨T1, hT1, _⟩ := threshold_lookup z1 (by omega)
  obtain ⟨T2, hT2, hT20⟩ := threshold_lookup z2 hz2
  have hle : T2 ≤ T1 := by
    have := hmono z1 z2 (le_refl _) hz (le_refl _)
    simpa [List.getD, hT1, hT2] using this
  obtain ⟨g1, g2, r1, r2, r3⟩ :=
    RunWithThreshold_refine T1 T2 hT20 hle S (by omega) hfirst hlast
  exact ⟨g1, g2, by unfold Run; rw [hT1]; exact r1, by unfold Run; rw [hT2]; exact r2,
    by unfold Run; rw [hT2]; exact r3⟩

theorem Run_changes_only_necessary_witness :
    Run bentPolyline 14 = .ok [⟨⟨0, 0⟩, true⟩, ⟨⟨100, 50⟩, true⟩, ⟨⟨0, 100⟩, true⟩] ∧
      ([⟨⟨0, 0⟩, true⟩, ⟨⟨100, 50⟩, true⟩, ⟨⟨0, 100⟩, true⟩] : List PointT).length
        = bentPolyline.length ∧
      ([⟨⟨0, 0⟩, true⟩, ⟨⟨100, 50⟩, true⟩, ⟨⟨0, 100⟩, true⟩] : List PointT).map
        PointT.location = bentPolyline.map PointT.location :=
  ⟨by decide, (Run_changes_only_necessary bentPolyline 14).1 _ (by decide)⟩

theorem Run_idempotent_witness :
    2 ≤ zigzagPolyline.length ∧ necessaryAt zigzagPolyline 0 = true ∧
      necessaryAt zigzagPolyline (zigzagPolyline.length - 1) = true ∧ 16 ≤ 18 ∧
      ∃ S1, Run zigzagPolyline 16 = .ok S1 ∧ Run S1 16 = .ok S1 :=
  ⟨by decide, by decide, by decide, by decide,
    Run_idempotent zigzagPolyline 16 (by decide) (by decide) (by decide) (by decide)⟩

theorem Run_monotone_refinement_witness :
    2 ≤ zigzagPolyline.length ∧ necessaryAt zigzagPolyline 0 = true ∧
      necessaryAt zigzagPolyline (zigzagPolyline.length - 1) = true ∧ 12 ≤ 16 ∧ 16 ≤ 18 ∧
      (∀ a b, 12 ≤ a → a ≤ b → b ≤ 16 →
        DouglasPeuckerThresholds.getD b 0 ≤ DouglasPeuckerThresholds.getD a 0) ∧
      ∃ S1 S2, Run zigzagPolyline 12 = .ok S1 ∧ Run S1 16 = .ok S2 ∧
        Run zigzagPolyline 16 = .ok S2 :=
  have hmono : ∀ a b, 12 ≤ a → a ≤ b → b ≤ 16 →
      DouglasPeuckerThresholds.getD b 0 ≤ DouglasPeuckerThresholds.getD a 0 := by
    intro a b h1 h2 h3
    have h4 : a ≤ 16 := le_trans h2 h3
    interval_cases a <;> interval_cases b <;> first | omega | decide
  ⟨by decide, by decide, by decide, by decide, by decide, hmono,
    Run_monotone_refinement zigzagPolyline 12 16 (by decide) (by decide) (by decide)
      (by decide) (by decide) hmono⟩

/-! ## Douglas-Peucker: what the threshold decides -/

theorem findFarthest_of_le (g : List PointT) (T : Int) (l r : Nat)
    (h : ∀ i, l < i → i < r → distanceAt g l r i ≤ T) :
    findFarthest g T l r = (r, INT_MIN) := by
  unfold findFarthest
  apply foldl_invariant (fun s : Nat × Int => s = (r, INT_MIN))
  · rfl
  · intro s x hx hs
    rw [List.mem_range'_1] at hx
    rw [farthestStep_eq, if_neg, hs]
    intro hc
    have := h x (by omega) (by omega)
    omega

theorem splitIndex_of_le (g : List PointT) (T : Int) (hT : INT_MIN ≤ T) (l r : Nat)
    (h : ∀ i, l < i → i < r → distanceAt g l r i ≤ T) : splitIndex g T l r = none := by
  unfold splitIndex
  rw [findFarthest_of_le g T l r h, if_neg]
  simp only
  omega

/-- When no interior distance is `2^31` (the absolute value of `INT_MIN`), a
range is left unsplit only if every interior distance is within the
threshold. -/
theorem le_of_splitIndex_none (g : List PointT) (T : Int) (l r : Nat)
    (hmin : ∀ i, l < i → i < r → distanceAt g l r i < 2147483648)
    (h : splitIndex g T l r = none) :
    ∀ i, l < i → i < r → distanceAt g l r i ≤ T := by
  have key : ∀ n, n ≤ r - (l + 1) →
      (((List.range' (l + 1) n).foldl (farthestStep g T l r) (r, INT_MIN)).2 = INT_MIN ∧
        ∀ i, l < i → i < l + 1 + n → distanceAt g l r i ≤ T) ∨
      T < ((List.range' (l + 1) n).foldl (farthestStep g T l r) (r, INT_MIN)).2 := by
    intro n
    induction n with
    | zero =>
      intro _
      left
      exact ⟨rfl, fun i h1 h2 => by omega⟩
    | succ n ih =>
      intro hn
      rw [List.range'_concat, List.foldl_append]
      simp only [List.foldl_cons, List.foldl_nil, Nat.one_mul]
      rw [farthestStep_eq]
      have hd0 := distanceAt_nonneg g l r (l + 1 + n)
      have hd1 := hmin (l + 1 + n) (by omega) (by omega)
      have hw : wrap32 (distanceAt g l r (l + 1 + n)) = distanceAt g l r (l + 1 + n) := by
        unfold wrap32; omega
      rcases ih (by omega) with ⟨h1, h2⟩ | h1
      · by_cases c : distanceAt g l r (l + 1 + n) > T
        · rw [if_pos ⟨c, by rw [h1]; unfold INT_MIN; omega⟩]
          right
          simp only
          rw [hw]
          exact c
        · rw [if_neg (fun hc => c hc.1)]
          left
          refine ⟨h1, ?_⟩
          intro i hi1 hi2
          by_cases e : i = l + 1 + n
          · rw [e]; omega
          · exact h2 i hi1 (by omega)
      · right
        split
        · rename_i hc
          simp only
          rw [hw]
          exact hc.1
        · exact h1
  unfold splitIndex at h
  by_cases c : (findFarthest g T l r).2 > T
  · rw [if_pos c] at h
    exact Option.noConfusion h
  · intro i hi1 hi2
    unfold findFarthest at c
    rcases key (r - (l + 1)) (le_refl _) with ⟨_, h2⟩ | h1
    · exact h2 i hi1 (by omega)
    · exact absurd h1 c

theorem necessaryAt_eq_of_iff (g g' : List PointT) (j : Nat)
    (h : necessaryAt g' j = true ↔ necessaryAt g j = true) :
    necessaryAt g' j = necessaryAt g j := by
  cases h1 : necessaryAt g' j <;> cases h2 : necessaryAt g j
  · rfl
  · rw [h.mpr h2] at h1; exact Bool.noConfusion h1
  · rw [h.mp h1] at h2; exact Bool.noConfusion h2
  · rfl

/-- A geometry that `RunWithThreshold` returns is stable: no range between
consecutive necessary points of it is split. -/
theorem RunWithThreshold_stable (T : Int) (hT : INT_MIN ≤ T) (g g' : List PointT)
    (hlen : 1 < g.length) (h0 : necessaryAt g 0 = true)
    (hlast : necessaryAt g (g.length - 1) = true) (hrun : RunWithThreshold T g = .ok g')
    (l r : Nat) (hc : Consec g' l r) : splitIndex g' T l r = none := by
  obtain ⟨g1, g2, r1, r2, r3⟩ := RunWithThreshold_refine T T hT (le_refl _) g hlen h0 hlast
  rw [hrun] at r1 r3
  have e1 : g' = g1 := Except.ok.inj r1
  have e2 : g' = g2 := Except.ok.inj r3
  subst e1
  rw [← e2] at r2
  obtain ⟨_, s1, s2, _, s4⟩ := RunWithThreshold_spec T hT g hlen h0 hlast
  rw [hrun] at s1
  have e3 := Except.ok.inj s1
  subst e3
  obtain ⟨g3, t1, _, _, t4⟩ := RunWithThreshold_spec T hT g' (by omega)
    ((s4 0).mpr (Or.inl h0)) (by rw [s2]; exact (s4 _).mpr (Or.inl hlast))
  rw [r2] at t1
  have e4 := Except.ok.inj t1
  subst e4
  cases hs : splitIndex g' T l r with
  | none => rfl
  | some i =>
    have hb := splitIndex_bounds g' T hT l r i hs
    have hi : necessaryAt g' i = true := (t4 i).mpr (Or.inr ⟨l, r, hc, Marked.here hs⟩)
    rw [hc.2.2.2.2 i hb.1 hb.2] at hi
    exact Bool.noConfusion hi

/-- C11. On a valid polyline and zoom level, if in every range between
consecutive necessary points no interior point has a distance to the chord
(the absolute value of `fastDistance` that `Run` compares) above the threshold
of the zoom level, `Run` returns the input unchanged. -/
theorem Run_keeps_flat_polyline (S : List PointT) (z : Nat) (hlen : 2 ≤ S.length)
    (hfirst : necessaryAt S 0 = true) (hlast : necessaryAt S (S.length - 1) = true)
    (hz : z ≤ 18)
    (hflat : ∀ l r, Consec S l r → ∀ i, l < i → i < r →
      |fastDistance (locationAt S i) (locationAt S l) (locationAt S r)| ≤
        DouglasPeuckerThresholds.getD z 0) :
    Run S z = .ok S := by
  obtain ⟨T, hT, hT0⟩ := threshold_lookup z hz
  have hTz : DouglasPeuckerThresholds.getD z 0 = T := by
    simp [List.getD, hT]
  rw [hTz] at hflat
  obtain ⟨g', h1, h2, h3, h4⟩ := RunWithThreshold_spec T hT0 S (by omega) hfirst hlast
  have : g' = S := by
    apply geometry_ext S g' h2 h3
    intro j
    apply necessaryAt_eq_of_iff
    rw [h4]
    constructor
    · rintro (h | ⟨l, r, hc, hm⟩)
      · exact h
      · exact absurd hm (Marked_of_none S T l r j (splitIndex_of_le S T hT0 l r (hflat l r hc)))
    · exact Or.inl
  unfold Run
  rw [hT]
  show RunWithThreshold T S = .ok S
  rw [h1, this]

theorem straightPolyline_flat :
    ∀ l r, Consec straightPolyline l r → ∀ i, l < i → i < r →
      |fastDistance (locationAt straightPolyline i) (locationAt straightPolyline l)
        (locationAt straightPolyline r)| ≤ DouglasPeuckerThresholds.getD 10 0 := by
  intro l r hc i hli hir
  have hr : r < 5 := hc.2.1
  interval_cases r <;> interval_cases i <;> interval_cases l <;> decide

theorem Run_keeps_flat_polyline_witness :
    2 ≤ straightPolyline.length ∧ necessaryAt straightPolyline 0 = true ∧
      necessaryAt straightPolyline (straightPolyline.length - 1) = true ∧ 10 ≤ 18 ∧
      (∀ l r, Consec straightPolyline l r → ∀ i, l < i → i < r →
        |fastDistance (locationAt straightPolyline i) (locationAt straightPolyline l)
          (locationAt straightPolyline r)| ≤ DouglasPeuckerThresholds.getD 10 0) ∧
      Run straightPolyline 10 = .ok straightPolyline :=
  ⟨by decide, by decide, by decide, by decide, straightPolyline_flat,
    Run_keeps_flat_polyline straightPolyline 10 (by decide) (by decide) (by decide)
      (by decide) straightPolyline_flat⟩

/-- C12, as stated, fails on the code: with threshold 0 the run over
`repeatedPolyline` returns it unchanged, so the interior element, whose
distance to the chord is 0, is not marked. -/
theorem threshold_zero_leaves_repeated_point :
    2 ≤ repeatedPolyline.length ∧ necessaryAt repeatedPolyline 0 = true ∧
      necessaryAt repeatedPolyline (repeatedPolyline.length - 1) = true ∧
      RunWithThreshold 0 repeatedPolyline = .ok repeatedPolyline ∧
      necessaryAt repeatedPolyline 1 = false ∧
      fastDistance (locationAt repeatedPolyline 1) (locationAt repeatedPolyline 0)
        (locationAt repeatedPolyline 2) = 0 := by
  decide

/-- C12 (amended). With threshold 0, on a valid polyline in which no
`fastDistance` of an interior point evaluates to `INT_MIN`, the run returns a
geometry in which every element is marked necessary except elements whose
`fastDistance` to the chord between the nearest necessary elements before and
after them is 0. -/
theorem threshold_zero_marks_off_chord (S : List PointT) (hlen : 2 ≤ S.length)
    (hfirst : necessaryAt S 0 = true) (hlast : necessaryAt S (S.length - 1) = true)
    (hmin : ∀ l r i, l < i → i < r → r < S.length →
      fastDistance (locationAt S i) (locationAt S l) (locationAt S r) ≠ INT_MIN) :
    ∃ S', RunWithThreshold 0 S = .ok S' ∧
      ∀ j, j < S'.length → necessaryAt S' j = false →
        ∃ l r, Consec S' l r ∧ l < j ∧ j < r ∧
          fastDistance (locationAt S' j) (locationAt S' l) (locationAt S' r) = 0 := by
  have hT : INT_MIN ≤ (0 : Int) := by decide
  obtain ⟨S', h1, h2, h3, h4⟩ := RunWithThreshold_spec 0 hT S (by omega) hfirst hlast
  refine ⟨S', h1, ?_⟩
  intro j hj hnec
  have h0' : necessaryAt S' 0 = true := (h4 0).mpr (Or.inl hfirst)
  have hlast' : necessaryAt S' (S'.length - 1) = true := by
    rw [h2]; exact (h4 _).mpr (Or.inl hlast)
  obtain ⟨l, l1, l2, l3⟩ := exists_flag_below S' h0' j
  obtain ⟨r, r1, r2, r3⟩ := exists_flag_above S' (S'.length - 1) hlast' (S'.length - 1 - j) j
    (by omega)
  have hlj : l < j := by
    rcases Nat.lt_or_ge l j with h | h
    · exact h
    · have : l = j := by omega
      rw [this, hnec] at l2
      exact Bool.noConfusion l2
  have hjr : j < r := by
    rcases Nat.lt_or_ge j r with h | h
    · exact h
    · have : r = j := by omega
      rw [this, hnec] at r2
      exact Bool.noConfusion r2
  have hrlen : r < S'.length := necessaryAt_lt S' r r2
  have hc : Consec S' l r := by
    refine ⟨by omega, hrlen, l2, r2, ?_⟩
    intro k hk1 hk2
    rcases Nat.lt_or_ge j k with h | h
    · exact r3 k (by omega) hk2
    · exact l3 k hk1 h
  refine ⟨l, r, hc, hlj, hjr, ?_⟩
  have hnone := RunWithThreshold_stable 0 hT S S' (by omega) hfirst hlast h1 l r hc
  have hd : ∀ i, l < i → i < r → distanceAt S' l r i < 2147483648 := by
    intro i hi1 hi2
    have hne := hmin l r i hi1 hi2 (by omega)
    unfold distanceAt
    rw [h3, h3, h3]
    have hb : -2147483648 ≤ fastDistance (locationAt S i) (locationAt S l) (locationAt S r) ∧
        fastDistance (locationAt S i) (locationAt S l) (locationAt S r) < 2147483648 := by
      unfold fastDistance wrap32
      simp only
      omega
    unfold INT_MIN at hne
    rw [abs_lt]
    omega
  have := le_of_splitIndex_none S' 0 l r hd hnone j hlj hjr
  unfold distanceAt at this
  exact abs_eq_zero.mp (le_antisymm this (abs_nonneg _))

theorem repeatedPolyline_no_min :
    ∀ l r i, l < i → i < r → r < repeatedPolyline.length →
      fastDistance (locationAt repeatedPolyline i) (locationAt repeatedPolyline l)
        (locationAt repeatedPolyline r) ≠ INT_MIN := by
  intro l r i h1 h2 h3
  have hr : r < 3 := h3
  obtain rfl : r = 2 := by omega
  obtain rfl : i = 1 := by omega
  obtain rfl : l = 0 := by omega
  decide

theorem threshold_zero_marks_off_chord_witness :
    2 ≤ repeatedPolyline.length ∧ necessaryAt repeatedPolyline 0 = true ∧
      necessaryAt repeatedPolyline (repeatedPolyline.length - 1) = true ∧
      (∀ l r i, l < i → i < r → r < repeatedPolyline.length →
        fastDistance (locationAt repeatedPolyline i) (locationAt repeatedPolyline l)
          (locationAt repeatedPolyline r) ≠ INT_MIN) ∧
      ∃ S', RunWithThreshold 0 repeatedPolyline = .ok S' ∧
        ∀ j, j < S'.length → necessaryAt S' j = false →
          ∃ l r, Consec S' l r ∧ l < j ∧ j < r ∧
            fastDistance (locationAt S' j) (locationAt S' l) (locationAt S' r) = 0 :=
  ⟨by decide, by decide, by decide, repeatedPolyline_no_min,
    threshold_zero_marks_off_chord repeatedPolyline (by decide) (by decide) (by decide)
      repeatedPolyline_no_min⟩

/-- C20. `Run` fails its entry assertions, and returns no geometry, whenever
the polyline has fewer than two elements, the zoom level is above 18, or the
first or the last element is not marked necessary. -/
theorem Run_rejects_invalid_input (S : List PointT) (z : Nat)
    (h : S.length < 2 ∨ 18 < z ∨ necessaryAt S 0 = false ∨
      necessaryAt S (S.length - 1) = false) :
    Run S z = .error .assertionFailed := by
  unfold Run
  by_cases hz : z ≤ 18
  · obtain ⟨T, hT, _⟩ := threshold_lookup z hz
    rw [hT]
    simp only
    unfold RunWithThreshold
    by_cases hlen : 1 < S.length
    · rw [if_neg (not_not.mpr hlen)]
      obtain ⟨f, hf⟩ : ∃ f, S.length = f + 1 := ⟨S.length - 1, by omega⟩
      have hsw : sweep S S.length 0 1 [] = .error .assertionFailed := by
        rw [hf]
        unfold sweep
        rcases h with h | h | h | h
        · omega
        · omega
        · rw [if_pos (by rw [h]; exact Bool.false_ne_true)]
        · by_cases c : necessaryAt S 0 = true
          · rw [if_neg (not_not.mpr c), if_pos (by rw [backNecessary_eq, h]; exact Bool.false_ne_true)]
          · rw [if_pos c]
      rw [hsw]
    · rw [if_pos hlen]
  · have : DouglasPeuckerThresholds[z]? = none := by
      apply List.getElem?_eq_none
      show 19 ≤ z
      omega
    rw [this]

theorem Run_rejects_invalid_input_witness :
    (([⟨⟨0, 0⟩, true⟩] : List PointT).length < 2 ∨ 18 < 3 ∨
        necessaryAt [⟨⟨0, 0⟩, true⟩] 0 = false ∨
        necessaryAt [⟨⟨0, 0⟩, true⟩] (([⟨⟨0, 0⟩, true⟩] : List PointT).length - 1) = false) ∧
      Run [⟨⟨0, 0⟩, true⟩] 3 = .error .assertionFailed :=
  ⟨Or.inl (by decide), Run_rejects_invalid_input [⟨⟨0, 0⟩, true⟩] 3 (Or.inl (by decide))⟩

/-! ## Douglas-Peucker: the loops and the recursive reference -/

theorem distanceAt_lt_of_ne_min (g : List PointT) (l r i : Nat)
    (h : fastDistance (locationAt g i) (locationAt g l) (locationAt g r) ≠ INT_MIN) :
    distanceAt g l r i < 2147483648 := by
  unfold distanceAt
  have hb : -2147483648 ≤ fastDistance (locationAt g i) (locationAt g l) (locationAt g r) ∧
      fastDistance (locationAt g i) (locationAt g l) (locationAt g r) < 2147483648 := by
    unfold fastDistance wrap32
    simp only
    omega
  unfold INT_MIN at h
  rw [abs_lt]
  omega

/-- The loop of `Run` over a range and the maximum of the interior distances:
after any number of iterations, either no distance so far exceeds the
threshold and the loop variables are unchanged, or they hold the maximum so
far and the first index at which it is attained. -/
theorem farthest_fold_first_max (g : List PointT) (T : Int) (l r : Nat)
    (hmin : ∀ i, l < i → i < r → distanceAt g l r i < 2147483648) :
    ∀ n, n ≤ r - (l + 1) →
      0 ≤ (List.range' (l + 1) n).foldl (fun m i => max m (distanceAt g l r i)) 0 ∧
      (∀ i, l < i → i < l + 1 + n → distanceAt g l r i ≤
        (List.range' (l + 1) n).foldl (fun m i => max m (distanceAt g l r i)) 0) ∧
      (((List.range' (l + 1) n).foldl (farthestStep g T l r) (r, INT_MIN) = (r, INT_MIN) ∧
          (∀ i, l < i → i < l + 1 + n → distanceAt g l r i ≤ T) ∧
          ((List.range' (l + 1) n).foldl (fun m i => max m (distanceAt g l r i)) 0 ≤ T ∨
            (List.range' (l + 1) n).foldl (fun m i => max m (distanceAt g l r i)) 0 = 0)) ∨
        (T < (List.range' (l + 1) n).foldl (fun m i => max m (distanceAt g l r i)) 0 ∧
          ((List.range' (l + 1) n).foldl (farthestStep g T l r) (r, INT_MIN)).2 =
            (List.range' (l + 1) n).foldl (fun m i => max m (distanceAt g l r i)) 0 ∧
          l < ((List.range' (l + 1) n).foldl (farthestStep g T l r) (r, INT_MIN)).1 ∧
          ((List.range' (l + 1) n).foldl (farthestStep g T l r) (r, INT_MIN)).1 < l + 1 + n ∧
          distanceAt g l r ((List.range' (l + 1) n).foldl (farthestStep g T l r) (r, INT_MIN)).1 =
            (List.range' (l + 1) n).foldl (fun m i => max m (distanceAt g l r i)) 0 ∧
          ∀ i, l < i →
            i < ((List.range' (l + 1) n).foldl (farthestStep g T l r) (r, INT_MIN)).1 →
            distanceAt g l r i <
              (List.range' (l + 1) n).foldl (fun m i => max m (distanceAt g l r i)) 0)) := by
  intro n
  induction n with
  | zero =>
    intro _
    refine ⟨le_refl _, ?_, Or.inl ⟨rfl, ?_, Or.inr rfl⟩⟩
    · intro i h1 h2; omega
    · intro i h1 h2; omega
  | succ n ih =>
    intro hn
    obtain ⟨hM0, hMle, hcase⟩ := ih (by omega)
    simp only [List.range'_concat, List.foldl_append, List.foldl_cons, List.foldl_nil,
      Nat.one_mul]
    generalize (List.range' (l + 1) n).foldl (farthestStep g T l r) (r, INT_MIN) = s
      at hcase ⊢
    generalize (List.range' (l + 1) n).foldl (fun m i => max m (distanceAt g l r i)) 0 = M
      at hM0 hMle hcase ⊢
    rw [farthestStep_eq]
    have hd0 := distanceAt_nonneg g l r (l + 1 + n)
    have hd1 := hmin (l + 1 + n) (by omega) (by omega)
    have hw : wrap32 (distanceAt g l r (l + 1 + n)) = distanceAt g l r (l + 1 + n) := by
      unfold wrap32; omega
    obtain ⟨d, hd⟩ : ∃ d, distanceAt g l r (l + 1 + n) = d := ⟨_, rfl⟩
    rw [hd] at hd0 hd1 hw ⊢
    have hall : ∀ i, l < i → i < l + 1 + (n + 1) → distanceAt g l r i ≤ max M d := by
      intro i h1 h2
      by_cases e : i = l + 1 + n
      · rw [e, hd]
        exact le_max_right _ _
      · exact le_trans (hMle i h1 (by omega)) (le_max_left _ _)
    refine ⟨le_trans hM0 (le_max_left _ _), hall, ?_⟩
    rcases hcase with ⟨hs, hle, hMT⟩ | ⟨hTM, hs2, hs1, hs1', hds, hfirst⟩
    · by_cases c : d > T
      · right
        have hMd : M ≤ d := by omega
        rw [if_pos ⟨c, by rw [hs]; unfold INT_MIN; simp only; omega⟩, max_eq_right hMd]
        simp only
        refine ⟨c, hw, by omega, by omega, hd, ?_⟩
        intro i h1 h2
        have := hle i h1 h2
        omega
      · left
        rw [if_neg (fun hc => c hc.1)]
        refine ⟨hs, ?_, ?_⟩
        · intro i h1 h2
          by_cases e : i = l + 1 + n
          · rw [e, hd]
            exact not_lt.mp c
          · exact hle i h1 (by omega)
        · rcases hMT with h | h
          · exact Or.inl (max_le h (not_lt.mp c))
          · rw [h, max_eq_right hd0]
            exact Or.inl (not_lt.mp c)
    · right
      by_cases c : d > T ∧ d > s.2
      · rw [if_pos c]
        have hMd : M ≤ d := by omega
        rw [max_eq_right hMd]
        simp only
        refine ⟨by omega, hw, by omega, by omega, hd, ?_⟩
        intro i h1 h2
        have := hMle i h1 h2
        omega
      · rw [if_neg c]
        have hdM : d ≤ M := by
          by_contra hc
          exact c ⟨by omega, by omega⟩
        rw [max_eq_left hdM]
        exact ⟨hTM, hs2, hs1, by omega, hds, hfirst⟩

theorem firstAttaining_none (d : Nat → Int) (m : Int) :
    ∀ (n a : Nat), (∀ i, a ≤ i → i < a + n → d i ≠ m) → firstAttaining d m a n = none := by
  intro n
  induction n with
  | zero => intro a _; rfl
  | succ n ih =>
    intro a h
    rw [firstAttaining, if_neg (h a (le_refl _) (by omega))]
    exact ih (a + 1) (fun i h1 h2 => h i (by omega) (by omega))

theorem firstAttaining_some (d : Nat → Int) (m : Int) :
    ∀ (n a i : Nat), a ≤ i → i < a + n → d i = m → (∀ j, a ≤ j → j < i → d j ≠ m) →
      firstAttaining d m a n = some i := by
  intro n
  induction n with
  | zero => intro a i h1 h2; omega
  | succ n ih =>
    intro a i h1 h2 h3 h4
    by_cases e : a = i
    · subst e
      rw [firstAttaining, if_pos h3]
    · rw [firstAttaining, if_neg (h4 a (le_refl _) (by omega))]
      exact ih (a + 1) i (by omega) (by omega) h3 (fun j hj1 hj2 => h4 j (by omega) hj2)

/-- The decision of the loop of `Run` for a range is the decision of the
recursive reference, when no interior distance is `2^31`. -/
theorem splitIndex_eq_referenceSplit (g : List PointT) (T : Int) (hT : INT_MIN ≤ T)
    (l r : Nat) (hmin : ∀ i, l < i → i < r → distanceAt g l r i < 2147483648) :
    splitIndex g T l r = referenceSplit g T l r := by
  obtain ⟨_, hMle, hcase⟩ := farthest_fold_first_max g T l r hmin (r - (l + 1)) (le_refl _)
  unfold splitIndex referenceSplit findFarthest interiorMaximum
  generalize (List.range' (l + 1) (r - (l + 1))).foldl (farthestStep g T l r) (r, INT_MIN) = s
    at hcase ⊢
  generalize (List.range' (l + 1) (r - (l + 1))).foldl
    (fun m i => max m (distanceAt g l r i)) 0 = M at hMle hcase ⊢
  rcases hcase with ⟨hs, hle, _⟩ | ⟨hTM, hs2, hs1, hs1', hds, hfirst⟩
  · rw [hs, if_neg (by simp only; omega)]
    by_cases c : M > T
    · rw [if_pos c]
      symm
      apply firstAttaining_none
      intro i h1 h2
      have := hle i (by omega) (by omega)
      omega
    · rw [if_neg c]
  · rw [if_pos (by omega), if_pos (by omega)]
    symm
    apply firstAttaining_some _ _ _ _ s.1 (by omega) (by omega) hds
    intro j h1 h2
    have := hfirst j (by omega) h2
    omega

theorem NoMinDistance_congr (g g' : List PointT) (hlen : g'.length = g.length)
    (hloc : ∀ j, locationAt g' j = locationAt g j) (h : NoMinDistance g) :
    NoMinDistance g' := by
  intro l r i h1 h2 h3
  rw [hloc, hloc, hloc]
  exact h l r i h1 h2 (by omega)

theorem splitIndex_eq_reference_of_noMin (g : List PointT) (T : Int) (hT : INT_MIN ≤ T)
    (l r : Nat) (hr : r < g.length) (hmin : NoMinDistance g) :
    splitIndex g T l r = referenceSplit g T l r :=
  splitIndex_eq_referenceSplit g T hT l r
    (fun i h1 h2 => distanceAt_lt_of_ne_min g l r i (hmin l r i h1 h2 hr))

/-- The recursive reference on a range keeps the locations and marks exactly
the indices that the stack loop of `Run` marks for this range. -/
theorem referenceRange_spec (T : Int) (hT : INT_MIN ≤ T) :
    ∀ (depth : Nat) (g : List PointT) (l r : Nat), r - l ≤ depth → r < g.length →
      NoMinDistance g →
      (referenceRange T depth g l r).length = g.length ∧
        (∀ j, locationAt (referenceRange T depth g l r) j = locationAt g j) ∧
        ∀ j, necessaryAt (referenceRange T depth g l r) j = true ↔
          (necessaryAt g j = true ∨ Marked g T l r j) := by
  intro depth
  induction depth with
  | zero =>
    intro g l r hd hr hmin
    refine ⟨rfl, fun _ => rfl, ?_⟩
    intro j
    have hn : splitIndex g T l r = none :=
      splitIndex_of_le g T hT l r (fun i h1 h2 => by omega)
    constructor
    · exact Or.inl
    · rintro (h | h)
      · exact h
      · exact absurd h (Marked_of_none g T l r j hn)
  | succ depth ih =>
    intro g l r hd hr hmin
    rw [referenceRange, ← splitIndex_eq_reference_of_noMin g T hT l r hr hmin]
    cases hs : splitIndex g T l r with
    | none =>
      refine ⟨rfl, fun _ => rfl, ?_⟩
      intro j
      constructor
      · exact Or.inl
      · rintro (h | h)
        · exact h
        · exact absurd h (Marked_of_none g T l r j hs)
    | some i =>
      obtain ⟨hli, hir⟩ := splitIndex_bounds g T hT l r i hs
      have hlen1 := markNecessary_length g i
      have hloc1 := locationAt_markNecessary g i
      obtain ⟨a1, a2, a3⟩ := ih (markNecessary g i) l i (by omega) (by omega)
        (NoMinDistance_congr g _ hlen1 hloc1 hmin)
      have hloc2 : ∀ j, locationAt (referenceRange T depth (markNecessary g i) l i) j =
          locationAt g j := fun j => by rw [a2, hloc1]
      obtain ⟨b1, b2, b3⟩ := ih (referenceRange T depth (markNecessary g i) l i) i r
        (by omega) (by omega) (NoMinDistance_congr g _ (by omega) hloc2 hmin)
      refine ⟨by simp only; omega, fun j => by simp only; rw [b2, hloc2], ?_⟩
      intro j
      simp only
      rw [b3, a3, necessaryAt_markNecessary g i j (by omega), Marked_of_some g T l r i j hs]
      constructor
      · rintro ((((h | h) | h)) | h)
        · exact Or.inl h
        · exact Or.inr (Or.inl h)
        · exact Or.inr (Or.inr (Or.inl
            (Marked_congr _ g (fun k => (hloc1 k).symm) T l i j h)))
        · exact Or.inr (Or.inr (Or.inr
            (Marked_congr _ g (fun k => (hloc2 k).symm) T i r j h)))
      · rintro (h | h | h | h)
        · exact Or.inl (Or.inl (Or.inl h))
        · exact Or.inl (Or.inl (Or.inr h))
        · exact Or.inl (Or.inr (Marked_congr g _ hloc1 T l i j h))
        · exact Or.inr (Marked_congr g _ hloc2 T i r j h)

/-- The ranges that the recursive reference starts from are the ranges
between consecutive necessary points. -/
theorem maximalRanges_spec (g : List PointT) :
    ∀ (n a left : Nat), left < a → necessaryAt g left = true →
      (∀ k, left < k → k < a → necessaryAt g k = false) → a + n ≤ g.length →
      ∀ l r, (l, r) ∈ maximalRanges g left (List.range' a n) ↔
        (Consec g l r ∧ left ≤ l ∧ r < a + n) := by
  intro n
  induction n with
  | zero =>
    intro a left hla hleft hgap hlen l r
    rw [List.range'_zero, maximalRanges]
    constructor
    · intro h; exact absurd h (List.not_mem_nil _)
    · rintro ⟨hc, h1, h2⟩
      exfalso
      obtain ⟨c1, c2, c3, c4, c5⟩ := hc
      by_cases e : l = left
      · have := hgap r (by omega) (by omega)
        rw [this] at c4
        exact Bool.noConfusion c4
      · have := hgap l (by omega) (by omega)
        rw [this] at c3
        exact Bool.noConfusion c3
  | succ n ih =>
    intro a left hla hleft hgap hlen l r
    rw [List.range'_succ, maximalRanges]
    by_cases c : necessaryAt g a = true
    · rw [if_pos c, List.mem_cons]
      have IH := ih (a + 1) a (by omega) c (fun k h1 h2 => by omega) (by omega) l r
      constructor
      · rintro (h | h)
        · obtain ⟨rfl, rfl⟩ := Prod.mk.inj h
          exact ⟨⟨hla, by omega, hleft, c, hgap⟩, le_refl _, by omega⟩
        · obtain ⟨hc, h1, h2⟩ := IH.mp h
          exact ⟨hc, by omega, by omega⟩
      · rintro ⟨hc, h1, h2⟩
        by_cases hl : l < a
        · left
          obtain ⟨c1, c2, c3, c4, c5⟩ := hc
          have e1 : l = left := by
            by_contra e
            have := hgap l (by omega) hl
            rw [this] at c3
            exact Bool.noConfusion c3
          have e2 : r = a := by
            rcases Nat.lt_trichotomy r a with h | h | h
            · have := hgap r (by omega) h
              rw [this] at c4
              exact Bool.noConfusion c4
            · exact h
            · have := c5 a (by omega) h
              rw [this] at c
              exact Bool.noConfusion c
          rw [e1, e2]
        · right
          exact IH.mpr ⟨hc, by omega, by omega⟩
    · rw [if_neg c]
      have c' : necessaryAt g a = false := by
        cases h : necessaryAt g a
        · rfl
        · exact absurd h c
      have IH := ih (a + 1) left (by omega) hleft
        (fun k h1 h2 => by
          by_cases e : k = a
          · rw [e]; exact c'
          · exact hgap k h1 (by omega))
        (by omega) l r
      rw [IH]
      constructor
      · rintro ⟨hc, h1, h2⟩
        exact ⟨hc, h1, by omega⟩
      · rintro ⟨hc, h1, h2⟩
        exact ⟨hc, h1, by omega⟩

/-- The recursive reference over a list of ranges marks what the stack loop of
`Run` marks for these ranges. -/
theorem referenceFold_spec (T : Int) (hT : INT_MIN ≤ T) (g : List PointT)
    (hmin : NoMinDistance g) :
    ∀ (ranges : List (Nat × Nat)) (acc : List PointT), (∀ p ∈ ranges, p.2 < g.length) →
      acc.length = g.length → (∀ j, locationAt acc j = locationAt g j) →
      (ranges.foldl (fun acc p => referenceRange T (p.2 - p.1) acc p.1 p.2) acc).length =
          g.length ∧
        (∀ j, locationAt
          (ranges.foldl (fun acc p => referenceRange T (p.2 - p.1) acc p.1 p.2) acc) j =
            locationAt g j) ∧
        ∀ j, necessaryAt
          (ranges.foldl (fun acc p => referenceRange T (p.2 - p.1) acc p.1 p.2) acc) j = true ↔
            (necessaryAt acc j = true ∨ ∃ p ∈ ranges, Marked g T p.1 p.2 j) := by
  intro ranges
  induction ranges with
  | nil =>
    intro acc _ hlen hloc
    refine ⟨hlen, hloc, ?_⟩
    intro j
    simp
  | cons p ps ih =>
    intro acc hp hlen hloc
    rw [List.foldl_cons]
    obtain ⟨a1, a2, a3⟩ := referenceRange_spec T hT (p.2 - p.1) acc p.1 p.2 (le_refl _)
      (by rw [hlen]; exact hp p (List.mem_cons_self _ _))
      (NoMinDistance_congr g acc hlen hloc hmin)
    obtain ⟨b1, b2, b3⟩ := ih (referenceRange T (p.2 - p.1) acc p.1 p.2)
      (fun q hq => hp q (List.mem_cons_of_mem _ hq)) (by omega)
      (fun j => by rw [a2, hloc])
    refine ⟨b1, b2, ?_⟩
    intro j
    rw [b3, a3]
    constructor
    · rintro ((h | h) | ⟨q, hq, h⟩)
      · exact Or.inl h
      · exact Or.inr ⟨p, List.mem_cons_self _ _,
          Marked_congr acc g (fun k => (hloc k).symm) T p.1 p.2 j h⟩
      · exact Or.inr ⟨q, List.mem_cons_of_mem _ hq, h⟩
    · rintro (h | ⟨q, hq, h⟩)
      · exact Or.inl (Or.inl h)
      · rcases List.mem_cons.mp hq with e | e
        · rw [e] at h
          exact Or.inl (Or.inr (Marked_congr g acc hloc T p.1 p.2 j h))
        · exact Or.inr ⟨q, e, h⟩

/-- With a threshold, the loops of `Run` return the result of the recursive
reference. -/
theorem RunWithThreshold_eq_referenceRun (T : Int) (hT : INT_MIN ≤ T) (g : List PointT)
    (hlen : 1 < g.length) (h0 : necessaryAt g 0 = true)
    (hlast : necessaryAt g (g.length - 1) = true) (hmin : NoMinDistance g) :
    RunWithThreshold T g = .ok (referenceRun T g) := by
  obtain ⟨g', h1, h2, h3, h4⟩ := RunWithThreshold_spec T hT g hlen h0 hlast
  have hmem := maximalRanges_spec g (g.length - 1) 1 0 (by omega) h0
    (fun k h1 h2 => by omega) (by omega)
  obtain ⟨b1, b2, b3⟩ := referenceFold_spec T hT g hmin
    (maximalRanges g 0 (List.range' 1 (g.length - 1))) g
    (fun p hp => by
      obtain ⟨l, r⟩ := p
      exact ((hmem l r).mp hp).1.2.1)
    rfl (fun _ => rfl)
  rw [h1]
  congr 1
  apply geometry_ext (referenceRun T g) g' (by rw [h2]; exact b1.symm)
    (fun j => by rw [h3]; exact (b2 j).symm)
  intro j
  apply necessaryAt_eq_of_iff
  unfold referenceRun
  rw [h4, b3]
  constructor
  · rintro (h | ⟨l, r, hc, hm⟩)
    · exact Or.inl h
    · exact Or.inr ⟨(l, r), (hmem l r).mpr ⟨hc, Nat.zero_le _, by have := hc.2.1; omega⟩, hm⟩
  · rintro (h | ⟨p, hp, hm⟩)
    · exact Or.inl h
    · obtain ⟨l, r⟩ := p
      exact Or.inr ⟨l, r, ((hmem l r).mp hp).1, hm⟩

/-! ## Douglas-Peucker: the recursive reference and the tie-break -/

/-- The loops and the recursion agree away from the overflow. On a valid
polyline and zoom level, when no `fastDistance` of an
interior point of a range evaluates to `INT_MIN`, `Run` returns the result of
the recursive reference `referenceRun` with the threshold of the zoom level:
in every maximal range between pre-marked necessary points the first index
that attains the maximum distance to the chord (the absolute value of
`fastDistance` that `Run` compares) is marked when the maximum exceeds the
threshold, and both parts are treated in the same way. -/
theorem Run_eq_referenceRun (S : List PointT) (z : Nat) (hlen : 2 ≤ S.length)
    (hfirst : necessaryAt S 0 = true) (hlast : necessaryAt S (S.length - 1) = true)
    (hz : z ≤ 18)
    (hmin : ∀ l r i, l < i → i < r → r < S.length →
      fastDistance (locationAt S i) (locationAt S l) (locationAt S r) ≠ INT_MIN) :
    Run S z = .ok (referenceRun (DouglasPeuckerThresholds.getD z 0) S) := by
  obtain ⟨T, hT, hT0⟩ := threshold_lookup z hz
  have hTz : DouglasPeuckerThresholds.getD z 0 = T := by
    simp [List.getD, hT]
  rw [hTz]
  unfold Run
  rw [hT]
  exact RunWithThreshold_eq_referenceRun T hT0 S (by omega) hfirst hlast hmin

theorem zigzagPolyline_no_min :
    ∀ l r i, l < i → i < r → r < zigzagPolyline.length →
      fastDistance (locationAt zigzagPolyline i) (locationAt zigzagPolyline l)
        (locationAt zigzagPolyline r) ≠ INT_MIN := by
  intro l r i h1 h2 h3
  have hr : r < 5 := h3
  interval_cases r <;> interval_cases i <;> interval_cases l <;> decide

theorem Run_eq_referenceRun_witness :
    2 ≤ zigzagPolyline.length ∧ necessaryAt zigzagPolyline 0 = true ∧
      necessaryAt zigzagPolyline (zigzagPolyline.length - 1) = true ∧ 14 ≤ 18 ∧
      (∀ l r i, l < i → i < r → r < zigzagPolyline.length →
        fastDistance (locationAt zigzagPolyline i) (locationAt zigzagPolyline l)
          (locationAt zigzagPolyline r) ≠ INT_MIN) ∧
      Run zigzagPolyline 14 =
        .ok (referenceRun (DouglasPeuckerThresholds.getD 14 0) zigzagPolyline) :=
  ⟨by decide, by decide, by decide, by decide, zigzagPolyline_no_min,
    Run_eq_referenceRun zigzagPolyline 14 (by decide) (by decide) (by decide) (by decide)
      zigzagPolyline_no_min⟩

/-- The tie-break away from the overflow. For a range that `Run` pops, with
an interior point, in which no
interior distance (the absolute value of `fastDistance` that `Run` compares)
is `2^31`, and whose maximum interior distance exceeds the threshold: the loop finds a distance
above the threshold, the index it finds is an interior index that attains the
maximum, no smaller interior index attains it, and this is the index that the
iteration of the stack loop marks. -/
theorem Run_marks_first_maximum (g : List PointT) (T : Int) (l r : Nat)
    (rest : List (Nat × Nat)) (fuel : Nat) (hint : l + 1 < r) (hr : r < g.length)
    (hnl : necessaryAt g l = true) (hnr : necessaryAt g r = true)
    (hmin : ∀ i, l < i → i < r →
      fastDistance (locationAt g i) (locationAt g l) (locationAt g r) ≠ INT_MIN)
    (hmax : T < interiorMaximum g l r) :
    (∀ j, l < j → j < r → distanceAt g l r j ≤ interiorMaximum g l r) ∧
      T < (findFarthest g T l r).2 ∧
      l < (findFarthest g T l r).1 ∧ (findFarthest g T l r).1 < r ∧
      distanceAt g l r (findFarthest g T l r).1 = interiorMaximum g l r ∧
      (∀ j, l < j → j < (findFarthest g T l r).1 →
        distanceAt g l r j < interiorMaximum g l r) ∧
      processStack T (fuel + 1) g ((l, r) :: rest) =
        processStack T fuel (markNecessary g (findFarthest g T l r).1)
          (pushParts l r (findFarthest g T l r).1 rest) := by
  obtain ⟨_, hMle, hcase⟩ := farthest_fold_first_max g T l r
    (fun i h1 h2 => distanceAt_lt_of_ne_min g l r i (hmin i h1 h2)) (r - (l + 1)) (le_refl _)
  have hfold : (List.range' (l + 1) (r - (l + 1))).foldl (farthestStep g T l r) (r, INT_MIN) =
      findFarthest g T l r := rfl
  have hM : (List.range' (l + 1) (r - (l + 1))).foldl
      (fun m i => max m (distanceAt g l r i)) 0 = interiorMaximum g l r := rfl
  rw [hfold, hM] at hcase
  rw [hM] at hMle
  rcases hcase with ⟨_, hle, hMT⟩ | ⟨hTM, hs2, hs1, hs1', hds, hfirst⟩
  · exfalso
    have a := hle (l + 1) (by omega) (by omega)
    have b := distanceAt_nonneg g l r (l + 1)
    omega
  · have hsplit : splitIndex g T l r = some (findFarthest g T l r).1 := by
      unfold splitIndex
      rw [if_pos (by omega)]
    exact ⟨fun j h1 h2 => hMle j h1 (by omega), by omega, hs1, by omega, hds, hfirst,
      processStack_some T fuel g l r _ rest (by omega) hr hnl hnr hsplit⟩

theorem twoPeaksPolyline_no_min :
    ∀ i, 0 < i → i < 3 →
      fastDistance (locationAt twoPeaksPolyline i) (locationAt twoPeaksPolyline 0)
        (locationAt twoPeaksPolyline 3) ≠ INT_MIN := by
  intro i h1 h2
  interval_cases i <;> decide

theorem Run_marks_first_maximum_witness :
    ((∀ j, 0 < j → j < 3 →
        distanceAt twoPeaksPolyline 0 3 j ≤ interiorMaximum twoPeaksPolyline 0 3) ∧
      200 < (findFarthest twoPeaksPolyline 200 0 3).2 ∧
      0 < (findFarthest twoPeaksPolyline 200 0 3).1 ∧
      (findFarthest twoPeaksPolyline 200 0 3).1 < 3 ∧
      distanceAt twoPeaksPolyline 0 3 (findFarthest twoPeaksPolyline 200 0 3).1 =
        interiorMaximum twoPeaksPolyline 0 3 ∧
      (∀ j, 0 < j → j < (findFarthest twoPeaksPolyline 200 0 3).1 →
        distanceAt twoPeaksPolyline 0 3 j < interiorMaximum twoPeaksPolyline 0 3) ∧
      processStack 200 (7 + 1) twoPeaksPolyline ((0, 3) :: []) =
        processStack 200 7 (markNecessary twoPeaksPolyline (findFarthest twoPeaksPolyline 200 0 3).1)
          (pushParts 0 3 (findFarthest twoPeaksPolyline 200 0 3).1 [])) ∧
    distanceAt twoPeaksPolyline 0 3 1 = 12500 ∧ distanceAt twoPeaksPolyline 0 3 2 = 12500 ∧
    (findFarthest twoPeaksPolyline 200 0 3).1 = 1 ∧
    Run twoPeaksPolyline 14 =
      .ok [⟨⟨0, 0⟩, true⟩, ⟨⟨100, 50⟩, true⟩, ⟨⟨100, 50⟩, false⟩, ⟨⟨0, 100⟩, true⟩] ∧
    Run bentPolyline 14 = .ok [⟨⟨0, 0⟩, true⟩, ⟨⟨100, 50⟩, true⟩, ⟨⟨0, 100⟩, true⟩] :=
  ⟨Run_marks_first_maximum twoPeaksPolyline 200 0 3 [] 7 (by decide) (by decide) (by decide)
      (by decide) twoPeaksPolyline_no_min (by decide),
    by decide, by decide, by decide, by decide, by decide⟩

/-! ## Douglas-Peucker: the stack loop, step by step -/

theorem necessaryAt_markNecessary_mono (g : List PointT) (i j : Nat)
    (h : necessaryAt g j = true) : necessaryAt (markNecessary g i) j = true := by
  induction g generalizing i j with
  | nil => exact h
  | cons p ps ih =>
    cases i with
    | zero =>
      cases j with
      | zero => simp [markNecessary, necessaryAt]
      | succ j => simpa [markNecessary, necessaryAt] using h
    | succ i =>
      cases j with
      | zero => simpa [markNecessary, necessaryAt] using h
      | succ j =>
        have h' : necessaryAt ps j = true := by simpa [necessaryAt] using h
        have := ih i j h'
        simpa [markNecessary, necessaryAt] using this

theorem processStack_keeps_flags (T : Int) :
    ∀ (fuel : Nat) (g : List PointT) (st : List (Nat × Nat)) (g' : List PointT),
      processStack T fuel g st = .ok g' →
      ∀ j, necessaryAt g j = true → necessaryAt g' j = true := by
  intro fuel
  induction fuel with
  | zero =>
    intro g st g' h
    cases st with
    | nil =>
      rw [processStack_nil] at h
      cases h
      exact fun _ hj => hj
    | cons p st => simp [processStack] at h
  | succ fuel ih =>
    intro g st g' h
    cases st with
    | nil =>
      rw [processStack_nil] at h
      cases h
      exact fun _ hj => hj
    | cons p st =>
      obtain ⟨l, r⟩ := p
      simp only [processStack] at h
      split at h
      · exact Except.noConfusion h
      · split at h
        · exact Except.noConfusion h
        · split at h
          · exact Except.noConfusion h
          · split at h
            · exact Except.noConfusion h
            · split at h
              · intro j hj
                exact ih _ _ _ h j (necessaryAt_markNecessary_mono g _ j hj)
              · exact ih _ _ _ h

/-- C33. `Run` never clears a flag: whenever it returns a geometry, every
element that is necessary in the input is necessary in that geometry; and on
every valid input (at least two points, first and last necessary, zoom level
at most 18) it does return a geometry. -/
theorem Run_never_clears_flag (S : List PointT) (z : Nat) :
    (∀ S', Run S z = .ok S' → ∀ j, necessaryAt S j = true → necessaryAt S' j = true) ∧
    (2 ≤ S.length → z ≤ 18 → necessaryAt S 0 = true →
      necessaryAt S (S.length - 1) = true → ∃ S', Run S z = .ok S') := by
  constructor
  · intro S' h
    unfold Run at h
    split at h
    · exact Except.noConfusion h
    · rename_i T hT
      unfold RunWithThreshold at h
      split at h
      · exact Except.noConfusion h
      · split at h
        · exact Except.noConfusion h
        · exact processStack_keeps_flags _ _ _ _ _ h
  · intro hlen hz h0 hlast
    obtain ⟨T, hT, hT0⟩ := threshold_lookup z hz
    obtain ⟨g', h1, _⟩ := RunWithThreshold_spec T hT0 S (by omega) h0 hlast
    exact ⟨g', by unfold Run; rw [hT]; exact h1⟩

theorem Run_never_clears_flag_witness :
    (∀ S', Run zigzagPolyline 14 = .ok S' →
      ∀ j, necessaryAt zigzagPolyline j = true → necessaryAt S' j = true) ∧
    (2 ≤ zigzagPolyline.length → 14 ≤ 18 → necessaryAt zigzagPolyline 0 = true →
      necessaryAt zigzagPolyline (zigzagPolyline.length - 1) = true →
      ∃ S', Run zigzagPolyline 14 = .ok S') :=
  Run_never_clears_flag zigzagPolyline 14

/-- The postcondition away from the overflow. On a valid polyline and zoom
level, when no `fastDistance` of an
interior point of a range evaluates to `INT_MIN`, `Run` returns a geometry in
which, between any two consecutive necessary points, every point has a
`fastDistance` to their chord of at most the threshold of the zoom level (and
so has its absolute value, which is what `Run` compares). -/
theorem Run_leaves_points_within_threshold (S : List PointT) (z : Nat) (hlen : 2 ≤ S.length)
    (hfirst : necessaryAt S 0 = true) (hlast : necessaryAt S (S.length - 1) = true)
    (hz : z ≤ 18)
    (hmin : ∀ l r i, l < i → i < r → r < S.length →
      fastDistance (locationAt S i) (locationAt S l) (locationAt S r) ≠ INT_MIN) :
    ∃ S', Run S z = .ok S' ∧
      ∀ l r, Consec S' l r → ∀ i, l < i → i < r →
        fastDistance (locationAt S' i) (locationAt S' l) (locationAt S' r) ≤
            DouglasPeuckerThresholds.getD z 0 ∧
          |fastDistance (locationAt S' i) (locationAt S' l) (locationAt S' r)| ≤
            DouglasPeuckerThresholds.getD z 0 := by
  obtain ⟨T, hT, hT0⟩ := threshold_lookup z hz
  have hTz : DouglasPeuckerThresholds.getD z 0 = T := by
    simp [List.getD, hT]
  rw [hTz]
  obtain ⟨S', h1, h2, h3, _⟩ := RunWithThreshold_spec T hT0 S (by omega) hfirst hlast
  refine ⟨S', by unfold Run; rw [hT]; exact h1, ?_⟩
  intro l r hc i hli hir
  have hnone := RunWithThreshold_stable T hT0 S S' (by omega) hfirst hlast h1 l r hc
  have hmin' : NoMinDistance S' := NoMinDistance_congr S S' h2 h3 hmin
  have hle := le_of_splitIndex_none S' T l r
    (fun k hk1 hk2 => distanceAt_lt_of_ne_min S' l r k (hmin' l r k hk1 hk2 hc.2.1))
    hnone i hli hir
  unfold distanceAt at hle
  exact ⟨le_trans (le_abs_self _) hle, hle⟩

theorem Run_leaves_points_within_threshold_witness :
    2 ≤ zigzagPolyline.length ∧ necessaryAt zigzagPolyline 0 = true ∧
      necessaryAt zigzagPolyline (zigzagPolyline.length - 1) = true ∧ 14 ≤ 18 ∧
      ∃ S', Run zigzagPolyline 14 = .ok S' ∧
        ∀ l r, Consec S' l r → ∀ i, l < i → i < r →
          fastDistance (locationAt S' i) (locationAt S' l) (locationAt S' r) ≤
              DouglasPeuckerThresholds.getD 14 0 ∧
            |fastDistance (locationAt S' i) (locationAt S' l) (locationAt S' r)| ≤
              DouglasPeuckerThresholds.getD 14 0 :=
  ⟨by decide, by decide, by decide, by decide,
    Run_leaves_points_within_threshold zigzagPolyline 14 (by decide) (by decide) (by decide)
      (by decide) zigzagPolyline_no_min⟩

theorem sweep_nodup (g : List PointT) :
    ∀ (fuel left right : Nat) (st st' : List (Nat × Nat)), left < right →
      (∀ p ∈ st, p.2 ≤ left) → st.Nodup → sweep g fuel left right st = .ok st' →
      st'.Nodup := by
  intro fuel
  induction fuel with
  | zero =>
    intro left right st st' _ _ _ h
    simp [sweep] at h
  | succ fuel ih =>
    intro left right st st' hlr hle hnd h
    have hnew : ((left, right) :: st).Nodup := by
      rw [List.nodup_cons]
      refine ⟨?_, hnd⟩
      intro hmem
      have := hle _ hmem
      simp only at this
      omega
    have hle1 : ∀ p ∈ (left, right) :: st, p.2 ≤ right := by
      intro p hp
      rcases List.mem_cons.mp hp with rfl | hp
      · exact le_refl _
      · have := hle p hp
        omega
    simp only [sweep] at h
    split at h
    · exact Except.noConfusion h
    · split at h
      · exact Except.noConfusion h
      · by_cases hnr : necessaryAt g right = true
        · simp only [hnr, if_true] at h
          split at h
          · exact ih right (right + 1) _ st' (by omega) hle1 hnew h
          · cases h
            exact hnew
        · simp only [hnr] at h
          split at h
          · exact ih left (right + 1) st st' (by omega) hle hnd h
          · cases h
            exact hnd

/-- One iteration of the stack loop on a stack of asserted ranges: the loop
continues with a stack of asserted ranges, after it has either popped the
range without any other change or marked an index inside the range. -/
theorem processStack_step_ok (T : Int) (hT : INT_MIN ≤ T) (fuel : Nat) (g : List PointT)
    (l r : Nat) (rest : List (Nat × Nat)) (hok : StackOK g ((l, r) :: rest)) :
    ∃ g' st', processStack T (fuel + 1) g ((l, r) :: rest) = processStack T fuel g' st' ∧
      StackOK g' st' ∧ g'.length = g.length ∧
      stackMeasure st' < stackMeasure ((l, r) :: rest) ∧
      ((g' = g ∧ st' = rest) ∨
        ∃ far, l < far ∧ far < r ∧ far < g.length ∧ splitIndex g T l r = some far ∧
          g' = markNecessary g far ∧ st' = pushParts l r far rest) := by
  obtain ⟨hlr, hrlen, hnl, hnr⟩ := hok (l, r) (List.mem_cons_self _ _)
  simp only at hlr hrlen hnl hnr
  have hrest : StackOK g rest := fun q hq => hok q (List.mem_cons_of_mem _ hq)
  cases hs : splitIndex g T l r with
  | none =>
    refine ⟨g, rest, processStack_none T fuel g l r rest hlr hrlen hnl hnr hs, hrest, rfl,
      ?_, Or.inl ⟨rfl, rfl⟩⟩
    simp only [stackMeasure]
    omega
  | some far =>
    obtain ⟨hlf, hfr⟩ := splitIndex_bounds g T hT l r far hs
    have hfar : far < g.length := by omega
    have hlen1 := markNecessary_length g far
    have hnec1 := fun j => necessaryAt_markNecessary g far j hfar
    refine ⟨markNecessary g far, pushParts l r far rest,
      processStack_some T fuel g l r far rest hlr hrlen hnl hnr hs, ?_, hlen1, ?_,
      Or.inr ⟨far, hlf, hfr, hfar, rfl, rfl, rfl⟩⟩
    · intro q hq
      rw [mem_pushParts] at hq
      rw [hlen1, hnec1, hnec1]
      rcases hq with ⟨rfl, _⟩ | ⟨rfl, _⟩ | hq
      · exact ⟨hfr, hrlen, Or.inr rfl, Or.inl hnr⟩
      · exact ⟨hlf, hfar, Or.inl hnl, Or.inr rfl⟩
      · obtain ⟨a, b, c, d⟩ := hrest q hq
        exact ⟨a, b, Or.inl c, Or.inl d⟩
    · have := stackMeasure_pushParts l r far rest hlf hfr
      omega

/-- One iteration of the stack loop on a stack of distinct ranges between
consecutive necessary points: the stack stays of this kind and its measure
decreases; the iteration either pops the range without any other change or
marks an index inside the range that was not necessary before. -/
theorem processStack_step_fresh (T : Int) (hT : INT_MIN ≤ T) (fuel : Nat) (g : List PointT)
    (l r : Nat) (rest : List (Nat × Nat)) (hfresh : StackFresh g ((l, r) :: rest)) :
    ∃ g' st', processStack T (fuel + 1) g ((l, r) :: rest) = processStack T fuel g' st' ∧
      StackFresh g' st' ∧ stackMeasure st' < stackMeasure ((l, r) :: rest) ∧
      ((g' = g ∧ st' = rest) ∨
        ∃ far, l < far ∧ far < r ∧ necessaryAt g far = false ∧
          g' = markNecessary g far ∧ st' = pushParts l r far rest) := by
  obtain ⟨hnd, hcons⟩ := hfresh
  have hc : Consec g l r := hcons (l, r) (List.mem_cons_self _ _)
  have hnotin : (l, r) ∉ rest := (List.nodup_cons.mp hnd).1
  have hndrest : rest.Nodup := (List.nodup_cons.mp hnd).2
  have hok : StackOK g ((l, r) :: rest) := by
    intro p hp
    obtain ⟨a, b, c, d, _⟩ := hcons p hp
    exact ⟨a, b, c, d⟩
  obtain ⟨g', st', hstep, _, _, hmeas, hcase⟩ := processStack_step_ok T hT fuel g l r rest hok
  refine ⟨g', st', hstep, ?_, hmeas, ?_⟩
  · rcases hcase with ⟨rfl, rfl⟩ | ⟨far, hlf, hfr, hfar, _, rfl, rfl⟩
    · exact ⟨hndrest, fun p hp => hcons p (List.mem_cons_of_mem _ hp)⟩
    · have hfarnec : necessaryAt g far = false := hc.2.2.2.2 far hlf hfr
      have hnec1 := fun j => necessaryAt_markNecessary g far j hfar
      have hno1 : ∀ a, (a, far) ∉ rest := by
        intro a hmem
        have := (hcons _ (List.mem_cons_of_mem _ hmem)).2.2.2.1
        simp only at this
        rw [hfarnec] at this
        exact Bool.noConfusion this
      have hno2 : ∀ b, (far, b) ∉ rest := by
        intro b hmem
        have := (hcons _ (List.mem_cons_of_mem _ hmem)).2.2.1
        simp only at this
        rw [hfarnec] at this
        exact Bool.noConfusion this
      constructor
      · unfold pushParts
        have hX : (if 1 < far - l then (l, far) :: rest else rest).Nodup := by
          split
          · exact List.nodup_cons.mpr ⟨hno1 l, hndrest⟩
          · exact hndrest
        split
        · refine List.nodup_cons.mpr ⟨?_, hX⟩
          split
          · intro hmem
            rcases List.mem_cons.mp hmem with h | h
            · have := (Prod.mk.inj h).1
              omega
            · exact hno2 r h
          · exact hno2 r
        · exact hX
      · intro q hq
        rw [mem_pushParts] at hq
        rcases hq with ⟨rfl, _⟩ | ⟨rfl, _⟩ | hq
        · refine ⟨hfr, by rw [markNecessary_length]; exact hc.2.1, (hnec1 _).mpr (Or.inr rfl),
            (hnec1 _).mpr (Or.inl hc.2.2.2.1), ?_⟩
          intro k hk1 hk2
          simp only at hk1 hk2
          rw [← Bool.not_eq_true, hnec1]
          rintro (h | h)
          · rw [hc.2.2.2.2 k (by omega) hk2] at h
            exact Bool.noConfusion h
          · omega
        · refine ⟨hlf, by rw [markNecessary_length]; exact hfar, (hnec1 _).mpr (Or.inl hc.2.2.1),
            (hnec1 _).mpr (Or.inr rfl), ?_⟩
          intro k hk1 hk2
          simp only at hk1 hk2
          rw [← Bool.not_eq_true, hnec1]
          rintro (h | h)
          · rw [hc.2.2.2.2 k hk1 (by omega)] at h
            exact Bool.noConfusion h
          · omega
        · have hq' := hcons q (List.mem_cons_of_mem _ hq)
          obtain ⟨a, b, c, d, e⟩ := hq'
          refine ⟨a, by rw [markNecessary_length]; exact b, (hnec1 _).mpr (Or.inl c),
            (hnec1 _).mpr (Or.inl d), ?_⟩
          intro k hk1 hk2
          rw [← Bool.not_eq_true, hnec1]
          rintro (h | h)
          · rw [e k hk1 hk2] at h
            exact Bool.noConfusion h
          · subst h
            obtain ⟨e1, e2⟩ := consec_unique g l r q.1 q.2 k hc ⟨a, b, c, d, e⟩ ⟨hlf, hfr⟩
              ⟨hk1, hk2⟩
            apply hnotin
            have : q = (l, r) := Prod.ext e1 e2
            rw [← this]
            exact hq
  · rcases hcase with h | ⟨far, hlf, hfr, _, _, h1, h2⟩
    · exact Or.inl h
    · exact Or.inr ⟨far, hlf, hfr, hc.2.2.2.2 far hlf hfr, h1, h2⟩

/-- C34. On a valid polyline and zoom level `Run` terminates. The sweep
fills the stack with distinct ranges between consecutive necessary points,
whose measure is at most twice the length; every iteration of the stack loop
keeps a stack of this kind, lowers its measure, and either pops a range
without pushing or marks an interior index that was not necessary; so the
loop ends within any fuel from the measure on, in particular within the fuel
of `Run`, which returns a geometry. -/
theorem Run_terminates (S : List PointT) (z : Nat) (hlen : 2 ≤ S.length)
    (hfirst : necessaryAt S 0 = true) (hlast : necessaryAt S (S.length - 1) = true)
    (hz : z ≤ 18) :
    ∃ stack S', sweep S S.length 0 1 [] = .ok stack ∧ StackFresh S stack ∧
      stackMeasure stack ≤ 2 * S.length ∧
      (∀ fuel g l r rest, StackFresh g ((l, r) :: rest) →
        ∃ g' st',
          processStack (DouglasPeuckerThresholds.getD z 0) (fuel + 1) g ((l, r) :: rest) =
            processStack (DouglasPeuckerThresholds.getD z 0) fuel g' st' ∧
          StackFresh g' st' ∧ stackMeasure st' < stackMeasure ((l, r) :: rest) ∧
          ((g' = g ∧ st' = rest) ∨
            ∃ far, l < far ∧ far < r ∧ necessaryAt g far = false ∧
              g' = markNecessary g far ∧ st' = pushParts l r far rest)) ∧
      (∀ fuel, stackMeasure stack ≤ fuel →
        processStack (DouglasPeuckerThresholds.getD z 0) fuel S stack = .ok S') ∧
      Run S z = .ok S' := by
  obtain ⟨T, hT, hT0⟩ := threshold_lookup z hz
  have hTz : DouglasPeuckerThresholds.getD z 0 = T := by
    simp [List.getD, hT]
  rw [hTz]
  obtain ⟨st, hsw, hmem, hmeas⟩ := sweep_spec S hlast S.length 0 1 []
    (by omega) (by omega) (by omega) hfirst (by intro k h1 h2; omega)
    (by
      intro l r
      constructor
      · intro h; exact absurd h (List.not_mem_nil _)
      · rintro ⟨hc, hle⟩
        have := hc.1
        omega)
    (by simp [stackMeasure])
  have hnd : st.Nodup := sweep_nodup S S.length 0 1 [] st (by omega)
    (fun p hp => absurd hp (List.not_mem_nil _)) List.nodup_nil hsw
  have hfresh : StackFresh S st :=
    ⟨hnd, fun p hp => (hmem p.1 p.2).mp hp⟩
  have hok : StackOK S st := by
    intro p hp
    obtain ⟨a, b, c, d, _⟩ := hfresh.2 p hp
    exact ⟨a, b, c, d⟩
  obtain ⟨S', h1, h2, h3, h4⟩ := processStack_spec T hT0 (2 * S.length) S st hok hmeas
  refine ⟨st, S', hsw, hfresh, hmeas, ?_, ?_, ?_⟩
  · intro fuel g l r rest hf
    exact processStack_step_fresh T hT0 fuel g l r rest hf
  · intro fuel hfuel
    obtain ⟨S'', k1, k2, k3, k4⟩ := processStack_spec T hT0 fuel S st hok hfuel
    rw [k1]
    congr 1
    apply geometry_ext S' S'' (by rw [k2, h2]) (fun j => by rw [k3, h3])
    intro j
    apply necessaryAt_eq_of_iff
    rw [k4, h4]
  · unfold Run
    rw [hT]
    show RunWithThreshold T S = .ok S'
    unfold RunWithThreshold
    rw [if_neg (by omega), hsw]
    exact h1

theorem Run_terminates_witness :
    ∃ stack S', sweep zigzagPolyline zigzagPolyline.length 0 1 [] = .ok stack ∧
      StackFresh zigzagPolyline stack ∧
      stackMeasure stack ≤ 2 * zigzagPolyline.length ∧
      (∀ fuel g l r rest, StackFresh g ((l, r) :: rest) →
        ∃ g' st',
          processStack (DouglasPeuckerThresholds.getD 14 0) (fuel + 1) g ((l, r) :: rest) =
            processStack (DouglasPeuckerThresholds.getD 14 0) fuel g' st' ∧
          StackFresh g' st' ∧ stackMeasure st' < stackMeasure ((l, r) :: rest) ∧
          ((g' = g ∧ st' = rest) ∨
            ∃ far, l < far ∧ far < r ∧ necessaryAt g far = false ∧
              g' = markNecessary g far ∧ st' = pushParts l r far rest)) ∧
      (∀ fuel, stackMeasure stack ≤ fuel →
        processStack (DouglasPeuckerThresholds.getD 14 0) fuel zigzagPolyline stack = .ok S') ∧
      Run zigzagPolyline 14 = .ok S' :=
  Run_terminates zigzagPolyline 14 (by decide) (by decide) (by decide) (by decide)

/-- C35. On a valid polyline and zoom level no assertion of `Run` fails. The
sweep fills the stack with ranges `(first, second)` such that
`first < second < length` and both end points are necessary; every iteration
of the stack loop on such a stack passes its assertions and continues with
such a stack, and the index it marks is inside the range, hence inside the
geometry; `Run` returns a geometry. -/
theorem Run_assertions_hold (S : List PointT) (z : Nat) (hlen : 2 ≤ S.length)
    (hfirst : necessaryAt S 0 = true) (hlast : necessaryAt S (S.length - 1) = true)
    (hz : z ≤ 18) :
    ∃ stack S', sweep S S.length 0 1 [] = .ok stack ∧ StackOK S stack ∧
      (∀ fuel g l r rest, StackOK g ((l, r) :: rest) →
        ∃ g' st',
          processStack (DouglasPeuckerThresholds.getD z 0) (fuel + 1) g ((l, r) :: rest) =
            processStack (DouglasPeuckerThresholds.getD z 0) fuel g' st' ∧
          StackOK g' st' ∧ g'.length = g.length ∧
          ((g' = g ∧ st' = rest) ∨
            ∃ far, l < far ∧ far < r ∧ far < g.length ∧
              g' = markNecessary g far ∧ st' = pushParts l r far rest)) ∧
      Run S z = .ok S' := by
  obtain ⟨T, hT, hT0⟩ := threshold_lookup z hz
  have hTz : DouglasPeuckerThresholds.getD z 0 = T := by
    simp [List.getD, hT]
  rw [hTz]
  obtain ⟨st, hsw, hmem, hmeas⟩ := sweep_spec S hlast S.length 0 1 []
    (by omega) (by omega) (by omega) hfirst (by intro k h1 h2; omega)
    (by
      intro l r
      constructor
      · intro h; exact absurd h (List.not_mem_nil _)
      · rintro ⟨hc, hle⟩
        have := hc.1
        omega)
    (by simp [stackMeasure])
  have hok : StackOK S st := by
    intro p hp
    obtain ⟨a, b, c, d, _⟩ := (hmem p.1 p.2).mp hp
    exact ⟨a, b, c, d⟩
  obtain ⟨S', h1, _⟩ := processStack_spec T hT0 (2 * S.length) S st hok hmeas
  refine ⟨st, S', hsw, hok, ?_, ?_⟩
  · intro fuel g l r rest hf
    obtain ⟨g', st', a, b, c, _, d⟩ := processStack_step_ok T hT0 fuel g l r rest hf
    refine ⟨g', st', a, b, c, ?_⟩
    rcases d with h | ⟨far, d1, d2, d3, _, d5, d6⟩
    · exact Or.inl h
    · exact Or.inr ⟨far, d1, d2, d3, d5, d6⟩
  · unfold Run
    rw [hT]
    show RunWithThreshold T S = .ok S'
    unfold RunWithThreshold
    rw [if_neg (by omega), hsw]
    exact h1

theorem Run_assertions_hold_witness :
    ∃ stack S', sweep zigzagPolyline zigzagPolyline.length 0 1 [] = .ok stack ∧
      StackOK zigzagPolyline stack ∧
      (∀ fuel g l r rest, StackOK g ((l, r) :: rest) →
        ∃ g' st',
          processStack (DouglasPeuckerThresholds.getD 14 0) (fuel + 1) g ((l, r) :: rest) =
            processStack (DouglasPeuckerThresholds.getD 14 0) fuel g' st' ∧
          StackOK g' st' ∧ g'.length = g.length ∧
          ((g' = g ∧ st' = rest) ∨
            ∃ far, l < far ∧ far < r ∧ far < g.length ∧
              g' = markNecessary g far ∧ st' = pushParts l r far rest)) ∧
      Run zigzagPolyline 14 = .ok S' :=
  Run_assertions_hold zigzagPolyline 14 (by decide) (by decide) (by decide) (by decide)

/-! ## Douglas-Peucker: `fastDistance` without overflow -/

theorem wrap32_of_inInt (v : Int) (h : InInt v) : wrap32 v = v := by
  unfold InInt INT_MIN INT_MAX at h
  unfold wrap32
  omega

theorem inInt_of_nonneg_le (v w : Int) (h0 : 0 ≤ v) (hle : v ≤ w) (hw : InInt w) : InInt v := by
  unfold InInt INT_MIN INT_MAX at *
  omega

theorem fastDistanceParameter_cases (point segA segB : Coordinate) :
    fastDistanceParameter point segA segB = 0 ∨ fastDistanceParameter point segA segB = 1 := by
  unfold fastDistanceParameter
  simp only
  generalize (if (0 : Int) = _ then (0 : Int) else _) = u0
  by_cases h1 : u0 > 1
  · rw [if_pos h1]
    exact Or.inr rfl
  · rw [if_neg h1]
    by_cases h2 : u0 < 0
    · rw [if_pos h2]
      exact Or.inl rfl
    · rw [if_neg h2]
      omega

theorem tdiv_fits (a x : Int) (ha : InInt a) : InInt (a.tdiv (x + x)) := by
  unfold InInt INT_MIN INT_MAX at *
  have h := Int.natAbs_tdiv a (x + x)
  have h2 : (a.natAbs).div ((x + x).natAbs) ≤ a.natAbs / 2 ∨ (x + x).natAbs = 0 := by
    by_cases c : (x + x).natAbs = 0
    · exact Or.inr c
    · left
      have h3 : 2 ≤ (x + x).natAbs := by omega
      exact Nat.div_le_div_left h3 (by norm_num)
  rcases h2 with h2 | h2
  · omega
  · rw [h2] at h
    have : (a.natAbs).div 0 = 0 := Nat.div_zero _
    omega

/-- C40. When no operation of `fastDistance` overflows, the projection
parameter is 0 or 1, and the result is not negative and is the squared
distance from the point either to `segA` (parameter 0) or to `segA` shifted by
`segB.lon - segA.lat` on both axes (parameter 1). -/
theorem fastDistance_snaps_to_end (point segA segB : Coordinate)
    (hfits : FastDistanceFits point segA segB) :
    (fastDistanceParameter point segA segB = 0 ∨ fastDistanceParameter point segA segB = 1) ∧
    0 ≤ fastDistance point segA segB ∧
    (fastDistanceParameter point segA segB = 0 →
      fastDistance point segA segB =
        (segA.lon - point.lon) * (segA.lon - point.lon) +
          (segA.lat - point.lat) * (segA.lat - point.lat)) ∧
    (fastDistanceParameter point segA segB = 1 →
      fastDistance point segA segB =
        (segA.lon + (segB.lon - segA.lat) - point.lon) *
            (segA.lon + (segB.lon - segA.lat) - point.lon) +
          (segA.lat + (segB.lon - segA.lat) - point.lat) *
            (segA.lat + (segB.lon - segA.lat) - point.lat)) := by
  obtain ⟨h1, h2, h3, h4, h5, h6, h7, h8, h9, h10, h11, h12⟩ := hfits
  have hsq : InInt ((segB.lon - segA.lat) * (segB.lon - segA.lat)) :=
    inInt_of_nonneg_le _ _ (mul_self_nonneg _)
      (le_add_of_nonneg_right (mul_self_nonneg _)) h2
  have hU := fastDistanceParameter_cases point segA segB
  have hud : InInt (fastDistanceParameter point segA segB * (segB.lon - segA.lat)) := by
    rcases hU with h | h
    · rw [h, zero_mul]
      unfold InInt INT_MIN INT_MAX
      omega
    · rw [h, one_mul]
      exact h1
  have hdx2 : InInt ((segA.lon + fastDistanceParameter point segA segB *
      (segB.lon - segA.lat) - point.lon) * (segA.lon + fastDistanceParameter point segA segB *
      (segB.lon - segA.lat) - point.lon)) :=
    inInt_of_nonneg_le _ _ (mul_self_nonneg _)
      (le_add_of_nonneg_right (mul_self_nonneg _)) h12
  have hdy2 : InInt ((segA.lat + fastDistanceParameter point segA segB *
      (segB.lon - segA.lat) - point.lat) * (segA.lat + fastDistanceParameter point segA segB *
      (segB.lon - segA.lat) - point.lat)) :=
    inInt_of_nonneg_le _ _ (mul_self_nonneg _)
      (le_add_of_nonneg_left (mul_self_nonneg _)) h12
  have hquot : InInt (Int.tdiv ((point.lon - segA.lon) * (segB.lon - segA.lat) +
      (point.lat - segA.lat) * (segB.lon - segA.lat))
      ((segB.lon - segA.lat) * (segB.lon - segA.lat) +
        (segB.lon - segA.lat) * (segB.lon - segA.lat))) := tdiv_fits _ _ h7
  have key : fastDistance point segA segB =
      (segA.lon + fastDistanceParameter point segA segB * (segB.lon - segA.lat) - point.lon) *
        (segA.lon + fastDistanceParameter point segA segB * (segB.lon - segA.lat) - point.lon) +
      (segA.lat + fastDistanceParameter point segA segB * (segB.lon - segA.lat) - point.lat) *
        (segA.lat + fastDistanceParameter point segA segB * (segB.lon - segA.lat) - point.lat) := by
    unfold fastDistance
    simp only
    rw [wrap32_of_inInt _ h1, wrap32_of_inInt _ hsq, wrap32_of_inInt _ h2,
      wrap32_of_inInt _ h3, wrap32_of_inInt _ h4, wrap32_of_inInt _ h5,
      wrap32_of_inInt _ h6, wrap32_of_inInt _ h7, wrap32_of_inInt _ hquot]
    have hu : (if (if 0 = (segB.lon - segA.lat) * (segB.lon - segA.lat) +
        (segB.lon - segA.lat) * (segB.lon - segA.lat) then 0
        else Int.tdiv ((point.lon - segA.lon) * (segB.lon - segA.lat) +
          (point.lat - segA.lat) * (segB.lon - segA.lat))
          ((segB.lon - segA.lat) * (segB.lon - segA.lat) +
            (segB.lon - segA.lat) * (segB.lon - segA.lat))) > 1 then 1
        else if (if 0 = (segB.lon - segA.lat) * (segB.lon - segA.lat) +
          (segB.lon - segA.lat) * (segB.lon - segA.lat) then 0
          else Int.tdiv ((point.lon - segA.lon) * (segB.lon - segA.lat) +
            (point.lat - segA.lat) * (segB.lon - segA.lat))
            ((segB.lon - segA.lat) * (segB.lon - segA.lat) +
              (segB.lon - segA.lat) * (segB.lon - segA.lat))) < 0 then 0
        else (if 0 = (segB.lon - segA.lat) * (segB.lon - segA.lat) +
          (segB.lon - segA.lat) * (segB.lon - segA.lat) then 0
          else Int.tdiv ((point.lon - segA.lon) * (segB.lon - segA.lat) +
            (point.lat - segA.lat) * (segB.lon - segA.lat))
            ((segB.lon - segA.lat) * (segB.lon - segA.lat) +
              (segB.lon - segA.lat) * (segB.lon - segA.lat)))) =
        fastDistanceParameter point segA segB := rfl
    rw [hu, wrap32_of_inInt _ hud, wrap32_of_inInt _ h8, wrap32_of_inInt _ h9,
      wrap32_of_inInt _ h10, wrap32_of_inInt _ h11, wrap32_of_inInt _ hdx2,
      wrap32_of_inInt _ hdy2, wrap32_of_inInt _ h12]
  refine ⟨hU, ?_, ?_, ?_⟩
  · rw [key]
    exact add_nonneg (mul_self_nonneg _) (mul_self_nonneg _)
  · intro h
    rw [key, h, zero_mul, add_zero, add_zero]
  · intro h
    rw [key, h, one_mul]

theorem bent_fastDistanceFits : FastDistanceFits ⟨100, 50⟩ ⟨0, 0⟩ ⟨0, 100⟩ := by
  unfold FastDistanceFits InInt
  decide

theorem fastDistance_snaps_to_end_witness :
    FastDistanceFits ⟨100, 50⟩ ⟨0, 0⟩ ⟨0, 100⟩ ∧
    (fastDistanceParameter ⟨100, 50⟩ ⟨0, 0⟩ ⟨0, 100⟩ = 0 ∨
      fastDistanceParameter ⟨100, 50⟩ ⟨0, 0⟩ ⟨0, 100⟩ = 1) ∧
    0 ≤ fastDistance ⟨100, 50⟩ ⟨0, 0⟩ ⟨0, 100⟩ ∧
    (fastDistanceParameter ⟨100, 50⟩ ⟨0, 0⟩ ⟨0, 100⟩ = 0 →
      fastDistance ⟨100, 50⟩ ⟨0, 0⟩ ⟨0, 100⟩ =
        ((0 : Int) - 50) * (0 - 50) + ((0 : Int) - 100) * (0 - 100)) ∧
    (fastDistanceParameter ⟨100, 50⟩ ⟨0, 0⟩ ⟨0, 100⟩ = 1 →
      fastDistance ⟨100, 50⟩ ⟨0, 0⟩ ⟨0, 100⟩ =
        ((0 : Int) + (100 - 0) - 50) * (0 + (100 - 0) - 50) +
          ((0 : Int) + (100 - 0) - 100) * (0 + (100 - 0) - 100)) :=
  ⟨bent_fastDistanceFits,
    fastDistance_snaps_to_end ⟨100, 50⟩ ⟨0, 0⟩ ⟨0, 100⟩ bent_fastDistanceFits⟩

/-! ## Douglas-Peucker: a distance of `2^31`

On `overflowPolyline` the sum `dx * dx + dy * dy` of `fastDistance` for the
third point is `2^31`; as an `int` it is `INT_MIN`, and `std::fabs` gives
`2^31` back. The assignment `max_distance = distance` stores it into an `int`
again, so `max_distance` is `INT_MIN` when the loop ends and the test
`max_distance > DouglasPeuckerThresholds[zoom_level]` fails: the range is not
split, although the loop has seen two distances above the threshold. -/

theorem overflowPolyline_consec : Consec overflowPolyline 0 3 := by
  refine ⟨by decide, by decide, by decide, by decide, ?_⟩
  intro k h1 h2
  interval_cases k <;> decide

/-- C26 fails on the code. On `overflowPolyline` at zoom level 18 (threshold
3) `Run` returns the polyline as it was, with no interior point marked, while
the recursive reference marks both interior points: the maximum distance of
the range `(0, 3)` is `2^31`, attained first at index 2, and in the part
`(0, 2)` the point 1 has distance 100. -/
theorem Run_differs_from_referenceRun :
    2 ≤ overflowPolyline.length ∧ necessaryAt overflowPolyline 0 = true ∧
    necessaryAt overflowPolyline (overflowPolyline.length - 1) = true ∧
    DouglasPeuckerThresholds.getD 18 0 = 3 ∧
    Run overflowPolyline 18 = .ok overflowPolyline ∧
    maximalRanges overflowPolyline 0 (List.range' 1 (overflowPolyline.length - 1)) = [(0, 3)] ∧
    referenceSplit overflowPolyline 3 0 3 = some 2 ∧
    referenceSplit (markNecessary overflowPolyline 2) 3 0 2 = some 1 ∧
    referenceRun 3 overflowPolyline =
      [⟨⟨0, 0⟩, true⟩, ⟨⟨10, 0⟩, true⟩, ⟨⟨32768, 32768⟩, true⟩, ⟨⟨7, 0⟩, true⟩] ∧
    Run overflowPolyline 18 ≠ .ok (referenceRun (DouglasPeuckerThresholds.getD 18 0)
      overflowPolyline) := by
  refine ⟨by decide, by decide, by decide, by decide, by decide, by decide, by decide,
    by decide, by decide, by decide⟩

/-- C27 fails on the code. `Run` on `overflowPolyline` at zoom level 18
(threshold 3) pops the range `(0, 3)`. Its interior distances are 100 and
`2^31`, so the maximum exceeds the threshold and index 2 is the smallest index
that attains it. The loop ends with `farthest_element_index = 2` and
`max_distance = INT_MIN`, the iteration marks no index, and `Run` returns the
polyline with index 2 not necessary. -/
theorem Run_marks_no_maximum :
    sweep overflowPolyline overflowPolyline.length 0 1 [] = .ok [(0, 3)] ∧
    distanceAt overflowPolyline 0 3 1 = 100 ∧
    distanceAt overflowPolyline 0 3 2 = 2147483648 ∧
    interiorMaximum overflowPolyline 0 3 = 2147483648 ∧
    DouglasPeuckerThresholds.getD 18 0 < interiorMaximum overflowPolyline 0 3 ∧
    findFarthest overflowPolyline 3 0 3 = (2, INT_MIN) ∧
    splitIndex overflowPolyline 3 0 3 = none ∧
    processStack 3 (2 * overflowPolyline.length) overflowPolyline [(0, 3)] =
      .ok overflowPolyline ∧
    Run overflowPolyline 18 = .ok overflowPolyline ∧
    necessaryAt overflowPolyline 2 = false := by
  refine ⟨by decide, by decide, by decide, by decide, by decide, by decide, by decide,
    by decide, by decide, by decide⟩

/-- C32 fails on the code. On the valid polyline `overflowPolyline` at zoom
level 18 (threshold 3) `Run` returns the polyline unchanged; in it the
indices 0 and 3 are consecutive necessary indices, and the point of index 1
between them has `fastDistance` 100 to their chord, which is more than the
threshold. -/
theorem Run_leaves_point_beyond_threshold :
    2 ≤ overflowPolyline.length ∧ necessaryAt overflowPolyline 0 = true ∧
    necessaryAt overflowPolyline (overflowPolyline.length - 1) = true ∧
    DouglasPeuckerThresholds.getD 18 0 = 3 ∧
    Run overflowPolyline 18 = .ok overflowPolyline ∧
    Consec overflowPolyline 0 3 ∧
    fastDistance (locationAt overflowPolyline 1) (locationAt overflowPolyline 0)
      (locationAt overflowPolyline 3) = 100 ∧
    fastDistance (locationAt overflowPolyline 2) (locationAt overflowPolyline 0)
      (locationAt overflowPolyline 3) = INT_MIN ∧
    ¬ (fastDistance (locationAt overflowPolyline 1) (locationAt overflowPolyline 0)
      (locationAt overflowPolyline 3) ≤ DouglasPeuckerThresholds.getD 18 0) := by
  refine ⟨by decide, by decide, by decide, by decide, by decide, overflowPolyline_consec,
    by decide, by decide, by decide⟩

/-! ## Static R-tree: arrays and rectangles -/

theorem storeAt_length_eq {α : Type} (xs : List α) (v : α) :
    storeAt xs xs.length v = xs ++ [v] := by
  unfold storeAt
  rw [if_neg (lt_irrefl _)]

theorem storeAt_of_length {α : Type} (xs : List α) (j : Nat) (v : α) (h : xs.length = j) :
    storeAt xs j v = xs ++ [v] := by
  subst h
  exact storeAt_length_eq xs v

theorem range_foldl_succ {α : Type} (f : α → Nat → α) (a : α) (n : Nat) :
    (List.range (n + 1)).foldl f a = f ((List.range n).foldl f a) n := by
  rw [List.range_succ, List.foldl_append]
  rfl

theorem within_refl (r : RectangleInt2D) : r.Within r :=
  ⟨le_refl _, le_refl _, le_refl _, le_refl _⟩

theorem within_trans (a b c : RectangleInt2D) (h1 : a.Within b) (h2 : b.Within c) :
    a.Within c := by
  unfold RectangleInt2D.Within at *
  omega

theorem covers_of_within (a b : RectangleInt2D) (e : DataT) (h1 : a.Covers e)
    (h2 : a.Within b) : b.Covers e := by
  unfold RectangleInt2D.Within at h2
  unfold RectangleInt2D.Covers at *
  omega

theorem within_augment_left (r other : RectangleInt2D) :
    r.Within (AugmentMBRectangle r other) := by
  unfold RectangleInt2D.Within AugmentMBRectangle
  simp only
  omega

theorem within_augment_right (r other : RectangleInt2D) :
    other.Within (AugmentMBRectangle r other) := by
  unfold RectangleInt2D.Within AugmentMBRectangle
  simp only
  omega

theorem within_foldl_augment (rs : List RectangleInt2D) (r : RectangleInt2D) :
    r.Within (rs.foldl AugmentMBRectangle r) ∧
      ∀ c ∈ rs, c.Within (rs.foldl AugmentMBRectangle r) := by
  induction rs generalizing r with
  | nil => exact ⟨within_refl r, fun c hc => absurd hc (List.not_mem_nil c)⟩
  | cons x xs ih =>
    simp only [List.foldl_cons]
    obtain ⟨h1, h2⟩ := ih (AugmentMBRectangle r x)
    refine ⟨within_trans _ _ _ (within_augment_left r x) h1, ?_⟩
    intro c hc
    rcases List.mem_cons.mp hc with rfl | hc
    · exact within_trans _ _ _ (within_augment_right r c) h1
    · exact h2 c hc

theorem within_unionOf (rs : List RectangleInt2D) (c : RectangleInt2D) (hc : c ∈ rs) :
    c.Within (unionOf rs) :=
  (within_foldl_augment rs RectangleInt2D.init).2 c hc

theorem within_extend (r : RectangleInt2D) (o : DataT) : r.Within (extendByObject r o) := by
  unfold RectangleInt2D.Within extendByObject
  simp only
  omega

theorem covers_extend (r : RectangleInt2D) (o : DataT) : (extendByObject r o).Covers o := by
  unfold RectangleInt2D.Covers extendByObject
  simp only
  omega

theorem covers_foldl_extend (objects : List DataT) (r : RectangleInt2D) :
    r.Within (objects.foldl extendByObject r) ∧
      ∀ o ∈ objects, (objects.foldl extendByObject r).Covers o := by
  induction objects generalizing r with
  | nil => exact ⟨within_refl r, fun o ho => absurd ho (List.not_mem_nil o)⟩
  | cons x xs ih =>
    simp only [List.foldl_cons]
    obtain ⟨h1, h2⟩ := ih (extendByObject r x)
    refine ⟨within_trans _ _ _ (within_extend r x) h1, ?_⟩
    intro o ho
    rcases List.mem_cons.mp ho with rfl | ho
    · exact covers_of_within _ _ _ (covers_extend r o) h1
    · exact h2 o ho

theorem covers_boundingBox (objects : List DataT) (o : DataT) (ho : o ∈ objects) :
    (boundingBox objects).Covers o :=
  (covers_foldl_extend objects RectangleInt2D.init).2 o ho

/-! ## Static R-tree: the leaf pages -/

theorem fillLeaf_prefix (I : List DataT) (W : List WrappedInputElement) (n p : Nat) :
    ∀ m, (List.range m).foldl (fillLeafStep I W n p) default =
      { object_count := min m (n - p),
        objects := (List.range (min m (n - p))).map fun j => orderedElement I W (p + j) } := by
  intro m
  induction m with
  | zero => simp only [List.range_zero, List.foldl_nil, Nat.zero_min, List.map_nil]; rfl
  | succ m ih =>
    rw [range_foldl_succ, ih]
    unfold fillLeafStep
    by_cases c : n > p + m
    · rw [if_pos c]
      have e1 : min m (n - p) = m := by omega
      have e2 : min (m + 1) (n - p) = m + 1 := by omega
      rw [e1, e2]
      have hl : ((List.range m).map fun j => orderedElement I W (p + j)).length = m := by simp
      simp only
      congr 1
      rw [storeAt_of_length _ _ _ hl, List.range_succ, List.map_append]
      rfl
    · rw [if_neg c]
      have e1 : min m (n - p) = n - p := by omega
      have e2 : min (m + 1) (n - p) = n - p := by omega
      rw [e1, e2]

theorem fillLeaf_eq (I : List DataT) (W : List WrappedInputElement) (n p : Nat) :
    fillLeaf I W n p =
      { object_count := min RTREE_LEAF_NODE_SIZE (n - p),
        objects := (List.range (min RTREE_LEAF_NODE_SIZE (n - p))).map
          fun j => orderedElement I W (p + j) } :=
  fillLeaf_prefix I W n p RTREE_LEAF_NODE_SIZE

theorem getElem?_append_of_some {α : Type} (xs ys : List α) (i : Nat) (a : α)
    (h : xs[i]? = some a) : (xs ++ ys)[i]? = some a := by
  have hi : i < xs.length := by
    by_contra hc
    rw [List.getElem?_eq_none (by omega)] at h
    exact Option.noConfusion h
  rw [List.getElem?_append_left hi]
  exact h

theorem leafWF_append (file extra : List LeafNode) (nd : TreeNode) (h : LeafWF file nd) :
    LeafWF (file ++ extra) nd := by
  obtain ⟨h1, h2, p, page, h3, h4, h5⟩ := h
  exact ⟨h1, h2, p, page, h3, getElem?_append_of_some file extra p page h4, h5⟩

theorem leafParent_wf (I : List DataT) (W : List WrappedInputElement) (n p : Nat)
    (hp : p < n) (level : List TreeNode) (file : List LeafNode)
    (hlen : level.length = file.length) :
    LeafWF (file ++ [fillLeaf I W n p]) (leafParent (fillLeaf I W n p) level) := by
  have hk : 1 ≤ min RTREE_LEAF_NODE_SIZE (n - p) := by
    unfold RTREE_LEAF_NODE_SIZE; omega
  refine ⟨rfl, rfl, level.length, fillLeaf I W n p, ?_, ?_, ?_, ?_, ?_⟩
  · unfold leafParent storeAt
    simp
  · rw [hlen]
    simp
  · rw [fillLeaf_eq]
    simp only
    intro hc
    have := congrArg List.length hc
    simp only [List.length_map, List.length_range, List.length_nil] at this
    omega
  · rw [fillLeaf_eq]
    simp
  · unfold leafParent InitializeMBRectangle boundingBox
    simp only
    rw [fillLeaf_eq]
    simp only
    rw [List.take_of_length_le (by simp)]

/-- The leaf loop terminates; every node it creates names a page of the leaf
file whose bounding box is the node's rectangle, every element of the sorted
order is covered by the rectangle of some node, and the pages hold nothing
else. -/
theorem packLeaves_spec (I : List DataT) (W : List WrappedInputElement) (n : Nat) :
    ∀ (fuel p : Nat) (level : List TreeNode) (file : List LeafNode),
      n ≤ fuel + p → level.length = file.length →
      (∀ nd ∈ level, LeafWF file nd) →
      (∀ j, j < p → ∃ nd ∈ level,
        nd.minimum_bounding_rectangle.Covers (orderedElement I W j)) →
      (∀ page ∈ file, ∀ o ∈ page.objects, ∃ j, o = orderedElement I W j) →
      (0 < p → level ≠ []) →
      ∃ level' file', packLeaves I W n fuel p level file = .ok (level', file') ∧
        level'.length = file'.length ∧
        (∀ nd ∈ level', LeafWF file' nd) ∧
        (∀ j, j < n → ∃ nd ∈ level',
          nd.minimum_bounding_rectangle.Covers (orderedElement I W j)) ∧
        (∀ page ∈ file', ∀ o ∈ page.objects, ∃ j, o = orderedElement I W j) ∧
        (0 < n → level' ≠ []) := by
  intro fuel
  induction fuel with
  | zero =>
    intro p level file hf hlen hwf hcov horig hne
    refine ⟨level, file, ?_, hlen, hwf, fun j hj => hcov j (by omega), horig,
      fun h => hne (by omega)⟩
    unfold packLeaves
    rw [if_neg (by omega)]
  | succ fuel ih =>
    intro p level file hf hlen hwf hcov horig hne
    by_cases c : p < n
    · have hstep : packLeaves I W n (fuel + 1) p level file =
          packLeaves I W n fuel (p + (fillLeaf I W n p).object_count)
            (level ++ [leafParent (fillLeaf I W n p) level]) (file ++ [fillLeaf I W n p]) := by
        simp only [packLeaves, if_pos c]
      rw [hstep]
      have hcount : (fillLeaf I W n p).object_count = min RTREE_LEAF_NODE_SIZE (n - p) := by
        rw [fillLeaf_eq]
      have hk : 1 ≤ min RTREE_LEAF_NODE_SIZE (n - p) := by
        unfold RTREE_LEAF_NODE_SIZE; omega
      have hobj : ∀ o, o ∈ (fillLeaf I W n p).objects ↔
          ∃ j, j < min RTREE_LEAF_NODE_SIZE (n - p) ∧ orderedElement I W (p + j) = o := by
        intro o
        rw [fillLeaf_eq]
        simp only [List.mem_map, List.mem_range]
      have hnew := leafParent_wf I W n p c level file hlen
      apply ih
      · omega
      · simp [hlen]
      · intro nd hnd
        rcases List.mem_append.mp hnd with h | h
        · exact leafWF_append file _ nd (hwf nd h)
        · rw [List.mem_singleton] at h
          rw [h]
          exact hnew
      · intro j hj
        by_cases cj : j < p
        · obtain ⟨nd, hnd, hc⟩ := hcov j cj
          exact ⟨nd, List.mem_append_left _ hnd, hc⟩
        · refine ⟨_, List.mem_append_right _ (List.mem_singleton_self _), ?_⟩
          rw [hcount] at hj
          have hlt : j - p < min RTREE_LEAF_NODE_SIZE (n - p) := by
            generalize RTREE_LEAF_NODE_SIZE = cap at hj hk ⊢
            omega
          have e : p + (j - p) = j := by omega
          have hmem : orderedElement I W j ∈ (fillLeaf I W n p).objects :=
            (hobj _).mpr ⟨j - p, hlt, by rw [e]⟩
          have hbox : (leafParent (fillLeaf I W n p) level).minimum_bounding_rectangle =
              boundingBox (fillLeaf I W n p).objects := by
            obtain ⟨_, _, q, page, _, h4, _, _, h7⟩ := hnew
            unfold leafParent InitializeMBRectangle boundingBox
            simp only
            rw [fillLeaf_eq]
            simp only
            rw [List.take_of_length_le (by simp)]
          rw [hbox]
          exact covers_boundingBox _ _ hmem
      · intro page hpage o ho
        rcases List.mem_append.mp hpage with h | h
        · exact horig page h o ho
        · rw [List.mem_singleton] at h
          rw [h] at ho
          obtain ⟨j, _, hj⟩ := (hobj o).mp ho
          exact ⟨p + j, hj.symm⟩
      · intro _
        simp
    · refine ⟨level, file, ?_, hlen, hwf, fun j hj => hcov j (by omega), horig,
        fun h => hne (by omega)⟩
      unfold packLeaves
      rw [if_neg c]

/-! ## Static R-tree: one parent node -/

theorem take_succ_drop {α : Type} [Inhabited α] (L : List α) (p m : Nat)
    (h : p + m < L.length) :
    (L.drop p).take (m + 1) = (L.drop p).take m ++ [L.getD (p + m) default] := by
  rw [List.take_succ, List.getElem?_drop, List.getD_eq_getElem?_getD,
    List.getElem?_eq_getElem h]
  rfl

theorem length_take_drop {α : Type} (L : List α) (p m : Nat) (h : p + m ≤ L.length) :
    ((L.drop p).take m).length = m := by
  rw [List.length_take, List.length_drop]
  omega

theorem packParent_prefix (L T : List TreeNode) (p : Nat) :
    ∀ m, (List.range m).foldl (packChild L)
        { parent_node := default, m_search_tree := T, processed_tree_nodes_in_level := p } =
      packedPrefix L T p (min m (L.length - p)) := by
  intro m
  induction m with
  | zero =>
    simp only [List.range_zero, List.foldl_nil, Nat.zero_min]
    unfold packedPrefix
    simp only [List.take_zero, List.map_nil, List.append_nil, List.range_zero, Nat.add_zero]
    rfl
  | succ m ih =>
    rw [range_foldl_succ, ih]
    by_cases c : p + m < L.length
    · have e1 : min m (L.length - p) = m := by omega
      have e2 : min (m + 1) (L.length - p) = m + 1 := by omega
      rw [e1, e2]
      unfold packChild packedPrefix
      simp only
      rw [if_pos c]
      have hl : ((List.range m).map fun j => T.length + j).length = m := by simp
      have ht : (T ++ (L.drop p).take m).length = T.length + m := by
        rw [List.length_append, length_take_drop L p m (by omega)]
      simp only [storeAt_of_length _ _ _ hl, ht, take_succ_drop L p m c, List.map_append,
        List.map_cons, List.map_nil, List.range_succ, List.append_assoc]
      congr 1
      congr 1
      unfold unionOf
      rw [List.foldl_append]
      rfl
    · have e1 : min m (L.length - p) = L.length - p := by omega
      have e2 : min (m + 1) (L.length - p) = L.length - p := by omega
      rw [e1, e2]
      unfold packChild
      have : ¬ (packedPrefix L T p (L.length - p)).processed_tree_nodes_in_level < L.length := by
        unfold packedPrefix
        simp only
        omega
      rw [if_neg this]

theorem packParent_eq (L T : List TreeNode) (p : Nat) :
    packParent L T p = packedPrefix L T p (min RTREE_BRANCHING_FACTOR (L.length - p)) :=
  packParent_prefix L T p RTREE_BRANCHING_FACTOR

theorem interiorWF_append (T X : List TreeNode) (nd : TreeNode) (h : InteriorWF T nd) :
    InteriorWF (T ++ X) nd := by
  obtain ⟨h1, h2, h3, h4, h5, h6⟩ := h
  refine ⟨h1, h2, h3, h4, ?_, ?_⟩
  · intro c hc
    have := h5 c hc
    rw [List.length_append]
    omega
  · rw [h6]
    congr 1
    apply List.map_congr_left
    intro c hc
    rw [List.getD_append T X default c (h5 c hc)]

theorem map_getD_range {α : Type} [Inhabited α] (xs : List α) :
    (List.range xs.length).map (fun j => xs.getD j default) = xs := by
  apply List.ext_getElem (by simp)
  intro n h1 h2
  simp only [List.getElem_map, List.getElem_range]
  exact List.getD_eq_getElem xs default h2

theorem packedPrefix_wf (L T : List TreeNode) (p k : Nat) (hk1 : 1 ≤ k)
    (hk2 : k ≤ RTREE_BRANCHING_FACTOR) (hpk : p + k ≤ L.length) :
    InteriorWF (packedPrefix L T p k).m_search_tree (packedPrefix L T p k).parent_node := by
  have hl := length_take_drop L p k hpk
  unfold packedPrefix
  refine ⟨rfl, by simp, hk1, hk2, ?_, ?_⟩
  · intro c hc
    simp only [List.mem_map, List.mem_range] at hc
    obtain ⟨j, hj, rfl⟩ := hc
    simp only [List.length_append, hl]
    omega
  · simp only
    congr 1
    rw [List.map_map]
    have key : ∀ j, j < k →
        ((T ++ (L.drop p).take k).getD (T.length + j) default) =
          ((L.drop p).take k).getD j default := by
      intro j _
      rw [List.getD_append_right T _ default (T.length + j) (by omega)]
      congr 1
      omega
    have e : (List.range k).map ((fun c => (List.getD (T ++ (L.drop p).take k) c
          default).minimum_bounding_rectangle) ∘ fun j => T.length + j) =
        (List.range k).map (fun j =>
          (((L.drop p).take k).getD j default).minimum_bounding_rectangle) := by
      apply List.map_congr_left
      intro j hj
      rw [List.mem_range] at hj
      simp only [Function.comp]
      rw [key j hj]
    rw [e]
    have := map_getD_range ((L.drop p).take k)
    rw [hl] at this
    conv_lhs => rw [← this]
    rw [List.map_map]
    rfl

/-- One pass over a level terminates, appends the level to the search tree,
and returns parents that are consistent interior nodes referring to every node
of the level; there are fewer parents than nodes when the level has more than
one node. -/
theorem packLevel_spec (L T0 : List TreeNode) :
    ∀ (fuel p : Nat) (N T : List TreeNode),
      L.length ≤ fuel + p → p ≤ L.length → T = T0 ++ L.take p →
      (∀ nd ∈ N, InteriorWF T nd) →
      (∀ i, T0.length ≤ i → i < T.length → ∃ nd ∈ N, RefersTo nd i) →
      (p ≤ RTREE_BRANCHING_FACTOR * N.length ∧
        (p < L.length → p = RTREE_BRANCHING_FACTOR * N.length) ∧
        (N ≠ [] → RTREE_BRANCHING_FACTOR * (N.length - 1) < p)) →
      ∃ N', packLevel L fuel p N T = .ok (N', T0 ++ L) ∧
        (∀ nd ∈ N', InteriorWF (T0 ++ L) nd) ∧
        (∀ i, T0.length ≤ i → i < (T0 ++ L).length → ∃ nd ∈ N', RefersTo nd i) ∧
        (L ≠ [] → N' ≠ []) ∧ (1 < L.length → N'.length < L.length) := by
  intro fuel
  induction fuel with
  | zero =>
    intro p N T hf hp hT hwf href hcnt
    have hpl : p = L.length := by omega
    subst hpl
    rw [List.take_length] at hT
    subst hT
    refine ⟨N, ?_, hwf, href, ?_, ?_⟩
    · unfold packLevel
      rw [if_neg (lt_irrefl _)]
    · intro hL hN
      subst hN
      have := List.length_pos.mpr hL
      simp only [List.length_nil] at hcnt
      omega
    · intro h1
      obtain ⟨c1, c2, c3⟩ := hcnt
      have hN : N ≠ [] := by
        intro hN; subst hN
        simp only [List.length_nil] at c1; omega
      have := c3 hN
      have hpos := List.length_pos.mpr hN
      generalize N.length = a at *
      unfold RTREE_BRANCHING_FACTOR at *
      omega
  | succ fuel ih =>
    intro p N T hf hp hT hwf href hcnt
    by_cases c : p < L.length
    · have hstep : packLevel L (fuel + 1) p N T =
          packLevel L fuel (packParent L T p).processed_tree_nodes_in_level
            (N ++ [(packParent L T p).parent_node]) (packParent L T p).m_search_tree := by
        simp only [packLevel, if_pos c]
      rw [hstep, packParent_eq]
      have hk1 : 1 ≤ min RTREE_BRANCHING_FACTOR (L.length - p) := by
        unfold RTREE_BRANCHING_FACTOR; omega
      have hk2 : min RTREE_BRANCHING_FACTOR (L.length - p) ≤ RTREE_BRANCHING_FACTOR :=
        Nat.min_le_left _ _
      have hk3 : p + min RTREE_BRANCHING_FACTOR (L.length - p) ≤ L.length := by omega
      generalize hk : min RTREE_BRANCHING_FACTOR (L.length - p) = k at hk1 hk2 hk3 ⊢
      have hwfp := packedPrefix_wf L T p k hk1 hk2 hk3
      have hT' : (packedPrefix L T p k).m_search_tree = T0 ++ L.take (p + k) := by
        unfold packedPrefix
        simp only
        rw [hT, List.take_add, List.append_assoc]
      have hlenT : (packedPrefix L T p k).m_search_tree.length = T.length + k := by
        unfold packedPrefix
        simp only [List.length_append, length_take_drop L p k hk3]
      have hkids : (packedPrefix L T p k).parent_node.children =
          (List.range k).map fun j => T.length + j := rfl
      have hdisk : (packedPrefix L T p k).parent_node.child_is_on_disk = false := rfl
      have hproc : (packedPrefix L T p k).processed_tree_nodes_in_level = p + k := rfl
      have hext : (packedPrefix L T p k).m_search_tree = T ++ (L.drop p).take k := rfl
      rw [hproc]
      apply ih
      · omega
      · exact hk3
      · exact hT'
      · intro nd hnd
        rcases List.mem_append.mp hnd with h | h
        · rw [hext]
          exact interiorWF_append T _ nd (hwf nd h)
        · rw [List.mem_singleton] at h
          rw [h]
          exact hwfp
      · intro i hi1 hi2
        by_cases ci : i < T.length
        · obtain ⟨nd, hnd, hr⟩ := href i hi1 ci
          exact ⟨nd, List.mem_append_left _ hnd, hr⟩
        · refine ⟨_, List.mem_append_right _ (List.mem_singleton_self _), hdisk, ?_⟩
          rw [hkids]
          simp only [List.mem_map, List.mem_range]
          rw [hlenT] at hi2
          exact ⟨i - T.length, by omega, by omega⟩
      · obtain ⟨c1, c2, c3⟩ := hcnt
        have e := c2 c
        simp only [List.length_append, List.length_singleton, Nat.add_sub_cancel]
        refine ⟨?_, ?_, ?_⟩
        · generalize N.length = a at *
          unfold RTREE_BRANCHING_FACTOR at *
          omega
        · intro hlt
          generalize N.length = a at *
          unfold RTREE_BRANCHING_FACTOR at *
          omega
        · intro _
          omega
    · have hpl : p = L.length := by omega
      subst hpl
      rw [List.take_length] at hT
      subst hT
      refine ⟨N, ?_, hwf, href, ?_, ?_⟩
      · unfold packLevel
        rw [if_neg (lt_irrefl _)]
      · intro hL hN
        subst hN
        have := List.length_pos.mpr hL
        simp only [List.length_nil] at hcnt
        omega
      · intro h1
        obtain ⟨c1, c2, c3⟩ := hcnt
        have hN : N ≠ [] := by
          intro hN; subst hN
          simp only [List.length_nil] at c1; omega
        have := c3 hN
        have hpos := List.length_pos.mpr hN
        generalize N.length = a at *
        unfold RTREE_BRANCHING_FACTOR at *
        omega

/-! ## Static R-tree: the levels above the leaf parents -/

theorem nodeWF_append (file : List LeafNode) (T X : List TreeNode) (nd : TreeNode)
    (h : NodeWF file T nd) : NodeWF file (T ++ X) nd := by
  rcases h with h | h
  · exact Or.inl h
  · exact Or.inr (interiorWF_append T X nd h)

theorem getD_mem {α : Type} [Inhabited α] (L : List α) (j : Nat) (h : j < L.length) :
    L.getD j default ∈ L := by
  rw [List.getD_eq_getElem L default h]
  exact List.getElem_mem h

theorem treeWF_append (file : List LeafNode) (T L : List TreeNode) (hT : TreeWF file T)
    (hL : ∀ nd ∈ L, NodeWF file T nd) : TreeWF file (T ++ L) := by
  intro i hi
  by_cases c : i < T.length
  · rw [List.take_append_of_le_length (by omega), List.getD_append T L default i c]
    exact hT i c
  · rw [List.length_append] at hi
    have e : i = T.length + (i - T.length) := by omega
    rw [List.getD_append_right T L default i (by omega)]
    conv => arg 2; rw [e]
    rw [List.take_append]
    apply nodeWF_append
    exact hL _ (getD_mem L _ (by omega))

theorem covers_of_refersTo (T : List TreeNode) (parent : TreeNode) (i : Nat) (e : DataT)
    (hwf : InteriorWF T parent) (hr : RefersTo parent i)
    (hc : (T.getD i default).minimum_bounding_rectangle.Covers e) :
    parent.minimum_bounding_rectangle.Covers e := by
  obtain ⟨_, _, _, _, _, h6⟩ := hwf
  apply covers_of_within _ _ _ hc
  rw [h6]
  apply within_unionOf
  exact List.mem_map.mpr ⟨i, hr.2, rfl⟩

/-- The level loop terminates with a single root; the search tree followed by
the root is consistent, every node before the root is referred to by a later
node, and the root's rectangle covers whatever the first level covered. -/
theorem packLevels_spec (file : List LeafNode) (E : DataT → Prop) :
    ∀ (fuel : Nat) (L T : List TreeNode),
      L.length ≤ fuel + 1 → L ≠ [] → TreeWF file T → (∀ nd ∈ L, NodeWF file T nd) →
      (∀ i, i < T.length →
        (∃ q, q < T.length ∧ RefersTo (T.getD q default) i) ∨ ∃ nd ∈ L, RefersTo nd i) →
      (∀ e, E e → ∃ nd ∈ L, nd.minimum_bounding_rectangle.Covers e) →
      ∃ root T', packLevels fuel L T = .ok ([root], T') ∧ TreeWF file (T' ++ [root]) ∧
        (∀ i, i < T'.length →
          ∃ q, q < T'.length + 1 ∧ RefersTo ((T' ++ [root]).getD q default) i) ∧
        (∀ e, E e → root.minimum_bounding_rectangle.Covers e) := by
  have base : ∀ (fuel : Nat) (L T : List TreeNode), ¬ 1 < L.length →
      L ≠ [] → TreeWF file T → (∀ nd ∈ L, NodeWF file T nd) →
      (∀ i, i < T.length →
        (∃ q, q < T.length ∧ RefersTo (T.getD q default) i) ∨ ∃ nd ∈ L, RefersTo nd i) →
      (∀ e, E e → ∃ nd ∈ L, nd.minimum_bounding_rectangle.Covers e) →
      ∃ root T', packLevels fuel L T = .ok ([root], T') ∧ TreeWF file (T' ++ [root]) ∧
        (∀ i, i < T'.length →
          ∃ q, q < T'.length + 1 ∧ RefersTo ((T' ++ [root]).getD q default) i) ∧
        (∀ e, E e → root.minimum_bounding_rectangle.Covers e) := by
    intro fuel L T h1 hne hT hL href hcov
    match L, hne, h1 with
    | [root], _, _ =>
      refine ⟨root, T, ?_, treeWF_append file T [root] hT hL, ?_, ?_⟩
      · cases fuel <;> simp [packLevels]
      · intro i hi
        rcases href i hi with ⟨q, hq, hr⟩ | ⟨nd, hnd, hr⟩
        · refine ⟨q, by omega, ?_⟩
          rw [List.getD_append T [root] default q hq]
          exact hr
        · rw [List.mem_singleton] at hnd
          subst hnd
          refine ⟨T.length, by omega, ?_⟩
          rw [List.getD_append_right T [nd] default T.length (le_refl _)]
          simpa using hr
      · intro e he
        obtain ⟨nd, hnd, hc⟩ := hcov e he
        rw [List.mem_singleton] at hnd
        subst hnd
        exact hc
    | _ :: _ :: _, _, h1 => simp at h1
  intro fuel
  induction fuel with
  | zero =>
    intro L T hf hne hT hL href hcov
    exact base 0 L T (by omega) hne hT hL href hcov
  | succ fuel ih =>
    intro L T hf hne hT hL href hcov
    by_cases c : 1 < L.length
    · obtain ⟨N, hpass, hwfN, hrefN, hneN, hltN⟩ := packLevel_spec L T L.length 0 [] T
        (by omega) (by omega) (by simp)
        (fun nd hnd => absurd hnd (List.not_mem_nil nd))
        (fun i h1 h2 => by omega)
        ⟨by simp, fun _ => by simp, fun h => absurd rfl h⟩
      have hstep : packLevels (fuel + 1) L T = packLevels fuel N (T ++ L) := by
        simp only [packLevels, if_pos c, hpass]
      rw [hstep]
      have hlenTL : (T ++ L).length = T.length + L.length := List.length_append T L
      apply ih
      · have := hltN c; omega
      · exact hneN hne
      · exact treeWF_append file T L hT hL
      · intro nd hnd
        exact Or.inr (hwfN nd hnd)
      · intro i hi
        by_cases ci : i < T.length
        · left
          rcases href i ci with ⟨q, hq, hr⟩ | ⟨nd, hnd, hr⟩
          · refine ⟨q, by omega, ?_⟩
            rw [List.getD_append T L default q hq]
            exact hr
          · obtain ⟨j, hj, hjn⟩ := List.getElem_of_mem hnd
            refine ⟨T.length + j, by omega, ?_⟩
            rw [List.getD_append_right T L default _ (by omega)]
            have e : T.length + j - T.length = j := by omega
            rw [e, List.getD_eq_getElem L default hj, hjn]
            exact hr
        · right
          exact hrefN i (by omega) hi
      · intro e he
        obtain ⟨nd, hnd, hc⟩ := hcov e he
        obtain ⟨j, hj, hjn⟩ := List.getElem_of_mem hnd
        obtain ⟨parent, hparent, hr⟩ := hrefN (T.length + j) (by omega) (by omega)
        refine ⟨parent, hparent, covers_of_refersTo (T ++ L) parent (T.length + j) e
          (hwfN parent hparent) hr ?_⟩
        rw [List.getD_append_right T L default _ (by omega)]
        have e' : T.length + j - T.length = j := by omega
        rw [e', List.getD_eq_getElem L default hj, hjn]
        exact hc
    · exact base (fuel + 1) L T c hne hT hL href hcov

/-! ## Static R-tree: reversal and renumbering -/

theorem renumber_fold (size : Nat) (ch : List Nat) :
    ∀ k, k ≤ ch.length →
      ((List.range k).foldl (renumberChild size) ch).length = ch.length ∧
      ∀ n, ((List.range k).foldl (renumberChild size) ch)[n]? =
        if n < k then ch[n]?.map (fun c => size - c - 1) else ch[n]? := by
  intro k
  induction k with
  | zero =>
    intro _
    exact ⟨rfl, fun n => by simp⟩
  | succ k ih =>
    intro hk
    obtain ⟨h1, h2⟩ := ih (by omega)
    rw [range_foldl_succ]
    generalize (List.range k).foldl (renumberChild size) ch = r at h1 h2
    have hkr : k < r.length := by omega
    have hget : r.getD k 0 = ch.getD k 0 := by
      rw [List.getD_eq_getElem?_getD, List.getD_eq_getElem?_getD, h2 k, if_neg (lt_irrefl _)]
    unfold renumberChild storeAt
    rw [if_pos hkr]
    refine ⟨by rw [List.length_set, h1], ?_⟩
    intro n
    rw [List.getElem?_set, hget]
    by_cases c : k = n
    · subst c
      rw [if_pos rfl, if_pos hkr, if_pos (by omega)]
      rw [List.getD_eq_getElem ch 0 (by omega), List.getElem?_eq_getElem (by omega)]
      rfl
    · rw [if_neg c, h2 n]
      by_cases c2 : n < k
      · rw [if_pos c2, if_pos (by omega)]
      · rw [if_neg c2, if_neg (by omega)]

theorem renumber_interior (size : Nat) (nd : TreeNode)
    (h : nd.child_count = nd.children.length) :
    renumber size nd = { nd with children := nd.children.map fun c => size - c - 1 } := by
  unfold renumber
  congr 1
  obtain ⟨_, h2⟩ := renumber_fold size nd.children nd.child_count (by omega)
  apply List.ext_getElem?
  intro n
  rw [h2 n, List.getElem?_map]
  by_cases c : n < nd.child_count
  · rw [if_pos c]
  · rw [if_neg c, List.getElem?_eq_none (by omega)]
    rfl

theorem renumber_leaf (size : Nat) (nd : TreeNode) (h : nd.child_count = 0) :
    renumber size nd = nd := by
  cases nd
  simp only at h
  subst h
  rfl

theorem getD_reverse_map (C : List TreeNode) (f : TreeNode → TreeNode) (i : Nat)
    (hi : i < C.length) :
    (C.reverse.map f).getD i default = f (C.getD (C.length - 1 - i) default) := by
  rw [List.getD_eq_getElem?_getD, List.getElem?_map, List.getElem?_reverse hi,
    List.getElem?_eq_getElem (by omega), List.getD_eq_getElem C default (by omega)]
  rfl

/-! ## Static R-tree: the constructor as a whole -/

/-- On a non-empty input the constructor returns an index. Its search tree is
the reversed and renumbered array `C` of nodes in construction order, where
`C` is consistent, every node but the last is referred to by some node, and
the last node covers every element of the sorted order. -/
theorem build_spec (hilbert : DataT → Nat)
    (sort : List WrappedInputElement → List WrappedInputElement)
    (I : List DataT) (hne : I ≠ []) :
    ∃ (C : List TreeNode) (file : List LeafNode),
      StaticRTree.build hilbert sort I =
        .ok { m_search_tree := C.reverse.map (renumber C.length),
              m_element_count := I.length, leaf_file := file } ∧
      C ≠ [] ∧ TreeWF file C ∧
      (∀ i, i + 1 < C.length → ∃ q, q < C.length ∧ RefersTo (C.getD q default) i) ∧
      (∀ j, j < I.length →
        (C.getD (C.length - 1) default).minimum_bounding_rectangle.Covers
          (orderedElement I (sort (wrapInput hilbert I)) j)) ∧
      (∀ page ∈ file, ∀ o ∈ page.objects,
        ∃ j, o = orderedElement I (sort (wrapInput hilbert I)) j) := by
  have hn : 0 < I.length := List.length_pos.mpr hne
  obtain ⟨level0, file, hleaves, _, hwf0, hcov0, horig, hne0⟩ :=
    packLeaves_spec I (sort (wrapInput hilbert I)) I.length I.length 0 [] []
      (by omega) rfl (fun nd hnd => absurd hnd (List.not_mem_nil nd))
      (fun j hj => by omega) (fun page hp => absurd hp (List.not_mem_nil page))
      (fun h => by omega)
  obtain ⟨root, T, hlevels, hwf, href, hcov⟩ :=
    packLevels_spec file
      (fun e => ∃ j, j < I.length ∧ e = orderedElement I (sort (wrapInput hilbert I)) j)
      level0.length level0 [] (by omega) (hne0 hn)
      (fun i hi => by simp at hi)
      (fun nd hnd => Or.inl (hwf0 nd hnd))
      (fun i hi => by simp at hi)
      (fun e ⟨j, hj, he⟩ => by rw [he]; exact hcov0 j hj)
  refine ⟨T ++ [root], file, ?_, by simp, hwf, ?_, ?_, horig⟩
  · unfold StaticRTree.build
    simp only [hleaves, hlevels]
    simp
  · intro i hi
    rw [List.length_append, List.length_singleton] at hi ⊢
    exact href i (by omega)
  · intro j hj
    have e : (T ++ [root]).getD ((T ++ [root]).length - 1) default = root := by
      rw [List.length_append, List.length_singleton, Nat.add_sub_cancel,
        List.getD_append_right T [root] default T.length (le_refl _)]
      simp
    rw [e]
    exact hcov _ ⟨j, hj, rfl⟩

/-! ## Static R-tree: unions and bounding boxes -/

theorem foldl_augment_attained (rs : List RectangleInt2D) (r0 : RectangleInt2D) :
    ((rs.foldl AugmentMBRectangle r0).min_lon = r0.min_lon ∨
      ∃ c ∈ rs, c.min_lon = (rs.foldl AugmentMBRectangle r0).min_lon) ∧
    ((rs.foldl AugmentMBRectangle r0).max_lon = r0.max_lon ∨
      ∃ c ∈ rs, c.max_lon = (rs.foldl AugmentMBRectangle r0).max_lon) ∧
    ((rs.foldl AugmentMBRectangle r0).min_lat = r0.min_lat ∨
      ∃ c ∈ rs, c.min_lat = (rs.foldl AugmentMBRectangle r0).min_lat) ∧
    ((rs.foldl AugmentMBRectangle r0).max_lat = r0.max_lat ∨
      ∃ c ∈ rs, c.max_lat = (rs.foldl AugmentMBRectangle r0).max_lat) := by
  induction rs generalizing r0 with
  | nil => exact ⟨Or.inl rfl, Or.inl rfl, Or.inl rfl, Or.inl rfl⟩
  | cons x xs ih =>
    simp only [List.foldl_cons]
    obtain ⟨h1, h2, h3, h4⟩ := ih (AugmentMBRectangle r0 x)
    have lift : ∀ (P : RectangleInt2D → Prop), (∃ c ∈ xs, P c) → ∃ c ∈ x :: xs, P c :=
      fun P ⟨c, hc, hp⟩ => ⟨c, List.mem_cons_of_mem _ hc, hp⟩
    refine ⟨?_, ?_, ?_, ?_⟩
    · rcases h1 with h | h
      · rw [h]
        by_cases c : r0.min_lon ≤ x.min_lon
        · left; simp only [AugmentMBRectangle]; omega
        · right
          exact ⟨x, List.mem_cons_self _ _, by simp only [AugmentMBRectangle]; omega⟩
      · exact Or.inr (lift _ h)
    · rcases h2 with h | h
      · rw [h]
        by_cases c : x.max_lon ≤ r0.max_lon
        · left; simp only [AugmentMBRectangle]; omega
        · right
          exact ⟨x, List.mem_cons_self _ _, by simp only [AugmentMBRectangle]; omega⟩
      · exact Or.inr (lift _ h)
    · rcases h3 with h | h
      · rw [h]
        by_cases c : r0.min_lat ≤ x.min_lat
        · left; simp only [AugmentMBRectangle]; omega
        · right
          exact ⟨x, List.mem_cons_self _ _, by simp only [AugmentMBRectangle]; omega⟩
      · exact Or.inr (lift _ h)
    · rcases h4 with h | h
      · rw [h]
        by_cases c : x.max_lat ≤ r0.max_lat
        · left; simp only [AugmentMBRectangle]; omega
        · right
          exact ⟨x, List.mem_cons_self _ _, by simp only [AugmentMBRectangle]; omega⟩
      · exact Or.inr (lift _ h)

/-- The rectangle computed by repeated `AugmentMBRectangle` from the inverted
rectangle is the component-wise minimum and maximum of a non-empty list of
rectangles whose bounds are 32-bit integers. -/
theorem unionOf_isUnionOf (rs : List RectangleInt2D) (hne : rs ≠ [])
    (hb : ∀ c ∈ rs, RectangleInt2D.init.Within c) : IsUnionOf (unionOf rs) rs := by
  obtain ⟨x, xs, rfl⟩ := List.exists_cons_of_ne_nil hne
  have hw := within_foldl_augment (x :: xs) RectangleInt2D.init
  have hx := hw.2 x (List.mem_cons_self _ _)
  have hbx := hb x (List.mem_cons_self _ _)
  obtain ⟨h1, h2, h3, h4⟩ := foldl_augment_attained (x :: xs) RectangleInt2D.init
  unfold RectangleInt2D.Within at hx hbx
  refine ⟨?_, ?_, ?_, ?_, ?_⟩
  · intro c hc
    have := hw.2 c hc
    unfold RectangleInt2D.Within at this
    exact this
  · rcases h1 with h | h
    · exact ⟨x, List.mem_cons_self _ _, by unfold unionOf; omega⟩
    · exact h
  · rcases h2 with h | h
    · exact ⟨x, List.mem_cons_self _ _, by unfold unionOf; omega⟩
    · exact h
  · rcases h3 with h | h
    · exact ⟨x, List.mem_cons_self _ _, by unfold unionOf; omega⟩
    · exact h
  · rcases h4 with h | h
    · exact ⟨x, List.mem_cons_self _ _, by unfold unionOf; omega⟩
    · exact h

theorem foldl_extend_attained (objects : List DataT) (r0 : RectangleInt2D) :
    ((objects.foldl extendByObject r0).min_lon = r0.min_lon ∨
      ∃ o ∈ objects, (objects.foldl extendByObject r0).min_lon = o.lon1 ∨
        (objects.foldl extendByObject r0).min_lon = o.lon2) ∧
    ((objects.foldl extendByObject r0).max_lon = r0.max_lon ∨
      ∃ o ∈ objects, (objects.foldl extendByObject r0).max_lon = o.lon1 ∨
        (objects.foldl extendByObject r0).max_lon = o.lon2) ∧
    ((objects.foldl extendByObject r0).min_lat = r0.min_lat ∨
      ∃ o ∈ objects, (objects.foldl extendByObject r0).min_lat = o.lat1 ∨
        (objects.foldl extendByObject r0).min_lat = o.lat2) ∧
    ((objects.foldl extendByObject r0).max_lat = r0.max_lat ∨
      ∃ o ∈ objects, (objects.foldl extendByObject r0).max_lat = o.lat1 ∨
        (objects.foldl extendByObject r0).max_lat = o.lat2) := by
  induction objects generalizing r0 with
  | nil => exact ⟨Or.inl rfl, Or.inl rfl, Or.inl rfl, Or.inl rfl⟩
  | cons x xs ih =>
    simp only [List.foldl_cons]
    obtain ⟨h1, h2, h3, h4⟩ := ih (extendByObject r0 x)
    have lift : ∀ (P : DataT → Prop), (∃ o ∈ xs, P o) → ∃ o ∈ x :: xs, P o :=
      fun P ⟨o, ho, hp⟩ => ⟨o, List.mem_cons_of_mem _ ho, hp⟩
    refine ⟨?_, ?_, ?_, ?_⟩
    · rcases h1 with h | h
      · rw [h]
        by_cases c : r0.min_lon ≤ min x.lon1 x.lon2
        · left; simp only [extendByObject]; omega
        · right
          exact ⟨x, List.mem_cons_self _ _, by simp only [extendByObject]; omega⟩
      · exact Or.inr (lift _ h)
    · rcases h2 with h | h
      · rw [h]
        by_cases c : max x.lon1 x.lon2 ≤ r0.max_lon
        · left; simp only [extendByObject]; omega
        · right
          exact ⟨x, List.mem_cons_self _ _, by simp only [extendByObject]; omega⟩
      · exact Or.inr (lift _ h)
    · rcases h3 with h | h
      · rw [h]
        by_cases c : r0.min_lat ≤ min x.lat1 x.lat2
        · left; simp only [extendByObject]; omega
        · right
          exact ⟨x, List.mem_cons_self _ _, by simp only [extendByObject]; omega⟩
      · exact Or.inr (lift _ h)
    · rcases h4 with h | h
      · rw [h]
        by_cases c : max x.lat1 x.lat2 ≤ r0.max_lat
        · left; simp only [extendByObject]; omega
        · right
          exact ⟨x, List.mem_cons_self _ _, by simp only [extendByObject]; omega⟩
      · exact Or.inr (lift _ h)

/-- The rectangle computed by `InitializeMBRectangle` from the inverted
rectangle is the bounding box of a non-empty list of edges with 32-bit
coordinates. -/
theorem boundingBox_isBoundingBoxOf (objects : List DataT) (hne : objects ≠ [])
    (hr : ∀ o ∈ objects, o.InRange) : IsBoundingBoxOf (boundingBox objects) objects := by
  obtain ⟨x, xs, rfl⟩ := List.exists_cons_of_ne_nil hne
  have hc := covers_boundingBox (x :: xs)
  have hx := hc x (List.mem_cons_self _ _)
  have hrx := hr x (List.mem_cons_self _ _)
  obtain ⟨h1, h2, h3, h4⟩ := foldl_extend_attained (x :: xs) RectangleInt2D.init
  unfold RectangleInt2D.Covers at hx
  unfold DataT.InRange INT_MIN INT_MAX at hrx
  have i1 : RectangleInt2D.init.min_lon = 2147483647 := rfl
  have i2 : RectangleInt2D.init.max_lon = -2147483648 := rfl
  have i3 : RectangleInt2D.init.min_lat = 2147483647 := rfl
  have i4 : RectangleInt2D.init.max_lat = -2147483648 := rfl
  refine ⟨hc, ?_, ?_, ?_, ?_⟩
  · rcases h1 with h | h
    · exact ⟨x, List.mem_cons_self _ _, by unfold boundingBox at *; omega⟩
    · exact h
  · rcases h2 with h | h
    · exact ⟨x, List.mem_cons_self _ _, by unfold boundingBox at *; omega⟩
    · exact h
  · rcases h3 with h | h
    · exact ⟨x, List.mem_cons_self _ _, by unfold boundingBox at *; omega⟩
    · exact h
  · rcases h4 with h | h
    · exact ⟨x, List.mem_cons_self _ _, by unfold boundingBox at *; omega⟩
    · exact h

/-! ## Static R-tree: properties of the constructed tree -/

theorem nodeWF_init_within (file : List LeafNode) (T : List TreeNode) (nd : TreeNode)
    (h : NodeWF file T nd) : RectangleInt2D.init.Within nd.minimum_bounding_rectangle := by
  rcases h with ⟨_, _, p, page, _, _, _, _, h7⟩ | ⟨_, _, _, _, _, h6⟩
  · rw [h7]
    exact (covers_foldl_extend page.objects RectangleInt2D.init).1
  · rw [h6]
    exact (within_foldl_augment _ RectangleInt2D.init).1

theorem renumber_mbr (size : Nat) (nd : TreeNode) :
    (renumber size nd).minimum_bounding_rectangle = nd.minimum_bounding_rectangle := rfl

theorem renumber_disk (size : Nat) (nd : TreeNode) :
    (renumber size nd).child_is_on_disk = nd.child_is_on_disk := rfl

theorem renumber_count (size : Nat) (nd : TreeNode) :
    (renumber size nd).child_count = nd.child_count := rfl

theorem orderedElement_inRange (I : List DataT) (W : List WrappedInputElement) (j : Nat)
    (hr : ∀ e ∈ I, e.InRange) : (orderedElement I W j).InRange := by
  unfold orderedElement
  generalize (W.getD j default).m_array_index = idx
  by_cases c : idx < I.length
  · exact hr _ (getD_mem I idx c)
  · rw [List.getD_eq_getElem?_getD, List.getElem?_eq_none (by omega)]
    show (default : DataT).InRange
    unfold DataT.InRange INT_MIN INT_MAX
    decide

/-- C7. After the construction over a non-empty list of edges with 32-bit
coordinates, every leaf parent of the search tree names a page of the leaf
file and its rectangle is the bounding box of the end points of the edges
stored in that page; every other node has a rectangle that is the union
(component-wise minimum and maximum) of the rectangles of the nodes its child
references name. -/
theorem build_mbr_is_union (hilbert : DataT → Nat)
    (sort : List WrappedInputElement → List WrappedInputElement)
    (I : List DataT) (hne : I ≠ []) (hr : ∀ e ∈ I, e.InRange) :
    ∃ t, StaticRTree.build hilbert sort I = .ok t ∧
      ∀ i, i < t.m_search_tree.length →
        ((t.m_search_tree.getD i default).child_is_on_disk = true →
          ∃ page, t.leaf_file[(t.m_search_tree.getD i default).children.getD 0 0]? = some page ∧
            IsBoundingBoxOf (t.m_search_tree.getD i default).minimum_bounding_rectangle
              (page.objects.take page.object_count)) ∧
        ((t.m_search_tree.getD i default).child_is_on_disk = false →
          IsUnionOf (t.m_search_tree.getD i default).minimum_bounding_rectangle
            (((t.m_search_tree.getD i default).children.take
                (t.m_search_tree.getD i default).child_count).map
              fun c => (t.m_search_tree.getD c default).minimum_bounding_rectangle)) := by
  obtain ⟨C, file, hbuild, hC, hwf, _, _, horig⟩ := build_spec hilbert sort I hne
  refine ⟨_, hbuild, ?_⟩
  simp only [List.length_map, List.length_reverse]
  intro i hi
  rw [getD_reverse_map C _ i hi]
  have hq : C.length - 1 - i < C.length := by omega
  generalize hqd : C.length - 1 - i = q at hq
  have hnode := hwf q hq
  rcases hnode with ⟨h1, h2, p, page, h3, h4, h5, h6, h7⟩ | ⟨h1, h2, h3, h4, h5, h6⟩
  · rw [renumber_leaf _ _ h2]
    constructor
    · intro _
      refine ⟨page, by rw [h3]; exact h4, ?_⟩
      rw [h6, List.take_length, h7]
      apply boundingBox_isBoundingBoxOf _ h5
      intro o ho
      have hmem : page ∈ file := by
        obtain ⟨hp, hpe⟩ := List.getElem?_eq_some.mp h4
        rw [← hpe]; exact List.getElem_mem hp
      obtain ⟨j, hj⟩ := horig page hmem o ho
      rw [hj]
      exact orderedElement_inRange I _ j hr
    · intro hd
      rw [h1] at hd
      exact Bool.noConfusion hd
  · rw [renumber_interior _ _ h2]
    constructor
    · intro hd
      simp only at hd
      rw [h1] at hd
      exact Bool.noConfusion hd
    · intro _
      simp only
      rw [h2, ← List.map_take, List.take_length, List.map_map]
      have hlenq : (C.take q).length = q := by
        rw [List.length_take]; omega
      have e : (C.getD q default).children.map
            ((fun c => ((C.reverse.map (renumber C.length)).getD c
              default).minimum_bounding_rectangle) ∘ fun c => C.length - c - 1) =
          (C.getD q default).children.map
            (fun c => ((C.take q).getD c default).minimum_bounding_rectangle) := by
        apply List.map_congr_left
        intro c hc
        have hcq : c < q := by
          have := h5 c hc; omega
        simp only [Function.comp]
        rw [getD_reverse_map C _ _ (by omega), renumber_mbr]
        have e1 : C.length - 1 - (C.length - c - 1) = c := by omega
        rw [e1]
        rw [List.getD_eq_getElem?_getD (C.take q), List.getElem?_take_of_lt hcq,
          ← List.getD_eq_getElem?_getD]
      rw [e, h6]
      apply unionOf_isUnionOf
      · intro hnil
        have := congrArg List.length hnil
        simp only [List.length_map, List.length_nil] at this
        omega
      · intro r hr'
        obtain ⟨c, hc, rfl⟩ := List.mem_map.mp hr'
        have hcq : c < q := by
          have := h5 c hc; omega
        rw [List.getD_eq_getElem?_getD (C.take q), List.getElem?_take_of_lt hcq,
          ← List.getD_eq_getElem?_getD]
        exact nodeWF_init_within file _ _ (hwf c (by omega))

/-- The layout after reversal and renumbering: the tree is not empty, every
child reference of a node that is not a leaf parent is a valid index greater
than the node's own, and every node but node 0 has a parent with a smaller
index. -/
theorem build_children_after_parent (hilbert : DataT → Nat)
    (sort : List WrappedInputElement → List WrappedInputElement)
    (I : List DataT) (hne : I ≠ []) :
    ∃ t, StaticRTree.build hilbert sort I = .ok t ∧ 0 < t.m_search_tree.length ∧
      (∀ i, i < t.m_search_tree.length →
        (t.m_search_tree.getD i default).child_is_on_disk = false →
        ∀ j, j < (t.m_search_tree.getD i default).child_count →
          i < (t.m_search_tree.getD i default).children.getD j 0 ∧
          (t.m_search_tree.getD i default).children.getD j 0 < t.m_search_tree.length) ∧
      (∀ k, 0 < k → k < t.m_search_tree.length →
        ∃ i j, i < k ∧ (t.m_search_tree.getD i default).child_is_on_disk = false ∧
          j < (t.m_search_tree.getD i default).child_count ∧
          (t.m_search_tree.getD i default).children.getD j 0 = k) := by
  obtain ⟨C, file, hbuild, hC, hwf, href, _, _⟩ := build_spec hilbert sort I hne
  refine ⟨_, hbuild, ?_, ?_, ?_⟩
  · simp only [List.length_map, List.length_reverse]
    exact List.length_pos.mpr hC
  · simp only [List.length_map, List.length_reverse]
    intro i hi
    rw [getD_reverse_map C _ i hi]
    have hq : C.length - 1 - i < C.length := by omega
    generalize hqd : C.length - 1 - i = q at hq
    intro hd j hj
    rcases hwf q hq with ⟨h1, _⟩ | ⟨h1, h2, h3, h4, h5, h6⟩
    · rw [renumber_disk, h1] at hd
      exact Bool.noConfusion hd
    · rw [renumber_count] at hj
      rw [renumber_interior _ _ h2]
      simp only
      have hjl : j < (C.getD q default).children.length := by omega
      rw [List.getD_eq_getElem _ 0 (by simpa using hjl), List.getElem_map]
      have := h5 _ (List.getElem_mem hjl)
      rw [List.length_take] at this
      omega
  · simp only [List.length_map, List.length_reverse]
    intro k hk0 hk
    obtain ⟨q, hq, hd, hmem⟩ := href (C.length - 1 - k) (by omega)
    rcases hwf q hq with ⟨h1, _⟩ | ⟨h1, h2, h3, h4, h5, h6⟩
    · rw [h1] at hd
      exact Bool.noConfusion hd
    · obtain ⟨j, hj, hjk⟩ := List.getElem_of_mem hmem
      have hlt := h5 _ hmem
      rw [List.length_take] at hlt
      refine ⟨C.length - 1 - q, j, by omega, ?_, ?_, ?_⟩
      · rw [getD_reverse_map C _ _ (by omega)]
        have e : C.length - 1 - (C.length - 1 - q) = q := by omega
        rw [e, renumber_disk]
        exact h1
      · rw [getD_reverse_map C _ _ (by omega)]
        have e : C.length - 1 - (C.length - 1 - q) = q := by omega
        rw [e, renumber_count]
        omega
      · rw [getD_reverse_map C _ _ (by omega)]
        have e : C.length - 1 - (C.length - 1 - q) = q := by omega
        rw [e, renumber_interior _ _ h2]
        simp only
        rw [List.getD_eq_getElem _ 0 (by simpa using hj), List.getElem_map, hjk]
        omega

/-- C8. After the construction over a non-empty list of edges the search tree
is not empty and node 0 is its root: no node has a child reference to node 0,
and every other node is a child of a node with a smaller index. Every child
reference of a node that is not a leaf parent is a valid index strictly
greater than the node's own index. -/
theorem build_root_first (hilbert : DataT → Nat)
    (sort : List WrappedInputElement → List WrappedInputElement)
    (I : List DataT) (hne : I ≠ []) :
    ∃ t, StaticRTree.build hilbert sort I = .ok t ∧ 0 < t.m_search_tree.length ∧
      (¬ ∃ i j, i < t.m_search_tree.length ∧
        (t.m_search_tree.getD i default).child_is_on_disk = false ∧
        j < (t.m_search_tree.getD i default).child_count ∧
        (t.m_search_tree.getD i default).children.getD j 0 = 0) ∧
      (∀ k, 0 < k → k < t.m_search_tree.length →
        ∃ i j, i < k ∧ (t.m_search_tree.getD i default).child_is_on_disk = false ∧
          j < (t.m_search_tree.getD i default).child_count ∧
          (t.m_search_tree.getD i default).children.getD j 0 = k) ∧
      (∀ i, i < t.m_search_tree.length →
        (t.m_search_tree.getD i default).child_is_on_disk = false →
        ∀ j, j < (t.m_search_tree.getD i default).child_count →
          i < (t.m_search_tree.getD i default).children.getD j 0 ∧
          (t.m_search_tree.getD i default).children.getD j 0 < t.m_search_tree.length) := by
  obtain ⟨t, hb, hlen, hchild, hparent⟩ := build_children_after_parent hilbert sort I hne
  refine ⟨t, hb, hlen, ?_, hparent, hchild⟩
  rintro ⟨i, j, hi, hd, hj, hc⟩
  have := (hchild i hi hd j hj).1
  omega

theorem mem_input_ordered (hilbert : DataT → Nat)
    (sort : List WrappedInputElement → List WrappedInputElement)
    (hsort : ∀ l, (sort l).Perm l)
    (I : List DataT) (hsize : I.length ≤ 4294967296) (e : DataT) (he : e ∈ I) :
    ∃ j, j < I.length ∧ orderedElement I (sort (wrapInput hilbert I)) j = e := by
  obtain ⟨i, hi, hie⟩ := List.getElem_of_mem he
  have hperm := hsort (wrapInput hilbert I)
  have hlenW : (sort (wrapInput hilbert I)).length = I.length := by
    rw [hperm.length_eq]
    simp [wrapInput]
  have hw : (⟨i % 4294967296, hilbert (I.getD i default)⟩ : WrappedInputElement) ∈
      wrapInput hilbert I := by
    unfold wrapInput
    exact List.mem_map.mpr ⟨i, List.mem_range.mpr hi, rfl⟩
  obtain ⟨j, hj, hjw⟩ := List.getElem_of_mem (hperm.mem_iff.mpr hw)
  refine ⟨j, by omega, ?_⟩
  unfold orderedElement
  rw [List.getD_eq_getElem _ default hj, hjw]
  simp only
  rw [Nat.mod_eq_of_lt (by omega), List.getD_eq_getElem I default hi, hie]

/-- C9. After the construction over a non-empty list of at most 2^32 edges,
with a sort that returns a permutation of the wrapper vector, the rectangle of
node 0 contains both end points of every input edge. -/
theorem build_root_covers_input (hilbert : DataT → Nat)
    (sort : List WrappedInputElement → List WrappedInputElement)
    (hsort : ∀ l, (sort l).Perm l)
    (I : List DataT) (hne : I ≠ []) (hsize : I.length ≤ 4294967296) :
    ∃ t, StaticRTree.build hilbert sort I = .ok t ∧
      ∀ e ∈ I,
        (t.m_search_tree.getD 0 default).minimum_bounding_rectangle.min_lon ≤ e.lon1 ∧
        e.lon1 ≤ (t.m_search_tree.getD 0 default).minimum_bounding_rectangle.max_lon ∧
        (t.m_search_tree.getD 0 default).minimum_bounding_rectangle.min_lon ≤ e.lon2 ∧
        e.lon2 ≤ (t.m_search_tree.getD 0 default).minimum_bounding_rectangle.max_lon ∧
        (t.m_search_tree.getD 0 default).minimum_bounding_rectangle.min_lat ≤ e.lat1 ∧
        e.lat1 ≤ (t.m_search_tree.getD 0 default).minimum_bounding_rectangle.max_lat ∧
        (t.m_search_tree.getD 0 default).minimum_bounding_rectangle.min_lat ≤ e.lat2 ∧
        e.lat2 ≤ (t.m_search_tree.getD 0 default).minimum_bounding_rectangle.max_lat := by
  obtain ⟨C, file, hbuild, hC, _, _, hcov, _⟩ := build_spec hilbert sort I hne
  refine ⟨_, hbuild, ?_⟩
  intro e he
  have hlen : 0 < C.length := List.length_pos.mpr hC
  simp only
  rw [getD_reverse_map C _ 0 hlen, renumber_mbr]
  obtain ⟨j, hj, hje⟩ := mem_input_ordered hilbert sort hsort I hsize e he
  have := hcov j hj
  rw [hje] at this
  exact this

theorem sortByHilbert_perm (l : List WrappedInputElement) : (sortByHilbert l).Perm l :=
  List.perm_insertionSort _ l

theorem sampleEdges_inRange : ∀ e ∈ sampleEdges, e.InRange := by
  intro e he
  simp only [sampleEdges, List.mem_cons, List.mem_singleton, List.not_mem_nil, or_false] at he
  rcases he with rfl | rfl | rfl <;>
    (unfold DataT.InRange INT_MIN INT_MAX; decide)

theorem build_mbr_is_union_witness :
    sampleEdges ≠ [] ∧ (∀ e ∈ sampleEdges, e.InRange) ∧
    ∃ t, StaticRTree.build sampleHilbert sortByHilbert sampleEdges = .ok t ∧
      ∀ i, i < t.m_search_tree.length →
        ((t.m_search_tree.getD i default).child_is_on_disk = true →
          ∃ page, t.leaf_file[(t.m_search_tree.getD i default).children.getD 0 0]? = some page ∧
            IsBoundingBoxOf (t.m_search_tree.getD i default).minimum_bounding_rectangle
              (page.objects.take page.object_count)) ∧
        ((t.m_search_tree.getD i default).child_is_on_disk = false →
          IsUnionOf (t.m_search_tree.getD i default).minimum_bounding_rectangle
            (((t.m_search_tree.getD i default).children.take
                (t.m_search_tree.getD i default).child_count).map
              fun c => (t.m_search_tree.getD c default).minimum_bounding_rectangle)) :=
  ⟨by decide, sampleEdges_inRange,
    build_mbr_is_union sampleHilbert sortByHilbert sampleEdges (by decide) sampleEdges_inRange⟩

theorem build_root_covers_input_witness :
    (∀ l, (sortByHilbert l).Perm l) ∧ sampleEdges ≠ [] ∧ sampleEdges.length ≤ 4294967296 ∧
    ∃ t, StaticRTree.build sampleHilbert sortByHilbert sampleEdges = .ok t ∧
      ∀ e ∈ sampleEdges,
        (t.m_search_tree.getD 0 default).minimum_bounding_rectangle.min_lon ≤ e.lon1 ∧
        e.lon1 ≤ (t.m_search_tree.getD 0 default).minimum_bounding_rectangle.max_lon ∧
        (t.m_search_tree.getD 0 default).minimum_bounding_rectangle.min_lon ≤ e.lon2 ∧
        e.lon2 ≤ (t.m_search_tree.getD 0 default).minimum_bounding_rectangle.max_lon ∧
        (t.m_search_tree.getD 0 default).minimum_bounding_rectangle.min_lat ≤ e.lat1 ∧
        e.lat1 ≤ (t.m_search_tree.getD 0 default).minimum_bounding_rectangle.max_lat ∧
        (t.m_search_tree.getD 0 default).minimum_bounding_rectangle.min_lat ≤ e.lat2 ∧
        e.lat2 ≤ (t.m_search_tree.getD 0 default).minimum_bounding_rectangle.max_lat :=
  ⟨sortByHilbert_perm, by decide, by decide,
    build_root_covers_input sampleHilbert sortByHilbert sortByHilbert_perm sampleEdges
      (by decide) (by decide)⟩

/-! ## Static R-tree: the scan of a leaf page -/

theorem scanEdge_skipped (p : Coordinate) (ig : Bool) (s : QueryState) (e : DataT)
    (h : skipsEdge ig e = true) : scanEdge p ig s e = s := by
  unfold skipsEdge at h
  unfold scanEdge
  by_cases c : (ig && e.belongsToTinyComponent) = true
  · rw [if_pos c]
  · rw [if_neg c]
    have : e.isIgnored = true := by
      cases hx : (ig && e.belongsToTinyComponent) <;> simp_all
    rw [if_pos this]

/-- What one scanned edge can do to the flag `found_a_nearest_edge` and to the
identifier of the pending result. -/
theorem scanEdge_result (p : Coordinate) (ig : Bool) (s : QueryState) (e : DataT) :
    ((scanEdge p ig s e).found_a_nearest_edge = s.found_a_nearest_edge ∧
      (scanEdge p ig s e).result_phantom_node.edgeBasedNode =
        s.result_phantom_node.edgeBasedNode) ∨
    (skipsEdge ig e = false ∧
      (scanEdge p ig s e).result_phantom_node.edgeBasedNode = e.id ∧
      ((scanEdge p ig s e).found_a_nearest_edge = true ∨
        (scanEdge p ig s e).found_a_nearest_edge = s.found_a_nearest_edge)) := by
  by_cases hsk : skipsEdge ig e = true
  · rw [scanEdge_skipped p ig s e hsk]
    exact Or.inl ⟨rfl, rfl⟩
  · have hsk' : skipsEdge ig e = false := by
      cases h : skipsEdge ig e
      · rfl
      · exact absurd h hsk
    unfold scanEdge
    split
    · exact Or.inl ⟨rfl, rfl⟩
    · split
      · exact Or.inl ⟨rfl, rfl⟩
      · simp only
        split
        · exact Or.inr ⟨hsk', rfl, Or.inl rfl⟩
        · split
          · split
            · exact Or.inr ⟨hsk', rfl, Or.inr rfl⟩
            · exact Or.inl ⟨rfl, rfl⟩
          · exact Or.inl ⟨rfl, rfl⟩

theorem scanEdge_queue (p : Coordinate) (ig : Bool) (s : QueryState) (e : DataT) :
    (scanEdge p ig s e).traversal_queue = s.traversal_queue := by
  unfold scanEdge
  split
  · rfl
  · split
    · rfl
    · simp only
      split
      · rfl
      · split
        · split <;> rfl
        · rfl

theorem scanLeaf_queue (p : Coordinate) (ig : Bool) (leaf : LeafNode) (s : QueryState) :
    (scanLeaf p ig leaf s).traversal_queue = s.traversal_queue := by
  unfold scanLeaf
  apply foldl_invariant (fun s' : QueryState => s'.traversal_queue = s.traversal_queue)
  · rfl
  · intro s' i _ hs'
    rw [scanEdge_queue]
    exact hs'

theorem scanEdge_resultIsStored (leaf_file : List LeafNode) (p : Coordinate) (ig : Bool)
    (s : QueryState) (e : DataT) (he : StoredEdge leaf_file e)
    (hs : ResultIsStored leaf_file ig s) :
    ResultIsStored leaf_file ig (scanEdge p ig s e) := by
  intro hfound
  rcases scanEdge_result p ig s e with ⟨h1, h2⟩ | ⟨h1, h2, h3⟩
  · rw [h1] at hfound
    rw [h2]
    exact hs hfound
  · exact ⟨e, he, h1, h2⟩

theorem scanLeaf_resultIsStored (leaf_file : List LeafNode) (p : Coordinate) (ig : Bool)
    (leaf : LeafNode) (hleaf : leaf ∈ leaf_file ∨ leaf.object_count = 0) (s : QueryState)
    (hs : ResultIsStored leaf_file ig s) :
    ResultIsStored leaf_file ig (scanLeaf p ig leaf s) := by
  unfold scanLeaf
  apply foldl_invariant (ResultIsStored leaf_file ig)
  · exact hs
  · intro s' i hi hs'
    rw [List.mem_range] at hi
    rcases hleaf with hleaf | hleaf
    · exact scanEdge_resultIsStored leaf_file p ig s' _ ⟨leaf, hleaf, i, hi, rfl⟩ hs'
    · omega

theorem scanLeaf_not_found (p : Coordinate) (ig : Bool) (leaf : LeafNode)
    (hall : ∀ i, i < leaf.object_count → skipsEdge ig (leaf.objects.getD i default) = true)
    (s : QueryState) : scanLeaf p ig leaf s = s := by
  unfold scanLeaf
  apply foldl_invariant (fun s' : QueryState => s' = s)
  · rfl
  · intro s' i hi hs'
    rw [List.mem_range] at hi
    rw [hs', scanEdge_skipped p ig s _ (hall i hi)]

/-! ## Static R-tree: the children of an interior node -/

theorem visitChild_cases (approx : Coordinate → Coordinate → Dbl) (tree : List TreeNode)
    (p : Coordinate) (node : TreeNode) (s : QueryState) (i : Nat) :
    (visitChild approx tree p node s i).found_a_nearest_edge = s.found_a_nearest_edge ∧
    (visitChild approx tree p node s i).result_phantom_node = s.result_phantom_node ∧
    (visitChild approx tree p node s i).min_dist = s.min_dist ∧
    ((visitChild approx tree p node s i).traversal_queue = s.traversal_queue ∨
      ∃ d, (visitChild approx tree p node s i).traversal_queue =
        s.traversal_queue ++ [⟨node.children.getD i 0, d⟩]) := by
  unfold visitChild
  simp only
  split <;> split <;> first
    | exact ⟨rfl, rfl, rfl, Or.inl rfl⟩
    | (split <;> first
        | exact ⟨rfl, rfl, rfl, Or.inl rfl⟩
        | exact ⟨rfl, rfl, rfl, Or.inr ⟨_, rfl⟩⟩)

theorem visitChildren_keeps (approx : Coordinate → Coordinate → Dbl) (tree : List TreeNode)
    (p : Coordinate) (node : TreeNode) (s : QueryState) :
    (visitChildren approx tree p node s).found_a_nearest_edge = s.found_a_nearest_edge ∧
    (visitChildren approx tree p node s).result_phantom_node = s.result_phantom_node ∧
    (visitChildren approx tree p node s).min_dist = s.min_dist := by
  unfold visitChildren
  apply foldl_invariant (fun s' : QueryState =>
    s'.found_a_nearest_edge = s.found_a_nearest_edge ∧
    s'.result_phantom_node = s.result_phantom_node ∧ s'.min_dist = s.min_dist)
  · exact ⟨rfl, rfl, rfl⟩
  · intro s' i _ hs'
    obtain ⟨h1, h2, h3, _⟩ := visitChild_cases approx tree p node s' i
    exact ⟨h1.trans hs'.1, h2.trans hs'.2.1, h3.trans hs'.2.2⟩

theorem queueWeight_append (B n : Nat) (q : List QueryCandidate) (c : QueryCandidate) :
    queueWeight B n (q ++ [c]) = queueWeight B n q + candidateWeight B n c := by
  unfold queueWeight
  simp

theorem visitChildren_weight (approx : Coordinate → Coordinate → Dbl) (tree : List TreeNode)
    (p : Coordinate) (node : TreeNode) (B n id : Nat) (hB : 0 < B)
    (hkids : ∀ j, j < node.child_count → id < node.children.getD j 0) (s : QueryState) :
    ∀ k, k ≤ node.child_count →
      queueWeight B n ((List.range k).foldl (visitChild approx tree p node) s).traversal_queue ≤
        queueWeight B n s.traversal_queue + k * B ^ (n - (id + 1)) := by
  intro k
  induction k with
  | zero => intro _; simp
  | succ k ih =>
    intro hk
    rw [range_foldl_succ]
    have h := ih (by omega)
    generalize (List.range k).foldl (visitChild approx tree p node) s = s' at h
    obtain ⟨_, _, _, hq⟩ := visitChild_cases approx tree p node s' k
    have hstep : B ^ (n - node.children.getD k 0) ≤ B ^ (n - (id + 1)) := by
      apply Nat.pow_le_pow_right hB
      have := hkids k (by omega)
      omega
    rcases hq with hq | ⟨d, hq⟩
    · rw [hq]
      have : (k + 1) * B ^ (n - (id + 1)) = k * B ^ (n - (id + 1)) + B ^ (n - (id + 1)) := by
        ring
      omega
    · rw [hq, queueWeight_append]
      have : (k + 1) * B ^ (n - (id + 1)) = k * B ^ (n - (id + 1)) + B ^ (n - (id + 1)) := by
        ring
      unfold candidateWeight
      simp only
      omega

/-! ## Static R-tree: the priority queue -/

theorem topIndex_lt (rest : List QueryCandidate) :
    ∀ (best : Nat) (d : Dbl) (i : Nat), best < i → topIndex best d i rest < i + rest.length := by
  induction rest with
  | nil => intro best d i h; simpa [topIndex] using h
  | cons c rest ih =>
    intro best d i h
    unfold topIndex
    split
    · have := ih i c.min_dist (i + 1) (by omega)
      simp only [List.length_cons]; omega
    · have := ih best d (i + 1) (by omega)
      simp only [List.length_cons]; omega

theorem sum_map_eraseIdx (f : QueryCandidate → Nat) :
    ∀ (l : List QueryCandidate) (i : Nat) (d : QueryCandidate), i < l.length →
      (l.map f).sum = f (l.getD i d) + ((l.eraseIdx i).map f).sum := by
  intro l
  induction l with
  | nil => intro i d h; simp at h
  | cons x xs ih =>
    intro i d h
    cases i with
    | zero => simp
    | succ i =>
      have := ih i d (by simpa using h)
      simp only [List.map_cons, List.sum_cons, List.eraseIdx_cons_succ, List.getD_cons_succ]
      omega

theorem popTop_weight (B n : Nat) (q q' : List QueryCandidate) (c : QueryCandidate)
    (h : popTop q = some (c, q')) :
    queueWeight B n q = candidateWeight B n c + queueWeight B n q' := by
  unfold popTop at h
  cases q with
  | nil => exact Option.noConfusion h
  | cons c0 rest =>
    simp only [Option.some.injEq, Prod.mk.injEq] at h
    obtain ⟨h1, h2⟩ := h
    rw [← h1, ← h2]
    unfold queueWeight
    apply sum_map_eraseIdx
    have := topIndex_lt rest 0 c0.min_dist 1 (by omega)
    simp only [List.length_cons]; omega

theorem candidateWeight_pos (B n : Nat) (hB : 0 < B) (c : QueryCandidate) :
    0 < candidateWeight B n c := by
  unfold candidateWeight
  exact Nat.pow_pos hB

/-! ## Static R-tree: the traversal loop -/

theorem visitNode_weight (approx : Coordinate → Coordinate → Dbl) (tree : List TreeNode)
    (leaf_file : List LeafNode) (p : Coordinate) (ig : Bool) (B : Nat) (hB : 0 < B)
    (hwf : RootFirst B tree) (c : QueryCandidate) (s : QueryState) :
    queueWeight B tree.length (visitNode approx tree leaf_file p ig c s).traversal_queue + 1 ≤
      queueWeight B tree.length s.traversal_queue + candidateWeight B tree.length c := by
  have hpos := candidateWeight_pos B tree.length hB c
  unfold visitNode
  simp only
  split
  · split
    · rw [scanLeaf_queue]; omega
    · rename_i hdisk
      by_cases hid : c.node_id < tree.length
      · have hd : (tree.getD c.node_id default).child_is_on_disk = false := by
          cases hx : (tree.getD c.node_id default).child_is_on_disk
          · rfl
          · exact absurd hx hdisk
        obtain ⟨hcc, hkids⟩ := hwf c.node_id hid hd
        have hw := visitChildren_weight approx tree p (tree.getD c.node_id default) B
          tree.length c.node_id hB hkids s _ (le_refl _)
        unfold visitChildren
        have e : tree.length - c.node_id = (tree.length - (c.node_id + 1)) + 1 := by omega
        have hpow : candidateWeight B tree.length c =
            B * B ^ (tree.length - (c.node_id + 1)) := by
          unfold candidateWeight
          rw [e, Nat.pow_succ, Nat.mul_comm]
        have hle : (tree.getD c.node_id default).child_count *
              B ^ (tree.length - (c.node_id + 1)) + B ^ (tree.length - (c.node_id + 1)) ≤
            B * B ^ (tree.length - (c.node_id + 1)) := by
          have : (tree.getD c.node_id default).child_count + 1 ≤ B := hcc
          calc (tree.getD c.node_id default).child_count *
                B ^ (tree.length - (c.node_id + 1)) + B ^ (tree.length - (c.node_id + 1))
              = ((tree.getD c.node_id default).child_count + 1) *
                B ^ (tree.length - (c.node_id + 1)) := by ring
            _ ≤ B * B ^ (tree.length - (c.node_id + 1)) := Nat.mul_le_mul_right _ this
        have hone : 1 ≤ B ^ (tree.length - (c.node_id + 1)) := Nat.pow_pos hB
        rw [hpow]
        omega
      · have hdef : tree.getD c.node_id default = default := by
          rw [List.getD_eq_getElem?_getD, List.getElem?_eq_none (by omega)]
          rfl
        rw [hdef]
        have : visitChildren approx tree p (default : TreeNode) s = s := rfl
        rw [this]
        omega
  · omega

/-- With the root-first layout the traversal loop ends: a fuel as large as
the weight of the queue is enough. -/
theorem traverse_terminates (approx : Coordinate → Coordinate → Dbl) (tree : List TreeNode)
    (leaf_file : List LeafNode) (p : Coordinate) (ig : Bool) (B : Nat) (hB : 0 < B)
    (hwf : RootFirst B tree) :
    ∀ (fuel : Nat) (s : QueryState), queueWeight B tree.length s.traversal_queue ≤ fuel →
      ∃ s', traverse approx tree leaf_file p ig fuel s = .ok s' := by
  intro fuel
  induction fuel with
  | zero =>
    intro s hs
    unfold traverse
    cases hpop : popTop s.traversal_queue with
    | none => exact ⟨s, rfl⟩
    | some cq =>
      obtain ⟨c, q'⟩ := cq
      have := popTop_weight B tree.length _ _ _ hpop
      have := candidateWeight_pos B tree.length hB c
      omega
  | succ fuel ih =>
    intro s hs
    unfold traverse
    cases hpop : popTop s.traversal_queue with
    | none => exact ⟨s, rfl⟩
    | some cq =>
      obtain ⟨c, q'⟩ := cq
      simp only
      apply ih
      have h1 := popTop_weight B tree.length _ _ _ hpop
      have h2 := visitNode_weight approx tree leaf_file p ig B hB hwf c
        { s with traversal_queue := q' }
      simp only at h2
      omega

/-- Every property of the state that a visit of a node keeps, and that does
not depend on the queue, holds when the traversal loop ends. -/
theorem traverse_invariant (approx : Coordinate → Coordinate → Dbl) (tree : List TreeNode)
    (leaf_file : List LeafNode) (p : Coordinate) (ig : Bool) (P : QueryState → Prop)
    (hqueue : ∀ s q, P s → P { s with traversal_queue := q })
    (hvisit : ∀ c s, P s → P (visitNode approx tree leaf_file p ig c s)) :
    ∀ (fuel : Nat) (s s' : QueryState), P s →
      traverse approx tree leaf_file p ig fuel s = .ok s' → P s' := by
  intro fuel
  induction fuel with
  | zero =>
    intro s s' hs h
    unfold traverse at h
    cases hpop : popTop s.traversal_queue with
    | none =>
      rw [hpop] at h
      cases h
      exact hs
    | some cq =>
      rw [hpop] at h
      exact Except.noConfusion h
  | succ fuel ih =>
    intro s s' hs h
    unfold traverse at h
    cases hpop : popTop s.traversal_queue with
    | none =>
      rw [hpop] at h
      cases h
      exact hs
    | some cq =>
      obtain ⟨c, q'⟩ := cq
      rw [hpop] at h
      simp only at h
      exact ih _ _ (hvisit c _ (hqueue s q' hs)) h

/-! ## Static R-tree: what the query returns -/

theorem visitNode_resultIsStored (approx : Coordinate → Coordinate → Dbl)
    (tree : List TreeNode) (leaf_file : List LeafNode) (p : Coordinate) (ig : Bool)
    (c : QueryCandidate) (s : QueryState) (hs : ResultIsStored leaf_file ig s) :
    ResultIsStored leaf_file ig (visitNode approx tree leaf_file p ig c s) := by
  unfold visitNode
  simp only
  split
  · split
    · apply scanLeaf_resultIsStored leaf_file p ig _ _ s hs
      generalize (tree.getD c.node_id default).children.getD 0 0 = idx
      by_cases hidx : idx < leaf_file.length
      · exact Or.inl (getD_mem leaf_file idx hidx)
      · right
        rw [List.getD_eq_getElem?_getD, List.getElem?_eq_none (by omega)]
        rfl
    · obtain ⟨h1, h2, _⟩ := visitChildren_keeps approx tree p (tree.getD c.node_id default) s
      intro hf
      rw [h1] at hf
      rw [h2]
      exact hs hf
  · exact hs

theorem visitNode_not_found (approx : Coordinate → Coordinate → Dbl)
    (tree : List TreeNode) (leaf_file : List LeafNode) (p : Coordinate) (ig : Bool)
    (hall : ∀ e, StoredEdge leaf_file e → skipsEdge ig e = true)
    (c : QueryCandidate) (s : QueryState) (hs : s.found_a_nearest_edge = false) :
    (visitNode approx tree leaf_file p ig c s).found_a_nearest_edge = false := by
  unfold visitNode
  simp only
  split
  · split
    · rw [scanLeaf_not_found]
      · exact hs
      · generalize (tree.getD c.node_id default).children.getD 0 0 = idx
        intro i hi
        by_cases hidx : idx < leaf_file.length
        · exact hall _ ⟨_, getD_mem leaf_file idx hidx, i, hi, rfl⟩
        · rw [List.getD_eq_getElem?_getD, List.getElem?_eq_none (by omega)] at hi
          exact absurd hi (Nat.not_lt_zero i)
    · rw [(visitChildren_keeps approx tree p (tree.getD c.node_id default) s).1]
      exact hs
  · exact hs

theorem skipsEdge_false (ig : Bool) (e : DataT) (h : skipsEdge ig e = false) :
    e.isIgnored = false ∧ (ig = true → e.belongsToTinyComponent = false) := by
  unfold skipsEdge at h
  cases ig <;> cases hx : e.belongsToTinyComponent <;> cases hy : e.isIgnored <;> simp_all

theorem scanEdge_zoom15 (p : Coordinate) (zoom : Nat) (hz : 15 ≤ zoom) (s : QueryState)
    (e : DataT) :
    scanEdge p (decide (zoom ≤ 14)) s e =
      scanEdge p (decide (zoom ≤ 14)) s { e with belongsToTinyComponent := false } := by
  have : decide (zoom ≤ 14) = false := by
    rw [decide_eq_false_iff_not]; omega
  rw [this]
  unfold scanEdge
  simp only [Bool.false_and, Bool.false_eq_true, if_false]

/-- C6. Whenever the query returns a phantom node, its `edgeBasedNode` is the
identifier of an edge stored in a leaf page that is not ignored and, for a
zoom level of at most 14, not in a tiny component. For a zoom level of at
least 15 the scan treats an edge of a tiny component exactly like the same
edge outside a tiny component. -/
theorem query_returns_admitted_edge (approx : Coordinate → Coordinate → Dbl)
    (t : StaticRTree) (p : Coordinate) (pn : PhantomNode) (zoom fuel : Nat) :
    (∀ pn', FindPhantomNodeForCoordinate approx t p pn zoom fuel = .ok (true, pn') →
      ∃ e, StoredEdge t.leaf_file e ∧ pn'.edgeBasedNode = e.id ∧ e.isIgnored = false ∧
        (zoom ≤ 14 → e.belongsToTinyComponent = false)) ∧
    (15 ≤ zoom → ∀ (s : QueryState) (e : DataT),
      scanEdge p (decide (zoom ≤ 14)) s e =
        scanEdge p (decide (zoom ≤ 14)) s { e with belongsToTinyComponent := false }) := by
  refine ⟨?_, fun hz s e => scanEdge_zoom15 p zoom hz s e⟩
  intro pn' h
  unfold FindPhantomNodeForCoordinate at h
  simp only at h
  split at h
  · exact Except.noConfusion h
  · split at h
    · exact Except.noConfusion h
    · rename_i s hs
      have hinv := traverse_invariant approx t.m_search_tree t.leaf_file p
        (decide (zoom ≤ 14)) (ResultIsStored t.leaf_file (decide (zoom ≤ 14)))
        (fun s q hs => hs)
        (fun c s hs => visitNode_resultIsStored approx _ _ p _ c s hs)
        fuel _ s (fun hf => Bool.noConfusion hf) hs
      have hfin := Except.ok.inj h
      have hfound : s.found_a_nearest_edge = true := congrArg Prod.fst hfin
      have hid : pn'.edgeBasedNode = s.result_phantom_node.edgeBasedNode :=
        (congrArg (fun r : Bool × PhantomNode => r.2.edgeBasedNode) hfin).symm
      obtain ⟨e, he, hsk, heq⟩ := hinv hfound
      obtain ⟨h1, h2⟩ := skipsEdge_false _ e hsk
      refine ⟨e, he, hid.trans heq, h1, ?_⟩
      intro hz
      exact h2 (decide_eq_true hz)

theorem rootAssertion_of_nonneg (approx : Coordinate → Coordinate → Dbl)
    (hnonneg : ∀ a b, ∃ q, approx a b = Dbl.fin q ∧ 0 ≤ q) (r : RectangleInt2D)
    (p : Coordinate) :
    Dbl.lt (Dbl.sub (Dbl.fin 0) (r.GetMinDist approx p)) FLT_EPSILON = true := by
  have key : ∀ q : ℚ, 0 ≤ q → Dbl.lt (Dbl.sub (Dbl.fin 0) (Dbl.fin q)) FLT_EPSILON = true := by
    intro q hq
    show Dbl.lt (Dbl.add (Dbl.fin 0) (if q = 0 then Dbl.negZero else Dbl.fin (-q)))
      (Dbl.fin (1 / 8388608)) = true
    by_cases c : q = 0
    · rw [if_pos c]
      simp [Dbl.add, Dbl.lt, Dbl.toRat]
    · rw [if_neg c]
      simp only [Dbl.add, Dbl.lt, Dbl.toRat, decide_eq_true_eq]
      have : (0:ℚ) < 1 / 8388608 := by norm_num
      linarith
  have hmin : ∀ (a : Dbl) (b : Dbl), (∃ q, a = Dbl.fin q ∧ 0 ≤ q) → (∃ q, b = Dbl.fin q ∧ 0 ≤ q) →
      ∃ q, Dbl.min a b = Dbl.fin q ∧ 0 ≤ q := by
    intro a b ha hb
    unfold Dbl.min
    split
    · exact hb
    · exact ha
  have hmax : ∃ q, DBL_MAX = Dbl.fin q ∧ 0 ≤ q := ⟨_, rfl, by norm_num⟩
  have : ∃ q, r.GetMinDist approx p = Dbl.fin q ∧ 0 ≤ q := by
    unfold RectangleInt2D.GetMinDist
    simp only
    split
    · exact ⟨0, rfl, le_refl _⟩
    · exact hmin _ _ (hmin _ _ (hmin _ _ (hmin _ _ hmax (hnonneg _ _)) (hnonneg _ _))
        (hnonneg _ _)) (hnonneg _ _)
  obtain ⟨q, hq, hq0⟩ := this
  rw [hq]
  exact key q hq0

/-- C5. If every edge stored in the leaf pages is ignored or, at a zoom level
of at most 14, belongs to a tiny component, the query never returns a phantom
node: whatever it returns has the flag false. When the tree has the root-first
layout (children after their parent, fewer than `B` children per node) and
`ApproximateDistance` returns non-negative numbers, the query does return, for
every fuel from `B ^ size` on, and returns false. -/
theorem query_none_when_all_filtered (approx : Coordinate → Coordinate → Dbl)
    (t : StaticRTree) (p : Coordinate) (pn : PhantomNode) (zoom : Nat)
    (hall : ∀ e, StoredEdge t.leaf_file e →
      e.isIgnored = true ∨ (zoom ≤ 14 ∧ e.belongsToTinyComponent = true)) :
    (∀ fuel r, FindPhantomNodeForCoordinate approx t p pn zoom fuel = .ok r → r.1 = false) ∧
    (∀ B, 0 < B → RootFirst B t.m_search_tree →
      (∀ a b, ∃ q, approx a b = Dbl.fin q ∧ 0 ≤ q) →
      ∀ fuel, B ^ t.m_search_tree.length ≤ fuel →
        ∃ pn', FindPhantomNodeForCoordinate approx t p pn zoom fuel = .ok (false, pn')) := by
  have hall' : ∀ e, StoredEdge t.leaf_file e → skipsEdge (decide (zoom ≤ 14)) e = true := by
    intro e he
    unfold skipsEdge
    rcases hall e he with h | ⟨h1, h2⟩
    · rw [h]; simp
    · rw [h2, decide_eq_true h1]; simp
  have part1 : ∀ fuel r, FindPhantomNodeForCoordinate approx t p pn zoom fuel = .ok r →
      r.1 = false := by
    intro fuel r h
    unfold FindPhantomNodeForCoordinate at h
    simp only at h
    split at h
    · exact Except.noConfusion h
    · split at h
      · exact Except.noConfusion h
      · rename_i s hs
        have hinv := traverse_invariant approx t.m_search_tree t.leaf_file p
          (decide (zoom ≤ 14)) (fun s => s.found_a_nearest_edge = false)
          (fun s q hs => hs)
          (fun c s hs => visitNode_not_found approx _ _ p _ hall' c s hs)
          fuel _ s rfl hs
        rw [← Except.ok.inj h]
        exact hinv
  refine ⟨part1, ?_⟩
  intro B hB hwf hnonneg fuel hfuel
  have hassert := rootAssertion_of_nonneg approx hnonneg
    (t.m_search_tree.getD 0 default).minimum_bounding_rectangle p
  obtain ⟨s, hs⟩ := traverse_terminates approx t.m_search_tree t.leaf_file p
    (decide (zoom ≤ 14)) B hB hwf fuel
    (initialQueryState approx t.m_search_tree p pn)
    (by
      unfold initialQueryState queueWeight candidateWeight
      simpa using hfuel)
  have hres : FindPhantomNodeForCoordinate approx t p pn zoom fuel =
      .ok (finishQuery approx p s) := by
    unfold FindPhantomNodeForCoordinate
    simp only [hassert, not_true_eq_false, if_false, hs]
  have := part1 fuel _ hres
  refine ⟨(finishQuery approx p s).2, ?_⟩
  rw [hres]
  congr 1
  exact Prod.ext this rfl

theorem query_returns_admitted_edge_witness :
    FindPhantomNodeForCoordinate squaredDistance tinyIndex ⟨400100, 300100⟩
        emptyPhantomNode 15 1 = .ok (true, tinyQueryResult) ∧
    ∃ e, StoredEdge tinyIndex.leaf_file e ∧ tinyQueryResult.edgeBasedNode = e.id ∧
      e.isIgnored = false ∧ (15 ≤ 14 → e.belongsToTinyComponent = false) :=
  ⟨by decide!,
    (query_returns_admitted_edge squaredDistance tinyIndex ⟨400100, 300100⟩
      emptyPhantomNode 15 1).1 tinyQueryResult (by decide!)⟩

theorem tinyIndex_all_filtered :
    ∀ e, StoredEdge tinyIndex.leaf_file e →
      e.isIgnored = true ∨ (10 ≤ 14 ∧ e.belongsToTinyComponent = true) := by
  intro e he
  obtain ⟨page, hpage, i, hi, hie⟩ := he
  simp only [tinyIndex, List.mem_singleton] at hpage
  subst hpage
  simp only at hi hie
  have : i = 0 := by omega
  subst this
  rw [← hie]
  exact Or.inr ⟨by decide, rfl⟩

theorem query_none_when_all_filtered_witness :
    (∀ e, StoredEdge tinyIndex.leaf_file e →
      e.isIgnored = true ∨ (10 ≤ 14 ∧ e.belongsToTinyComponent = true)) ∧
    (∀ fuel r, FindPhantomNodeForCoordinate squaredDistance tinyIndex ⟨400100, 300100⟩
        emptyPhantomNode 10 fuel = .ok r → r.1 = false) ∧
    (∀ B, 0 < B → RootFirst B tinyIndex.m_search_tree →
      (∀ a b, ∃ q, squaredDistance a b = Dbl.fin q ∧ 0 ≤ q) →
      ∀ fuel, B ^ tinyIndex.m_search_tree.length ≤ fuel →
        ∃ pn', FindPhantomNodeForCoordinate squaredDistance tinyIndex ⟨400100, 300100⟩
          emptyPhantomNode 10 fuel = .ok (false, pn')) :=
  ⟨tinyIndex_all_filtered,
    query_none_when_all_filtered squaredDistance tinyIndex ⟨400100, 300100⟩
      emptyPhantomNode 10 tinyIndex_all_filtered⟩

/-! ## Static R-tree: termination of the traversal -/

/-- C36. In a search tree in which every child reference of an interior node
is a valid index larger than the index of the node (the child count is a
31-bit number), the traversal loop of the query ends for every coordinate and
zoom level: with any fuel from `(2^31)^size` on it returns a state, and the
query does not run out of fuel. -/
theorem traversal_terminates (approx : Coordinate → Coordinate → Dbl) (tree : StaticRTree)
    (p : Coordinate) (pn : PhantomNode) (zoom : Nat)
    (hcount : ∀ i, i < tree.m_search_tree.length →
      (tree.m_search_tree.getD i default).child_count < 2147483648)
    (hrefs : ∀ i, i < tree.m_search_tree.length →
      (tree.m_search_tree.getD i default).child_is_on_disk = false →
      ∀ j, j < (tree.m_search_tree.getD i default).child_count →
        i < (tree.m_search_tree.getD i default).children.getD j 0 ∧
        (tree.m_search_tree.getD i default).children.getD j 0 < tree.m_search_tree.length) :
    ∀ fuel, 2147483648 ^ tree.m_search_tree.length ≤ fuel →
      (∃ s', traverse approx tree.m_search_tree tree.leaf_file p (decide (zoom ≤ 14)) fuel
        (initialQueryState approx tree.m_search_tree p pn) = .ok s') ∧
      FindPhantomNodeForCoordinate approx tree p pn zoom fuel ≠ .error .outOfFuel := by
  intro fuel hfuel
  have hwf : RootFirst 2147483648 tree.m_search_tree := by
    intro i hi hd
    exact ⟨hcount i hi, fun j hj => (hrefs i hi hd j hj).1⟩
  obtain ⟨s', hs'⟩ := traverse_terminates approx tree.m_search_tree tree.leaf_file p
    (decide (zoom ≤ 14)) 2147483648 (by norm_num) hwf fuel
    (initialQueryState approx tree.m_search_tree p pn)
    (by
      show queueWeight 2147483648 tree.m_search_tree.length [_] ≤ fuel
      simp only [queueWeight, candidateWeight, List.map_cons, List.map_nil, List.sum_cons,
        List.sum_nil, Nat.sub_zero, Nat.add_zero]
      exact hfuel)
  refine ⟨⟨s', hs'⟩, ?_⟩
  unfold FindPhantomNodeForCoordinate
  simp only
  split
  · intro h
    cases h
  · rw [hs']
    intro h
    cases h

theorem traversal_terminates_witness :
    (∃ s', traverse squaredDistance crossingIndex.m_search_tree crossingIndex.leaf_file
      ⟨1, 1150⟩ (decide (18 ≤ 14)) (2147483648 ^ 3)
      (initialQueryState squaredDistance crossingIndex.m_search_tree ⟨1, 1150⟩
        emptyPhantomNode) = .ok s') ∧
    FindPhantomNodeForCoordinate squaredDistance crossingIndex ⟨1, 1150⟩ emptyPhantomNode 18
      (2147483648 ^ 3) ≠ .error .outOfFuel :=
  traversal_terminates squaredDistance crossingIndex ⟨1, 1150⟩ emptyPhantomNode 18
    (by decide) (by decide) (2147483648 ^ 3) (le_refl _)

/-! ## Static R-tree: inputs that fill two leaf pages -/

theorem sortByHilbert_of_sorted (l : List WrappedInputElement)
    (h : l.Sorted fun a b => a.m_hilbert_value ≤ b.m_hilbert_value) : sortByHilbert l = l :=
  List.Sorted.insertionSort_eq h

theorem orderedElement_wrapInput (hilbert : DataT → Nat) (I : List DataT)
    (hsize : I.length ≤ 4294967296) (j : Nat) (hj : j < I.length) :
    orderedElement I (wrapInput hilbert I) j = I.getD j default := by
  have hw : (wrapInput hilbert I).getD j default =
      { m_array_index := j % 4294967296, m_hilbert_value := hilbert (I.getD j default) } := by
    unfold wrapInput
    rw [List.getD_eq_getElem?_getD, List.getElem?_map, List.getElem?_range hj]
    rfl
  unfold orderedElement
  rw [hw]
  simp only
  rw [Nat.mod_eq_of_lt (by omega)]

theorem map_getD_drop (I : List DataT) (p k : Nat) (h : p + k ≤ I.length) :
    (List.range k).map (fun j => I.getD (p + j) default) = (I.drop p).take k := by
  have hl := length_take_drop I p k h
  have := map_getD_range ((I.drop p).take k)
  rw [hl] at this
  rw [← this]
  apply List.map_congr_left
  intro j hj
  rw [List.mem_range] at hj
  rw [List.getD_eq_getElem?_getD, List.getD_eq_getElem?_getD, List.getElem?_take_of_lt hj,
    List.getElem?_drop]

theorem fillLeaf_sorted (hilbert : DataT → Nat) (I : List DataT)
    (hsize : I.length ≤ 4294967296) (p k : Nat) (hp : p ≤ I.length)
    (hk : k = min RTREE_LEAF_NODE_SIZE (I.length - p)) :
    fillLeaf I (wrapInput hilbert I) I.length p =
      { object_count := k, objects := (I.drop p).take k } := by
  rw [fillLeaf_eq, ← hk]
  congr 1
  rw [← map_getD_drop I p k (by omega)]
  apply List.map_congr_left
  intro j hj
  rw [List.mem_range] at hj
  exact orderedElement_wrapInput hilbert I hsize (p + j) (by omega)

theorem leafParent_eq (objects : List DataT) (level : List TreeNode) :
    leafParent { object_count := objects.length, objects := objects } level =
      { minimum_bounding_rectangle := boundingBox objects, child_count := 0,
        child_is_on_disk := true, children := [level.length] } := by
  unfold leafParent InitializeMBRectangle boundingBox storeAt
  simp

theorem packLeaves_done (I : List DataT) (W : List WrappedInputElement) (n fuel p : Nat)
    (level : List TreeNode) (file : List LeafNode) (h : ¬ p < n) :
    packLeaves I W n fuel p level file = .ok (level, file) := by
  cases fuel <;> simp only [packLeaves, if_neg h]

theorem packLeaves_step (I : List DataT) (W : List WrappedInputElement) (n fuel p : Nat)
    (level : List TreeNode) (file : List LeafNode) (leaf : LeafNode) (node : TreeNode)
    (h : p < n) (hleaf : fillLeaf I W n p = leaf) (hnode : leafParent leaf level = node) :
    packLeaves I W n (fuel + 1) p level file =
      packLeaves I W n fuel (p + leaf.object_count) (level ++ [node]) (file ++ [leaf]) := by
  simp only [packLeaves, if_pos h, hleaf, hnode]

/-- The leaf pages of an input of 1171 to 2340 elements that is already in
Hilbert order: the first 1170 elements and the rest. -/
theorem packLeaves_two_pages (hilbert : DataT → Nat) (I : List DataT)
    (h1 : RTREE_LEAF_NODE_SIZE < I.length) (h2 : I.length ≤ 2 * RTREE_LEAF_NODE_SIZE) :
    packLeaves I (wrapInput hilbert I) I.length I.length 0 [] [] =
      .ok ([ { minimum_bounding_rectangle := boundingBox (I.take RTREE_LEAF_NODE_SIZE),
               child_count := 0, child_is_on_disk := true, children := [0] },
             { minimum_bounding_rectangle := boundingBox (I.drop RTREE_LEAF_NODE_SIZE),
               child_count := 0, child_is_on_disk := true, children := [1] } ],
           [ { object_count := RTREE_LEAF_NODE_SIZE, objects := I.take RTREE_LEAF_NODE_SIZE },
             { object_count := I.length - RTREE_LEAF_NODE_SIZE,
               objects := I.drop RTREE_LEAF_NODE_SIZE } ]) := by
  have hcap : RTREE_LEAF_NODE_SIZE ≤ 1170 := le_refl _
  have hsize : I.length ≤ 4294967296 := by omega
  obtain ⟨f, hf⟩ : ∃ f, I.length = f + 1 + 1 := ⟨I.length - 2, by omega⟩
  have e0 : fillLeaf I (wrapInput hilbert I) I.length 0 =
      { object_count := RTREE_LEAF_NODE_SIZE, objects := I.take RTREE_LEAF_NODE_SIZE } := by
    rw [fillLeaf_sorted hilbert I hsize 0 RTREE_LEAF_NODE_SIZE (by omega) (by omega),
      List.drop_zero]
  have e1 : fillLeaf I (wrapInput hilbert I) I.length RTREE_LEAF_NODE_SIZE =
      { object_count := I.length - RTREE_LEAF_NODE_SIZE,
        objects := I.drop RTREE_LEAF_NODE_SIZE } := by
    rw [fillLeaf_sorted hilbert I hsize RTREE_LEAF_NODE_SIZE (I.length - RTREE_LEAF_NODE_SIZE)
      (by omega) (by omega),
      List.take_of_length_le (by rw [List.length_drop])]
  have l0 : (I.take RTREE_LEAF_NODE_SIZE).length = RTREE_LEAF_NODE_SIZE := by
    rw [List.length_take]; omega
  have l1 : (I.drop RTREE_LEAF_NODE_SIZE).length = I.length - RTREE_LEAF_NODE_SIZE :=
    List.length_drop RTREE_LEAF_NODE_SIZE I
  have p0 : leafParent
      { object_count := RTREE_LEAF_NODE_SIZE, objects := I.take RTREE_LEAF_NODE_SIZE } [] =
      { minimum_bounding_rectangle := boundingBox (I.take RTREE_LEAF_NODE_SIZE),
        child_count := 0, child_is_on_disk := true, children := [0] } := by
    have := leafParent_eq (I.take RTREE_LEAF_NODE_SIZE) []
    rw [l0] at this
    exact this
  have p1 : leafParent
      { object_count := I.length - RTREE_LEAF_NODE_SIZE,
        objects := I.drop RTREE_LEAF_NODE_SIZE }
      [ { minimum_bounding_rectangle := boundingBox (I.take RTREE_LEAF_NODE_SIZE),
          child_count := 0, child_is_on_disk := true, children := [0] } ] =
      { minimum_bounding_rectangle := boundingBox (I.drop RTREE_LEAF_NODE_SIZE),
        child_count := 0, child_is_on_disk := true, children := [1] } := by
    have := leafParent_eq (I.drop RTREE_LEAF_NODE_SIZE)
      [ { minimum_bounding_rectangle := boundingBox (I.take RTREE_LEAF_NODE_SIZE),
          child_count := 0, child_is_on_disk := true, children := [0] } ]
    rw [l1] at this
    exact this
  have s1 := packLeaves_step I (wrapInput hilbert I) I.length (f + 1) 0 [] []
    { object_count := RTREE_LEAF_NODE_SIZE, objects := I.take RTREE_LEAF_NODE_SIZE }
    { minimum_bounding_rectangle := boundingBox (I.take RTREE_LEAF_NODE_SIZE),
      child_count := 0, child_is_on_disk := true, children := [0] }
    (by omega) e0 p0
  simp only [Nat.zero_add, List.nil_append] at s1
  have s2 := packLeaves_step I (wrapInput hilbert I) I.length f RTREE_LEAF_NODE_SIZE
    [ { minimum_bounding_rectangle := boundingBox (I.take RTREE_LEAF_NODE_SIZE),
        child_count := 0, child_is_on_disk := true, children := [0] } ]
    [ { object_count := RTREE_LEAF_NODE_SIZE, objects := I.take RTREE_LEAF_NODE_SIZE } ]
    { object_count := I.length - RTREE_LEAF_NODE_SIZE, objects := I.drop RTREE_LEAF_NODE_SIZE }
    { minimum_bounding_rectangle := boundingBox (I.drop RTREE_LEAF_NODE_SIZE),
      child_count := 0, child_is_on_disk := true, children := [1] }
    h1 e1 p1
  simp only [List.cons_append, List.nil_append] at s2
  have s3 := packLeaves_done I (wrapInput hilbert I) I.length f
    (RTREE_LEAF_NODE_SIZE + (I.length - RTREE_LEAF_NODE_SIZE))
    [ { minimum_bounding_rectangle := boundingBox (I.take RTREE_LEAF_NODE_SIZE),
        child_count := 0, child_is_on_disk := true, children := [0] },
      { minimum_bounding_rectangle := boundingBox (I.drop RTREE_LEAF_NODE_SIZE),
        child_count := 0, child_is_on_disk := true, children := [1] } ]
    [ { object_count := RTREE_LEAF_NODE_SIZE, objects := I.take RTREE_LEAF_NODE_SIZE },
      { object_count := I.length - RTREE_LEAF_NODE_SIZE,
        objects := I.drop RTREE_LEAF_NODE_SIZE } ] (by omega)
  have e : packLeaves I (wrapInput hilbert I) I.length I.length 0 [] [] =
      packLeaves I (wrapInput hilbert I) I.length (f + 1 + 1) 0 [] [] := by
    rw [← hf]
  rw [e, s1, s2, s3]

theorem packLevel_step (L : List TreeNode) (fuel p : Nat) (N T : List TreeNode)
    (h : p < L.length) :
    packLevel L (fuel + 1) p N T =
      packLevel L fuel (packParent L T p).processed_tree_nodes_in_level
        (N ++ [(packParent L T p).parent_node]) (packParent L T p).m_search_tree := by
  rw [packLevel, if_pos h]

theorem packLevel_done (L : List TreeNode) (fuel p : Nat) (N T : List TreeNode)
    (h : ¬ p < L.length) :
    packLevel L fuel p N T = .ok (N, T) := by
  cases fuel with
  | zero => rw [packLevel, if_neg h]
  | succ f => rw [packLevel, if_neg h]

theorem packLevels_step (fuel : Nat) (L T N T1 : List TreeNode) (h : 1 < L.length)
    (hl : packLevel L L.length 0 [] T = .ok (N, T1)) :
    packLevels (fuel + 1) L T = packLevels fuel N T1 := by
  rw [packLevels, if_pos h, hl]

theorem packLevels_done (fuel : Nat) (L T : List TreeNode) (h : ¬ 1 < L.length) :
    packLevels fuel L T = .ok (L, T) := by
  cases fuel with
  | zero => rw [packLevels, if_neg h]
  | succ f => rw [packLevels, if_neg h]

theorem packParent_two (a b : TreeNode) :
    packParent [a, b] [] 0 =
      { parent_node :=
          { minimum_bounding_rectangle :=
              unionOf [a.minimum_bounding_rectangle, b.minimum_bounding_rectangle],
            child_count := 2, child_is_on_disk := false, children := [0, 1] },
        m_search_tree := [a, b], processed_tree_nodes_in_level := 2 } := by
  rw [packParent_eq]
  have e : min RTREE_BRANCHING_FACTOR ([a, b].length - 0) = 2 := by
    show min 50 2 = 2
    decide
  rw [e]
  rfl

theorem packLevel_two (a b : TreeNode) :
    packLevel [a, b] [a, b].length 0 [] [] =
      .ok ([ { minimum_bounding_rectangle :=
                 unionOf [a.minimum_bounding_rectangle, b.minimum_bounding_rectangle],
               child_count := 2, child_is_on_disk := false, children := [0, 1] } ],
           [a, b]) := by
  have h1 := packLevel_step [a, b] 1 0 [] [] (by simp)
  rw [packParent_two] at h1
  have h2 := packLevel_done [a, b] 1 2
    ([] ++ [ { minimum_bounding_rectangle :=
                 unionOf [a.minimum_bounding_rectangle, b.minimum_bounding_rectangle],
               child_count := 2, child_is_on_disk := false, children := [0, 1] } ]) [a, b]
    (by simp)
  exact h1.trans h2

theorem packLevels_two (a b : TreeNode) :
    packLevels [a, b].length [a, b] [] =
      .ok ([ { minimum_bounding_rectangle :=
                 unionOf [a.minimum_bounding_rectangle, b.minimum_bounding_rectangle],
               child_count := 2, child_is_on_disk := false, children := [0, 1] } ],
           [a, b]) := by
  have h1 := packLevels_step 1 [a, b] [] _ _ (by simp) (packLevel_two a b)
  have h2 := packLevels_done 1
    [ { minimum_bounding_rectangle :=
          unionOf [a.minimum_bounding_rectangle, b.minimum_bounding_rectangle],
        child_count := 2, child_is_on_disk := false, children := [0, 1] } ] [a, b] (by simp)
  exact h1.trans h2

theorem final_two (r a b : TreeNode) (ha : a.child_count = 0) (hb : b.child_count = 0)
    (hr : r.child_count = r.children.length) :
    ([a, b] ++ [r]).reverse.map (renumber ([a, b] ++ [r]).reverse.length) =
      [{ r with children := r.children.map fun c => 3 - c - 1 }, b, a] := by
  simp only [List.cons_append, List.nil_append, List.reverse_cons, List.reverse_nil,
    List.length_cons, List.length_nil, List.map_cons, List.map_nil,
    renumber_leaf _ _ ha, renumber_leaf _ _ hb, renumber_interior _ _ hr]

theorem build_of_parts (hilbert : DataT → Nat)
    (sort : List WrappedInputElement → List WrappedInputElement) (I : List DataT)
    (P : List TreeNode) (F : List LeafNode) (r : TreeNode) (T : List TreeNode)
    (h1 : packLeaves I (sort (wrapInput hilbert I)) I.length I.length 0 [] [] = .ok (P, F))
    (h2 : packLevels P.length P [] = .ok ([r], T)) :
    StaticRTree.build hilbert sort I =
      .ok { m_search_tree := (T ++ [r]).reverse.map (renumber (T ++ [r]).reverse.length),
            m_element_count := I.length, leaf_file := F } := by
  unfold StaticRTree.build
  simp only [h1, h2]
  rw [if_neg (by simp), if_neg (by simp)]
  rfl

/-- The index built from 1171 to 2340 elements that are already in Hilbert
order: a root with two leaf parents, one for the first 1170 elements and one
for the rest. -/
theorem build_two_pages (hilbert : DataT → Nat) (I : List DataT)
    (h1 : RTREE_LEAF_NODE_SIZE < I.length) (h2 : I.length ≤ 2 * RTREE_LEAF_NODE_SIZE)
    (hsorted : (wrapInput hilbert I).Sorted fun a b => a.m_hilbert_value ≤ b.m_hilbert_value) :
    StaticRTree.build hilbert sortByHilbert I =
      .ok { m_search_tree :=
              [ { minimum_bounding_rectangle :=
                    unionOf [boundingBox (I.take RTREE_LEAF_NODE_SIZE),
                      boundingBox (I.drop RTREE_LEAF_NODE_SIZE)],
                  child_count := 2, child_is_on_disk := false, children := [2, 1] },
                { minimum_bounding_rectangle := boundingBox (I.drop RTREE_LEAF_NODE_SIZE),
                  child_count := 0, child_is_on_disk := true, children := [1] },
                { minimum_bounding_rectangle := boundingBox (I.take RTREE_LEAF_NODE_SIZE),
                  child_count := 0, child_is_on_disk := true, children := [0] } ],
            m_element_count := I.length,
            leaf_file :=
              [ { object_count := RTREE_LEAF_NODE_SIZE, objects := I.take RTREE_LEAF_NODE_SIZE },
                { object_count := I.length - RTREE_LEAF_NODE_SIZE,
                  objects := I.drop RTREE_LEAF_NODE_SIZE } ] } := by
  have hl := packLeaves_two_pages hilbert I h1 h2
  rw [← sortByHilbert_of_sorted _ hsorted] at hl
  rw [build_of_parts hilbert sortByHilbert I _ _ _ _ hl (packLevels_two _ _)]
  rw [final_two _ _ _ rfl rfl rfl]
  rfl

/-- The index built from 1 to 1170 elements: one leaf page, and a search tree
that consists of its leaf parent. -/
theorem build_one_page (hilbert : DataT → Nat)
    (sort : List WrappedInputElement → List WrappedInputElement) (I : List DataT)
    (hne : I ≠ []) (hlen : I.length ≤ RTREE_LEAF_NODE_SIZE) :
    StaticRTree.build hilbert sort I =
      .ok { m_search_tree :=
              [leafParent (fillLeaf I (sort (wrapInput hilbert I)) I.length 0) []],
            m_element_count := I.length,
            leaf_file := [fillLeaf I (sort (wrapInput hilbert I)) I.length 0] } := by
  have hn : 0 < I.length := List.length_pos.mpr hne
  have hcount : (fillLeaf I (sort (wrapInput hilbert I)) I.length 0).object_count =
      I.length := by
    rw [fillLeaf_eq]
    show min RTREE_LEAF_NODE_SIZE (I.length - 0) = I.length
    omega
  obtain ⟨f, hf⟩ : ∃ f, I.length = f + 1 := ⟨I.length - 1, by omega⟩
  have s1 := packLeaves_step I (sort (wrapInput hilbert I)) I.length f 0 [] []
    (fillLeaf I (sort (wrapInput hilbert I)) I.length 0)
    (leafParent (fillLeaf I (sort (wrapInput hilbert I)) I.length 0) []) hn rfl rfl
  rw [hcount] at s1
  have s2 := packLeaves_done I (sort (wrapInput hilbert I)) I.length f (0 + I.length)
    ([] ++ [leafParent (fillLeaf I (sort (wrapInput hilbert I)) I.length 0) []])
    ([] ++ [fillLeaf I (sort (wrapInput hilbert I)) I.length 0]) (by omega)
  have hl : packLeaves I (sort (wrapInput hilbert I)) I.length I.length 0 [] [] =
      .ok ([leafParent (fillLeaf I (sort (wrapInput hilbert I)) I.length 0) []],
        [fillLeaf I (sort (wrapInput hilbert I)) I.length 0]) := by
    have e : packLeaves I (sort (wrapInput hilbert I)) I.length I.length 0 [] [] =
        packLeaves I (sort (wrapInput hilbert I)) I.length (f + 1) 0 [] [] := by
      rw [← hf]
    rw [e, s1, s2]
    rfl
  have hv := packLevels_done
    [leafParent (fillLeaf I (sort (wrapInput hilbert I)) I.length 0) []].length
    [leafParent (fillLeaf I (sort (wrapInput hilbert I)) I.length 0) []] []
    (by simp)
  rw [build_of_parts hilbert sort I _ _ _ _ hl hv]
  have hfinal : ∀ nd : TreeNode, nd.child_count = 0 →
      ([] ++ [nd]).reverse.map (renumber ([] ++ [nd]).reverse.length) = [nd] := by
    intro nd hnd
    simp only [List.nil_append, List.reverse_cons, List.reverse_nil, List.map_cons,
      List.map_nil, renumber_leaf _ _ hnd]
  rw [hfinal _ rfl]

theorem boundingBox_street (n : Nat) :
    boundingBox ((List.range (n + 1)).map streetEdge) =
      { min_lon := 0, max_lon := (n : Int) + 1, min_lat := 0, max_lat := 0 } := by
  induction n with
  | zero => decide
  | succ k ih =>
    rw [List.range_succ, List.map_append]
    unfold boundingBox at ih ⊢
    rw [List.foldl_append, ih]
    simp only [List.map_cons, List.map_nil, List.foldl_cons, List.foldl_nil, extendByObject,
      streetEdge]
    have h1 : min (0 : Int) (min (((k + 1 : Nat) : Int)) (((k + 1 : Nat) : Int) + 1)) = 0 := by
      omega
    have h2 : max ((k : Int) + 1) (max (((k + 1 : Nat) : Int)) (((k + 1 : Nat) : Int) + 1)) =
        ((k + 1 : Nat) : Int) + 1 := by omega
    rw [h1, h2]
    rfl

theorem streetWith_length (last : DataT) : (streetWith last).length = 1171 := by
  unfold streetWith
  rw [List.length_append, List.length_map, List.length_range]
  rfl

theorem streetWith_take (last : DataT) :
    (streetWith last).take RTREE_LEAF_NODE_SIZE = (List.range 1170).map streetEdge := by
  unfold streetWith RTREE_LEAF_NODE_SIZE
  rw [List.take_left' (by rw [List.length_map, List.length_range])]

theorem streetWith_drop (last : DataT) :
    (streetWith last).drop RTREE_LEAF_NODE_SIZE = [last] := by
  unfold streetWith RTREE_LEAF_NODE_SIZE
  rw [List.drop_left' (by rw [List.length_map, List.length_range])]

theorem streetWith_key (last : DataT) (i : Nat) (hi : i < 1171) :
    sampleHilbert ((streetWith last).getD i default) =
      if i < 1170 then i else sampleHilbert last := by
  unfold streetWith
  rw [List.getD_eq_getElem?_getD]
  by_cases c : i < 1170
  · rw [if_pos c, List.getElem?_append_left (by rw [List.length_map, List.length_range]; exact c),
      List.getElem?_map, List.getElem?_range c]
    simp [sampleHilbert, streetEdge]
  · have : i = 1170 := by omega
    subst this
    rw [if_neg c, List.getElem?_append_right (by rw [List.length_map, List.length_range])]
    simp

theorem streetWith_sorted (last : DataT) (hkey : 1169 ≤ sampleHilbert last) :
    (wrapInput sampleHilbert (streetWith last)).Sorted
      fun a b => a.m_hilbert_value ≤ b.m_hilbert_value := by
  unfold wrapInput
  rw [streetWith_length]
  unfold List.Sorted
  rw [List.pairwise_map]
  refine List.Pairwise.imp_of_mem ?_ (List.pairwise_lt_range 1171)
  intro a b ha hb hab
  rw [List.mem_range] at ha hb
  dsimp only
  rw [streetWith_key last a ha, streetWith_key last b hb]
  split <;> split <;> omega

/-- The index built from the first 1170 edges of the street and one more edge
that follows them in Hilbert order. -/
theorem build_streetWith (last : DataT) (hkey : 1169 ≤ sampleHilbert last) :
    StaticRTree.build sampleHilbert sortByHilbert (streetWith last) =
      .ok (streetWithIndex last) := by
  have h1 : RTREE_LEAF_NODE_SIZE < (streetWith last).length := by
    rw [streetWith_length]; decide
  have h2 : (streetWith last).length ≤ 2 * RTREE_LEAF_NODE_SIZE := by
    rw [streetWith_length]; decide
  rw [build_two_pages sampleHilbert (streetWith last) h1 h2 (streetWith_sorted last hkey)]
  rw [streetWith_take, streetWith_drop, streetWith_length, boundingBox_street 1169]
  rfl

theorem build_street :
    StaticRTree.build sampleHilbert sortByHilbert streetEdges = .ok streetIndex :=
  build_streetWith (streetEdge 1170) (by decide)

theorem build_crossing :
    StaticRTree.build sampleHilbert sortByHilbert crossingEdges = .ok crossingIndex :=
  build_streetWith crossingEdge (by decide)

/-! ## Static R-tree: the query over a single leaf page -/

namespace Dbl

theorem isFinite_finite (q : ℚ) (z : Bool) : (finite q z).isFinite = true := by
  unfold finite signedZero
  split
  · split <;> rfl
  · rfl

theorem isFinite_neg (u : Dbl) (hu : u.isFinite = true) : (neg u).isFinite = true := by
  cases u with
  | fin q =>
    show (if q = 0 then negZero else fin (-q)).isFinite = true
    split <;> rfl
  | negZero => rfl
  | posInf => cases hu
  | negInf => cases hu
  | nan => cases hu

theorem isFinite_add (u v : Dbl) (hu : u.isFinite = true) (hv : v.isFinite = true) :
    (add u v).isFinite = true := by
  cases u <;> cases v <;>
    first | rfl | exact absurd hu (by decide) | exact absurd hv (by decide)

theorem isFinite_sub (u v : Dbl) (hu : u.isFinite = true) (hv : v.isFinite = true) :
    (sub u v).isFinite = true :=
  isFinite_add u (neg v) hu (isFinite_neg v hv)

theorem isNaN_of_isFinite (u : Dbl) (hu : u.isFinite = true) : u.isNaN = false := by
  cases u <;> first | rfl | cases hu

theorem isFinite_mul (u v : Dbl) (hu : u.isFinite = true) (hv : v.isFinite = true) :
    (mul u v).isFinite = true := by
  unfold mul
  rw [isNaN_of_isFinite u hu, isNaN_of_isFinite v hv, hu, hv]
  exact isFinite_finite _ _

theorem isFinite_div (u v : Dbl) (hu : u.isFinite = true) (hv : v.isFinite = true)
    (hz : v.isZero = false) : (div u v).isFinite = true := by
  unfold div
  rw [isNaN_of_isFinite u hu, isNaN_of_isFinite v hv, hu, hv, hz]
  exact isFinite_finite _ _

theorem mul_self_fin (u : Dbl) (hu : u.isFinite = true) : ∃ q, mul u u = fin q := by
  unfold mul
  rw [isNaN_of_isFinite u hu, hu]
  simp only [Bool.or_self, Bool.false_eq_true, if_false, Bool.and_self, if_true, Bool.xor_self]
  unfold finite signedZero
  split
  · exact ⟨0, rfl⟩
  · exact ⟨_, rfl⟩

theorem sq_sum_fin (u v : Dbl) (hu : u.isFinite = true) (hv : v.isFinite = true) :
    ∃ q, add (mul u u) (mul v v) = fin q := by
  obtain ⟨a, ha⟩ := mul_self_fin u hu
  obtain ⟨b, hb⟩ := mul_self_fin v hv
  rw [ha, hb]
  exact ⟨a + b, rfl⟩

theorem sub_fin (a b : ℚ) : sub (fin a) (fin b) = fin (a - b) := by
  show add (fin a) (if b = 0 then negZero else fin (-b)) = fin (a - b)
  split
  · rename_i h
    rw [h]
    show fin (a + 0) = fin (a - 0)
    rw [add_zero, sub_zero]
  · show fin (a + -b) = fin (a - b)
    rw [sub_eq_add_neg]

theorem lt_fin (a b : ℚ) : lt (fin a) (fin b) = decide (a < b) := rfl

theorem add_fin (a b : ℚ) : add (fin a) (fin b) = fin (a + b) := rfl

end Dbl

theorem doubleEpsilonCompare_fin (a b : ℚ) :
    DoubleEpsilonCompare (Dbl.fin a) (Dbl.fin b) = decide (|a - b| < 1 / 8388608) := by
  unfold DoubleEpsilonCompare FLT_EPSILON
  rw [Dbl.sub_fin]
  rfl

theorem steep_nonzero (a c : Int)
    (hs : Dbl.lt FLT_EPSILON (Dbl.fabs (Dbl.sub (Dbl.ofInt a) (Dbl.ofInt c))) = true) :
    (Dbl.sub (Dbl.ofInt c) (Dbl.ofInt a)).isZero = false := by
  unfold Dbl.ofInt FLT_EPSILON at *
  rw [Dbl.sub_fin] at hs ⊢
  have hs' : (1 / 8388608 : ℚ) < |(a : ℚ) - c| := of_decide_eq_true hs
  show decide ((c : ℚ) - a = 0) = false
  rw [decide_eq_false_iff_not]
  intro h
  have : (a : ℚ) - c = 0 := by linarith
  rw [this, abs_zero] at hs'
  norm_num at hs'

theorem one_add_sq_nonzero (m : Dbl) (hm : m.isFinite = true) :
    (Dbl.add (Dbl.fin 1) (Dbl.mul m m)).isZero = false := by
  obtain ⟨q, hq⟩ := Dbl.mul_self_fin m hm
  have hq0 : 0 ≤ q := by
    unfold Dbl.mul at hq
    rw [Dbl.isNaN_of_isFinite m hm, hm] at hq
    simp only [Bool.or_self, Bool.false_eq_true, if_false, Bool.and_self, if_true,
      Bool.xor_self] at hq
    unfold Dbl.finite Dbl.signedZero at hq
    split at hq
    · have := Dbl.fin.inj hq
      rw [← this]
    · have := Dbl.fin.inj hq
      rw [← this]
      exact mul_self_nonneg _
  rw [hq]
  show decide ((1 : ℚ) + q = 0) = false
  rw [decide_eq_false_iff_not]
  intro h
  linarith

theorem edgeDistance_fin (p : Coordinate) (e : DataT) : ∃ q, edgeDistance p e = Dbl.fin q := by
  have hf : ∀ i : Int, (Dbl.ofInt i).isFinite = true := fun _ => rfl
  unfold edgeDistance ComputePerpendicularDistance
  lift_lets
  extract_lets x y a b c d m steep p' q' nY mX r
  have hpq : p'.isFinite = true ∧ q'.isFinite = true := by
    by_cases hs : steep = true
    · have hm : m.isFinite = true :=
        Dbl.isFinite_div _ _ (Dbl.isFinite_sub _ _ (hf _) (hf _))
          (Dbl.isFinite_sub _ _ (hf _) (hf _)) (steep_nonzero _ _ hs)
      have hp : p'.isFinite = true := by
        show (if steep = true then _ else c).isFinite = true
        rw [if_pos hs]
        exact Dbl.isFinite_div _ _
          (Dbl.isFinite_add _ _ (Dbl.isFinite_add _ _ (hf _) (Dbl.isFinite_mul _ _ hm (hf _)))
            (Dbl.isFinite_sub _ _ (Dbl.isFinite_mul _ _ (Dbl.isFinite_mul _ _ hm hm) (hf _))
              (Dbl.isFinite_mul _ _ hm (hf _))))
          (Dbl.isFinite_add _ _ rfl (Dbl.isFinite_mul _ _ hm hm)) (one_add_sq_nonzero m hm)
      refine ⟨hp, ?_⟩
      show (if steep = true then _ else y).isFinite = true
      rw [if_pos hs]
      exact Dbl.isFinite_add _ _ (hf _)
        (Dbl.isFinite_mul _ _ hm (Dbl.isFinite_sub _ _ hp (hf _)))
    · constructor
      · show (if steep = true then _ else c).isFinite = true
        rw [if_neg hs]
        exact hf _
      · show (if steep = true then _ else y).isFinite = true
        rw [if_neg hs]
        exact hf _
  split
  · exact Dbl.sq_sum_fin _ _ (Dbl.isFinite_sub _ _ (hf _) (hf _))
      (Dbl.isFinite_sub _ _ (hf _) (hf _))
  · split
    · exact Dbl.sq_sum_fin _ _ (Dbl.isFinite_sub _ _ (hf _) (hf _))
        (Dbl.isFinite_sub _ _ (hf _) (hf _))
    · exact Dbl.sq_sum_fin _ _ (Dbl.isFinite_sub _ _ hpq.1 (hf _))
        (Dbl.isFinite_sub _ _ hpq.2 (hf _))

theorem scanEdge_effect (p : Coordinate) (ig : Bool) (s : QueryState) (e : DataT)
    (hsk : skipsEdge ig e = false) :
    (Dbl.lt (edgeDistance p e) s.min_dist = true ∧
      DoubleEpsilonCompare (edgeDistance p e) s.min_dist = false ∧
      (scanEdge p ig s e).min_dist = edgeDistance p e ∧
      (scanEdge p ig s e).found_a_nearest_edge = true ∧
      (scanEdge p ig s e).result_phantom_node.nodeBasedEdgeNameID = e.nameID ∧
      (scanEdge p ig s e).result_phantom_node.edgeBasedNode = e.id) ∨
    ((Dbl.lt (edgeDistance p e) s.min_dist = false ∨
        DoubleEpsilonCompare (edgeDistance p e) s.min_dist = true) ∧
      (scanEdge p ig s e).min_dist = s.min_dist ∧
      (scanEdge p ig s e).found_a_nearest_edge = s.found_a_nearest_edge ∧
      (scanEdge p ig s e).result_phantom_node.nodeBasedEdgeNameID =
        s.result_phantom_node.nodeBasedEdgeNameID ∧
      ((scanEdge p ig s e).result_phantom_node.edgeBasedNode =
          s.result_phantom_node.edgeBasedNode ∨
        (DoubleEpsilonCompare (edgeDistance p e) s.min_dist = true ∧
          (scanEdge p ig s e).result_phantom_node.edgeBasedNode = e.id))) := by
  unfold skipsEdge at hsk
  rw [Bool.or_eq_false_iff] at hsk
  obtain ⟨h1, h2⟩ := hsk
  unfold scanEdge
  rw [if_neg (by rw [h1]; exact Bool.false_ne_true), if_neg (by rw [h2]; exact Bool.false_ne_true)]
  simp only
  show _ ∨ _
  by_cases c1 : (Dbl.lt (edgeDistance p e) s.min_dist &&
      !DoubleEpsilonCompare (edgeDistance p e) s.min_dist) = true
  · have c1' := c1
    rw [Bool.and_eq_true, Bool.not_eq_true'] at c1'
    unfold edgeDistance at c1 c1' ⊢
    rw [if_pos c1]
    exact Or.inl ⟨c1'.1, c1'.2, rfl, rfl, rfl, rfl⟩
  · have c1' : Dbl.lt (edgeDistance p e) s.min_dist = false ∨
        DoubleEpsilonCompare (edgeDistance p e) s.min_dist = true := by
      cases hx : Dbl.lt (edgeDistance p e) s.min_dist
      · exact Or.inl rfl
      · cases hy : DoubleEpsilonCompare (edgeDistance p e) s.min_dist
        · rw [hx, hy] at c1
          exact absurd rfl c1
        · exact Or.inr rfl
    unfold edgeDistance at c1 c1' ⊢
    rw [if_neg c1]
    split
    · rename_i c2
      have c2' := c2
      rw [Bool.and_eq_true, Bool.and_eq_true] at c2'
      split
      · exact Or.inr ⟨c1', rfl, rfl, rfl, Or.inr ⟨c2'.1.1, rfl⟩⟩
      · exact Or.inr ⟨c1', rfl, rfl, rfl, Or.inl rfl⟩
    · exact Or.inr ⟨c1', rfl, rfl, rfl, Or.inl rfl⟩

theorem scanEdge_nearestSoFar (p : Coordinate) (ig : Bool) (leaf : LeafNode) (k : Nat)
    (hk : k < leaf.object_count) (s : QueryState) (h : NearestSoFar p ig leaf k s) :
    NearestSoFar p ig leaf (k + 1) (scanEdge p ig s (leaf.objects.getD k default)) := by
  obtain ⟨⟨qm, hqm, hall⟩, hfound⟩ := h
  have hst : StoredEdge [leaf] (leaf.objects.getD k default) :=
    ⟨leaf, List.mem_singleton.mpr rfl, k, hk, rfl⟩
  have heps : (0 : ℚ) < 1 / 8388608 := by norm_num
  by_cases hsk : skipsEdge ig (leaf.objects.getD k default) = true
  · rw [scanEdge_skipped p ig s _ hsk]
    refine ⟨⟨qm, hqm, ?_⟩, hfound⟩
    intro i hi hi'
    by_cases c : i < k
    · exact hall i c hi'
    · have : i = k := by omega
      subst this
      rw [hsk] at hi'
      exact Bool.noConfusion hi'
  · have hsk' : skipsEdge ig (leaf.objects.getD k default) = false := by
      cases hx : skipsEdge ig (leaf.objects.getD k default)
      · rfl
      · exact absurd hx hsk
    obtain ⟨qe, hqe⟩ := edgeDistance_fin p (leaf.objects.getD k default)
    rcases scanEdge_effect p ig s _ hsk' with ⟨h1, h2, h3, h4, h5, h6⟩ | ⟨h1, h3, h4, h5, h6⟩
    · rw [hqe, hqm, Dbl.lt_fin, decide_eq_true_eq] at h1
      refine ⟨⟨qe, by rw [h3, hqe], ?_⟩, ?_⟩
      · intro i hi hi'
        by_cases c : i < k
        · obtain ⟨qi, hqi, hlt⟩ := hall i c hi'
          exact ⟨qi, hqi, by linarith⟩
        · have : i = k := by omega
          subst this
          exact ⟨qe, hqe, by linarith⟩
      · intro _
        refine ⟨_, _, hst, hsk', hst, hsk', h5, h6, h3.symm, ?_⟩
        rw [h3, hqe, doubleEpsilonCompare_fin, decide_eq_true_eq, sub_self, abs_zero]
        exact heps
    · refine ⟨⟨qm, by rw [h3, hqm], ?_⟩, ?_⟩
      · intro i hi hi'
        by_cases c : i < k
        · exact hall i c hi'
        · have : i = k := by omega
          subst this
          refine ⟨qe, hqe, ?_⟩
          rcases h1 with h1 | h1
          · rw [hqe, hqm, Dbl.lt_fin, decide_eq_false_iff_not] at h1
            linarith
          · rw [hqe, hqm, doubleEpsilonCompare_fin, decide_eq_true_eq] at h1
            have := neg_abs_le (qe - qm)
            linarith
      · intro hf
        rw [h4] at hf
        obtain ⟨r, r', a1, a2, a3, a4, a5, a6, a7, a8⟩ := hfound hf
        rcases h6 with h6 | ⟨h6, h7⟩
        · exact ⟨r, r', a1, a2, a3, a4, h5.trans a5, h6.trans a6, by rw [h3]; exact a7,
            by rw [h3]; exact a8⟩
        · exact ⟨r, _, a1, a2, hst, hsk', h5.trans a5, h7, by rw [h3]; exact a7,
            by rw [h3]; exact h6⟩

theorem scanLeaf_nearestSoFar (p : Coordinate) (ig : Bool) (leaf : LeafNode) (s : QueryState)
    (h : NearestSoFar p ig leaf 0 s) :
    NearestSoFar p ig leaf leaf.object_count (scanLeaf p ig leaf s) := by
  unfold scanLeaf
  have key : ∀ n, n ≤ leaf.object_count →
      NearestSoFar p ig leaf n ((List.range n).foldl
        (fun s i => scanEdge p ig s (leaf.objects.getD i default)) s) := by
    intro n
    induction n with
    | zero => intro _; exact h
    | succ n ih =>
      intro hn
      rw [range_foldl_succ]
      exact scanEdge_nearestSoFar p ig leaf n (by omega) _ (ih (by omega))
  exact key leaf.object_count (le_refl _)

theorem traverse_empty (approx : Coordinate → Coordinate → Dbl) (tree : List TreeNode)
    (leaf_file : List LeafNode) (p : Coordinate) (ig : Bool) (fuel : Nat) (s : QueryState)
    (hq : s.traversal_queue = []) : traverse approx tree leaf_file p ig fuel s = .ok s := by
  cases fuel <;> (unfold traverse; rw [hq]; rfl)

/-- The traversal of a tree whose root is a leaf parent: when it ends with an
edge found, the final state is the one after the scan of the root's page. -/
theorem traverse_leaf_root (approx : Coordinate → Coordinate → Dbl) (tree : List TreeNode)
    (leaf_file : List LeafNode) (p : Coordinate) (ig : Bool) (fuel : Nat)
    (s s' : QueryState) (c : QueryCandidate) (hq : s.traversal_queue = [c])
    (hroot : (tree.getD c.node_id default).child_is_on_disk = true)
    (hnot : s.found_a_nearest_edge = false)
    (h : traverse approx tree leaf_file p ig fuel s = .ok s')
    (hfound : s'.found_a_nearest_edge = true) :
    s' = scanLeaf p ig
      (leaf_file.getD ((tree.getD c.node_id default).children.getD 0 0) default)
      { s with traversal_queue := [] } := by
  have hpop : popTop s.traversal_queue = some (c, []) := by rw [hq]; rfl
  cases fuel with
  | zero =>
    unfold traverse at h
    rw [hpop] at h
    exact Except.noConfusion h
  | succ fuel =>
    unfold traverse at h
    rw [hpop] at h
    simp only at h
    unfold visitNode at h
    simp only [hroot, if_true] at h
    split at h
    · rw [traverse_empty _ _ _ _ _ _ _ (by rw [scanLeaf_queue])] at h
      exact (Except.ok.inj h).symm
    · rw [traverse_empty _ _ _ _ _ _ _ rfl] at h
      have := Except.ok.inj h
      rw [← this] at hfound
      rw [hnot] at hfound
      exact Bool.noConfusion hfound

theorem query_one_page (approx : Coordinate → Coordinate → Dbl) (leaf : LeafNode)
    (n : Nat) (p : Coordinate) (pn pn' : PhantomNode) (zoom fuel : Nat)
    (hq : FindPhantomNodeForCoordinate approx
      { m_search_tree := [leafParent leaf []], m_element_count := n, leaf_file := [leaf] }
      p pn zoom fuel = .ok (true, pn')) :
    ∃ r r', StoredEdge [leaf] r ∧ skipsEdge (decide (zoom ≤ 14)) r = false ∧
      StoredEdge [leaf] r' ∧ skipsEdge (decide (zoom ≤ 14)) r' = false ∧
      pn'.nodeBasedEdgeNameID = r.nameID ∧ pn'.edgeBasedNode = r'.id ∧
      DoubleEpsilonCompare (edgeDistance p r') (edgeDistance p r) = true ∧
      ∀ e, StoredEdge [leaf] e → skipsEdge (decide (zoom ≤ 14)) e = false →
        Dbl.lt (edgeDistance p r) (Dbl.add (edgeDistance p e) FLT_EPSILON) = true := by
  unfold FindPhantomNodeForCoordinate at hq
  simp only at hq
  split at hq
  · exact Except.noConfusion hq
  · split at hq
    · exact Except.noConfusion hq
    · rename_i s hs
      have hfin := Except.ok.inj hq
      have hfound : s.found_a_nearest_edge = true := congrArg Prod.fst hfin
      have hname : pn'.nodeBasedEdgeNameID = s.result_phantom_node.nodeBasedEdgeNameID :=
        (congrArg (fun r : Bool × PhantomNode => r.2.nodeBasedEdgeNameID) hfin).symm
      have hid : pn'.edgeBasedNode = s.result_phantom_node.edgeBasedNode :=
        (congrArg (fun r : Bool × PhantomNode => r.2.edgeBasedNode) hfin).symm
      have hs' := traverse_leaf_root approx [leafParent leaf []] [leaf] p
        (decide (zoom ≤ 14)) fuel (initialQueryState approx [leafParent leaf []] p pn) s
        ⟨0, (([leafParent leaf []] : List TreeNode).getD 0
            default).minimum_bounding_rectangle.GetMinDist approx p⟩ rfl rfl rfl hs hfound
      have hinv := scanLeaf_nearestSoFar p (decide (zoom ≤ 14)) leaf
        { initialQueryState approx [leafParent leaf []] p pn with traversal_queue := [] }
        ⟨⟨_, rfl, fun i hi => absurd hi (Nat.not_lt_zero i)⟩, fun h => Bool.noConfusion h⟩
      have hleaf : [leaf].getD (((([leafParent leaf []] : List TreeNode).getD
          (⟨0, (([leafParent leaf []] : List TreeNode).getD 0
            default).minimum_bounding_rectangle.GetMinDist approx p⟩ :
              QueryCandidate).node_id default).children).getD 0 0) default = leaf := rfl
      rw [hleaf] at hs'
      rw [← hs'] at hinv
      obtain ⟨⟨qm, hqm, hall⟩, hres⟩ := hinv
      obtain ⟨r, r', a1, a2, a3, a4, a5, a6, a7, a8⟩ := hres hfound
      refine ⟨r, r', a1, a2, a3, a4, hname.trans a5, hid.trans a6, by rw [a7]; exact a8, ?_⟩
      intro e he hsk
      obtain ⟨page, hpage, i, hi, hie⟩ := he
      rw [List.mem_singleton] at hpage
      subst hpage
      subst hie
      obtain ⟨qe, hqe, hlt⟩ := hall i hi hsk
      rw [a7, hqm, hqe]
      unfold FLT_EPSILON
      rw [Dbl.add_fin, Dbl.lt_fin, decide_eq_true_eq]
      exact hlt


/-! ## Static R-tree: a page behind a degenerate rectangle is never scanned -/

theorem streetEdge_stored : StoredEdge streetIndex.leaf_file (streetEdge 1170) :=
  ⟨{ object_count := 1, objects := [streetEdge 1170] }, by simp [streetIndex], 0, by decide, rfl⟩

/-- C4. The claim fails on the code for a straight street of 1171 edges along
latitude 0: the constructor builds `streetIndex`, whose rectangles all have
`min_lat = max_lat`; the query at `(5, 5)` with zoom level 18 returns `false`
(no phantom node), although no stored edge is ignored and, at this zoom level,
no edge is filtered for belonging to a tiny component. -/
theorem street_query_finds_nothing :
    StaticRTree.build sampleHilbert sortByHilbert streetEdges = .ok streetIndex ∧
    FindPhantomNodeForCoordinate squaredDistance streetIndex ⟨5, 5⟩ emptyPhantomNode 18 3 =
      .ok (false, streetQueryResult) ∧
    (∃ e, StoredEdge streetIndex.leaf_file e ∧
      ¬ (e.isIgnored = true ∨ (18 ≤ 14 ∧ e.belongsToTinyComponent = true))) ∧
    (∀ e ∈ streetEdges, e.isIgnored = false ∧ e.belongsToTinyComponent = false) := by
  refine ⟨build_street, by decide!, ⟨streetEdge 1170, streetEdge_stored, by decide⟩, ?_⟩
  intro e he
  unfold streetEdges streetWith at he
  rw [List.mem_append, List.mem_map, List.mem_singleton] at he
  rcases he with ⟨i, _, rfl⟩ | rfl
  · exact ⟨rfl, rfl⟩
  · exact ⟨rfl, rfl⟩

/-! ## Static R-tree: how near the returned edge is -/

theorem street_getD (n i : Nat) (h : i < n) :
    ((List.range n).map streetEdge).getD i default = streetEdge i := by
  rw [List.getD_eq_getElem?_getD, List.getElem?_map, List.getElem?_range h]
  rfl

theorem storedEdge_of_page (file : List LeafNode) (n : Nat) (objects : List DataT) (i : Nat)
    (e : DataT) (h : { object_count := n, objects := objects } ∈ file) (hi : i < n)
    (he : objects.getD i default = e) : StoredEdge file e :=
  ⟨{ object_count := n, objects := objects }, h, i, hi, he⟩

theorem crossing_street_stored : StoredEdge crossingIndex.leaf_file (streetEdge 1150) :=
  storedEdge_of_page crossingIndex.leaf_file 1170 ((List.range 1170).map streetEdge) 1150
    (streetEdge 1150) (List.mem_cons_self _ _) (by omega) (street_getD 1170 1150 (by omega))

/-- A rectangle whose `GetMinDist` equals the recorded bound hides its page:
for the street with the crossing road the query at `(1, 1150)` returns the
crossing road, at squared distance `2401/2`, although the street edge 1150 is
stored, admitted and at squared distance 1. The rectangle of the street has
no extent in latitude, so its `GetMinDist` and `GetMinMaxDist` are both 401;
the bound is lowered to 401 and the page is discarded at the pop because its
key is not below the bound. -/
theorem crossing_query_skips_street :
    StaticRTree.build sampleHilbert sortByHilbert crossingEdges = .ok crossingIndex ∧
    (∃ pn, FindPhantomNodeForCoordinate squaredDistance crossingIndex ⟨1, 1150⟩
        emptyPhantomNode 18 3 = .ok (true, pn) ∧ pn.edgeBasedNode = crossingEdge.id) ∧
    StoredEdge crossingIndex.leaf_file (streetEdge 1150) ∧
    skipsEdge (decide (18 ≤ 14)) (streetEdge 1150) = false ∧
    edgeDistance ⟨1, 1150⟩ crossingEdge = Dbl.fin (2401 / 2) ∧
    edgeDistance ⟨1, 1150⟩ (streetEdge 1150) = Dbl.fin 1 ∧
    Dbl.le (edgeDistance ⟨1, 1150⟩ crossingEdge)
      (edgeDistance ⟨1, 1150⟩ (streetEdge 1150)) = false ∧
    (crossingIndex.m_search_tree.getD 2 default).minimum_bounding_rectangle.GetMinDist
      squaredDistance ⟨1, 1150⟩ = Dbl.fin 401 ∧
    (crossingIndex.m_search_tree.getD 2 default).minimum_bounding_rectangle.GetMinMaxDist
      squaredDistance ⟨1, 1150⟩ = Dbl.fin 401 := by
  refine ⟨build_crossing, ?_, crossing_street_stored, by decide, by decide!, by decide!,
    by decide!, by decide!, by decide!⟩
  exact ⟨(match FindPhantomNodeForCoordinate squaredDistance crossingIndex ⟨1, 1150⟩
      emptyPhantomNode 18 3 with
    | .ok r => r.2
    | .error _ => emptyPhantomNode), by decide!, by decide!⟩

/-! ## Static R-tree: the merge of a two-way pair -/

/-- C13. When the scan reaches an admitted edge `e` that ties (within
`FLT_EPSILON`) with the recorded minimum while the pending result is the
unmerged edge `f`, the identifiers differ by one and the end points are
equivalent, then afterwards the pending result has the smaller of the two
identifiers as `edgeBasedNode`, the weight of the edge with the smaller
identifier as `weight1` and the weight of the other edge as `weight2`. -/
theorem scanEdge_fuses_pair (p : Coordinate) (ig : Bool) (s : QueryState) (e f : DataT)
    (hsk : skipsEdge ig e = false)
    (hid : s.result_phantom_node.edgeBasedNode = f.id)
    (hw : s.result_phantom_node.weight1 = f.weight)
    (hstart : s.current_start_coordinate = ⟨f.lat1, f.lon1⟩)
    (hend : s.current_end_coordinate = ⟨f.lat2, f.lon2⟩)
    (htie : DoubleEpsilonCompare (edgeDistance p e) s.min_dist = true)
    (hadj : |(e.id : Int) - (f.id : Int)| = 1)
    (heq : CoordinatesAreEquivalent ⟨f.lat1, f.lon1⟩ ⟨e.lat1, e.lon1⟩ ⟨e.lat2, e.lon2⟩
      ⟨f.lat2, f.lon2⟩ = true) :
    (scanEdge p ig s e).result_phantom_node.edgeBasedNode = min e.id f.id ∧
    (scanEdge p ig s e).result_phantom_node.weight1 =
      (if e.id < f.id then (e.weight : Int) else (f.weight : Int)) ∧
    (scanEdge p ig s e).result_phantom_node.weight2 =
      (if e.id < f.id then (f.weight : Int) else (e.weight : Int)) := by
  unfold skipsEdge at hsk
  rw [Bool.or_eq_false_iff] at hsk
  obtain ⟨h1, h2⟩ := hsk
  have hwrap : |wrap32 ((e.id : Int) - (s.result_phantom_node.edgeBasedNode : Int))| = 1 := by
    rw [hid]
    have : wrap32 ((e.id : Int) - (f.id : Int)) = (e.id : Int) - (f.id : Int) := by
      have := abs_le.mp (le_of_eq hadj)
      unfold wrap32
      omega
    rw [this]
    exact hadj
  unfold edgeDistance at htie
  unfold scanEdge
  rw [if_neg (by rw [h1]; exact Bool.false_ne_true), if_neg (by rw [h2]; exact Bool.false_ne_true)]
  simp only
  rw [if_neg (by rw [htie]; simp), if_pos (by rw [htie, hstart, hend, heq]; simp [hwrap])]
  rw [hid, hw]
  by_cases c : e.id < f.id
  · rw [if_pos c, if_pos c, if_pos c]
    exact ⟨(Nat.min_eq_left (le_of_lt c)).symm, rfl, rfl⟩
  · rw [if_neg c, if_neg c, if_neg c]
    refine ⟨?_, rfl, rfl⟩
    show f.id = min e.id f.id
    exact (Nat.min_eq_right (Nat.le_of_not_lt c)).symm

theorem scanEdge_fuses_pair_witness :
    skipsEdge false twinForward = false ∧
    twinPending.result_phantom_node.edgeBasedNode = twinBackward.id ∧
    twinPending.result_phantom_node.weight1 = twinBackward.weight ∧
    twinPending.result_phantom_node.weight2 = INT_MAX ∧
    twinPending.current_start_coordinate = ⟨twinBackward.lat1, twinBackward.lon1⟩ ∧
    twinPending.current_end_coordinate = ⟨twinBackward.lat2, twinBackward.lon2⟩ ∧
    DoubleEpsilonCompare (edgeDistance ⟨25, 30⟩ twinForward) twinPending.min_dist = true ∧
    |(twinForward.id : Int) - (twinBackward.id : Int)| = 1 ∧
    CoordinatesAreEquivalent ⟨twinBackward.lat1, twinBackward.lon1⟩
      ⟨twinForward.lat1, twinForward.lon1⟩ ⟨twinForward.lat2, twinForward.lon2⟩
      ⟨twinBackward.lat2, twinBackward.lon2⟩ = true ∧
    (scanEdge ⟨25, 30⟩ false twinPending twinForward).result_phantom_node.edgeBasedNode =
      min 10 11 ∧
    (scanEdge ⟨25, 30⟩ false twinPending twinForward).result_phantom_node.weight1 =
      (if twinForward.id < twinBackward.id then (35 : Int) else 25) ∧
    (scanEdge ⟨25, 30⟩ false twinPending twinForward).result_phantom_node.weight2 =
      (if twinForward.id < twinBackward.id then (25 : Int) else 35) :=
  ⟨by decide, by decide!, by decide!, by decide!, by decide!, by decide!, by decide!,
    by decide, by decide,
    scanEdge_fuses_pair ⟨25, 30⟩ false twinPending twinForward twinBackward (by decide)
      (by decide!) (by decide!) (by decide!) (by decide!) (by decide!) (by decide) (by decide)⟩

/-! ## Static R-tree: the statements after the traversal -/

theorem finishQuery_of_query (approx : Coordinate → Coordinate → Dbl) (t : StaticRTree)
    (p : Coordinate) (pn : PhantomNode) (zoom fuel : Nat) (r : Bool × PhantomNode)
    (h : FindPhantomNodeForCoordinate approx t p pn zoom fuel = .ok r) :
    ∃ s, traverse approx t.m_search_tree t.leaf_file p (decide (zoom ≤ 14)) fuel
        (initialQueryState approx t.m_search_tree p pn) = .ok s ∧
      r = finishQuery approx p s := by
  unfold FindPhantomNodeForCoordinate at h
  simp only at h
  split at h
  · exact Except.noConfusion h
  · split at h
    · exact Except.noConfusion h
    · rename_i s hs
      exact ⟨s, hs, (Except.ok.inj h).symm⟩

theorem snap_axis (input projected : Int) :
    (|input - projected| ≤ 1 →
      (if |wrap32 (input - projected)| = 1 then input else projected) = input) ∧
    |input - (if |wrap32 (input - projected)| = 1 then input else projected)| ≠ 1 := by
  constructor
  · intro h
    have hb := abs_le.mp h
    have hw : wrap32 (input - projected) = input - projected := by
      unfold wrap32; omega
    rw [hw]
    split
    · rfl
    · rename_i hne
      have h0 : input - projected = 0 := by
        rcases abs_cases (input - projected) with ⟨h1, _⟩ | ⟨h1, _⟩ <;> omega
      omega
  · split
    · rw [sub_self, abs_zero]
      decide
    · rename_i hne
      intro habs
      apply hne
      have hb := abs_le.mp (le_of_eq habs)
      have hw : wrap32 (input - projected) = input - projected := by
        unfold wrap32; omega
      rw [hw]
      exact habs

/-- C14. Whatever the query returns: on each axis, if the location found by
the traversal (the projection onto the nearest edge) differs from the input
coordinate by at most one unit, the returned location equals the input
coordinate on that axis; and the returned location never differs from the
input coordinate by exactly one unit on either axis. -/
theorem query_snaps_to_input (approx : Coordinate → Coordinate → Dbl) (t : StaticRTree)
    (p : Coordinate) (pn : PhantomNode) (zoom fuel : Nat) (r : Bool × PhantomNode)
    (h : FindPhantomNodeForCoordinate approx t p pn zoom fuel = .ok r) :
    ∃ s, traverse approx t.m_search_tree t.leaf_file p (decide (zoom ≤ 14)) fuel
        (initialQueryState approx t.m_search_tree p pn) = .ok s ∧
      (|p.lat - s.result_phantom_node.location.lat| ≤ 1 → r.2.location.lat = p.lat) ∧
      (|p.lon - s.result_phantom_node.location.lon| ≤ 1 → r.2.location.lon = p.lon) ∧
      |p.lat - r.2.location.lat| ≠ 1 ∧ |p.lon - r.2.location.lon| ≠ 1 := by
  obtain ⟨s, hs, hr⟩ := finishQuery_of_query approx t p pn zoom fuel r h
  refine ⟨s, hs, ?_⟩
  rw [hr]
  unfold finishQuery
  simp only
  exact ⟨(snap_axis p.lat s.result_phantom_node.location.lat).1,
    (snap_axis p.lon s.result_phantom_node.location.lon).1,
    (snap_axis p.lat s.result_phantom_node.location.lat).2,
    (snap_axis p.lon s.result_phantom_node.location.lon).2⟩

theorem query_snaps_to_input_witness :
    FindPhantomNodeForCoordinate squaredDistance tinyIndex ⟨400082, 300113⟩ emptyPhantomNode
        15 1 =
      .ok (true,
        { edgeBasedNode := 12, nodeBasedEdgeNameID := 2, weight1 := 1, weight2 := 2147483647,
          ratio := Dbl.fin (1933 / 74000), location := ⟨400082, 300113⟩ }) ∧
    ∃ s, traverse squaredDistance tinyIndex.m_search_tree tinyIndex.leaf_file ⟨400082, 300113⟩
        (decide (15 ≤ 14)) 1
        (initialQueryState squaredDistance tinyIndex.m_search_tree ⟨400082, 300113⟩
          emptyPhantomNode) = .ok s ∧
      (|(400082 : Int) - s.result_phantom_node.location.lat| ≤ 1 →
        (400082 : Int) = (400082 : Int)) ∧
      (|(300113 : Int) - s.result_phantom_node.location.lon| ≤ 1 →
        (300113 : Int) = (300113 : Int)) ∧
      |(400082 : Int) - 400082| ≠ 1 ∧ |(300113 : Int) - 300113| ≠ 1 :=
  ⟨by decide!,
    query_snaps_to_input squaredDistance tinyIndex ⟨400082, 300113⟩ emptyPhantomNode 15 1
      (true,
        { edgeBasedNode := 12, nodeBasedEdgeNameID := 2, weight1 := 1, weight2 := 2147483647,
          ratio := Dbl.fin (1933 / 74000), location := ⟨400082, 300113⟩ })
      (by decide!)⟩

theorem squaredDistance_nonneg (a b : Coordinate) :
    ∃ q, squaredDistance a b = Dbl.fin q ∧ 0 ≤ q := by
  refine ⟨_, rfl, ?_⟩
  have : (0 : Int) ≤ (a.lat - b.lat) * (a.lat - b.lat) + (a.lon - b.lon) * (a.lon - b.lon) :=
    add_nonneg (mul_self_nonneg _) (mul_self_nonneg _)
  exact_mod_cast this

theorem ratio_in_unit_interval (a b : ℚ) (ha : 0 ≤ a) (hb : 0 ≤ b) :
    ∃ q, Dbl.min (Dbl.fin 1) (Dbl.div (Dbl.fin a) (Dbl.fin b)) = Dbl.fin q ∧ 0 ≤ q ∧ q ≤ 1 := by
  have hsa : (Dbl.fin a).signBit = false := by
    show decide (a < 0) = false
    rw [decide_eq_false_iff_not]
    exact not_lt.mpr ha
  have hsb : (Dbl.fin b).signBit = false := by
    show decide (b < 0) = false
    rw [decide_eq_false_iff_not]
    exact not_lt.mpr hb
  have hdiv : Dbl.div (Dbl.fin a) (Dbl.fin b) =
      if b = 0 then (if a = 0 then Dbl.nan else Dbl.posInf) else Dbl.fin (a / b) := by
    unfold Dbl.div
    rw [hsa, hsb]
    simp only [Dbl.isNaN, Dbl.isFinite, Dbl.isZero, Dbl.toRat, Bool.or_self, Bool.false_eq_true,
      if_false, if_true, decide_eq_true_eq, Bool.xor_self, Dbl.signedInf, Dbl.finite,
      Dbl.signedZero]
    by_cases hb0 : b = 0
    · rw [if_pos hb0, if_pos hb0]
    · rw [if_neg hb0, if_neg hb0]
      by_cases hq : a / b = 0
      · rw [if_pos hq, hq]
      · rw [if_neg hq]
  rw [hdiv]
  unfold Dbl.min
  by_cases hb0 : b = 0
  · rw [if_pos hb0]
    by_cases ha0 : a = 0
    · rw [if_pos ha0]
      exact ⟨1, rfl, by norm_num, le_refl _⟩
    · rw [if_neg ha0]
      exact ⟨1, rfl, by norm_num, le_refl _⟩
  · rw [if_neg hb0, Dbl.lt_fin]
    by_cases c : a / b < 1
    · rw [if_pos (decide_eq_true c)]
      exact ⟨a / b, rfl, div_nonneg ha hb, le_of_lt c⟩
    · rw [if_neg (by rw [decide_eq_true_eq]; exact c)]
      exact ⟨1, rfl, by norm_num, le_refl _⟩

/-- C15. When `ApproximateDistance` returns non-negative numbers, the ratio
of whatever the query returns is a number between 0 and 1; this includes a
nearest edge whose end points coincide, for which the quotient is `0/0`. -/
theorem query_ratio_in_unit_interval (approx : Coordinate → Coordinate → Dbl)
    (hnonneg : ∀ a b, ∃ q, approx a b = Dbl.fin q ∧ 0 ≤ q) (t : StaticRTree)
    (p : Coordinate) (pn : PhantomNode) (zoom fuel : Nat) (r : Bool × PhantomNode)
    (h : FindPhantomNodeForCoordinate approx t p pn zoom fuel = .ok r) :
    ∃ q, r.2.ratio = Dbl.fin q ∧ 0 ≤ q ∧ q ≤ 1 := by
  obtain ⟨s, _, hr⟩ := finishQuery_of_query approx t p pn zoom fuel r h
  rw [hr]
  unfold finishQuery
  simp only
  split
  · obtain ⟨a, ha, ha0⟩ := hnonneg s.current_start_coordinate s.result_phantom_node.location
    obtain ⟨b, hb, hb0⟩ := hnonneg s.current_start_coordinate s.current_end_coordinate
    rw [ha, hb]
    exact ratio_in_unit_interval a b ha0 hb0
  · exact ⟨0, rfl, le_refl _, by norm_num⟩

theorem query_ratio_in_unit_interval_witness :
    (∀ a b, ∃ q, squaredDistance a b = Dbl.fin q ∧ 0 ≤ q) ∧
    FindPhantomNodeForCoordinate squaredDistance pointIndex ⟨400100, 300100⟩ emptyPhantomNode
        15 1 =
      .ok (true,
        { edgeBasedNode := 4, nodeBasedEdgeNameID := 2, weight1 := 70, weight2 := 2147483647,
          ratio := Dbl.fin 1, location := ⟨400000, 300000⟩ }) ∧
    ∃ q, Dbl.fin 1 = Dbl.fin q ∧ 0 ≤ q ∧ q ≤ 1 :=
  ⟨squaredDistance_nonneg, by decide!,
    query_ratio_in_unit_interval squaredDistance squaredDistance_nonneg pointIndex
      ⟨400100, 300100⟩ emptyPhantomNode 15 1
      (true,
        { edgeBasedNode := 4, nodeBasedEdgeNameID := 2, weight1 := 70, weight2 := 2147483647,
          ratio := Dbl.fin 1, location := ⟨400000, 300000⟩ })
      (by decide!)⟩

/-! ## Static R-tree: the fan-out of the search tree -/

/-- The layout of the search tree after the construction: the number of
children of the interior nodes, where their child references point, and the
parent of every node but node 0. -/
theorem build_layout (hilbert : DataT → Nat)
    (sort : List WrappedInputElement → List WrappedInputElement)
    (I : List DataT) (hne : I ≠ []) :
    ∃ t, StaticRTree.build hilbert sort I = .ok t ∧ 0 < t.m_search_tree.length ∧
      (∀ i, i < t.m_search_tree.length →
        (t.m_search_tree.getD i default).child_is_on_disk = false →
        1 ≤ (t.m_search_tree.getD i default).child_count ∧
        (t.m_search_tree.getD i default).child_count ≤ RTREE_BRANCHING_FACTOR ∧
        ∀ j, j < (t.m_search_tree.getD i default).child_count →
          i < (t.m_search_tree.getD i default).children.getD j 0) ∧
      (∀ k, 0 < k → k < t.m_search_tree.length →
        ∃ i j, i < t.m_search_tree.length ∧
          (t.m_search_tree.getD i default).child_is_on_disk = false ∧
          j < (t.m_search_tree.getD i default).child_count ∧
          (t.m_search_tree.getD i default).children.getD j 0 = k) := by
  obtain ⟨C, file, hbuild, hC, hwf, href, _, _⟩ := build_spec hilbert sort I hne
  have hlen : 0 < C.length := List.length_pos.mpr hC
  refine ⟨_, hbuild, ?_, ?_, ?_⟩
  · simp only [List.length_map, List.length_reverse]
    exact hlen
  · simp only [List.length_map, List.length_reverse]
    intro i hi
    rw [getD_reverse_map C _ i hi]
    have hq : C.length - 1 - i < C.length := by omega
    generalize hqd : C.length - 1 - i = q at hq
    intro hd
    rcases hwf q hq with ⟨h1, _⟩ | ⟨h1, h2, h3, h4, h5, h6⟩
    · rw [renumber_disk, h1] at hd
      exact Bool.noConfusion hd
    · rw [renumber_count]
      refine ⟨h3, h4, ?_⟩
      intro j hj
      rw [renumber_interior _ _ h2]
      simp only
      have hjl : j < (C.getD q default).children.length := by omega
      rw [List.getD_eq_getElem _ 0 (by simpa using hjl), List.getElem_map]
      have := h5 _ (List.getElem_mem hjl)
      rw [List.length_take] at this
      omega
  · simp only [List.length_map, List.length_reverse]
    intro k hk0 hk
    obtain ⟨q, hq, hd, hmem⟩ := href (C.length - 1 - k) (by omega)
    rcases hwf q hq with ⟨h1, _⟩ | ⟨h1, h2, h3, h4, h5, h6⟩
    · rw [h1] at hd
      exact Bool.noConfusion hd
    · obtain ⟨j, hj, hjk⟩ := List.getElem_of_mem hmem
      have hlt := h5 _ hmem
      rw [List.length_take] at hlt
      have e : C.length - 1 - (C.length - 1 - q) = q := by omega
      refine ⟨C.length - 1 - q, j, by omega, ?_, ?_, ?_⟩
      · rw [getD_reverse_map C _ _ (by omega), e, renumber_disk]
        exact h1
      · rw [getD_reverse_map C _ _ (by omega), e, renumber_count]
        omega
      · rw [getD_reverse_map C _ _ (by omega), e, renumber_interior _ _ h2]
        simp only
        rw [List.getD_eq_getElem _ 0 (by simpa using hj), List.getElem_map, hjk]
        omega

theorem streetWith_ne_nil (last : DataT) : streetWith last ≠ [] := by
  intro h
  have := congrArg List.length h
  rw [streetWith_length] at this
  exact absurd this (by decide)

/-- C19. After the construction over a non-empty list of edges, every node of
the search tree that is not a leaf parent has between 1 and
`RTREE_BRANCHING_FACTOR` children, and exactly one node is a root: node 0 is
the child of no node, and every other node is the child of some node. -/
theorem build_fanout_and_single_root (hilbert : DataT → Nat)
    (sort : List WrappedInputElement → List WrappedInputElement)
    (I : List DataT) (hne : I ≠ []) :
    ∃ t, StaticRTree.build hilbert sort I = .ok t ∧ 0 < t.m_search_tree.length ∧
      (∀ i, i < t.m_search_tree.length →
        (t.m_search_tree.getD i default).child_is_on_disk = false →
        1 ≤ (t.m_search_tree.getD i default).child_count ∧
        (t.m_search_tree.getD i default).child_count ≤ 50) ∧
      (∀ k, k < t.m_search_tree.length →
        (k = 0 ↔ ¬ ∃ i j, i < t.m_search_tree.length ∧
          (t.m_search_tree.getD i default).child_is_on_disk = false ∧
          j < (t.m_search_tree.getD i default).child_count ∧
          (t.m_search_tree.getD i default).children.getD j 0 = k)) := by
  obtain ⟨t, hb, hlen, hnodes, hparent⟩ := build_layout hilbert sort I hne
  refine ⟨t, hb, hlen, ?_, ?_⟩
  · intro i hi hd
    obtain ⟨h1, h2, _⟩ := hnodes i hi hd
    exact ⟨h1, h2⟩
  · intro k hk
    constructor
    · rintro rfl ⟨i, j, hi, hd, hj, hc⟩
      have := (hnodes i hi hd).2.2 j hj
      omega
    · intro hno
      by_contra hk0
      exact hno (hparent k (by omega) hk)

theorem build_fanout_and_single_root_witness :
    crossingEdges ≠ [] ∧
    ∃ t, StaticRTree.build sampleHilbert sortByHilbert crossingEdges = .ok t ∧
      0 < t.m_search_tree.length ∧
      (∀ i, i < t.m_search_tree.length →
        (t.m_search_tree.getD i default).child_is_on_disk = false →
        1 ≤ (t.m_search_tree.getD i default).child_count ∧
        (t.m_search_tree.getD i default).child_count ≤ 50) ∧
      (∀ k, k < t.m_search_tree.length →
        (k = 0 ↔ ¬ ∃ i j, i < t.m_search_tree.length ∧
          (t.m_search_tree.getD i default).child_is_on_disk = false ∧
          j < (t.m_search_tree.getD i default).child_count ∧
          (t.m_search_tree.getD i default).children.getD j 0 = k)) :=
  ⟨streetWith_ne_nil crossingEdge,
    build_fanout_and_single_root sampleHilbert sortByHilbert crossingEdges
      (streetWith_ne_nil crossingEdge)⟩

/-! ## Static R-tree: the leaf pages -/

theorem pagesFrom_succ (I : List DataT) (W : List WrappedInputElement) (n p K : Nat) :
    pagesFrom I W n p (K + 1) =
      fillLeaf I W n p :: pagesFrom I W n (p + RTREE_LEAF_NODE_SIZE) K := by
  have e : ∀ c k : Nat, p + c * (k + 1) = p + c + c * k := by
    intro c k
    rw [Nat.mul_succ]
    omega
  have ht : (List.range K).map ((fun k => fillLeaf I W n (p + RTREE_LEAF_NODE_SIZE * k)) ∘
      Nat.succ) =
      (List.range K).map fun k =>
        fillLeaf I W n (p + RTREE_LEAF_NODE_SIZE + RTREE_LEAF_NODE_SIZE * k) := by
    apply List.map_congr_left
    intro k _
    rw [Function.comp_apply, Nat.succ_eq_add_one, e]
  unfold pagesFrom
  rw [List.range_succ_eq_map, List.map_cons, List.map_map, ht, Nat.mul_zero, Nat.add_zero]

/-- The packing loop writes the pages of `pagesFrom`, as many as the remaining
elements need. -/
theorem packLeaves_pages (I : List DataT) (W : List WrappedInputElement) (n : Nat) :
    ∀ (fuel p : Nat) (level : List TreeNode) (file : List LeafNode),
      n ≤ fuel + p →
      ∃ level', packLeaves I W n fuel p level file =
        .ok (level', file ++ pagesFrom I W n p (pageCount (n - p))) := by
  have hcap : RTREE_LEAF_NODE_SIZE = 1170 := rfl
  intro fuel
  induction fuel with
  | zero =>
    intro p level file h
    have hp : ¬ p < n := by omega
    have hz : pageCount (n - p) = 0 := by
      unfold pageCount
      rw [hcap]
      omega
    rw [packLeaves_done I W n 0 p level file hp, hz]
    exact ⟨level, by simp [pagesFrom]⟩
  | succ fuel ih =>
    intro p level file h
    by_cases hp : p < n
    · have hcount : (fillLeaf I W n p).object_count = min RTREE_LEAF_NODE_SIZE (n - p) := by
        rw [fillLeaf_eq]
      rw [packLeaves_step I W n fuel p level file (fillLeaf I W n p)
        (leafParent (fillLeaf I W n p) level) hp rfl rfl]
      obtain ⟨level', hl⟩ := ih (p + (fillLeaf I W n p).object_count)
        (level ++ [leafParent (fillLeaf I W n p) level]) (file ++ [fillLeaf I W n p])
        (by rw [hcount, hcap]; omega)
      refine ⟨level', ?_⟩
      rw [hl, List.append_assoc, hcount]
      by_cases hfull : RTREE_LEAF_NODE_SIZE ≤ n - p
      · have e1 : min RTREE_LEAF_NODE_SIZE (n - p) = RTREE_LEAF_NODE_SIZE :=
          Nat.min_eq_left hfull
        have e2 : pageCount (n - p) = pageCount (n - (p + RTREE_LEAF_NODE_SIZE)) + 1 := by
          unfold pageCount
          rw [hcap] at hfull ⊢
          omega
        rw [e1, e2, pagesFrom_succ, List.singleton_append]
      · have e1 : min RTREE_LEAF_NODE_SIZE (n - p) = n - p := by
          rw [hcap] at hfull ⊢
          omega
        have e2 : pageCount (n - p) = 0 + 1 := by
          unfold pageCount
          rw [hcap] at hfull ⊢
          omega
        have e3 : pageCount (n - (p + (n - p))) = 0 := by
          unfold pageCount
          rw [hcap]
          omega
        have e4 : ∀ q, pagesFrom I W n q 0 = [] := fun _ => rfl
        rw [e1, e2, e3, pagesFrom_succ, e4, e4, List.singleton_append]
    · have hz : pageCount (n - p) = 0 := by
        unfold pageCount
        rw [hcap]
        omega
      rw [packLeaves_done I W n (fuel + 1) p level file hp, hz]
      exact ⟨level, by simp [pagesFrom]⟩

/-- The leaf file of a constructed index. -/
theorem build_leaf_file (hilbert : DataT → Nat)
    (sort : List WrappedInputElement → List WrappedInputElement) (I : List DataT)
    (t : StaticRTree) (h : StaticRTree.build hilbert sort I = .ok t) :
    t.leaf_file = pagesFrom I (sort (wrapInput hilbert I)) I.length 0 (pageCount I.length) := by
  obtain ⟨level', hl⟩ := packLeaves_pages I (sort (wrapInput hilbert I)) I.length I.length 0
    [] [] (by omega)
  unfold StaticRTree.build at h
  simp only [hl] at h
  split at h
  · exact Except.noConfusion h
  · split at h
    · exact Except.noConfusion h
    · split at h
      · exact Except.noConfusion h
      · rw [← Except.ok.inj h]
        rfl

theorem pagesFrom_length (I : List DataT) (W : List WrappedInputElement) (n p K : Nat) :
    (pagesFrom I W n p K).length = K := by
  unfold pagesFrom
  rw [List.length_map, List.length_range]

theorem pagesFrom_getD (I : List DataT) (W : List WrappedInputElement) (n p K k : Nat)
    (hk : k < K) :
    (pagesFrom I W n p K).getD k default = fillLeaf I W n (p + RTREE_LEAF_NODE_SIZE * k) := by
  unfold pagesFrom
  rw [List.getD_eq_getElem?_getD, List.getElem?_map, List.getElem?_range hk, Option.map_some',
    Option.getD_some]

theorem pagesFrom_count (I : List DataT) (W : List WrappedInputElement) (n K k : Nat)
    (hk : k < K) :
    ((pagesFrom I W n 0 K).getD k default).object_count = min 1170 (n - 1170 * k) := by
  rw [pagesFrom_getD I W n 0 K k hk, fillLeaf_eq]
  show min RTREE_LEAF_NODE_SIZE (n - (0 + RTREE_LEAF_NODE_SIZE * k)) = min 1170 (n - 1170 * k)
  rw [Nat.zero_add]
  rfl

theorem sum_page_counts (n : Nat) :
    ∀ K, ((List.range K).map fun k => min 1170 (n - 1170 * k)).sum = min n (1170 * K) := by
  intro K
  induction K with
  | zero => simp
  | succ K ih =>
    rw [List.range_succ, List.map_append, List.sum_append, ih]
    simp only [List.map_cons, List.map_nil, List.sum_cons, List.sum_nil]
    omega

theorem pagesFrom_counts (I : List DataT) (W : List WrappedInputElement) (n K : Nat) :
    (pagesFrom I W n 0 K).map (fun page => page.object_count) =
      (List.range K).map fun k => min 1170 (n - 1170 * k) := by
  apply List.ext_getElem
  · rw [List.length_map, pagesFrom_length, List.length_map, List.length_range]
  · intro k h1 h2
    rw [List.length_map, pagesFrom_length] at h1
    rw [List.getElem_map, List.getElem_map, List.getElem_range,
      ← pagesFrom_count I W n K k h1, List.getD_eq_getElem _ _ (by rw [pagesFrom_length]; exact h1)]

/-- C18. For a non-empty input of `n` edges the construction writes
`ceil(n / 1170)` leaf pages; every page holds between 1 and 1170 objects,
every page but the last holds 1170, and the object counts add up to `n`. -/
theorem build_page_counts (hilbert : DataT → Nat)
    (sort : List WrappedInputElement → List WrappedInputElement)
    (I : List DataT) (hne : I ≠ []) :
    ∃ t, StaticRTree.build hilbert sort I = .ok t ∧
      t.leaf_file.length = (I.length + 1169) / 1170 ∧
      (∀ k, k < t.leaf_file.length →
        1 ≤ (t.leaf_file.getD k default).object_count ∧
        (t.leaf_file.getD k default).object_count ≤ RTREE_LEAF_NODE_SIZE) ∧
      (∀ k, k + 1 < t.leaf_file.length →
        (t.leaf_file.getD k default).object_count = RTREE_LEAF_NODE_SIZE) ∧
      (t.leaf_file.map fun page => page.object_count).sum = I.length := by
  obtain ⟨C, file, hbuild, _⟩ := build_spec hilbert sort I hne
  have hfile := build_leaf_file hilbert sort I _ hbuild
  have hK : pageCount I.length = (I.length + 1169) / 1170 := rfl
  have hcap : RTREE_LEAF_NODE_SIZE = 1170 := rfl
  refine ⟨_, hbuild, ?_, ?_, ?_, ?_⟩
  · rw [hfile, pagesFrom_length, hK]
  · intro k hk
    rw [hfile, pagesFrom_length, hK] at hk
    rw [hfile, pagesFrom_count I _ I.length _ k (by rw [hK]; exact hk), hcap]
    omega
  · intro k hk
    rw [hfile, pagesFrom_length, hK] at hk
    rw [hfile, pagesFrom_count I _ I.length _ k (by rw [hK]; omega), hcap]
    omega
  · rw [hfile, pagesFrom_counts, sum_page_counts, hK]
    omega

theorem streetEdges_ne_nil : streetEdges ≠ [] := streetWith_ne_nil (streetEdge 1170)

theorem build_page_counts_witness :
    streetEdges ≠ [] ∧
    ∃ t, StaticRTree.build sampleHilbert sortByHilbert streetEdges = .ok t ∧
      t.leaf_file.length = (streetEdges.length + 1169) / 1170 ∧
      (∀ k, k < t.leaf_file.length →
        1 ≤ (t.leaf_file.getD k default).object_count ∧
        (t.leaf_file.getD k default).object_count ≤ RTREE_LEAF_NODE_SIZE) ∧
      (∀ k, k + 1 < t.leaf_file.length →
        (t.leaf_file.getD k default).object_count = RTREE_LEAF_NODE_SIZE) ∧
      (t.leaf_file.map fun page => page.object_count).sum = streetEdges.length :=
  ⟨streetEdges_ne_nil,
    build_page_counts sampleHilbert sortByHilbert streetEdges streetEdges_ne_nil⟩

theorem pagesFrom_append (I : List DataT) (W : List WrappedInputElement) (n K : Nat) :
    pagesFrom I W n 0 (K + 1) =
      pagesFrom I W n 0 K ++ [fillLeaf I W n (RTREE_LEAF_NODE_SIZE * K)] := by
  unfold pagesFrom
  rw [List.range_succ, List.map_append, List.map_cons, List.map_nil, Nat.zero_add]

theorem storedSequence_append (file : List LeafNode) (page : LeafNode) :
    storedSequence (file ++ [page]) =
      storedSequence file ++ page.objects.take page.object_count := by
  unfold storedSequence
  rw [List.flatMap_append]
  simp [List.flatMap]

/-- The filled slots of the first `K` pages are the first elements of the
sorted order. -/
theorem storedSequence_pagesFrom (I : List DataT) (W : List WrappedInputElement) (n : Nat) :
    ∀ K, storedSequence (pagesFrom I W n 0 K) =
      (List.range (min n (1170 * K))).map (orderedElement I W) := by
  have hcap : RTREE_LEAF_NODE_SIZE = 1170 := rfl
  intro K
  induction K with
  | zero => simp [storedSequence, pagesFrom]
  | succ K ih =>
    rw [pagesFrom_append, storedSequence_append, ih, fillLeaf_eq]
    simp only
    rw [List.take_of_length_le (by rw [List.length_map, List.length_range])]
    by_cases c : 1170 * K ≤ n
    · have e1 : min n (1170 * K) = 1170 * K := by omega
      have e2 : min n (1170 * (K + 1)) =
          1170 * K + min RTREE_LEAF_NODE_SIZE (n - RTREE_LEAF_NODE_SIZE * K) := by
        rw [hcap]; omega
      rw [e1, e2, List.range_add, List.map_append, List.map_map, hcap]
      rfl
    · have e1 : min n (1170 * K) = n := by omega
      have e2 : min n (1170 * (K + 1)) = n := by omega
      have e3 : min RTREE_LEAF_NODE_SIZE (n - RTREE_LEAF_NODE_SIZE * K) = 0 := by
        rw [hcap]; omega
      rw [e1, e2, e3]
      simp

theorem wrapInput_key (hilbert : DataT → Nat) (I : List DataT)
    (hsize : I.length ≤ 4294967296) (w : WrappedInputElement) (hw : w ∈ wrapInput hilbert I) :
    w.m_hilbert_value = hilbert (I.getD w.m_array_index default) := by
  unfold wrapInput at hw
  rw [List.mem_map] at hw
  obtain ⟨i, hi, rfl⟩ := hw
  rw [List.mem_range] at hi
  simp only
  rw [Nat.mod_eq_of_lt (by omega)]

theorem wrapInput_elements (hilbert : DataT → Nat) (I : List DataT)
    (hsize : I.length ≤ 4294967296) :
    (wrapInput hilbert I).map (fun w => I.getD w.m_array_index default) = I := by
  unfold wrapInput
  rw [List.map_map]
  refine Eq.trans (List.map_congr_left ?_) (map_getD_range I)
  intro i hi
  rw [List.mem_range] at hi
  show I.getD (i % 4294967296) default = I.getD i default
  rw [Nat.mod_eq_of_lt (by omega)]

/-- The filled slots of the leaf pages of a constructed index are the input
elements in the order of the sorted wrapper vector. -/
theorem build_storedSequence (hilbert : DataT → Nat)
    (sort : List WrappedInputElement → List WrappedInputElement) (I : List DataT)
    (hlenW : (sort (wrapInput hilbert I)).length = I.length)
    (t : StaticRTree) (h : StaticRTree.build hilbert sort I = .ok t) :
    storedSequence t.leaf_file =
      (sort (wrapInput hilbert I)).map fun w => I.getD w.m_array_index default := by
  rw [build_leaf_file hilbert sort I t h, storedSequence_pagesFrom]
  have e : min I.length (1170 * pageCount I.length) = I.length := by
    have : pageCount I.length = (I.length + 1169) / 1170 := rfl
    rw [this]
    omega
  rw [e]
  have := map_getD_range (sort (wrapInput hilbert I))
  rw [hlenW] at this
  conv_rhs => rw [← this]
  rw [List.map_map]
  rfl

theorem build_tied :
    StaticRTree.build sampleHilbert sortTiesReversed tiedEdges =
      .ok { m_search_tree :=
              [ { minimum_bounding_rectangle :=
                    { min_lon := 0, max_lon := 9, min_lat := 0, max_lat := 9 },
                  child_count := 0, child_is_on_disk := true, children := [0] } ],
            m_element_count := 2,
            leaf_file := [ { object_count := 2, objects := tiedEdges.reverse } ] } := by
  rw [build_one_page sampleHilbert sortTiesReversed tiedEdges (by decide) (by decide), fillLeaf_eq]
  rfl

theorem sortTiesReversed_perm (l : List WrappedInputElement) : (sortTiesReversed l).Perm l :=
  (List.perm_insertionSort _ _).trans (List.reverse_perm l)

theorem sortTiesReversed_sorted (l : List WrappedInputElement) :
    (sortTiesReversed l).Sorted fun a b => a.m_hilbert_value ≤ b.m_hilbert_value := by
  unfold sortTiesReversed
  have htotal : IsTotal WrappedInputElement
      (fun a b => a.m_hilbert_value ≤ b.m_hilbert_value) :=
    ⟨fun a b => Nat.le_total _ _⟩
  have htrans : IsTrans WrappedInputElement
      (fun a b => a.m_hilbert_value ≤ b.m_hilbert_value) :=
    ⟨fun a b c h1 h2 => Nat.le_trans h1 h2⟩
  exact List.sorted_insertionSort _ _

/-- C17, as stated, fails on the code: `operator<` of the wrappers compares
the Hilbert values only and `std::sort` is not stable, so the order of edges
with equal keys is not fixed. With the outcome `sortTiesReversed`, which is a
permutation in ascending key order, the two edges of `tiedEdges` are written
to the page in the reverse of their input order, which is not the stable
order. -/
theorem build_ties_not_by_index :
    (sortTiesReversed (wrapInput sampleHilbert tiedEdges)).Perm
      (wrapInput sampleHilbert tiedEdges) ∧
    (sortTiesReversed (wrapInput sampleHilbert tiedEdges)).Sorted
      (fun a b => a.m_hilbert_value ≤ b.m_hilbert_value) ∧
    (∃ t, StaticRTree.build sampleHilbert sortTiesReversed tiedEdges = .ok t ∧
      storedSequence t.leaf_file = tiedEdges.reverse) ∧
    tiedEdges.insertionSort (fun a b => sampleHilbert a ≤ sampleHilbert b) = tiedEdges ∧
    tiedEdges.reverse ≠ tiedEdges := by
  exact ⟨sortTiesReversed_perm _, sortTiesReversed_sorted _, ⟨_, build_tied, by decide⟩,
    by decide, by decide⟩

/-- C17 (amended). For a non-empty input of at most `2^32` edges and every
outcome of `std::sort` that is a permutation of the wrappers in ascending
order of the Hilbert values, the filled slots of the leaf pages, in page
order, are the input edges in the order of the sorted wrappers: a permutation
of the input in ascending order of the Hilbert values. The order of edges with
equal values is the one the sort leaves; when the outcome is that of the
stable insertion sort, the sequence is the input stably sorted. -/
theorem build_stores_sorted_sequence (hilbert : DataT → Nat)
    (sort : List WrappedInputElement → List WrappedInputElement) (I : List DataT)
    (hne : I ≠ []) (hsize : I.length ≤ 4294967296)
    (hperm : ∀ l, (sort l).Perm l)
    (hsorted : ∀ l, (sort l).Sorted fun a b => a.m_hilbert_value ≤ b.m_hilbert_value) :
    ∃ t, StaticRTree.build hilbert sort I = .ok t ∧
      storedSequence t.leaf_file =
        (sort (wrapInput hilbert I)).map (fun w => I.getD w.m_array_index default) ∧
      (storedSequence t.leaf_file).Perm I ∧
      (storedSequence t.leaf_file).Sorted (fun a b => hilbert a ≤ hilbert b) ∧
      (sort (wrapInput hilbert I) = sortByHilbert (wrapInput hilbert I) →
        storedSequence t.leaf_file = I.insertionSort fun a b => hilbert a ≤ hilbert b) := by
  obtain ⟨C, file, hbuild, _⟩ := build_spec hilbert sort I hne
  have hp := hperm (wrapInput hilbert I)
  have hlenW : (sort (wrapInput hilbert I)).length = I.length := by
    rw [hp.length_eq]
    unfold wrapInput
    rw [List.length_map, List.length_range]
  have hseq := build_storedSequence hilbert sort I hlenW _ hbuild
  refine ⟨_, hbuild, hseq, ?_, ?_, ?_⟩
  · rw [hseq]
    have := hp.map (fun w => I.getD w.m_array_index default)
    rw [wrapInput_elements hilbert I hsize] at this
    exact this
  · rw [hseq]
    unfold List.Sorted
    rw [List.pairwise_map]
    refine List.Pairwise.imp_of_mem ?_ (hsorted (wrapInput hilbert I))
    intro a b ha hb hab
    rw [← wrapInput_key hilbert I hsize a (hp.mem_iff.mp ha),
      ← wrapInput_key hilbert I hsize b (hp.mem_iff.mp hb)]
    exact hab
  · intro hstable
    rw [hseq, hstable]
    unfold sortByHilbert
    rw [List.map_insertionSort (fun a b => a.m_hilbert_value ≤ b.m_hilbert_value)
      (fun a b => hilbert a ≤ hilbert b) (fun w => I.getD w.m_array_index default)
      (wrapInput hilbert I), wrapInput_elements hilbert I hsize]
    intro a ha b hb
    rw [wrapInput_key hilbert I hsize a ha, wrapInput_key hilbert I hsize b hb]

theorem sortByHilbert_sorted (l : List WrappedInputElement) :
    (sortByHilbert l).Sorted fun a b => a.m_hilbert_value ≤ b.m_hilbert_value := by
  unfold sortByHilbert
  have htotal : IsTotal WrappedInputElement
      (fun a b => a.m_hilbert_value ≤ b.m_hilbert_value) :=
    ⟨fun a b => Nat.le_total _ _⟩
  have htrans : IsTrans WrappedInputElement
      (fun a b => a.m_hilbert_value ≤ b.m_hilbert_value) :=
    ⟨fun a b c h1 h2 => Nat.le_trans h1 h2⟩
  exact List.sorted_insertionSort _ _

theorem build_stores_sorted_sequence_witness :
    tiedEdges ≠ [] ∧ tiedEdges.length ≤ 4294967296 ∧
    (∀ l, (sortByHilbert l).Perm l) ∧
    (∀ l, (sortByHilbert l).Sorted fun a b => a.m_hilbert_value ≤ b.m_hilbert_value) ∧
    ∃ t, StaticRTree.build sampleHilbert sortByHilbert tiedEdges = .ok t ∧
      storedSequence t.leaf_file =
        (sortByHilbert (wrapInput sampleHilbert tiedEdges)).map
          (fun w => tiedEdges.getD w.m_array_index default) ∧
      (storedSequence t.leaf_file).Perm tiedEdges ∧
      (storedSequence t.leaf_file).Sorted (fun a b => sampleHilbert a ≤ sampleHilbert b) ∧
      (sortByHilbert (wrapInput sampleHilbert tiedEdges) =
          sortByHilbert (wrapInput sampleHilbert tiedEdges) →
        storedSequence t.leaf_file =
          tiedEdges.insertionSort fun a b => sampleHilbert a ≤ sampleHilbert b) :=
  ⟨by decide, by decide, sortByHilbert_perm, sortByHilbert_sorted,
    build_stores_sorted_sequence sampleHilbert sortByHilbert tiedEdges (by decide)
      (by decide) sortByHilbert_perm sortByHilbert_sorted⟩

/-! ## Floating point: the values of finite expressions -/

namespace Dbl

theorem IsVal.ofInt (i : Int) : IsVal (Dbl.ofInt i) i := ⟨rfl, rfl⟩

theorem IsVal.one : IsVal (fin 1) 1 := ⟨rfl, rfl⟩

theorem IsVal.neg {u : Dbl} {a : ℚ} (hu : IsVal u a) : IsVal (neg u) (-a) := by
  obtain ⟨h1, h2⟩ := hu
  refine ⟨isFinite_neg u h1, ?_⟩
  subst h2
  cases u with
  | fin q =>
    show (if q = 0 then negZero else fin (-q)).toRat = -q
    split
    · rename_i h
      rw [h]
      show (0 : ℚ) = -0
      rw [neg_zero]
    · rfl
  | negZero =>
    show (0 : ℚ) = -0
    rw [neg_zero]
  | posInf => cases h1
  | negInf => cases h1
  | nan => cases h1

theorem IsVal.add {u v : Dbl} {a b : ℚ} (hu : IsVal u a) (hv : IsVal v b) :
    IsVal (add u v) (a + b) := by
  obtain ⟨h1, h2⟩ := hu
  obtain ⟨h3, h4⟩ := hv
  refine ⟨isFinite_add u v h1 h3, ?_⟩
  subst h2
  subst h4
  cases u <;> cases v <;>
    first
    | rfl
    | exact absurd h1 (by decide)
    | exact absurd h3 (by decide)
    | (show (0 : ℚ) = 0 + 0; rw [add_zero])

theorem IsVal.sub {u v : Dbl} {a b : ℚ} (hu : IsVal u a) (hv : IsVal v b) :
    IsVal (sub u v) (a - b) := by
  rw [sub_eq_add_neg]
  exact IsVal.add hu (IsVal.neg hv)

theorem toRat_finite (q : ℚ) (z : Bool) : (finite q z).toRat = q := by
  unfold finite signedZero
  split
  · rename_i h
    rw [h]
    split <;> rfl
  · rfl

theorem IsVal.mul {u v : Dbl} {a b : ℚ} (hu : IsVal u a) (hv : IsVal v b) :
    IsVal (mul u v) (a * b) := by
  obtain ⟨h1, h2⟩ := hu
  obtain ⟨h3, h4⟩ := hv
  refine ⟨isFinite_mul u v h1 h3, ?_⟩
  subst h2
  subst h4
  unfold Dbl.mul
  rw [isNaN_of_isFinite u h1, isNaN_of_isFinite v h3, h1, h3]
  exact toRat_finite _ _

theorem isZero_of_ne {u : Dbl} {a : ℚ} (hu : IsVal u a) (ha : a ≠ 0) : u.isZero = false := by
  obtain ⟨h1, h2⟩ := hu
  subst h2
  cases u with
  | fin q =>
    show decide (q = 0) = false
    rw [decide_eq_false_iff_not]
    exact ha
  | negZero => exact absurd rfl ha
  | posInf => cases h1
  | negInf => cases h1
  | nan => cases h1

theorem IsVal.div {u v : Dbl} {a b : ℚ} (hu : IsVal u a) (hv : IsVal v b) (hb : b ≠ 0) :
    IsVal (div u v) (a / b) := by
  have hz := isZero_of_ne hv hb
  obtain ⟨h1, h2⟩ := hu
  obtain ⟨h3, h4⟩ := hv
  refine ⟨isFinite_div u v h1 h3 hz, ?_⟩
  subst h2
  subst h4
  unfold Dbl.div
  rw [isNaN_of_isFinite u h1, isNaN_of_isFinite v h3, h1, h3, hz]
  exact toRat_finite _ _

theorem sq_sum_val {u v : Dbl} {a b : ℚ} (hu : IsVal u a) (hv : IsVal v b) :
    add (mul u u) (mul v v) = fin (a * a + b * b) := by
  obtain ⟨p, hp⟩ := mul_self_fin u hu.1
  obtain ⟨q, hq⟩ := mul_self_fin v hv.1
  have h1 := (IsVal.mul hu hu).2
  have h2 := (IsVal.mul hv hv).2
  rw [hp] at h1
  rw [hq] at h2
  rw [hp, hq, add_fin]
  show fin (p + q) = fin (a * a + b * b)
  have e1 : p = a * a := h1
  have e2 : q = b * b := h2
  rw [e1, e2]

end Dbl

theorem projection_le (X Y A B M : ℚ) :
    ((X + M * Y + (M * M * A - M * B)) / (1 + M * M) - X) *
        ((X + M * Y + (M * M * A - M * B)) / (1 + M * M) - X) +
      (B + M * ((X + M * Y + (M * M * A - M * B)) / (1 + M * M) - A) - Y) *
        (B + M * ((X + M * Y + (M * M * A - M * B)) / (1 + M * M) - A) - Y) ≤
      (A - X) * (A - X) + (B - Y) * (B - Y) := by
  have hD : 0 < 1 + M * M := by nlinarith [mul_self_nonneg M]
  have key : ((X + M * Y + (M * M * A - M * B)) / (1 + M * M) - X) *
        ((X + M * Y + (M * M * A - M * B)) / (1 + M * M) - X) +
      (B + M * ((X + M * Y + (M * M * A - M * B)) / (1 + M * M) - A) - Y) *
        (B + M * ((X + M * Y + (M * M * A - M * B)) / (1 + M * M) - A) - Y) =
      (M * (X - A) - (Y - B)) ^ 2 / (1 + M * M) := by
    field_simp
    ring
  rw [key, div_le_iff₀ hD]
  nlinarith [sq_nonneg ((X - A) + M * (Y - B)), mul_self_nonneg M]

/-- The squared distance that the query computes for an edge is a number that
does not exceed the squared distance to one of the end points of the edge. -/
theorem edgeDistance_le (p : Coordinate) (e : DataT) :
    ∃ q, edgeDistance p e = Dbl.fin q ∧
      (q ≤ ((e.lat1 : ℚ) - p.lat) * ((e.lat1 : ℚ) - p.lat) +
            ((e.lon1 : ℚ) - p.lon) * ((e.lon1 : ℚ) - p.lon) ∨
        q ≤ ((e.lat2 : ℚ) - p.lat) * ((e.lat2 : ℚ) - p.lat) +
            ((e.lon2 : ℚ) - p.lon) * ((e.lon2 : ℚ) - p.lon)) := by
  unfold edgeDistance ComputePerpendicularDistance
  lift_lets
  extract_lets x y a b c d m steep p' q' nY mX r
  have hx : Dbl.IsVal x p.lat := Dbl.IsVal.ofInt _
  have hy : Dbl.IsVal y p.lon := Dbl.IsVal.ofInt _
  have ha : Dbl.IsVal a e.lat1 := Dbl.IsVal.ofInt _
  have hb : Dbl.IsVal b e.lon1 := Dbl.IsVal.ofInt _
  have hc : Dbl.IsVal c e.lat2 := Dbl.IsVal.ofInt _
  have hd : Dbl.IsVal d e.lon2 := Dbl.IsVal.ofInt _
  split
  · refine ⟨_, Dbl.sq_sum_val (Dbl.IsVal.sub hb hy) (Dbl.IsVal.sub ha hx), Or.inl ?_⟩
    rw [add_comm]
  · split
    · refine ⟨_, Dbl.sq_sum_val (Dbl.IsVal.sub hd hy) (Dbl.IsVal.sub hc hx), Or.inr ?_⟩
      rw [add_comm]
    · by_cases hs : steep = true
      · have hne : ((e.lat2 : ℚ) - e.lat1) ≠ 0 := by
          have hz := steep_nonzero _ _ hs
          intro h0
          have : (Dbl.sub c a).isZero = true := by
            have hv := (Dbl.IsVal.sub hc ha)
            rw [h0] at hv
            obtain ⟨h1, h2⟩ := hv
            cases hsub : Dbl.sub c a with
            | fin q =>
              rw [hsub] at h2
              show decide (q = 0) = true
              exact decide_eq_true h2
            | negZero => rfl
            | posInf => rw [hsub] at h1; cases h1
            | negInf => rw [hsub] at h1; cases h1
            | nan => rw [hsub] at h1; cases h1
          rw [hz] at this
          exact Bool.noConfusion this
        have hm : Dbl.IsVal m (((e.lon2 : ℚ) - e.lon1) / ((e.lat2 : ℚ) - e.lat1)) :=
          Dbl.IsVal.div (Dbl.IsVal.sub hd hb) (Dbl.IsVal.sub hc ha) hne
        generalize ((e.lon2 : ℚ) - e.lon1) / ((e.lat2 : ℚ) - e.lat1) = M at hm
        have hMne : 1 + M * M ≠ 0 := by
          have : 0 < 1 + M * M := by nlinarith [mul_self_nonneg M]
          exact ne_of_gt this
        have hp : Dbl.IsVal p'
            (((p.lat : ℚ) + M * p.lon + (M * M * e.lat1 - M * e.lon1)) / (1 + M * M)) := by
          show Dbl.IsVal (if steep = true then _ else c) _
          rw [if_pos hs]
          exact Dbl.IsVal.div
            (Dbl.IsVal.add (Dbl.IsVal.add hx (Dbl.IsVal.mul hm hy))
              (Dbl.IsVal.sub (Dbl.IsVal.mul (Dbl.IsVal.mul hm hm) ha) (Dbl.IsVal.mul hm hb)))
            (Dbl.IsVal.add Dbl.IsVal.one (Dbl.IsVal.mul hm hm)) hMne
        have hq : Dbl.IsVal q'
            ((e.lon1 : ℚ) + M * ((((p.lat : ℚ) + M * p.lon + (M * M * e.lat1 - M * e.lon1)) /
              (1 + M * M)) - e.lat1)) := by
          show Dbl.IsVal (if steep = true then _ else y) _
          rw [if_pos hs]
          exact Dbl.IsVal.add hb (Dbl.IsVal.mul hm (Dbl.IsVal.sub hp ha))
        refine ⟨_, Dbl.sq_sum_val (Dbl.IsVal.sub hp hx) (Dbl.IsVal.sub hq hy), Or.inl ?_⟩
        exact projection_le p.lat p.lon e.lat1 e.lon1 M
      · have hp : Dbl.IsVal p' e.lat2 := by
          show Dbl.IsVal (if steep = true then _ else c) _
          rw [if_neg hs]
          exact hc
        have hq : Dbl.IsVal q' p.lon := by
          show Dbl.IsVal (if steep = true then _ else y) _
          rw [if_neg hs]
          exact hy
        refine ⟨_, Dbl.sq_sum_val (Dbl.IsVal.sub hp hx) (Dbl.IsVal.sub hq hy), Or.inr ?_⟩
        rw [sub_self, mul_zero, add_zero]
        exact le_add_of_nonneg_right (mul_self_nonneg _)

/-- For 32-bit coordinates the computed squared distance is at most `2^65`. -/
theorem edgeDistance_bounded (p : Coordinate) (e : DataT) (he : e.InRange)
    (hp : INT_MIN ≤ p.lat ∧ p.lat ≤ INT_MAX ∧ INT_MIN ≤ p.lon ∧ p.lon ≤ INT_MAX) :
    ∃ q, edgeDistance p e = Dbl.fin q ∧ q ≤ 2 ^ 65 := by
  have hsq : ∀ u v : Int, INT_MIN ≤ u → u ≤ INT_MAX → INT_MIN ≤ v → v ≤ INT_MAX →
      ((u : ℚ) - v) * ((u : ℚ) - v) ≤ 2 ^ 64 := by
    intro u v h1 h2 h3 h4
    unfold INT_MIN at h1 h3
    unfold INT_MAX at h2 h4
    have h5 : -4294967296 ≤ u - v := by omega
    have h6 : u - v ≤ 4294967296 := by omega
    have h7 : (-4294967296 : ℚ) ≤ (u : ℚ) - v := by exact_mod_cast h5
    have h8 : (u : ℚ) - v ≤ 4294967296 := by exact_mod_cast h6
    nlinarith
  obtain ⟨h1, h2, h3, h4, h5, h6, h7, h8⟩ := he
  obtain ⟨g1, g2, g3, g4⟩ := hp
  obtain ⟨q, hq, hle⟩ := edgeDistance_le p e
  refine ⟨q, hq, ?_⟩
  have a1 := hsq e.lat1 p.lat h1 h2 g1 g2
  have a2 := hsq e.lon1 p.lon h3 h4 g3 g4
  have a3 := hsq e.lat2 p.lat h5 h6 g1 g2
  have a4 := hsq e.lon2 p.lon h7 h8 g3 g4
  rcases hle with h | h <;> linarith

/-! ## Static R-tree: the index of a single edge -/

theorem getMinDist_val (approx : Coordinate → Coordinate → Dbl) (r : RectangleInt2D)
    (p : Coordinate)
    (h1 : ∃ q, approx p ⟨r.max_lat, r.min_lon⟩ = Dbl.fin q ∧ 0 ≤ q ∧ q < (2 ^ 53 - 1) * 2 ^ 971)
    (h2 : ∃ q, approx p ⟨r.max_lat, r.max_lon⟩ = Dbl.fin q ∧ 0 ≤ q ∧ q < (2 ^ 53 - 1) * 2 ^ 971)
    (h3 : ∃ q, approx p ⟨r.min_lat, r.max_lon⟩ = Dbl.fin q ∧ 0 ≤ q ∧ q < (2 ^ 53 - 1) * 2 ^ 971)
    (h4 : ∃ q, approx p ⟨r.min_lat, r.min_lon⟩ = Dbl.fin q ∧ 0 ≤ q ∧ q < (2 ^ 53 - 1) * 2 ^ 971) :
    ∃ q, r.GetMinDist approx p = Dbl.fin q ∧ 0 ≤ q ∧ q < (2 ^ 53 - 1) * 2 ^ 971 := by
  have hmin : ∀ a b : Dbl,
      (∃ q, a = Dbl.fin q ∧ 0 ≤ q ∧ q < (2 ^ 53 - 1) * 2 ^ 971) →
      (∃ q, b = Dbl.fin q ∧ 0 ≤ q ∧ q < (2 ^ 53 - 1) * 2 ^ 971) →
      ∃ q, Dbl.min a b = Dbl.fin q ∧ 0 ≤ q ∧ q < (2 ^ 53 - 1) * 2 ^ 971 := by
    intro a b ha hb
    unfold Dbl.min
    split
    · exact hb
    · exact ha
  have hfirst : ∀ b : Dbl, (∃ q, b = Dbl.fin q ∧ 0 ≤ q ∧ q < (2 ^ 53 - 1) * 2 ^ 971) →
      ∃ q, Dbl.min DBL_MAX b = Dbl.fin q ∧ 0 ≤ q ∧ q < (2 ^ 53 - 1) * 2 ^ 971 := by
    intro b hb
    obtain ⟨q, hq, hq0, hq1⟩ := hb
    unfold Dbl.min
    rw [hq]
    unfold DBL_MAX
    rw [Dbl.lt_fin, if_pos (decide_eq_true hq1)]
    exact ⟨q, rfl, hq0, hq1⟩
  unfold RectangleInt2D.GetMinDist
  simp only
  split
  · exact ⟨0, rfl, le_refl _, by norm_num⟩
  · exact hmin _ _ (hmin _ _ (hmin _ _ (hfirst _ h1) h2) h3) h4

theorem traverse_pop_single (approx : Coordinate → Coordinate → Dbl) (tree : List TreeNode)
    (leaf_file : List LeafNode) (p : Coordinate) (ig : Bool) (fuel : Nat) (s : QueryState)
    (c : QueryCandidate) (hq : s.traversal_queue = [c]) :
    traverse approx tree leaf_file p ig (fuel + 1) s =
      traverse approx tree leaf_file p ig fuel
        (visitNode approx tree leaf_file p ig c { s with traversal_queue := [] }) := by
  have hpop : popTop s.traversal_queue = some (c, []) := by rw [hq]; rfl
  conv_lhs => rw [traverse, hpop]

theorem scanLeaf_single (p : Coordinate) (ig : Bool) (e : DataT) (s : QueryState) :
    scanLeaf p ig { object_count := 1, objects := [e] } s = scanEdge p ig s e := rfl

theorem far_below_max (q : ℚ) (h : q ≤ 2 ^ 65) :
    Dbl.lt (Dbl.fin q) DBL_MAX = true ∧ DoubleEpsilonCompare (Dbl.fin q) DBL_MAX = false := by
  have hbig : (2 ^ 66 : ℚ) ≤ (2 ^ 53 - 1) * 2 ^ 971 := by norm_num
  unfold DBL_MAX
  constructor
  · rw [Dbl.lt_fin, decide_eq_true_eq]
    linarith
  · rw [doubleEpsilonCompare_fin, decide_eq_false_iff_not, not_lt]
    have : q - (2 ^ 53 - 1) * 2 ^ 971 ≤ -1 := by linarith
    rw [abs_of_nonpos (by linarith)]
    linarith

theorem singleton_box_inRange (e : DataT) (he : e.InRange) :
    (⟨(boundingBox [e]).max_lat, (boundingBox [e]).min_lon⟩ : Coordinate).InRange ∧
    (⟨(boundingBox [e]).max_lat, (boundingBox [e]).max_lon⟩ : Coordinate).InRange ∧
    (⟨(boundingBox [e]).min_lat, (boundingBox [e]).max_lon⟩ : Coordinate).InRange ∧
    (⟨(boundingBox [e]).min_lat, (boundingBox [e]).min_lon⟩ : Coordinate).InRange := by
  unfold DataT.InRange at he
  unfold Coordinate.InRange boundingBox
  simp only [List.foldl_cons, List.foldl_nil, extendByObject, RectangleInt2D.init]
  unfold INT_MIN INT_MAX at *
  omega

/-- The query over the index of one admitted edge with 32-bit coordinates
finds that edge. -/
theorem query_single_edge (approx : Coordinate → Coordinate → Dbl) (e : DataT)
    (p : Coordinate) (pn : PhantomNode) (zoom fuel : Nat)
    (happrox : ∀ a b : Coordinate, a.InRange → b.InRange →
      ∃ q, approx a b = Dbl.fin q ∧ 0 ≤ q ∧ q < (2 ^ 53 - 1) * 2 ^ 971)
    (he : e.InRange) (hp : p.InRange)
    (hsk : skipsEdge (decide (zoom ≤ 14)) e = false) :
    ∃ pn', FindPhantomNodeForCoordinate approx (singleEdgeIndex e) p pn zoom (fuel + 1) =
      .ok (true, pn') ∧ pn'.edgeBasedNode = e.id := by
  obtain ⟨b1, b2, b3, b4⟩ := singleton_box_inRange e he
  obtain ⟨qr, hqr, hqr0, hqr1⟩ := getMinDist_val approx (boundingBox [e]) p
    (happrox _ _ hp b1) (happrox _ _ hp b2) (happrox _ _ hp b3) (happrox _ _ hp b4)
  obtain ⟨q, hq, hq65⟩ := edgeDistance_bounded p e he hp
  obtain ⟨hlt, hdec⟩ := far_below_max q hq65
  have hassert : Dbl.lt (Dbl.sub (Dbl.fin 0) (Dbl.fin qr)) FLT_EPSILON = true := by
    unfold FLT_EPSILON
    rw [Dbl.sub_fin, Dbl.lt_fin, decide_eq_true_eq]
    have : (0 : ℚ) < 1 / 8388608 := by norm_num
    linarith
  have hprune : Dbl.le DBL_MAX (Dbl.fin qr) = false := by
    unfold DBL_MAX
    show decide ((2 ^ 53 - 1) * 2 ^ 971 ≤ qr) = false
    rw [decide_eq_false_iff_not]
    exact not_le.mpr hqr1
  have hroot : ((singleEdgeIndex e).m_search_tree.getD 0
      default).minimum_bounding_rectangle.GetMinDist approx p = Dbl.fin qr := hqr
  generalize hs0 : ({ initialQueryState approx (singleEdgeIndex e).m_search_tree p pn with
    traversal_queue := [] } : QueryState) = s0
  have hmd : s0.min_dist = DBL_MAX := by rw [← hs0]; rfl
  have hmmd : s0.min_max_dist = DBL_MAX := by rw [← hs0]; rfl
  have hscan := scanEdge_effect p (decide (zoom ≤ 14)) s0 e hsk
  rw [hmd, hq, hlt, hdec] at hscan
  rcases hscan with ⟨_, _, _, h4, _, h6⟩ | ⟨h1, _⟩
  · refine ⟨(finishQuery approx p (scanEdge p (decide (zoom ≤ 14)) s0 e)).2, ?_, h6⟩
    have hvisit : visitNode approx (singleEdgeIndex e).m_search_tree
        (singleEdgeIndex e).leaf_file p (decide (zoom ≤ 14)) ⟨0, Dbl.fin qr⟩ s0 =
        scanEdge p (decide (zoom ≤ 14)) s0 e := by
      unfold visitNode
      simp only
      rw [hmd, hmmd, hprune]
      rfl
    unfold FindPhantomNodeForCoordinate
    simp only
    rw [hroot, if_neg (not_not.mpr hassert),
      traverse_pop_single approx _ _ p _ fuel _ ⟨0, Dbl.fin qr⟩
        (by unfold initialQueryState; simp only; rw [hroot]),
      hs0, hvisit, traverse_empty _ _ _ _ _ _ _ (by rw [scanEdge_queue, ← hs0])]
    simp only
    have hfst : (finishQuery approx p (scanEdge p (decide (zoom ≤ 14)) s0 e)).1 = true := h4
    rw [← hfst]
  · rcases h1 with h1 | h1
    · exact Bool.noConfusion h1
    · exact Bool.noConfusion h1

/-- C16. For an input of exactly one edge that is admitted at the zoom level
of the query, the constructed search tree has a single node, the root, which
is a leaf parent; and for every query coordinate the query returns a phantom
node whose `edgeBasedNode` is the identifier of that edge. Coordinates are
32-bit integers, `std::sort` returns a permutation, and `ApproximateDistance`
returns non-negative numbers below `DBL_MAX` for such coordinates. -/
theorem single_edge_index (hilbert : DataT → Nat)
    (sort : List WrappedInputElement → List WrappedInputElement)
    (approx : Coordinate → Coordinate → Dbl) (e : DataT)
    (p : Coordinate) (pn : PhantomNode) (zoom fuel : Nat)
    (hperm : ∀ l, (sort l).Perm l)
    (happrox : ∀ a b : Coordinate, a.InRange → b.InRange →
      ∃ q, approx a b = Dbl.fin q ∧ 0 ≤ q ∧ q < (2 ^ 53 - 1) * 2 ^ 971)
    (he : e.InRange) (hp : p.InRange)
    (hign : e.isIgnored = false) (htiny : zoom ≤ 14 → e.belongsToTinyComponent = false)
    (hfuel : 1 ≤ fuel) :
    ∃ t root, StaticRTree.build hilbert sort [e] = .ok t ∧ t.m_search_tree = [root] ∧
      root.child_is_on_disk = true ∧
      ∃ pn', FindPhantomNodeForCoordinate approx t p pn zoom fuel = .ok (true, pn') ∧
        pn'.edgeBasedNode = e.id := by
  have hsk : skipsEdge (decide (zoom ≤ 14)) e = false := by
    unfold skipsEdge
    rw [hign, Bool.or_false]
    by_cases hz : zoom ≤ 14
    · rw [htiny hz, Bool.and_false]
    · rw [decide_eq_false hz, Bool.false_and]
  have hW : sort (wrapInput hilbert [e]) = wrapInput hilbert [e] :=
    List.perm_singleton.mp (hperm (wrapInput hilbert [e]))
  have hleaf : fillLeaf [e] (sort (wrapInput hilbert [e])) ([e] : List DataT).length 0 =
      { object_count := 1, objects := [e] } := by
    rw [fillLeaf_eq, hW]
    rfl
  have hbuild := build_one_page hilbert sort [e] (List.cons_ne_nil _ _)
    (by show 1 ≤ 1170; omega)
  rw [hleaf] at hbuild
  obtain ⟨f, hf⟩ : ∃ f, fuel = f + 1 := ⟨fuel - 1, by omega⟩
  subst hf
  obtain ⟨pn', h1, h2⟩ := query_single_edge approx e p pn zoom f happrox he hp hsk
  have hidx : StaticRTree.build hilbert sort [e] = .ok (singleEdgeIndex e) := hbuild
  exact ⟨_, _, hidx, rfl, rfl, pn', h1, h2⟩

theorem squaredDistance_bounded (a b : Coordinate) (ha : a.InRange) (hb : b.InRange) :
    ∃ q, squaredDistance a b = Dbl.fin q ∧ 0 ≤ q ∧ q < (2 ^ 53 - 1) * 2 ^ 971 := by
  obtain ⟨q, hq, hq0⟩ := squaredDistance_nonneg a b
  refine ⟨q, hq, hq0, ?_⟩
  have hval : q = (((a.lat - b.lat) * (a.lat - b.lat) + (a.lon - b.lon) * (a.lon - b.lon) :
      Int) : ℚ) := (Dbl.fin.inj hq).symm
  unfold Coordinate.InRange INT_MIN INT_MAX at ha hb
  have h1 : (a.lat - b.lat) * (a.lat - b.lat) ≤ 4294967296 * 4294967296 := by nlinarith
  have h2 : (a.lon - b.lon) * (a.lon - b.lon) ≤ 4294967296 * 4294967296 := by nlinarith
  have h3 : (a.lat - b.lat) * (a.lat - b.lat) + (a.lon - b.lon) * (a.lon - b.lon) ≤
      2 * (4294967296 * 4294967296) := by omega
  have h4 : q ≤ ((2 * (4294967296 * 4294967296) : Int) : ℚ) := by
    rw [hval]
    exact_mod_cast h3
  have hbig : (((2 * (4294967296 * 4294967296) : Int) : ℚ)) < (2 ^ 53 - 1) * 2 ^ 971 := by
    norm_num
  linarith

theorem tinyEdge_inRange : tinyEdge.InRange := by
  unfold DataT.InRange INT_MIN INT_MAX
  decide

theorem queryPoint_inRange : (⟨400100, 300100⟩ : Coordinate).InRange := by
  unfold Coordinate.InRange INT_MIN INT_MAX
  decide

theorem single_edge_index_witness :
    (∀ l, (sortByHilbert l).Perm l) ∧
    (∀ a b : Coordinate, a.InRange → b.InRange →
      ∃ q, squaredDistance a b = Dbl.fin q ∧ 0 ≤ q ∧ q < (2 ^ 53 - 1) * 2 ^ 971) ∧
    tinyEdge.InRange ∧ (⟨400100, 300100⟩ : Coordinate).InRange ∧
    tinyEdge.isIgnored = false ∧ (15 ≤ 14 → tinyEdge.belongsToTinyComponent = false) ∧
    1 ≤ 1 ∧
    ∃ t root, StaticRTree.build sampleHilbert sortByHilbert [tinyEdge] = .ok t ∧
      t.m_search_tree = [root] ∧ root.child_is_on_disk = true ∧
      ∃ pn', FindPhantomNodeForCoordinate squaredDistance t ⟨400100, 300100⟩ emptyPhantomNode
          15 1 = .ok (true, pn') ∧ pn'.edgeBasedNode = tinyEdge.id :=
  ⟨sortByHilbert_perm, squaredDistance_bounded, tinyEdge_inRange, queryPoint_inRange, rfl,
    by decide, by decide,
    single_edge_index sampleHilbert sortByHilbert squaredDistance tinyEdge ⟨400100, 300100⟩
      emptyPhantomNode 15 1 sortByHilbert_perm squaredDistance_bounded tinyEdge_inRange
      queryPoint_inRange rfl (by decide) (by decide)⟩

/-! ## Static R-tree: empty input and empty tree file -/

/-- C21. The constructor that builds the index fails on an empty edge list,
whatever the Hilbert numbering and the sorting function are: the assertion
that the tree has one root is violated and no index is produced. -/
theorem build_rejects_empty_input (hilbert : DataT → Nat)
    (sort : List WrappedInputElement → List WrappedInputElement) :
    StaticRTree.build hilbert sort [] = .error .assertionFailed := by
  unfold StaticRTree.build
  simp only [List.length_nil]
  rw [packLeaves_done [] _ 0 0 0 [] [] (by omega)]
  simp only [List.length_nil]
  rw [packLevels_done 0 [] [] (by simp)]
  simp

/-- C22, as stated, fails on the code: loading a tree file whose header says
`tree_size = 0` returns an index, whose search tree has no node. -/
theorem load_accepts_empty_tree :
    StaticRTree.load { tree_size := 0, nodes := [] } { element_count := 0, pages := [] } =
      { m_search_tree := [], m_element_count := 0, leaf_file := [] } := by
  decide

/-- C22 (amended). Loading a tree file whose header says `tree_size = 0`
reports no error: it returns an index whose search tree has no node, with the
element count and the pages of the leaf file. -/
theorem load_empty_tree (tree_node_file : TreeNodeFile) (leaf_node_file : LeafNodeFile)
    (h : tree_node_file.tree_size = 0) :
    StaticRTree.load tree_node_file leaf_node_file =
      { m_search_tree := [], m_element_count := leaf_node_file.element_count,
        leaf_file := leaf_node_file.pages } := by
  unfold StaticRTree.load
  simp [h]

theorem load_empty_tree_witness :
    StaticRTree.load { tree_size := 0, nodes := [default] }
        { element_count := 1, pages := [default] } =
      { m_search_tree := [], m_element_count := 1, leaf_file := [default] } :=
  load_empty_tree { tree_size := 0, nodes := [default] }
    { element_count := 1, pages := [default] } rfl

/-! ## Static R-tree: rectangles -/

/-- C23. `Contains` holds exactly for the points strictly inside the
rectangle on both axes; hence no point with a coordinate on the boundary is
contained, and a rectangle without extent on one axis contains no point. -/
theorem contains_iff_strictly_inside (r : RectangleInt2D) (p : Coordinate) :
    (r.Contains p = true ↔
      (r.min_lat < p.lat ∧ p.lat < r.max_lat ∧ r.min_lon < p.lon ∧ p.lon < r.max_lon)) ∧
    ((p.lat = r.min_lat ∨ p.lat = r.max_lat ∨ p.lon = r.min_lon ∨ p.lon = r.max_lon) →
      r.Contains p = false) ∧
    ((r.min_lat = r.max_lat ∨ r.min_lon = r.max_lon) → r.Contains p = false) := by
  have key : r.Contains p = true ↔
      (r.min_lat < p.lat ∧ p.lat < r.max_lat ∧ r.min_lon < p.lon ∧ p.lon < r.max_lon) := by
    unfold RectangleInt2D.Contains
    simp only [Bool.and_eq_true, decide_eq_true_eq, gt_iff_lt]
    tauto
  refine ⟨key, ?_, ?_⟩
  · intro h
    rw [← Bool.not_eq_true, key]
    omega
  · intro h
    rw [← Bool.not_eq_true, key]
    omega

theorem contains_iff_strictly_inside_witness :
    ((⟨0, 10, 0, 10⟩ : RectangleInt2D).Contains ⟨5, 5⟩ = true ↔
      ((0 : Int) < 5 ∧ (5 : Int) < 10 ∧ (0 : Int) < 5 ∧ (5 : Int) < 10)) ∧
    (⟨0, 10, 0, 10⟩ : RectangleInt2D).Contains ⟨0, 5⟩ = false ∧
    (⟨0, 10, 3, 3⟩ : RectangleInt2D).Contains ⟨3, 5⟩ = false :=
  ⟨(contains_iff_strictly_inside ⟨0, 10, 0, 10⟩ ⟨5, 5⟩).1,
    (contains_iff_strictly_inside ⟨0, 10, 0, 10⟩ ⟨0, 5⟩).2.1 (Or.inl rfl),
    (contains_iff_strictly_inside ⟨0, 10, 3, 3⟩ ⟨3, 5⟩).2.2 (Or.inl rfl)⟩

theorem extendByObject_ordered (r : RectangleInt2D) (o : DataT) :
    (extendByObject r o).min_lon ≤ (extendByObject r o).max_lon ∧
      (extendByObject r o).min_lat ≤ (extendByObject r o).max_lat := by
  unfold extendByObject
  simp only
  omega

theorem foldl_extendByObject_ordered (objects : List DataT) (r : RectangleInt2D)
    (h : r.min_lon ≤ r.max_lon ∧ r.min_lat ≤ r.max_lat) :
    (objects.foldl extendByObject r).min_lon ≤ (objects.foldl extendByObject r).max_lon ∧
      (objects.foldl extendByObject r).min_lat ≤ (objects.foldl extendByObject r).max_lat := by
  induction objects generalizing r with
  | nil => exact h
  | cons o os ih => exact ih (extendByObject r o) (extendByObject_ordered r o)

/-- C24. The rectangle that `InitializeMBRectangle` computes from the
inverted rectangle over at least one edge has `min_lon <= max_lon` and
`min_lat <= max_lat`; so has the rectangle that `AugmentMBRectangle` computes
from any rectangle and one with `min <= max` on both axes; and augmenting the
inverted rectangle with a rectangle of 32-bit coordinates gives that
rectangle. -/
theorem mbr_initialisation_invariant :
    (∀ (objects : List DataT) (element_count : Nat), 0 < element_count → objects ≠ [] →
      (InitializeMBRectangle RectangleInt2D.init objects element_count).min_lon ≤
          (InitializeMBRectangle RectangleInt2D.init objects element_count).max_lon ∧
        (InitializeMBRectangle RectangleInt2D.init objects element_count).min_lat ≤
          (InitializeMBRectangle RectangleInt2D.init objects element_count).max_lat) ∧
    (∀ r other : RectangleInt2D, other.min_lon ≤ other.max_lon →
      other.min_lat ≤ other.max_lat →
      (AugmentMBRectangle r other).min_lon ≤ (AugmentMBRectangle r other).max_lon ∧
        (AugmentMBRectangle r other).min_lat ≤ (AugmentMBRectangle r other).max_lat) ∧
    (∀ r : RectangleInt2D, INT_MIN ≤ r.min_lon → r.min_lon ≤ INT_MAX →
      INT_MIN ≤ r.max_lon → r.max_lon ≤ INT_MAX → INT_MIN ≤ r.min_lat → r.min_lat ≤ INT_MAX →
      INT_MIN ≤ r.max_lat → r.max_lat ≤ INT_MAX →
      AugmentMBRectangle RectangleInt2D.init r = r) := by
  refine ⟨?_, ?_, ?_⟩
  · intro objects element_count hn hne
    unfold InitializeMBRectangle
    cases objects with
    | nil => exact absurd rfl hne
    | cons o os =>
      obtain ⟨n, rfl⟩ : ∃ n, element_count = n + 1 := ⟨element_count - 1, by omega⟩
      rw [List.take_succ_cons, List.foldl_cons]
      exact foldl_extendByObject_ordered _ _ (extendByObject_ordered _ o)
  · intro r other h1 h2
    unfold AugmentMBRectangle
    simp only
    omega
  · intro r h1 h2 h3 h4 h5 h6 h7 h8
    unfold AugmentMBRectangle RectangleInt2D.init
    cases r
    simp only [RectangleInt2D.mk.injEq] at *
    omega

theorem mbr_initialisation_invariant_witness :
    ((InitializeMBRectangle RectangleInt2D.init [crossingEdge] 1).min_lon ≤
        (InitializeMBRectangle RectangleInt2D.init [crossingEdge] 1).max_lon ∧
      (InitializeMBRectangle RectangleInt2D.init [crossingEdge] 1).min_lat ≤
        (InitializeMBRectangle RectangleInt2D.init [crossingEdge] 1).max_lat) ∧
    ((AugmentMBRectangle RectangleInt2D.init ⟨0, 10, 0, 10⟩).min_lon ≤
        (AugmentMBRectangle RectangleInt2D.init ⟨0, 10, 0, 10⟩).max_lon ∧
      (AugmentMBRectangle RectangleInt2D.init ⟨0, 10, 0, 10⟩).min_lat ≤
        (AugmentMBRectangle RectangleInt2D.init ⟨0, 10, 0, 10⟩).max_lat) ∧
    AugmentMBRectangle RectangleInt2D.init ⟨0, 10, 0, 10⟩ = ⟨0, 10, 0, 10⟩ :=
  ⟨mbr_initialisation_invariant.1 [crossingEdge] 1 (by decide) (by decide),
    mbr_initialisation_invariant.2.1 RectangleInt2D.init ⟨0, 10, 0, 10⟩ (by decide) (by decide),
    mbr_initialisation_invariant.2.2 ⟨0, 10, 0, 10⟩ (by decide) (by decide) (by decide)
      (by decide) (by decide) (by decide) (by decide) (by decide)⟩

/-! ## The distance of the simplifier and the distances to a rectangle -/

/-- C28, as stated, fails on the code: for the point `(100, 50)` and the
chord from `(0, 0)` to `(0, 100)`, `fastDistance` does not return 10000. -/
theorem fastDistance_bent_not_10000 :
    fastDistance (locationAt bentPolyline 1) (locationAt bentPolyline 0)
        (locationAt bentPolyline 2) ≠ 10000 ∧
      locationAt bentPolyline 1 = ⟨100, 50⟩ ∧ locationAt bentPolyline 0 = ⟨0, 0⟩ ∧
      locationAt bentPolyline 2 = ⟨0, 100⟩ := by
  decide

/-- C28 (amended). For the polyline `[(0,0), (100,50), (0,100)]` of
`(lat, lon)` points, the value that `fastDistance` computes for the middle
point `(100, 50)` and the chord from `(0, 0)` to `(0, 100)` is 12500. -/
theorem fastDistance_of_bent_polyline :
    fastDistance ⟨100, 50⟩ ⟨0, 0⟩ ⟨0, 100⟩ = 12500 := by
  decide

/-- C29, as stated, fails on the code: for a remembered pair with
`start = end` and a stored edge with `s = t` at another place the test holds,
although the pairs agree in neither orientation. -/
theorem equivalent_degenerate_pairs :
    CoordinatesAreEquivalent ⟨0, 0⟩ ⟨1, 1⟩ ⟨1, 1⟩ ⟨0, 0⟩ = true ∧
      ¬ (((⟨0, 0⟩ : Coordinate) = ⟨1, 1⟩ ∧ (⟨0, 0⟩ : Coordinate) = ⟨1, 1⟩) ∨
        ((⟨0, 0⟩ : Coordinate) = ⟨1, 1⟩ ∧ (⟨0, 0⟩ : Coordinate) = ⟨1, 1⟩)) := by
  decide

/-- C29 (amended). `CoordinatesAreEquivalent(start, s, t, end)` holds if and
only if `start = s` and `end = t`, or `start = t` and `end = s`, or
`start = end` and `s = t`. -/
theorem coordinatesAreEquivalent_iff (start s t finish : Coordinate) :
    CoordinatesAreEquivalent start s t finish = true ↔
      ((start = s ∧ finish = t) ∨ (start = t ∧ finish = s) ∨ (start = finish ∧ s = t)) := by
  unfold CoordinatesAreEquivalent
  simp only [Bool.or_eq_true, Bool.and_eq_true, decide_eq_true_eq]
  constructor
  · rintro ((⟨h1, h2⟩ | ⟨h1, h2⟩) | ⟨h1, h2⟩)
    · exact Or.inl ⟨h1, h2.symm⟩
    · exact Or.inr (Or.inl ⟨h1, h2.symm⟩)
    · exact Or.inr (Or.inr ⟨h1, h2⟩)
  · rintro (⟨h1, h2⟩ | ⟨h1, h2⟩ | ⟨h1, h2⟩)
    · exact Or.inl (Or.inl ⟨h1, h2.symm⟩)
    · exact Or.inl (Or.inr ⟨h1, h2.symm⟩)
    · exact Or.inr ⟨h1, h2⟩

theorem Dbl.IsVal.min {u v : Dbl} {a b : ℚ} (hu : Dbl.IsVal u a) (hv : Dbl.IsVal v b) :
    Dbl.IsVal (Dbl.min u v) (Min.min a b) := by
  obtain ⟨hu1, hu2⟩ := hu
  obtain ⟨hv1, hv2⟩ := hv
  have hlt : Dbl.lt v u = decide (v.toRat < u.toRat) := by
    cases u <;> cases v <;>
      first | rfl | exact absurd hu1 (by decide) | exact absurd hv1 (by decide)
  unfold Dbl.min
  rw [hlt, hu2, hv2]
  by_cases c : b < a
  · rw [if_pos (decide_eq_true c), min_eq_right (le_of_lt c)]
    exact ⟨hv1, hv2⟩
  · rw [if_neg (by simpa using c), min_eq_left (not_lt.mp c)]
    exact ⟨hu1, hu2⟩

/-- C30. `GetMinDist` returns 0 for a point that the rectangle contains, and
otherwise the minimum of the values of `ApproximateDistance` from the point to
the four corners, when these are finite numbers up to `DBL_MAX`. -/
theorem getMinDist_is_corner_minimum (approx : Coordinate → Coordinate → Dbl)
    (r : RectangleInt2D) (p : Coordinate) (q1 q2 q3 q4 : ℚ)
    (h1 : Dbl.IsVal (approx p ⟨r.max_lat, r.min_lon⟩) q1)
    (h2 : Dbl.IsVal (approx p ⟨r.max_lat, r.max_lon⟩) q2)
    (h3 : Dbl.IsVal (approx p ⟨r.min_lat, r.max_lon⟩) q3)
    (h4 : Dbl.IsVal (approx p ⟨r.min_lat, r.min_lon⟩) q4)
    (hmax : q1 ≤ (2 ^ 53 - 1) * 2 ^ 971 ∧ q2 ≤ (2 ^ 53 - 1) * 2 ^ 971 ∧
      q3 ≤ (2 ^ 53 - 1) * 2 ^ 971 ∧ q4 ≤ (2 ^ 53 - 1) * 2 ^ 971) :
    (r.Contains p = true → r.GetMinDist approx p = Dbl.fin 0) ∧
      (r.Contains p = false →
        Dbl.IsVal (r.GetMinDist approx p) (min (min (min q1 q2) q3) q4)) := by
  constructor
  · intro hc
    unfold RectangleInt2D.GetMinDist
    simp only [hc, if_true]
  · intro hc
    unfold RectangleInt2D.GetMinDist
    simp only [hc]
    have h0 : Dbl.IsVal DBL_MAX ((2 ^ 53 - 1) * 2 ^ 971) := ⟨rfl, rfl⟩
    have h := ((h0.min h1).min h2).min h3 |>.min h4
    rw [min_eq_right hmax.1] at h
    exact h

theorem getMinDist_is_corner_minimum_witness :
    ((⟨0, 10, 0, 10⟩ : RectangleInt2D).Contains ⟨5, 20⟩ = true →
      (⟨0, 10, 0, 10⟩ : RectangleInt2D).GetMinDist squaredDistance ⟨5, 20⟩ = Dbl.fin 0) ∧
    ((⟨0, 10, 0, 10⟩ : RectangleInt2D).Contains ⟨5, 20⟩ = false →
      Dbl.IsVal ((⟨0, 10, 0, 10⟩ : RectangleInt2D).GetMinDist squaredDistance ⟨5, 20⟩)
        (min (min (min 425 125) 125) 425)) :=
  getMinDist_is_corner_minimum squaredDistance ⟨0, 10, 0, 10⟩ ⟨5, 20⟩ 425 125 125 425
    ⟨rfl, by decide!⟩ ⟨rfl, by decide!⟩ ⟨rfl, by decide!⟩ ⟨rfl, by decide!⟩
    (by norm_num)

/-! ## Static R-tree: the order of the traversal queue -/

/-- C25 fails on the code. In the query at `(1, 1150)` on `crossingIndex` the
root is popped with distance 0; visiting it enqueues the page of the street
with distance 401 and the page of the crossing road with distance 0; the next
pop takes the candidate with distance 401 and leaves the one with distance 0
in the queue. -/
theorem query_pops_largest_first :
    popTop (initialQueryState squaredDistance crossingIndex.m_search_tree ⟨1, 1150⟩
        emptyPhantomNode).traversal_queue = some (⟨0, Dbl.fin 0⟩, []) ∧
      crossingAfterRoot.traversal_queue = [⟨2, Dbl.fin 401⟩, ⟨1, Dbl.fin 0⟩] ∧
      popTop crossingAfterRoot.traversal_queue = some (⟨2, Dbl.fin 401⟩, [⟨1, Dbl.fin 0⟩]) ∧
      Dbl.le (Dbl.fin 401) (Dbl.fin 0) = false := by
  decide!

/-! ## Static R-tree: rectangles without extent on an axis -/

namespace Dbl

theorem lt_self_false (x : Dbl) : lt x x = false := by
  cases x <;> simp [lt]

theorem lt_not_symm (x y : Dbl) (h : lt x y = true) : lt y x = false := by
  cases x <;> cases y <;> simp_all [lt, toRat] <;> linarith

theorem lt_chain (x y z : Dbl) (h1 : lt x y = true) (h2 : lt y z = true) : lt x z = true := by
  cases x <;> cases y <;> cases z <;> simp_all [lt, toRat] <;> linarith

theorem min_min_same (x b : Dbl) : min (min x b) b = min x b := by
  unfold min
  by_cases h : lt b x = true
  · rw [if_pos h, lt_self_false, if_neg (by simp)]
  · rw [if_neg h, if_neg h]

theorem min_min_absorb (D a b : Dbl) : min (min (min D a) b) a = min (min D a) b := by
  unfold min
  by_cases h1 : lt a D = true
  · rw [if_pos h1]
    by_cases h2 : lt b a = true
    · rw [if_pos h2, lt_not_symm b a h2, if_neg (by simp)]
    · rw [if_neg h2, lt_self_false, if_neg (by simp)]
  · rw [if_neg h1]
    by_cases h2 : lt b D = true
    · rw [if_pos h2]
      by_cases h3 : lt a b = true
      · exact absurd (lt_chain a b D h3 h2) h1
      · rw [if_neg h3]
    · rw [if_neg h2, if_neg h1]

theorem min_min_swap (D a b : Dbl) (h : lt a b = true) :
    min (min D b) a = min (min D a) b := by
  unfold min
  by_cases h1 : lt b D = true
  · rw [if_pos h1, if_pos h, if_pos (lt_chain a b D h h1), lt_not_symm a b h, if_neg (by simp)]
  · rw [if_neg h1]
    by_cases h2 : lt a D = true
    · rw [if_pos h2, lt_not_symm a b h, if_neg (by simp)]
    · rw [if_neg h2, if_neg h1]

theorem max_same (a : Dbl) : max a a = a := by
  unfold max
  rw [lt_self_false, if_neg (by simp)]

/-- The two folds of a rectangle without extent in latitude agree. -/
theorem min_chain_lat (D a b : Dbl) :
    min (min (min (min D a) b) b) a =
      min (min (min (min D (max a b)) (max b b)) (max b a)) (max a a) := by
  rw [max_same, max_same]
  by_cases h1 : lt a b = true
  · have e1 : max a b = b := by unfold max; rw [if_pos h1]
    have e2 : max b a = b := by unfold max; rw [lt_not_symm a b h1, if_neg (by simp)]
    rw [e1, e2, min_min_same, min_min_same, min_min_same, min_min_absorb,
      min_min_swap D a b h1]
  · have e1 : max a b = a := by unfold max; rw [if_neg h1]
    rw [e1]
    by_cases h2 : lt b a = true
    · have e2 : max b a = a := by unfold max; rw [if_pos h2]
      rw [e2, min_min_same, min_min_same]
    · have e2 : max b a = b := by unfold max; rw [if_neg h2]
      rw [e2]

/-- The two folds of a rectangle without extent in longitude agree. -/
theorem min_chain_lon (D a b : Dbl) :
    min (min (min (min D a) a) b) b =
      min (min (min (min D (max a a)) (max a b)) (max b b)) (max b a) := by
  rw [max_same, max_same]
  by_cases h1 : lt a b = true
  · have e1 : max a b = b := by unfold max; rw [if_pos h1]
    have e2 : max b a = b := by unfold max; rw [lt_not_symm a b h1, if_neg (by simp)]
    rw [e1, e2, min_min_same, min_min_same, min_min_same, min_min_same]
  · have e1 : max a b = a := by unfold max; rw [if_neg h1]
    rw [e1]
    by_cases h2 : lt b a = true
    · have e2 : max b a = a := by unfold max; rw [if_pos h2]
      rw [e2, min_min_same (min (min D a) a) b, min_min_same D a, min_min_absorb]
    · have e2 : max b a = b := by unfold max; rw [if_neg h2]
      rw [e2]

end Dbl


theorem Dbl.isNaN_min (x y : Dbl) (h : x.isNaN = false) : (Dbl.min x y).isNaN = false := by
  unfold Dbl.min
  split
  · rename_i hlt
    cases y <;> first | rfl | (cases x <;> simp [Dbl.lt] at hlt)
  · exact h

theorem Dbl.le_self (x : Dbl) (h : x.isNaN = false) : Dbl.le x x = true := by
  cases x <;> first | (simp [Dbl.le]; done) | cases h

theorem getMinDist_not_nan (approx : Coordinate → Coordinate → Dbl) (r : RectangleInt2D)
    (p : Coordinate) : (r.GetMinDist approx p).isNaN = false := by
  unfold RectangleInt2D.GetMinDist
  simp only
  split
  · rfl
  · exact Dbl.isNaN_min _ _ (Dbl.isNaN_min _ _ (Dbl.isNaN_min _ _ (Dbl.isNaN_min _ _ rfl)))

theorem contains_false_of_degenerate (r : RectangleInt2D) (p : Coordinate)
    (hdeg : r.min_lat = r.max_lat ∨ r.min_lon = r.max_lon) : r.Contains p = false := by
  unfold RectangleInt2D.Contains
  simp only
  rw [← Bool.not_eq_true]
  simp only [Bool.and_eq_true, decide_eq_true_eq, gt_iff_lt]
  omega

theorem getMinDist_eq_getMinMaxDist (approx : Coordinate → Coordinate → Dbl)
    (r : RectangleInt2D) (p : Coordinate)
    (hdeg : r.min_lat = r.max_lat ∨ r.min_lon = r.max_lon) :
    r.GetMinDist approx p = r.GetMinMaxDist approx p := by
  have hc := contains_false_of_degenerate r p hdeg
  unfold RectangleInt2D.GetMinDist RectangleInt2D.GetMinMaxDist
  simp only [hc, Bool.false_eq_true, if_false]
  rcases hdeg with h | h
  · rw [h]
    exact Dbl.min_chain_lat _ _ _
  · rw [h]
    exact Dbl.min_chain_lon _ _ _

/-- C37. For a rectangle without extent in latitude or in longitude,
`GetMinDist` and `GetMinMaxDist` agree at every point. Hence, when the loop
over the children of an interior node meets a child with such a rectangle
that lowers `min_max_dist`, it sets `min_max_dist` to the child's distance
and, unless `min_dist` is smaller, enqueues the child with this distance; and
the test at the pop discards a candidate whose distance is the current
`min_max_dist`: the state is left unchanged. -/
theorem degenerate_child_is_pruned (approx : Coordinate → Coordinate → Dbl)
    (r : RectangleInt2D) (p : Coordinate)
    (hdeg : r.min_lat = r.max_lat ∨ r.min_lon = r.max_lon) :
    r.GetMinDist approx p = r.GetMinMaxDist approx p ∧
    (∀ (tree : List TreeNode) (node : TreeNode) (s : QueryState) (i : Nat),
      (tree.getD (node.children.getD i 0) default).minimum_bounding_rectangle = r →
      Dbl.lt (r.GetMinMaxDist approx p) s.min_max_dist = true →
      (visitChild approx tree p node s i).min_max_dist = r.GetMinDist approx p ∧
      (Dbl.lt s.min_dist (r.GetMinDist approx p) = false →
        (visitChild approx tree p node s i).traversal_queue =
          s.traversal_queue ++ [⟨node.children.getD i 0, r.GetMinDist approx p⟩])) ∧
    (∀ (tree : List TreeNode) (leaf_file : List LeafNode) (ig : Bool) (c : QueryCandidate)
      (s : QueryState), c.min_dist = r.GetMinDist approx p → s.min_max_dist = c.min_dist →
      visitNode approx tree leaf_file p ig c s = s) := by
  have hA := getMinDist_eq_getMinMaxDist approx r p hdeg
  refine ⟨hA, ?_, ?_⟩
  · intro tree node s i hr hlt
    unfold visitChild
    simp only [hr]
    rw [← hA] at hlt ⊢
    rw [if_pos hlt]
    simp only
    rw [if_neg (by rw [Dbl.lt_self_false]; simp)]
    constructor
    · split <;> rfl
    · intro hmd
      rw [if_neg (by rw [hmd]; simp)]
  · intro tree leaf_file ig c s hc hs
    unfold visitNode
    simp only
    have : Dbl.le s.min_max_dist c.min_dist = true := by
      rw [hs]
      exact Dbl.le_self _ (by rw [hc]; exact getMinDist_not_nan approx r p)
    rw [this]
    rfl

theorem degenerate_child_is_pruned_witness :
    (streetRectangle.min_lat = streetRectangle.max_lat ∨
      streetRectangle.min_lon = streetRectangle.max_lon) ∧
    streetRectangle.GetMinDist squaredDistance ⟨5, 5⟩ =
      streetRectangle.GetMinMaxDist squaredDistance ⟨5, 5⟩ ∧
    (∀ (tree : List TreeNode) (node : TreeNode) (s : QueryState) (i : Nat),
      (tree.getD (node.children.getD i 0) default).minimum_bounding_rectangle =
        streetRectangle →
      Dbl.lt (streetRectangle.GetMinMaxDist squaredDistance ⟨5, 5⟩) s.min_max_dist = true →
      (visitChild squaredDistance tree ⟨5, 5⟩ node s i).min_max_dist =
        streetRectangle.GetMinDist squaredDistance ⟨5, 5⟩ ∧
      (Dbl.lt s.min_dist (streetRectangle.GetMinDist squaredDistance ⟨5, 5⟩) = false →
        (visitChild squaredDistance tree ⟨5, 5⟩ node s i).traversal_queue =
          s.traversal_queue ++
            [⟨node.children.getD i 0, streetRectangle.GetMinDist squaredDistance ⟨5, 5⟩⟩])) ∧
    (∀ (tree : List TreeNode) (leaf_file : List LeafNode) (ig : Bool) (c : QueryCandidate)
      (s : QueryState), c.min_dist = streetRectangle.GetMinDist squaredDistance ⟨5, 5⟩ →
      s.min_max_dist = c.min_dist →
      visitNode squaredDistance tree leaf_file ⟨5, 5⟩ ig c s = s) :=
  ⟨Or.inl rfl, degenerate_child_is_pruned squaredDistance streetRectangle ⟨5, 5⟩ (Or.inl rfl)⟩

/-! ## Static R-tree: the references to the leaf pages -/

theorem packLeaves_refs (I : List DataT) (W : List WrappedInputElement) (n : Nat) :
    ∀ (fuel p : Nat) (level : List TreeNode) (file : List LeafNode)
      (level' : List TreeNode) (file' : List LeafNode),
      level.length = file.length →
      (∀ nd ∈ level, nd.child_is_on_disk = true ∧ nd.child_count = 0) →
      level.map (fun nd => nd.children.getD 0 0) = List.range level.length →
      packLeaves I W n fuel p level file = .ok (level', file') →
      level'.length = file'.length ∧
        (∀ nd ∈ level', nd.child_is_on_disk = true ∧ nd.child_count = 0) ∧
        level'.map (fun nd => nd.children.getD 0 0) = List.range level'.length := by
  intro fuel
  induction fuel with
  | zero =>
    intro p level file level' file' hlen hdisk hrefs h
    unfold packLeaves at h
    split at h
    · exact Except.noConfusion h
    · obtain ⟨rfl, rfl⟩ := Prod.mk.inj (Except.ok.inj h)
      exact ⟨hlen, hdisk, hrefs⟩
  | succ fuel ih =>
    intro p level file level' file' hlen hdisk hrefs h
    by_cases c : p < n
    · rw [packLeaves_step I W n fuel p level file (fillLeaf I W n p)
        (leafParent (fillLeaf I W n p) level) c rfl rfl] at h
      refine ih _ _ _ level' file' ?_ ?_ ?_ h
      · rw [List.length_append, List.length_append, hlen, List.length_singleton,
          List.length_singleton]
      · intro nd hnd
        rcases List.mem_append.mp hnd with h1 | h1
        · exact hdisk nd h1
        · rw [List.mem_singleton] at h1
          rw [h1]
          exact ⟨rfl, rfl⟩
      · rw [List.map_append, hrefs, List.length_append, List.length_singleton,
          List.range_succ]
        rfl
    · rw [packLeaves_done I W n (fuel + 1) p level file c] at h
      obtain ⟨rfl, rfl⟩ := Prod.mk.inj (Except.ok.inj h)
      exact ⟨hlen, hdisk, hrefs⟩

theorem packLevels_shape :
    ∀ (fuel : Nat) (L T R T' : List TreeNode), packLevels fuel L T = .ok (R, T') →
      ∃ X, T' ++ R = T ++ L ++ X ∧ ∀ nd ∈ X, nd.child_is_on_disk = false := by
  intro fuel
  induction fuel with
  | zero =>
    intro L T R T' h
    unfold packLevels at h
    split at h
    · exact Except.noConfusion h
    · obtain ⟨rfl, rfl⟩ := Prod.mk.inj (Except.ok.inj h)
      exact ⟨[], by simp, fun nd hnd => absurd hnd (List.not_mem_nil nd)⟩
  | succ fuel ih =>
    intro L T R T' h
    by_cases c : 1 < L.length
    · obtain ⟨N, hN, hwf, _⟩ := packLevel_spec L T L.length 0 [] T (by omega) (by omega)
        (by simp) (fun nd hnd => absurd hnd (List.not_mem_nil nd))
        (fun i h1 h2 => by omega)
        ⟨by simp, fun _ => by simp, fun hne => absurd rfl hne⟩
      rw [packLevels_step fuel L T N (T ++ L) c hN] at h
      obtain ⟨X, hX, hdisk⟩ := ih N (T ++ L) R T' h
      refine ⟨N ++ X, by rw [hX, List.append_assoc], ?_⟩
      intro nd hnd
      rcases List.mem_append.mp hnd with h1 | h1
      · exact (hwf nd h1).1
      · exact hdisk nd h1
    · rw [packLevels_done (fuel + 1) L T c] at h
      obtain ⟨rfl, rfl⟩ := Prod.mk.inj (Except.ok.inj h)
      exact ⟨[], by simp, fun nd hnd => absurd hnd (List.not_mem_nil nd)⟩

theorem filter_onDisk_reverse_map (C level X : List TreeNode) (hC : C = level ++ X)
    (hlevel : ∀ nd ∈ level, nd.child_is_on_disk = true ∧ nd.child_count = 0)
    (hX : ∀ nd ∈ X, nd.child_is_on_disk = false) :
    (C.reverse.map (renumber C.length)).filter (fun nd => nd.child_is_on_disk) =
      level.reverse := by
  have hp : ((fun nd : TreeNode => nd.child_is_on_disk) ∘ renumber C.length) =
      fun nd => nd.child_is_on_disk := rfl
  have h1 : level.filter (fun nd => nd.child_is_on_disk) = level :=
    List.filter_eq_self.mpr (fun nd hnd => (hlevel nd hnd).1)
  have h2 : X.filter (fun nd => nd.child_is_on_disk) = [] :=
    List.filter_eq_nil_iff.mpr (fun nd hnd => by rw [hX nd hnd]; simp)
  rw [List.filter_map, hp, List.filter_reverse, hC, List.filter_append, h1, h2,
    List.append_nil, ← hC]
  conv_rhs => rw [← List.map_id level.reverse]
  apply List.map_congr_left
  intro nd hnd
  rw [List.mem_reverse] at hnd
  rw [renumber_leaf _ nd (hlevel nd hnd).2]
  rfl

/-- C31. On a non-empty input the constructor returns an index in which the
nodes with `child_is_on_disk` are as many as the pages of the leaf file;
their `children[0]` values, in the order of the search tree, are the page
indices `L-1, ..., 0`, so each page index occurs once; the renumbering leaves
these nodes unchanged; and the rectangle of such a node is what
`InitializeMBRectangle` computes from the objects of the page that its
`children[0]` names. -/
theorem build_leaf_references (hilbert : DataT → Nat)
    (sort : List WrappedInputElement → List WrappedInputElement)
    (I : List DataT) (hne : I ≠ []) :
    ∃ (t : StaticRTree) (C : List TreeNode),
      StaticRTree.build hilbert sort I = .ok t ∧
      t.m_search_tree = C.reverse.map (renumber C.length) ∧
      (∀ nd ∈ C, nd.child_is_on_disk = true → renumber C.length nd = nd) ∧
      (t.m_search_tree.filter (fun nd => nd.child_is_on_disk)).length = t.leaf_file.length ∧
      (t.m_search_tree.filter (fun nd => nd.child_is_on_disk)).map
          (fun nd => nd.children.getD 0 0) = (List.range t.leaf_file.length).reverse ∧
      ((t.m_search_tree.filter (fun nd => nd.child_is_on_disk)).map
          (fun nd => nd.children.getD 0 0)).Perm (List.range t.leaf_file.length) ∧
      (∀ nd ∈ t.m_search_tree, nd.child_is_on_disk = true →
        ∃ page, t.leaf_file[nd.children.getD 0 0]? = some page ∧
          nd.minimum_bounding_rectangle =
            InitializeMBRectangle RectangleInt2D.init page.objects page.object_count) := by
  have hn : 0 < I.length := List.length_pos.mpr hne
  obtain ⟨level0, file, hleaves, _, hwf0, hcov0, _, hne0⟩ :=
    packLeaves_spec I (sort (wrapInput hilbert I)) I.length I.length 0 [] []
      (by omega) rfl (fun nd hnd => absurd hnd (List.not_mem_nil nd))
      (fun j hj => by omega) (fun page hp => absurd hp (List.not_mem_nil page))
      (fun h => by omega)
  obtain ⟨root, T, hlevels, _, _, _⟩ :=
    packLevels_spec file
      (fun e => ∃ j, j < I.length ∧ e = orderedElement I (sort (wrapInput hilbert I)) j)
      level0.length level0 [] (by omega) (hne0 hn)
      (fun i hi => by simp at hi)
      (fun nd hnd => Or.inl (hwf0 nd hnd))
      (fun i hi => by simp at hi)
      (fun e ⟨j, hj, he⟩ => by rw [he]; exact hcov0 j hj)
  obtain ⟨hlen, hdisk, hrefs⟩ := packLeaves_refs I (sort (wrapInput hilbert I)) I.length
    I.length 0 [] [] level0 file rfl (fun nd hnd => absurd hnd (List.not_mem_nil nd)) rfl
    hleaves
  obtain ⟨X, hX, hXdisk⟩ := packLevels_shape level0.length level0 [] [root] T hlevels
  rw [List.nil_append] at hX
  have hbuild := build_of_parts hilbert sort I level0 file root T hleaves hlevels
  have hfilter := filter_onDisk_reverse_map (T ++ [root]) level0 X hX hdisk hXdisk
  rw [List.length_reverse] at hbuild
  refine ⟨_, T ++ [root], hbuild, rfl, ?_, ?_, ?_, ?_, ?_⟩
  · intro nd hnd hd
    rw [hX] at hnd
    rcases List.mem_append.mp hnd with h | h
    · exact renumber_leaf _ nd (hdisk nd h).2
    · rw [hXdisk nd h] at hd
      exact Bool.noConfusion hd
  · show ((List.map (renumber (T ++ [root]).length) (T ++ [root]).reverse).filter
      (fun nd => nd.child_is_on_disk)).length = file.length
    rw [hfilter, List.length_reverse, hlen]
  · show ((List.map (renumber (T ++ [root]).length) (T ++ [root]).reverse).filter
      (fun nd => nd.child_is_on_disk)).map (fun nd => nd.children.getD 0 0) =
        (List.range file.length).reverse
    rw [hfilter, List.map_reverse, hrefs, hlen]
  · show (((List.map (renumber (T ++ [root]).length) (T ++ [root]).reverse).filter
      (fun nd => nd.child_is_on_disk)).map (fun nd => nd.children.getD 0 0)).Perm
        (List.range file.length)
    rw [hfilter, List.map_reverse, hrefs, hlen]
    exact List.reverse_perm _
  · intro nd hnd hd
    have hmem : nd ∈ (List.map (renumber (T ++ [root]).length) (T ++ [root]).reverse).filter
        (fun nd => nd.child_is_on_disk) := List.mem_filter.mpr ⟨hnd, hd⟩
    rw [hfilter, List.mem_reverse] at hmem
    obtain ⟨_, _, p, page, h1, h2, _, h4, h5⟩ := hwf0 nd hmem
    refine ⟨page, ?_, ?_⟩
    · show file[nd.children.getD 0 0]? = some page
      rw [h1]
      exact h2
    · rw [h5]
      unfold InitializeMBRectangle boundingBox
      rw [h4, List.take_length]

theorem build_leaf_references_witness :
    crossingEdges ≠ [] ∧
    ∃ (t : StaticRTree) (C : List TreeNode),
      StaticRTree.build sampleHilbert sortByHilbert crossingEdges = .ok t ∧
      t.m_search_tree = C.reverse.map (renumber C.length) ∧
      (∀ nd ∈ C, nd.child_is_on_disk = true → renumber C.length nd = nd) ∧
      (t.m_search_tree.filter (fun nd => nd.child_is_on_disk)).length = t.leaf_file.length ∧
      (t.m_search_tree.filter (fun nd => nd.child_is_on_disk)).map
          (fun nd => nd.children.getD 0 0) = (List.range t.leaf_file.length).reverse ∧
      ((t.m_search_tree.filter (fun nd => nd.child_is_on_disk)).map
          (fun nd => nd.children.getD 0 0)).Perm (List.range t.leaf_file.length) ∧
      (∀ nd ∈ t.m_search_tree, nd.child_is_on_disk = true →
        ∃ page, t.leaf_file[nd.children.getD 0 0]? = some page ∧
          nd.minimum_bounding_rectangle =
            InitializeMBRectangle RectangleInt2D.init page.objects page.object_count) :=
  ⟨streetWith_ne_nil crossingEdge,
    build_leaf_references sampleHilbert sortByHilbert crossingEdges
      (streetWith_ne_nil crossingEdge)⟩

/-! ## Extractor: the language of the duration expression -/

theorem digit_toNat (c : Char) (h : c.isDigit = true) : 48 ≤ c.toNat ∧ c.toNat ≤ 57 := by
  unfold Char.isDigit at h
  simp only [Bool.and_eq_true, decide_eq_true_eq, ge_iff_le] at h
  unfold Char.toNat
  obtain ⟨h1, h2⟩ := h
  rw [UInt32.le_def] at h1 h2
  exact ⟨h1, h2⟩

theorem digit_ne_colon (c : Char) (h : c.isDigit = true) : c ≠ ':' := by
  intro e
  subst e
  exact absurd h (by decide)

theorem mem_remainders_digit (s t : List Char) :
    t ∈ Regex.digit.remainders s ↔ ∃ c, c.isDigit = true ∧ s = c :: t := by
  cases s with
  | nil => simp [Regex.remainders]
  | cons c s =>
    simp only [Regex.remainders]
    by_cases h : c.isDigit = true
    · rw [if_pos h, List.mem_singleton]
      constructor
      · rintro rfl
        exact ⟨c, h, rfl⟩
      · rintro ⟨c', _, e⟩
        exact ((List.cons.inj e).2).symm
    · rw [if_neg h]
      constructor
      · intro hm
        exact absurd hm (List.not_mem_nil _)
      · rintro ⟨c', hc', e⟩
        rw [(List.cons.inj e).1] at h
        exact absurd hc' h

theorem mem_remainders_char (a : Char) (s t : List Char) :
    t ∈ (Regex.char a).remainders s ↔ s = a :: t := by
  cases s with
  | nil => simp [Regex.remainders]
  | cons c s =>
    simp only [Regex.remainders]
    by_cases h : c = a
    · rw [if_pos h, List.mem_singleton, h]
      constructor
      · rintro rfl
        rfl
      · intro e
        exact ((List.cons.inj e).2).symm
    · rw [if_neg h]
      constructor
      · intro hm
        exact absurd hm (List.not_mem_nil _)
      · intro e
        exact absurd (List.cons.inj e).1 h

theorem mem_remainders_seq (a b : Regex) (s t : List Char) :
    t ∈ (Regex.seq a b).remainders s ↔ ∃ u, u ∈ a.remainders s ∧ t ∈ b.remainders u := by
  simp only [Regex.remainders, List.mem_flatMap]

theorem mem_remainders_alt (a b : Regex) (s t : List Char) :
    t ∈ (Regex.alt a b).remainders s ↔ (t ∈ a.remainders s ∨ t ∈ b.remainders s) := by
  simp only [Regex.remainders, List.mem_append]

theorem mem_remainders_group (s t : List Char) :
    t ∈ digitGroup.remainders s ↔ ∃ g, IsDigitGroup g ∧ s = g ++ t := by
  unfold digitGroup
  rw [mem_remainders_alt, mem_remainders_seq, mem_remainders_digit]
  constructor
  · rintro (⟨c, hc, rfl⟩ | ⟨u, hu, ht⟩)
    · refine ⟨[c], ⟨Or.inl rfl, ?_⟩, rfl⟩
      intro x hx
      rw [List.mem_singleton] at hx
      rw [hx]
      exact hc
    · obtain ⟨c, hc, rfl⟩ := (mem_remainders_digit s u).mp hu
      obtain ⟨d, hd, rfl⟩ := (mem_remainders_digit u t).mp ht
      refine ⟨[c, d], ⟨Or.inr rfl, ?_⟩, rfl⟩
      intro x hx
      rcases List.mem_cons.mp hx with h | h
      · rw [h]; exact hc
      · rw [List.mem_singleton] at h
        rw [h]; exact hd
  · rintro ⟨g, ⟨hlen, hdig⟩, rfl⟩
    rcases hlen with h | h
    · obtain ⟨c, rfl⟩ := List.length_eq_one.mp h
      exact Or.inl ⟨c, hdig c (List.mem_singleton_self c), rfl⟩
    · obtain ⟨c, d, rfl⟩ := List.length_eq_two.mp h
      refine Or.inr ⟨d :: t, (mem_remainders_digit _ _).mpr ⟨c, hdig c (by simp), rfl⟩,
        (mem_remainders_digit _ _).mpr ⟨d, hdig d (by simp), rfl⟩⟩

theorem mem_remainders_colon_group (r : Regex) (s t : List Char) :
    t ∈ (Regex.seq digitGroup (Regex.seq (Regex.char ':') r)).remainders s ↔
      ∃ g u, IsDigitGroup g ∧ s = g ++ ':' :: u ∧ t ∈ r.remainders u := by
  rw [mem_remainders_seq]
  constructor
  · rintro ⟨v, hv, ht⟩
    obtain ⟨g, hg, rfl⟩ := (mem_remainders_group s v).mp hv
    obtain ⟨u, hu, ht'⟩ := (mem_remainders_seq _ _ _ _).mp ht
    rw [mem_remainders_char] at hu
    exact ⟨g, u, hg, by rw [hu], ht'⟩
  · rintro ⟨g, u, hg, rfl, ht⟩
    exact ⟨':' :: u, (mem_remainders_group _ _).mpr ⟨g, hg, rfl⟩,
      (mem_remainders_seq _ _ _ _).mpr ⟨u, (mem_remainders_char _ _ _).mpr rfl, ht⟩⟩

/-- The strings that the duration expression matches: one, two or three
groups of one or two digits, separated by colons. -/
theorem regex_match_duration (s : String) :
    regex_match s durationRegex = true ↔
      ((∃ g1 g2 g3, IsDigitGroup g1 ∧ IsDigitGroup g2 ∧ IsDigitGroup g3 ∧
          s.toList = g1 ++ ':' :: (g2 ++ ':' :: g3)) ∨
        (∃ g1 g2, IsDigitGroup g1 ∧ IsDigitGroup g2 ∧ s.toList = g1 ++ ':' :: g2) ∨
        (∃ g1, IsDigitGroup g1 ∧ s.toList = g1)) := by
  unfold regex_match durationRegex
  rw [decide_eq_true_eq, mem_remainders_alt, mem_remainders_alt, mem_remainders_colon_group,
    mem_remainders_colon_group, mem_remainders_group]
  constructor
  · rintro ((⟨g1, u, h1, hs, hu⟩ | ⟨g1, u, h1, hs, hu⟩) | ⟨g1, h1, hs⟩)
    · obtain ⟨g2, v, h2, rfl, hv⟩ := (mem_remainders_colon_group _ _ _).mp hu
      obtain ⟨g3, h3, rfl⟩ := (mem_remainders_group _ _).mp hv
      exact Or.inl ⟨g1, g2, g3, h1, h2, h3, by rw [hs, List.append_nil]⟩
    · obtain ⟨g2, h2, rfl⟩ := (mem_remainders_group _ _).mp hu
      exact Or.inr (Or.inl ⟨g1, g2, h1, h2, by rw [hs, List.append_nil]⟩)
    · exact Or.inr (Or.inr ⟨g1, h1, by rw [hs, List.append_nil]⟩)
  · rintro (⟨g1, g2, g3, h1, h2, h3, hs⟩ | ⟨g1, g2, h1, h2, hs⟩ | ⟨g1, h1, hs⟩)
    · exact Or.inl (Or.inl ⟨g1, g2 ++ ':' :: g3, h1, hs,
        (mem_remainders_colon_group _ _ _).mpr ⟨g2, g3, h2, rfl,
          (mem_remainders_group _ _).mpr ⟨g3, h3, by rw [List.append_nil]⟩⟩⟩)
    · exact Or.inl (Or.inr ⟨g1, g2, h1, hs,
        (mem_remainders_group _ _).mpr ⟨g2, h2, by rw [List.append_nil]⟩⟩)
    · exact Or.inr ⟨g1, h1, by rw [hs, List.append_nil]⟩

/-! ## Extractor: splitting at the colons -/

theorem splitAt_group (sep : Char) (g : List Char) (h : ∀ c ∈ g, c ≠ sep) :
    splitAt sep g = [g] := by
  induction g with
  | nil => rfl
  | cons c g ih =>
    rw [splitAt, if_neg (h c (List.mem_cons_self _ _)),
      ih (fun x hx => h x (List.mem_cons_of_mem _ hx))]

theorem splitAt_append (sep : Char) (g rest : List Char) (h : ∀ c ∈ g, c ≠ sep) :
    splitAt sep (g ++ sep :: rest) = g :: splitAt sep rest := by
  induction g with
  | nil =>
    rw [List.nil_append, splitAt, if_pos rfl]
  | cons c g ih =>
    rw [List.cons_append, splitAt, if_neg (h c (List.mem_cons_self _ _)),
      ih (fun x hx => h x (List.mem_cons_of_mem _ hx))]

theorem group_no_colon (g : List Char) (h : IsDigitGroup g) : ∀ c ∈ g, c ≠ ':' :=
  fun c hc => digit_ne_colon c (h.2 c hc)

theorem decimalValue_le (g : List Char) (h : IsDigitGroup g) : decimalValue g ≤ 99 := by
  obtain ⟨hlen, hdig⟩ := h
  rcases hlen with h | h
  · obtain ⟨c, rfl⟩ := List.length_eq_one.mp h
    have := digit_toNat c (hdig c (by simp))
    simp only [decimalValue, List.foldl_cons, List.foldl_nil]
    omega
  · obtain ⟨c, d, rfl⟩ := List.length_eq_two.mp h
    have := digit_toNat c (hdig c (by simp))
    have := digit_toNat d (hdig d (by simp))
    simp only [decimalValue, List.foldl_cons, List.foldl_nil]
    omega

theorem toUnsigned_read (stringToInt : String → Int) (hread : ReadsDigitGroups stringToInt)
    (g : List Char) (h : IsDigitGroup g) :
    toUnsigned (stringToInt (String.mk g)) = decimalValue g := by
  have := decimalValue_le g h
  rw [hread g h]
  unfold toUnsigned
  omega

/-! ## Extractor: the value of a duration -/

theorem parseDuration_one (stringToInt : String → Int) (hread : ReadsDigitGroups stringToInt)
    (s : String) (M : List Char) (hM : IsDigitGroup M) (hs : s.toList = M) :
    parseDuration stringToInt s = 10 * (3600 * 0 + 60 * decimalValue M + 0) := by
  have hm : regex_match s durationRegex = true :=
    (regex_match_duration s).mpr (Or.inr (Or.inr ⟨M, hM, hs⟩))
  have hsplit : split_regex s = [String.mk M] := by
    unfold split_regex
    rw [hs, splitAt_group _ _ (group_no_colon M hM)]
    rfl
  have h1 := decimalValue_le M hM
  unfold parseDuration
  simp only [hm, hsplit, if_true, List.length_singleton, List.getD_cons_zero,
    show ¬ (2 = 1) by decide, show ¬ (3 = 1) by decide, if_false,
    toUnsigned_read stringToInt hread M hM]
  unfold wrapU32
  omega

theorem parseDuration_two (stringToInt : String → Int) (hread : ReadsDigitGroups stringToInt)
    (s : String) (H M : List Char) (hH : IsDigitGroup H) (hM : IsDigitGroup M)
    (hs : s.toList = H ++ ':' :: M) :
    parseDuration stringToInt s = 10 * (3600 * decimalValue H + 60 * decimalValue M + 0) := by
  have hm : regex_match s durationRegex = true :=
    (regex_match_duration s).mpr (Or.inr (Or.inl ⟨H, M, hH, hM, hs⟩))
  have hsplit : split_regex s = [String.mk H, String.mk M] := by
    unfold split_regex
    rw [hs, splitAt_append _ _ _ (group_no_colon H hH),
      splitAt_group _ _ (group_no_colon M hM)]
    rfl
  have h1 := decimalValue_le H hH
  have h2 := decimalValue_le M hM
  have hlen : [String.mk H, String.mk M].length = 2 := rfl
  unfold parseDuration
  simp only [hm, hsplit, if_true, hlen, List.getD_cons_zero, List.getD_cons_succ,
    show ¬ (1 = 2) by decide, show ¬ (3 = 2) by decide, if_false,
    toUnsigned_read stringToInt hread H hH, toUnsigned_read stringToInt hread M hM]
  unfold wrapU32
  omega

theorem parseDuration_three (stringToInt : String → Int) (hread : ReadsDigitGroups stringToInt)
    (s : String) (H M S : List Char) (hH : IsDigitGroup H) (hM : IsDigitGroup M)
    (hS : IsDigitGroup S) (hs : s.toList = H ++ ':' :: (M ++ ':' :: S)) :
    parseDuration stringToInt s =
      10 * (3600 * decimalValue H + 60 * decimalValue M + decimalValue S) := by
  have hm : regex_match s durationRegex = true :=
    (regex_match_duration s).mpr (Or.inl ⟨H, M, S, hH, hM, hS, hs⟩)
  have hsplit : split_regex s = [String.mk H, String.mk M, String.mk S] := by
    unfold split_regex
    rw [hs, splitAt_append _ _ _ (group_no_colon H hH),
      splitAt_append _ _ _ (group_no_colon M hM), splitAt_group _ _ (group_no_colon S hS)]
    rfl
  have h1 := decimalValue_le H hH
  have h2 := decimalValue_le M hM
  have h3 := decimalValue_le S hS
  have hlen : [String.mk H, String.mk M, String.mk S].length = 3 := rfl
  unfold parseDuration
  simp only [hm, hsplit, if_true, hlen, List.getD_cons_zero, List.getD_cons_succ,
    show ¬ (1 = 3) by decide, show ¬ (2 = 3) by decide, if_false,
    toUnsigned_read stringToInt hread H hH, toUnsigned_read stringToInt hread M hM,
    toUnsigned_read stringToInt hread S hS]
  unfold wrapU32
  omega

/-- C39. When `stringToInt` reads groups of digits as decimal numbers, then
for every valid duration string `parseDuration` returns
`10 * (3600*h + 60*m + s)`: a single group is read as minutes, two groups as
hours and minutes, three groups as hours, minutes and seconds. -/
theorem parseDuration_of_valid (stringToInt : String → Int)
    (hread : ReadsDigitGroups stringToInt) (s : String) (hvalid : durationIsValid s = true) :
    (∃ M, IsDigitGroup M ∧ s.toList = M ∧
      parseDuration stringToInt s = 10 * (3600 * 0 + 60 * decimalValue M + 0)) ∨
    (∃ H M, IsDigitGroup H ∧ IsDigitGroup M ∧ s.toList = H ++ ':' :: M ∧
      parseDuration stringToInt s =
        10 * (3600 * decimalValue H + 60 * decimalValue M + 0)) ∨
    (∃ H M S, IsDigitGroup H ∧ IsDigitGroup M ∧ IsDigitGroup S ∧
      s.toList = H ++ ':' :: (M ++ ':' :: S) ∧
      parseDuration stringToInt s =
        10 * (3600 * decimalValue H + 60 * decimalValue M + decimalValue S)) := by
  have hm : regex_match s durationRegex = true := hvalid
  rcases (regex_match_duration s).mp hm with
    ⟨H, M, S, hH, hM, hS, hs⟩ | ⟨H, M, hH, hM, hs⟩ | ⟨M, hM, hs⟩
  · exact Or.inr (Or.inr ⟨H, M, S, hH, hM, hS, hs,
      parseDuration_three stringToInt hread s H M S hH hM hS hs⟩)
  · exact Or.inr (Or.inl ⟨H, M, hH, hM, hs, parseDuration_two stringToInt hread s H M hH hM hs⟩)
  · exact Or.inl ⟨M, hM, hs, parseDuration_one stringToInt hread s M hM hs⟩

/-- C38. When `stringToInt` reads groups of digits as decimal numbers,
`parseDuration` returns `UINT_MAX` exactly for the strings that
`durationIsValid` rejects; the valid strings are those of one, two or three
groups of one or two decimal digits separated by colons, and for them the
result is at most 3624390. -/
theorem parseDuration_sentinel (stringToInt : String → Int)
    (hread : ReadsDigitGroups stringToInt) (s : String) :
    (parseDuration stringToInt s = UINT_MAX ↔ durationIsValid s = false) ∧
    (durationIsValid s = true → parseDuration stringToInt s ≤ 3624390) ∧
    (durationIsValid s = true ↔
      ((∃ g1 g2 g3, IsDigitGroup g1 ∧ IsDigitGroup g2 ∧ IsDigitGroup g3 ∧
          s.toList = g1 ++ ':' :: (g2 ++ ':' :: g3)) ∨
        (∃ g1 g2, IsDigitGroup g1 ∧ IsDigitGroup g2 ∧ s.toList = g1 ++ ':' :: g2) ∨
        (∃ g1, IsDigitGroup g1 ∧ s.toList = g1))) := by
  have hbound : durationIsValid s = true → parseDuration stringToInt s ≤ 3624390 := by
    intro hvalid
    have hm : regex_match s durationRegex = true := hvalid
    rcases (regex_match_duration s).mp hm with
      ⟨H, M, S, hH, hM, hS, hs⟩ | ⟨H, M, hH, hM, hs⟩ | ⟨M, hM, hs⟩
    · rw [parseDuration_three stringToInt hread s H M S hH hM hS hs]
      have h1 := decimalValue_le H hH
      have h2 := decimalValue_le M hM
      have h3 := decimalValue_le S hS
      omega
    · rw [parseDuration_two stringToInt hread s H M hH hM hs]
      have h1 := decimalValue_le H hH
      have h2 := decimalValue_le M hM
      omega
    · rw [parseDuration_one stringToInt hread s M hM hs]
      have h1 := decimalValue_le M hM
      omega
  refine ⟨?_, hbound, regex_match_duration s⟩
  constructor
  · intro h
    cases hv : durationIsValid s
    · rfl
    · have := hbound hv
      rw [h] at this
      exact absurd this (by decide)
  · intro h
    have hm : regex_match s durationRegex = false := h
    unfold parseDuration
    simp only [hm, Bool.false_eq_true, if_false]

theorem sampleStringToInt_reads : ReadsDigitGroups sampleStringToInt := fun _ _ => rfl

theorem parseDuration_of_valid_witness :
    durationIsValid "1:30" = true ∧
    ((∃ M, IsDigitGroup M ∧ "1:30".toList = M ∧
      parseDuration sampleStringToInt "1:30" = 10 * (3600 * 0 + 60 * decimalValue M + 0)) ∨
    (∃ H M, IsDigitGroup H ∧ IsDigitGroup M ∧ "1:30".toList = H ++ ':' :: M ∧
      parseDuration sampleStringToInt "1:30" =
        10 * (3600 * decimalValue H + 60 * decimalValue M + 0)) ∨
    (∃ H M S, IsDigitGroup H ∧ IsDigitGroup M ∧ IsDigitGroup S ∧
      "1:30".toList = H ++ ':' :: (M ++ ':' :: S) ∧
      parseDuration sampleStringToInt "1:30" =
        10 * (3600 * decimalValue H + 60 * decimalValue M + decimalValue S))) ∧
    parseDuration sampleStringToInt "1:30" = 54000 ∧
    parseDuration sampleStringToInt "45" = 27000 ∧
    parseDuration sampleStringToInt "2:05:07" = 75070 :=
  ⟨by decide,
    parseDuration_of_valid sampleStringToInt sampleStringToInt_reads "1:30" (by decide),
    by decide, by decide, by decide⟩

theorem parseDuration_sentinel_witness :
    (parseDuration sampleStringToInt "1:3x" = UINT_MAX ↔ durationIsValid "1:3x" = false) ∧
    (durationIsValid "1:3x" = true → parseDuration sampleStringToInt "1:3x" ≤ 3624390) ∧
    (durationIsValid "1:3x" = true ↔
      ((∃ g1 g2 g3, IsDigitGroup g1 ∧ IsDigitGroup g2 ∧ IsDigitGroup g3 ∧
          "1:3x".toList = g1 ++ ':' :: (g2 ++ ':' :: g3)) ∨
        (∃ g1 g2, IsDigitGroup g1 ∧ IsDigitGroup g2 ∧ "1:3x".toList = g1 ++ ':' :: g2) ∨
        (∃ g1, IsDigitGroup g1 ∧ "1:3x".toList = g1))) ∧
    parseDuration sampleStringToInt "1:3x" = UINT_MAX ∧
    parseDuration sampleStringToInt "99:99:99" = 3624390 :=
  ⟨(parseDuration_sentinel sampleStringToInt sampleStringToInt_reads "1:3x").1,
    (parseDuration_sentinel sampleStringToInt sampleStringToInt_reads "1:3x").2.1,
    (parseDuration_sentinel sampleStringToInt sampleStringToInt_reads "1:3x").2.2,
    by decide, by decide⟩

/-! ## Static R-tree: the root of a tree with two leaf pages -/

theorem build_root_first_witness :
    crossingEdges ≠ [] ∧
    (∃ t, StaticRTree.build sampleHilbert sortByHilbert crossingEdges = .ok t ∧
      0 < t.m_search_tree.length ∧
      (¬ ∃ i j, i < t.m_search_tree.length ∧
        (t.m_search_tree.getD i default).child_is_on_disk = false ∧
        j < (t.m_search_tree.getD i default).child_count ∧
        (t.m_search_tree.getD i default).children.getD j 0 = 0) ∧
      (∀ k, 0 < k → k < t.m_search_tree.length →
        ∃ i j, i < k ∧ (t.m_search_tree.getD i default).child_is_on_disk = false ∧
          j < (t.m_search_tree.getD i default).child_count ∧
          (t.m_search_tree.getD i default).children.getD j 0 = k) ∧
      (∀ i, i < t.m_search_tree.length →
        (t.m_search_tree.getD i default).child_is_on_disk = false →
        ∀ j, j < (t.m_search_tree.getD i default).child_count →
          i < (t.m_search_tree.getD i default).children.getD j 0 ∧
          (t.m_search_tree.getD i default).children.getD j 0 < t.m_search_tree.length)) ∧
    StaticRTree.build sampleHilbert sortByHilbert crossingEdges = .ok crossingIndex ∧
    crossingIndex.m_search_tree.length = 3 ∧
    (crossingIndex.m_search_tree.getD 0 default).child_is_on_disk = false ∧
    (crossingIndex.m_search_tree.getD 0 default).child_count = 2 ∧
    (crossingIndex.m_search_tree.getD 0 default).children = [2, 1] ∧
    (crossingIndex.m_search_tree.getD 1 default).child_is_on_disk = true ∧
    (crossingIndex.m_search_tree.getD 2 default).child_is_on_disk = true :=
  ⟨streetWith_ne_nil crossingEdge,
    build_root_first sampleHilbert sortByHilbert crossingEdges (streetWith_ne_nil crossingEdge),
    build_crossing, rfl, rfl, rfl, rfl, rfl, rfl⟩

/-! ## Static R-tree: the search with valid bounds -/

theorem Dbl.mul_self_eq (u : Dbl) (hu : u.isFinite = true) :
    Dbl.mul u u = Dbl.fin (u.toRat * u.toRat) := by
  unfold Dbl.mul
  rw [Dbl.isNaN_of_isFinite u hu, hu]
  simp only [Bool.or_self, Bool.false_eq_true, if_false, Bool.and_self, if_true, Bool.xor_self]
  unfold Dbl.finite Dbl.signedZero
  split
  · rename_i h
    rw [h]
    rfl
  · rfl

theorem Dbl.sq_sum_nonneg (u v : Dbl) (hu : u.isFinite = true) (hv : v.isFinite = true) :
    ∃ q, Dbl.add (Dbl.mul u u) (Dbl.mul v v) = Dbl.fin q ∧ 0 ≤ q := by
  rw [Dbl.mul_self_eq u hu, Dbl.mul_self_eq v hv]
  exact ⟨_, rfl, add_nonneg (mul_self_nonneg _) (mul_self_nonneg _)⟩

theorem edgeDistance_nonneg (p : Coordinate) (e : DataT) :
    ∃ q, edgeDistance p e = Dbl.fin q ∧ 0 ≤ q := by
  have hf : ∀ i : Int, (Dbl.ofInt i).isFinite = true := fun _ => rfl
  unfold edgeDistance ComputePerpendicularDistance
  lift_lets
  extract_lets x y a b c d m steep p' q' nY mX r
  have hpq : p'.isFinite = true ∧ q'.isFinite = true := by
    by_cases hs : steep = true
    · have hm : m.isFinite = true :=
        Dbl.isFinite_div _ _ (Dbl.isFinite_sub _ _ (hf _) (hf _))
          (Dbl.isFinite_sub _ _ (hf _) (hf _)) (steep_nonzero _ _ hs)
      have hp : p'.isFinite = true := by
        show (if steep = true then _ else c).isFinite = true
        rw [if_pos hs]
        exact Dbl.isFinite_div _ _
          (Dbl.isFinite_add _ _ (Dbl.isFinite_add _ _ (hf _) (Dbl.isFinite_mul _ _ hm (hf _)))
            (Dbl.isFinite_sub _ _ (Dbl.isFinite_mul _ _ (Dbl.isFinite_mul _ _ hm hm) (hf _))
              (Dbl.isFinite_mul _ _ hm (hf _))))
          (Dbl.isFinite_add _ _ rfl (Dbl.isFinite_mul _ _ hm hm)) (one_add_sq_nonzero m hm)
      refine ⟨hp, ?_⟩
      show (if steep = true then _ else y).isFinite = true
      rw [if_pos hs]
      exact Dbl.isFinite_add _ _ (hf _)
        (Dbl.isFinite_mul _ _ hm (Dbl.isFinite_sub _ _ hp (hf _)))
    · constructor
      · show (if steep = true then _ else c).isFinite = true
        rw [if_neg hs]
        exact hf _
      · show (if steep = true then _ else y).isFinite = true
        rw [if_neg hs]
        exact hf _
  split
  · exact Dbl.sq_sum_nonneg _ _ (Dbl.isFinite_sub _ _ (hf _) (hf _))
      (Dbl.isFinite_sub _ _ (hf _) (hf _))
  · split
    · exact Dbl.sq_sum_nonneg _ _ (Dbl.isFinite_sub _ _ (hf _) (hf _))
        (Dbl.isFinite_sub _ _ (hf _) (hf _))
    · exact Dbl.sq_sum_nonneg _ _ (Dbl.isFinite_sub _ _ hpq.1 (hf _))
        (Dbl.isFinite_sub _ _ hpq.2 (hf _))

/-! ### The index of the lane -/

end OSRM
